import Mathlib

/-! # A verification development for `malloc lab/mm.c`

The allocator of `mm.c` (segregated free lists, first fit / best fit,
boundary tags, 4-byte arena-relative offsets as list links) is embedded
function by function.  Addresses are offsets from the arena base
(`mem_heap_lo()`), memory is a map from offsets to bytes, 4-byte words are
little-endian (`unsigned int` on x86-64), `size_t` is 64 bits wide and the
null pointer is `none`.
-/

namespace MM

set_option autoImplicit false

/-! ## Memory -/

/-- One byte of the arena. -/
abbrev Byte := Fin 256

/-- The arena contents: a byte for every offset from the arena base. -/
abbrev Mem := Nat → Byte

/-- The allocator state: the arena contents and the arena size in bytes
(`mem_brk - mem_heap_lo()`). -/
structure State where
  mem : Mem
  brk : Nat

/-- Byte number `k` of the value `v`. -/
def byteOf (v k : Nat) : Byte := ⟨v / 256 ^ k % 256, Nat.mod_lt _ (by decide)⟩

/-! ## Constants and macros of `mm.c` -/

/-- The macro `ALIGNMENT`: payloads are aligned to 8 bytes. -/
def ALIGNMENT : Nat := 8
def WSIZE : Nat := 4
def DSIZE : Nat := 8
def CHUNKSIZE : Nat := 1 <<< 9
def INISIZE : Nat := 1 <<< 12
def LIST_NUM : Nat := 10
def LIST_THR : Nat := 4
def FREE : Nat := 0
def ALLOC : Nat := 1

/-- The width of `size_t`. -/
def SIZE_MOD : Nat := 2 ^ 64

/-- `PACK(size, alloc)`: `(size) | (alloc)`. -/
def PACK (size alloc : Nat) : Nat := size ||| alloc

/-- `GET(p)`: the `unsigned int` stored at `p`. -/
def GET (m : Mem) (p : Nat) : Nat :=
  (m p).val + 256 * (m (p + 1)).val + 65536 * (m (p + 2)).val + 16777216 * (m (p + 3)).val

/-- `PUT(p, val)`: store `val`, truncated to `unsigned int`, at `p`. -/
def PUT (m : Mem) (p val : Nat) : Mem := fun a =>
  if a = p then byteOf val 0
  else if a = p + 1 then byteOf val 1
  else if a = p + 2 then byteOf val 2
  else if a = p + 3 then byteOf val 3
  else m a

/-- `GET_SIZE(p)`: `GET(p) & ~0x7` (on `unsigned int`). -/
def GET_SIZE (m : Mem) (p : Nat) : Nat := GET m p &&& 0xFFFFFFF8

/-- `GET_ALLOC(p)`: `GET(p) & 0x1`. -/
def GET_ALLOC (m : Mem) (p : Nat) : Nat := GET m p &&& 0x1

/-- `HDRP(bp)`. -/
def HDRP (bp : Nat) : Nat := bp - WSIZE

/-- `FTRP(bp)`. -/
def FTRP (m : Mem) (bp : Nat) : Nat := bp + GET_SIZE m (HDRP bp) - DSIZE

/-- `NEXT_SECT(bp)`. -/
def NEXT_SECT (bp : Nat) : Nat := bp

/-- `PREV_SECT(bp)`. -/
def PREV_SECT (bp : Nat) : Nat := bp + WSIZE

/-- The global `first_listp` as an offset: `mm_init` sets it to the arena base. -/
def first_listp : Nat := 0

/-- The global `last_listp`: `first_listp + (LIST_NUM - 1) * DSIZE`. -/
def last_listp : Nat := first_listp + (LIST_NUM - 1) * DSIZE

/-- The global `heap_basep` after `mm_init`: the prologue footer,
`last_listp + DSIZE + 2 * WSIZE`. -/
def heap_basep : Nat := last_listp + DSIZE + 2 * WSIZE

/-- `NEXT_EMPT_BLKP(bp)`. -/
def NEXT_EMPT_BLKP (m : Mem) (bp : Nat) : Nat := first_listp + GET m (NEXT_SECT bp)

/-- `PREV_EMPT_BLKP(bp)`. -/
def PREV_EMPT_BLKP (m : Mem) (bp : Nat) : Nat := first_listp + GET m (PREV_SECT bp)

/-- `NEXT_BLKP(bp)`. -/
def NEXT_BLKP (m : Mem) (bp : Nat) : Nat := bp + GET_SIZE m (bp - WSIZE)

/-- `PREV_BLKP(bp)`. -/
def PREV_BLKP (m : Mem) (bp : Nat) : Nat := bp - GET_SIZE m (bp - DSIZE)

/-! ## Helper functions of `mm.c` -/

/-- `ins_free_blk`: insert the block at the head of free list `index`. -/
def ins_free_blk (m : Mem) (bp index : Nat) : Mem :=
  let target_listp := first_listp + index * DSIZE
  let m1 := PUT m (NEXT_SECT bp) (GET m target_listp)
  let m2 := PUT m1 (PREV_SECT bp) (GET m1 (PREV_SECT (NEXT_EMPT_BLKP m1 bp)))
  let m3 := PUT m2 target_listp (bp - first_listp)
  PUT m3 (PREV_SECT (NEXT_EMPT_BLKP m3 bp)) (bp - first_listp)

/-- `del_free_blk`: unlink the block from its free list. -/
def del_free_blk (m : Mem) (bp : Nat) : Mem :=
  let m1 := PUT m (PREV_SECT (NEXT_EMPT_BLKP m bp)) (GET m (PREV_SECT bp))
  PUT m1 (NEXT_SECT (PREV_EMPT_BLKP m1 bp)) (GET m1 (NEXT_SECT bp))

/-- The `while (size > 0) { ++idx; size >>= 1; }` loop of `list_index`;
a 64-bit `size` is exhausted after at most 64 rounds. -/
def list_index_loop : Nat → Nat → Nat → Nat
  | 0, _, idx => idx
  | fuel + 1, size, idx =>
    if size > 0 then list_index_loop fuel (size >>> 1) (idx + 1) else idx

/-- `list_index`: the free list index of a size. -/
def list_index (size : Nat) : Nat :=
  let idx := list_index_loop 64 (size >>> 4) 0
  if idx > LIST_NUM - 1 then LIST_NUM - 1 else idx

/-- `place`: allocate `asize` bytes at the start of the free block `bp`,
splitting when the remainder is at least 16 bytes.  The subtraction is the
`size_t` one. -/
def place (m : Mem) (bp asize : Nat) : Mem :=
  let bsize := GET_SIZE m (HDRP bp)
  if (bsize + SIZE_MOD - asize) % SIZE_MOD ≥ 2 * DSIZE then
    let m1 := del_free_blk m bp
    let m2 := PUT m1 (HDRP bp) (PACK asize ALLOC)
    let m3 := PUT m2 (FTRP m2 bp) (PACK asize ALLOC)
    let bp' := NEXT_BLKP m3 bp
    let m4 := PUT m3 (HDRP bp') (PACK ((bsize + SIZE_MOD - asize) % SIZE_MOD) FREE)
    let m5 := PUT m4 (FTRP m4 bp') (PACK ((bsize + SIZE_MOD - asize) % SIZE_MOD) FREE)
    let idx := list_index ((bsize + SIZE_MOD - asize) % SIZE_MOD)
    ins_free_blk m5 bp' idx
  else
    let m1 := del_free_blk m bp
    let m2 := PUT m1 (HDRP bp) (PACK bsize ALLOC)
    PUT m2 (FTRP m2 bp) (PACK bsize ALLOC)

/-- `coalesce`: merge the free block `bp` with its free neighbours, insert the
result in its free list and return its pointer. -/
def coalesce (m : Mem) (bp : Nat) : Nat × Mem :=
  let prev_alloc := GET_ALLOC m (FTRP m (PREV_BLKP m bp))
  let next_alloc := GET_ALLOC m (HDRP (NEXT_BLKP m bp))
  let size := GET_SIZE m (HDRP bp)
  if prev_alloc ≠ 0 ∧ next_alloc ≠ 0 then
    let idx := list_index size
    (bp, ins_free_blk m bp idx)
  else if prev_alloc = 0 ∧ next_alloc ≠ 0 then
    let m1 := del_free_blk m (PREV_BLKP m bp)
    let bp' := PREV_BLKP m1 bp
    let size' := size + GET_SIZE m1 (HDRP bp')
    let idx := list_index size'
    let m2 := PUT m1 (HDRP bp') (PACK size' FREE)
    let m3 := PUT m2 (FTRP m2 bp') (PACK size' FREE)
    (bp', ins_free_blk m3 bp' idx)
  else if prev_alloc ≠ 0 ∧ next_alloc = 0 then
    let m1 := del_free_blk m (NEXT_BLKP m bp)
    let size' := size + GET_SIZE m1 (HDRP (NEXT_BLKP m1 bp))
    let idx := list_index size'
    let m2 := PUT m1 (HDRP bp) (PACK size' FREE)
    let m3 := PUT m2 (FTRP m2 bp) (PACK size' FREE)
    (bp, ins_free_blk m3 bp idx)
  else
    let m1 := del_free_blk m (PREV_BLKP m bp)
    let m2 := del_free_blk m1 (NEXT_BLKP m1 bp)
    let size' := size + GET_SIZE m2 (HDRP (PREV_BLKP m2 bp))
    let size'' := size' + GET_SIZE m2 (HDRP (NEXT_BLKP m2 bp))
    let idx := list_index size''
    let bp' := PREV_BLKP m2 bp
    let m3 := PUT m2 (HDRP bp') (PACK size'' FREE)
    let m4 := PUT m3 (FTRP m3 bp') (PACK size'' FREE)
    (bp', ins_free_blk m4 bp' idx)

/-- Modelled from the spec: the growth primitive `mem_sbrk` of `memlib`, which
is not among the sources.  It extends the arena by `incr` bytes at its high
end and returns the old end, or refuses and leaves the arena unchanged; here
it refuses exactly when the arena would grow beyond `limit` bytes, and
`limit` may differ from call to call. -/
def mem_sbrk (limit : Nat) (s : State) (incr : Nat) : Option (Nat × State) :=
  if s.brk + incr ≤ limit then some (s.brk, { s with brk := s.brk + incr }) else none

/-- `extend_heap`: grow the arena by an even number of words and coalesce the
new free block; `none` is the `NULL` result. -/
def extend_heap (limit : Nat) (s : State) (words : Nat) : Option (Nat × State) :=
  let size := if words % 2 ≠ 0 then WSIZE * (words + 1) else WSIZE * words
  match mem_sbrk limit s size with
  | none => none
  | some (bp, s1) =>
    let m1 := PUT s1.mem (HDRP bp) (PACK size FREE)
    let m2 := PUT m1 (FTRP m1 bp) (PACK size FREE)
    let m3 := PUT m2 (HDRP (NEXT_BLKP m2 bp)) (PACK 0 ALLOC)
    let r := coalesce m3 bp
    some (r.1, { s1 with mem := r.2 })

/-- The inner `while (bp != list_head)` loop of the first-fit branch.
`none`: the fuel ran out; `some none`: the list holds no fit. -/
def first_fit_list (m : Mem) (asize list_head : Nat) : Nat → Nat → Option (Option Nat)
  | 0, _ => none
  | fuel + 1, bp =>
    if bp ≠ list_head then
      if GET_ALLOC m (HDRP bp) = 0 ∧ GET_SIZE m (HDRP bp) ≥ asize then some (some bp)
      else first_fit_list m asize list_head fuel (NEXT_EMPT_BLKP m bp)
    else some none

/-- The outer `for` loop of the first-fit branch, over the list heads from
`list_head` to `last_listp`. -/
def first_fit_lists (m : Mem) (asize fuel : Nat) : Nat → Nat → Option (Option Nat)
  | 0, _ => none
  | cnt + 1, list_head =>
    if list_head ≠ last_listp + DSIZE then
      match first_fit_list m asize list_head fuel (NEXT_EMPT_BLKP m list_head) with
      | none => none
      | some (some bp) => some (some bp)
      | some none => first_fit_lists m asize fuel cnt (list_head + DSIZE)
    else some none

/-- The inner `while` loop of the best-fit branch; the accumulator is
`(best_bp, best_size)`. -/
def best_fit_list (m : Mem) (asize list_head : Nat) :
    Nat → Nat → Option Nat × Nat → Option (Option Nat × Nat)
  | 0, _, _ => none
  | fuel + 1, bp, best =>
    if bp ≠ list_head then
      let best' :=
        if GET_ALLOC m (HDRP bp) = 0 ∧ GET_SIZE m (HDRP bp) ≥ asize then
          if best.1 = none ∨ GET_SIZE m (HDRP bp) < best.2 then
            (some bp, GET_SIZE m (HDRP bp))
          else best
        else best
      best_fit_list m asize list_head fuel (NEXT_EMPT_BLKP m bp) best'
    else some best

/-- The outer `for` loop of the best-fit branch. -/
def best_fit_lists (m : Mem) (asize fuel : Nat) :
    Nat → Nat → Option Nat × Nat → Option (Option Nat × Nat)
  | 0, _, _ => none
  | cnt + 1, list_head, best =>
    if list_head ≠ last_listp + DSIZE then
      match best_fit_list m asize list_head fuel (NEXT_EMPT_BLKP m list_head) best with
      | none => none
      | some best' => best_fit_lists m asize fuel cnt (list_head + DSIZE) best'
    else some best

/-- `find_fit`: first fit below list `LIST_THR`, best fit from there on.  The
result is `none` when a loop did not finish within `fuel` rounds, `some none`
for `NULL`. -/
def find_fit (fuel : Nat) (m : Mem) (asize : Nat) : Option (Option Nat) :=
  let idx := list_index asize
  let start_listp := first_listp + idx * DSIZE
  if idx < LIST_THR then
    first_fit_lists m asize fuel (LIST_NUM + 1) start_listp
  else
    let best_size := 16 * (1 <<< idx)
    match best_fit_lists m asize fuel (LIST_NUM + 1) start_listp (none, best_size) with
    | none => none
    | some best => some best.1

/-! ## The allocator interface -/

/-- The offset table loop of `mm_init`. -/
def init_table (m : Mem) : Nat → Nat → Mem
  | 0, _ => m
  | n + 1, offset =>
    init_table (PUT (PUT m (first_listp + offset) offset) (first_listp + offset + WSIZE) offset)
      n (offset + DSIZE)

/-- `mm_init` on an empty arena whose future contents are `m0`: the return
code and the state left behind. -/
def mm_init (limit : Nat) (m0 : Mem) : Int × State :=
  let size := (LIST_NUM * 2 + 4) * WSIZE
  match mem_sbrk limit { mem := m0, brk := 0 } size with
  | none => (-1, { mem := m0, brk := 0 })
  | some (_, s1) =>
    let m1 := init_table s1.mem LIST_NUM 0
    let heap_listp := last_listp + DSIZE
    let m2 := PUT m1 heap_listp 0
    let m3 := PUT m2 (heap_listp + WSIZE) (PACK DSIZE ALLOC)
    let m4 := PUT m3 (heap_listp + 2 * WSIZE) (PACK DSIZE ALLOC)
    let m5 := PUT m4 (heap_listp + 3 * WSIZE) (PACK 0 ALLOC)
    match extend_heap limit { s1 with mem := m5 } (INISIZE / WSIZE) with
    | none => (-1, { s1 with mem := m5 })
    | some (_, s2) => (0, s2)

/-- The adjusted block size computed by `malloc`, in `size_t` arithmetic. -/
def adjust_size (size : Nat) : Nat :=
  if size ≤ DSIZE then 2 * DSIZE
  else DSIZE * ((size + DSIZE + DSIZE - 1) % SIZE_MOD / DSIZE) % SIZE_MOD

/-- `malloc`.  The outer `none` says that `find_fit` ran out of fuel; the
returned pointer is `none` for `NULL`. -/
def malloc (fuel limit : Nat) (s : State) (size : Nat) : Option (Option Nat × State) :=
  if size = 0 then some (none, s)
  else
    let adjustsize := adjust_size size
    match find_fit fuel s.mem adjustsize with
    | none => none
    | some (some bp) => some (some bp, { s with mem := place s.mem bp adjustsize })
    | some none =>
      let extendsize := if adjustsize > CHUNKSIZE then adjustsize else CHUNKSIZE
      match extend_heap limit s (extendsize / WSIZE) with
      | some (bp, s1) => some (some bp, { s1 with mem := place s1.mem bp adjustsize })
      | none => some (none, s)

/-- `free`. -/
def free (s : State) (ptr : Option Nat) : State :=
  match ptr with
  | none => s
  | some p =>
    let size := GET_SIZE s.mem (HDRP p)
    let m1 := PUT s.mem (HDRP p) (PACK size FREE)
    let m2 := PUT m1 (FTRP m1 p) (PACK size FREE)
    { s with mem := (coalesce m2 p).2 }

/-- `memcpy(dst, src, n)` on disjoint ranges. -/
def memcpy (m : Mem) (dst src n : Nat) : Mem := fun a =>
  if dst ≤ a ∧ a < dst + n then m (src + (a - dst)) else m a

/-- `memset(dst, c, n)`. -/
def memset (m : Mem) (dst c n : Nat) : Mem := fun a =>
  if dst ≤ a ∧ a < dst + n then byteOf c 0 else m a

/-- The number of bytes `realloc` copies: `oldsize` after the comparison
with `size`. -/
def realloc_copy_size (m : Mem) (oldptr size : Nat) : Nat :=
  let oldsize := GET_SIZE m (HDRP oldptr)
  if oldsize > size then size else oldsize

/-- `realloc`. -/
def realloc (fuel limit : Nat) (s : State) (oldptr : Option Nat) (size : Nat) :
    Option (Option Nat × State) :=
  if size = 0 then some (none, free s oldptr)
  else
    match oldptr with
    | none => malloc fuel limit s size
    | some op =>
      match malloc fuel limit s size with
      | none => none
      | some (none, s1) => some (none, s1)
      | some (some newptr, s1) =>
        let oldsize := realloc_copy_size s1.mem op size
        let m2 := memcpy s1.mem newptr op oldsize
        some (some newptr, free { s1 with mem := m2 } (some op))

/-- What a call of `calloc` leads to. -/
inductive CallocResult where
  /-- The call returns the pointer and leaves the state. -/
  | ret (p : Option Nat) (s : State)
  /-- The call stores through the null pointer. -/
  | fault
  /-- The search loop of `find_fit` did not finish within the fuel. -/
  | nofuel

/-- `calloc`: `malloc` followed by `memset(bp, 0, totalsize)` on whatever
`malloc` returned.  A `memset` of at least one byte through `NULL` faults. -/
def calloc (fuel limit : Nat) (s : State) (nmemb size : Nat) : CallocResult :=
  let totalsize := nmemb * size % SIZE_MOD
  match malloc fuel limit s totalsize with
  | none => CallocResult.nofuel
  | some (some bp, s1) => CallocResult.ret (some bp) { s1 with mem := memset s1.mem bp 0 totalsize }
  | some (none, s1) => if totalsize = 0 then CallocResult.ret none s1 else CallocResult.fault

/-! ## Specification vocabulary -/

/-- The tag word of a block of the given size and allocation state. -/
def tag (size : Nat) (alloc : Bool) : Nat := size + (if alloc then 1 else 0)

/-- Two consecutive nodes of a free list: the next offset of `x` designates `y`
and the previous offset of `y` designates `x`. -/
def Lnk (m : Mem) (x y : Nat) : Prop := GET m x = y ∧ GET m (y + 4) = x

/-- The chain of links from node `x` through the nodes of `l` to node `z`. -/
def Seg (m : Mem) : Nat → List Nat → Nat → Prop
  | x, [], z => Lnk m x z
  | x, y :: l, z => Lnk m x y ∧ Seg m y l z

/-- The bytes that hold free-list links: the offset table and the two link
words of every listed block. -/
def LinkArea (L : Nat → List Nat) (a : Nat) : Prop :=
  a < 80 ∨ ∃ i, i < 10 ∧ ∃ y ∈ L i, y ≤ a ∧ a < y + 8

/-- The ten free lists `L 0`, ..., `L 9` are laid out in memory as circular
doubly-linked lists through their heads in the offset table. -/
structure Lists (m : Mem) (L : Nat → List Nat) : Prop where
  seg : ∀ i, i < 10 → Seg m (i * 8) (L i) (i * 8)
  nodup : ∀ i, i < 10 → (L i).Nodup
  node : ∀ i, i < 10 → ∀ y ∈ L i, 96 ≤ y ∧ y % 8 = 0 ∧ y < 2 ^ 32
  disj : ∀ i j, i < 10 → j < 10 → ∀ y, y ∈ L i → y ∈ L j → i = j

/-- A block of the arena: its payload pointer, its size (header and footer
included) and whether it is allocated. -/
structure Blk where
  bp : Nat
  size : Nat
  alloc : Bool
  deriving DecidableEq

/-- The blocks `bs` tile the arena from payload pointer `p` to payload pointer
`e`: each starts where the previous one ends, and every size is a multiple of
8 and at least 16. -/
def Layout : Nat → List Blk → Nat → Prop
  | p, [], e => p = e
  | p, b :: bs, e => b.bp = p ∧ 16 ≤ b.size ∧ b.size % 8 = 0 ∧ Layout (p + b.size) bs e

/-- Header and footer of the block hold its tag. -/
def Tagged (m : Mem) (b : Blk) : Prop :=
  GET m (b.bp - 4) = tag b.size b.alloc ∧ GET m (b.bp + b.size - 8) = tag b.size b.alloc

/-- A heap whose blocks are `pre` up to `q` and `post` from `r` on; the bytes
from `q - 4` to `r - 4` are a hole about which nothing is said. -/
structure Hole (m : Mem) (brk : Nat) (pre : List Blk) (q r : Nat) (post : List Blk) : Prop where
  lpre : Layout 96 pre q
  lpost : Layout r post brk
  qr : q ≤ r
  tpre : ∀ b ∈ pre, Tagged m b
  tpost : ∀ b ∈ post, Tagged m b
  pro : GET m 84 = 9 ∧ GET m 88 = 9
  epi : GET m (brk - 4) = 1
  bound : brk ≤ 2 ^ 32

/-- The arena is the offset table, the prologue, the blocks `bs` and the
epilogue. -/
structure Heap (m : Mem) (brk : Nat) (bs : List Blk) : Prop where
  lay : Layout 96 bs brk
  tags : ∀ b ∈ bs, Tagged m b
  pro : GET m 84 = 9 ∧ GET m 88 = 9
  epi : GET m (brk - 4) = 1
  bound : brk ≤ 2 ^ 32

/-- No two neighbours in the list are both free. -/
def NoAdj (bs : List Blk) : Prop := List.Chain' (fun a b : Blk => a.alloc = true ∨ b.alloc = true) bs

/-- The lists hold exactly the free blocks of `bs`, each in the list of its
size class. -/
def ListsOf (L : Nat → List Nat) (bs : List Blk) : Prop :=
  ∀ i, i < 10 → ∀ y, y ∈ L i ↔ ∃ b ∈ bs, b.bp = y ∧ b.alloc = false ∧ list_index b.size = i

/-- The representation invariant of the allocator state, for the blocks `bs`
and the free lists `L`. -/
structure Inv (s : State) (bs : List Blk) (L : Nat → List Nat) : Prop where
  heap : Heap s.mem s.brk bs
  lists : Lists s.mem L
  memb : ListsOf L bs
  noadj : NoAdj bs

/-- Every listed pointer is the pointer of a block of `bs`. -/
def SubL (L : Nat → List Nat) (bs : List Blk) : Prop :=
  ∀ i, i < 10 → ∀ y ∈ L i, ∃ b ∈ bs, b.bp = y

/-- The lists after unlinking the block. -/
def Ldel (L : Nat → List Nat) (b : Blk) : Nat → List Nat :=
  Function.update L (list_index b.size) ((L (list_index b.size)).erase b.bp)

/-- The lists after inserting the block at the head of the list of its size class. -/
def Lins (L : Nat → List Nat) (b : Blk) : Nat → List Nat :=
  Function.update L (list_index b.size) (b.bp :: L (list_index b.size))

/-- The test of `find_fit` on a listed block: free and large enough. -/
def fits (m : Mem) (asize bp : Nat) : Bool :=
  decide (GET_ALLOC m (HDRP bp) = 0 ∧ GET_SIZE m (HDRP bp) ≥ asize)

/-- One round of the best-fit loop on the accumulator `(best_bp, best_size)`. -/
def bf_step (m : Mem) (asize : Nat) (best : Option Nat × Nat) (bp : Nat) : Option Nat × Nat :=
  if GET_ALLOC m (HDRP bp) = 0 ∧ GET_SIZE m (HDRP bp) ≥ asize then
    if best.1 = none ∨ GET_SIZE m (HDRP bp) < best.2 then (some bp, GET_SIZE m (HDRP bp))
    else best
  else best

/-- The listed blocks in scan order: `n` lists from list `i` on, each from
head to tail. -/
def scan (L : Nat → List Nat) : Nat → Nat → List Nat
  | 0, _ => []
  | n + 1, i => L i ++ scan L n (i + 1)

/-- What a call `malloc(n)` with result `r` does to a heap with blocks `bs`,
leaving blocks `bs'`. -/
structure MallocPost (s : State) (bs : List Blk) (n : Nat) (r : Option Nat × State)
    (bs' : List Blk) : Prop where
  brk_le : s.brk ≤ r.2.brk
  keep : ∀ c ∈ bs, c.alloc = true → c ∈ bs'
  bytes : ∀ c ∈ bs, c.alloc = true → ∀ a, c.bp - 4 ≤ a → a < c.bp + c.size - 4 →
    r.2.mem a = s.mem a
  old : ∀ c ∈ bs', c.alloc = true → c ∈ bs ∨ r.1 = some c.bp
  new : ∀ p, r.1 = some p → ∃ b ∈ bs', b.bp = p ∧ b.alloc = true ∧ adjust_size n ≤ b.size ∧
    ∀ c ∈ bs, c.alloc = true → c.bp ≠ p
  null : r.1 = none → r.2 = s

/-- The walk of `check_each_block` over the arena: from the header at `iter`
to the epilogue header, collecting pointer, size and allocation bit of every
block met. -/
def blocks_from (m : Mem) : Nat → Nat → List Blk
  | 0, _ => []
  | fuel + 1, iter =>
    if GET m iter ≠ PACK 0 ALLOC then
      let bp := iter + WSIZE
      ⟨bp, GET_SIZE m (HDRP bp), decide (GET_ALLOC m (HDRP bp) ≠ FREE)⟩ ::
        blocks_from m fuel (HDRP (NEXT_BLKP m bp))
    else []

/-- The blocks of the arena, in address order, as the header walk from the
first block sees them. -/
def heap_blocks (s : State) : List Blk := blocks_from s.mem s.brk (heap_basep + WSIZE)

/-- The pointer `p` designates an allocated block of the arena. -/
def allocated (s : State) (p : Nat) : Prop :=
  ∃ b ∈ heap_blocks s, b.bp = p ∧ b.alloc = true

/-- What `free(b)` does to a heap with blocks `bs`, leaving blocks `bs'`. -/
structure FreePost (s : State) (bs : List Blk) (b : Blk) (s' : State) (bs' : List Blk) :
    Prop where
  brk_eq : s'.brk = s.brk
  freed : ∃ f ∈ bs', f.alloc = false ∧ f.bp ≤ b.bp ∧ b.bp + b.size ≤ f.bp + f.size
  keep : ∀ c ∈ bs, c.alloc = true → c ≠ b → c ∈ bs'
  bytes : ∀ c ∈ bs, c.alloc = true → c ≠ b → ∀ a, c.bp - 4 ≤ a → a < c.bp + c.size - 4 →
    s'.mem a = s.mem a
  old : ∀ c ∈ bs', c.alloc = true → c ∈ bs ∧ c ≠ b

/-- What `realloc(b, n)` with the non-null result `q` does to a heap with blocks
`bs`, leaving blocks `bs2`. -/
structure ReallocPost (s : State) (bs : List Blk) (b : Blk) (n q : Nat) (s2 : State)
    (bs2 : List Blk) : Prop where
  brk_le : s.brk ≤ s2.brk
  keep : ∀ c ∈ bs, c.alloc = true → c ≠ b → c ∈ bs2
  bytes : ∀ c ∈ bs, c.alloc = true → c ≠ b → ∀ a, c.bp - 4 ≤ a → a < c.bp + c.size - 4 →
    s2.mem a = s.mem a
  new : ∃ nb ∈ bs2, nb.bp = q ∧ nb.alloc = true ∧ adjust_size n ≤ nb.size ∧
    ∀ c ∈ bs, c.alloc = true → c.bp ≠ q
  copied : ∀ a, a < b.size - 8 → a < n → s2.mem (q + a) = s.mem (b.bp + a)
  freed : ∃ f ∈ bs2, f.alloc = false ∧ f.bp ≤ b.bp ∧ b.bp + b.size ≤ f.bp + f.size
  old : ∀ c ∈ bs2, c.alloc = true → c.bp = q ∨ (c ∈ bs ∧ c ≠ b)

/-- A store of the client program: one byte written at address `a`. -/
def store (s : State) (a : Nat) (v : Byte) : State :=
  ⟨fun x => if x = a then v else s.mem x, s.brk⟩

/-- The states the allocator can be in: after a successful `mm_init` on an
empty arena, and then after any sequence of `malloc`, `free`, `realloc` and
`calloc` calls that return, with client stores into payloads of allocated
blocks in between.  Calls are valid: `free` and `realloc` get null or the
pointer of an allocated block, request sizes are below `2^64 - 15` (so that
the size adjustment of `malloc` does not wrap), and the growth primitive
never lets the arena exceed `2^32` bytes, which the 4-byte tags and offsets
presuppose. -/
inductive Reachable : State → Prop
  | init (limit : Nat) (m0 : Mem) (hl : limit ≤ 2 ^ 32) (h : (mm_init limit m0).1 = 0) :
      Reachable (mm_init limit m0).2
  | malloc (s : State) (fuel limit size : Nat) (r : Option Nat × State) (hs : Reachable s)
      (hl : limit ≤ 2 ^ 32) (hv : size + 15 < 2 ^ 64)
      (h : malloc fuel limit s size = some r) : Reachable r.2
  | free (s : State) (ptr : Option Nat) (hs : Reachable s)
      (hv : ∀ p, ptr = some p → allocated s p) : Reachable (free s ptr)
  | realloc (s : State) (fuel limit : Nat) (ptr : Option Nat) (size : Nat)
      (r : Option Nat × State) (hs : Reachable s) (hl : limit ≤ 2 ^ 32)
      (hv : size + 15 < 2 ^ 64) (hp : ∀ p, ptr = some p → allocated s p)
      (h : realloc fuel limit s ptr size = some r) : Reachable r.2
  | calloc (s : State) (fuel limit nmemb size : Nat) (p : Option Nat) (s' : State)
      (hs : Reachable s) (hl : limit ≤ 2 ^ 32) (hv : nmemb * size % 2 ^ 64 + 15 < 2 ^ 64)
      (h : calloc fuel limit s nmemb size = CallocResult.ret p s') : Reachable s'
  | store (s : State) (a : Nat) (v : Byte) (hs : Reachable s)
      (hv : ∃ b ∈ heap_blocks s, b.alloc = true ∧ b.bp ≤ a ∧ a < b.bp + b.size - 8) :
      Reachable (store s a v)

/-- An arena that holds zero bytes before `mm_init`. -/
def zero_mem : Mem := fun _ => 0

/-- The state after `mm_init` on an empty arena that may grow to 5000 bytes. -/
def fresh_heap : State := (mm_init 5000 zero_mem).2

/-- The state after `malloc(1)` on `fresh_heap`. -/
def heap_one : State := { fresh_heap with mem := place fresh_heap.mem 96 (adjust_size 1) }

/-- The loop of `check_each_block`: the header walk from `iter` to the
epilogue header, counting in `free_cnt1` (a `size_t`) the blocks whose header
is marked free.  The diagnostics the loop prints only read memory and are
left out. -/
def check_each_block_loop (m : Mem) : Nat → Nat → Nat → Option Nat
  | 0, _, _ => none
  | fuel + 1, iter, free_cnt1 =>
    if GET m iter ≠ PACK 0 ALLOC then
      let bp := iter + WSIZE
      let cnt := if GET_ALLOC m (HDRP bp) = FREE then (free_cnt1 + 1) % SIZE_MOD else free_cnt1
      check_each_block_loop m fuel (HDRP (NEXT_BLKP m bp)) cnt
    else some free_cnt1

/-- The function `check_each_block`: the number of free blocks met by the
sequential walk of the arena (`none`: the walk ran out of fuel). -/
def check_each_block (fuel : Nat) (s : State) : Option Nat :=
  check_each_block_loop s.mem fuel (heap_basep + WSIZE) 0

/-- The inner loop of `check_free_list`: the walk of one list from `bp` back
to its head, counting the nodes in `free_cnt2`.  The diagnostics are left
out. -/
def check_free_list_walk (m : Mem) (list_head : Nat) : Nat → Nat → Nat → Option Nat
  | 0, _, _ => none
  | fuel + 1, bp, free_cnt2 =>
    if bp ≠ list_head then
      check_free_list_walk m list_head fuel (NEXT_EMPT_BLKP m bp) ((free_cnt2 + 1) % SIZE_MOD)
    else some free_cnt2

/-- The outer loop of `check_free_list`, over the list heads from `list_head`
to the last one. -/
def check_free_list_loop (m : Mem) (fuel : Nat) : Nat → Nat → Nat → Option Nat
  | 0, _, _ => none
  | cnt + 1, list_head, free_cnt2 =>
    if list_head ≠ last_listp + DSIZE then
      match check_free_list_walk m list_head fuel (NEXT_EMPT_BLKP m list_head) free_cnt2 with
      | none => none
      | some c => check_free_list_loop m fuel cnt (list_head + DSIZE) c
    else some free_cnt2

/-- The function `check_free_list`: the number of nodes met by walking the
ten free lists (`none`: a walk ran out of fuel). -/
def check_free_list (fuel : Nat) (s : State) : Option Nat :=
  check_free_list_loop s.mem fuel (LIST_NUM + 1) first_listp 0

/-- The number of free blocks of a block list. -/
def free_count (bs : List Blk) : Nat := (bs.filter (fun b => !b.alloc)).length

/-- The header offset at which the walk of `check_each_block` stops: from the
header at `iter`, stepping by the recorded block sizes until the word read is
the epilogue header. -/
def walk_end (m : Mem) : Nat → Nat → Option Nat
  | 0, _ => none
  | fuel + 1, iter =>
    if GET m iter ≠ PACK 0 ALLOC then walk_end m fuel (HDRP (NEXT_BLKP m (iter + WSIZE)))
    else some iter

/-- The state after `malloc(16)` on `heap_one`: a second block placed at 112. -/
def heap_two : State := { heap_one with mem := place heap_one.mem 112 (adjust_size 16) }

/-- The state after `realloc(96, 16)` on `heap_one`: 16 bytes copied from 96
to the new block at 112, then the block at 96 freed. -/
def heap_moved : State :=
  free { heap_two with mem := memcpy heap_two.mem 112 96 16 } (some 96)

/-- The state after `malloc(100)` on `fresh_heap`. -/
def heap_b1 : State := { fresh_heap with mem := place fresh_heap.mem 96 (adjust_size 100) }

/-- The state after `malloc(100); malloc(200)` on `fresh_heap`. -/
def heap_b2 : State := { heap_b1 with mem := place heap_b1.mem 208 (adjust_size 200) }

/-- The state after `malloc(100); malloc(200)` and `free` of the first block. -/
def heap_b3 : State := free heap_b2 (some 96)

/-- The state after `malloc(100); malloc(200)`, `free` of the first block and
`malloc(90)`. -/
def heap_b4 : State := { heap_b3 with mem := place heap_b3.mem 96 (adjust_size 90) }

/-- The physical neighbour before a block, when it is free: the last block of
the blocks `pre` that precede it. -/
def free_prev (pre : List Blk) : Option Blk :=
  match pre.getLast? with
  | some x => if x.alloc then none else some x
  | none => none

/-- The physical neighbour after a block, when it is free: the first block of
the blocks `post` that follow it. -/
def free_next (post : List Blk) : Option Blk :=
  match post.head? with
  | some y => if y.alloc then none else some y
  | none => none

/-- The free block that covers `b` and its free physical neighbours: it starts
at the previous neighbour when that one is free and at `b` otherwise, and its
size is the size of `b` plus the sizes of the free neighbours. -/
def merged (pre : List Blk) (b : Blk) (post : List Blk) : Blk :=
  ⟨match free_prev pre with
    | some x => x.bp
    | none => b.bp,
   b.size +
    (match free_prev pre with
      | some x => x.size
      | none => 0) +
    (match free_next post with
      | some y => y.size
      | none => 0),
   false⟩

/-- The blocks of the arena after `b`, between `pre` and `post`, is freed and
merged with its free neighbours. -/
def blocks_after_free (pre : List Blk) (b : Blk) (post : List Blk) : List Blk :=
  (if (free_prev pre).isSome then pre.dropLast else pre) ++
    merged pre b post :: (if (free_next post).isSome then post.tail else post)

/-- The state after `malloc(32)` on `fresh_heap`. -/
def heap_c1 : State := { fresh_heap with mem := place fresh_heap.mem 96 (adjust_size 32) }

/-- The state after two calls `malloc(32)` on `fresh_heap`. -/
def heap_c2 : State := { heap_c1 with mem := place heap_c1.mem 136 (adjust_size 32) }

/-- The state after three calls `malloc(32)` on `fresh_heap`. -/
def heap_c3 : State := { heap_c2 with mem := place heap_c2.mem 176 (adjust_size 32) }

/-- The state after three calls `malloc(32)` and `free` of the middle block. -/
def heap_c4 : State := free heap_c3 (some 136)

/-- The state after `malloc(16)` on `fresh_heap`. -/
def heap_a1 : State := { fresh_heap with mem := place fresh_heap.mem 96 (adjust_size 16) }

/-- The nodes of one free list as memory holds them: from `bp`, along the
next offsets, until the list head is met again (the walk of the inner loops
of `find_fit` and `check_free_list`). -/
def list_nodes (m : Mem) (list_head : Nat) : Nat → Nat → Option (List Nat)
  | 0, _ => none
  | fuel + 1, bp =>
    if bp ≠ list_head then
      match list_nodes m list_head fuel (NEXT_EMPT_BLKP m bp) with
      | none => none
      | some l => some (bp :: l)
    else some []

/-- The nodes of the bucket list `idx`, from the node after its head in the
offset table. -/
def bucket (fuel : Nat) (s : State) (idx : Nat) : Option (List Nat) :=
  list_nodes s.mem (first_listp + idx * DSIZE) fuel
    (NEXT_EMPT_BLKP s.mem (first_listp + idx * DSIZE))

/-- Modelled from the spec: `mem_heap_lo` of `memlib`, which is not among the
sources: the address of the first byte of the arena, `base`. -/
def mem_heap_lo (base : Nat) : Nat := base

/-- Modelled from the spec: `mem_heap_hi` of `memlib`, which is not among the
sources: the address of the last byte of the arena. -/
def mem_heap_hi (base : Nat) (s : State) : Nat := base + s.brk - 1

/-- The macro `ALIGN` on an address: `((size_t)(p) + (ALIGNMENT-1)) & ~0x7`. -/
def ALIGN (p : Nat) : Nat := ((p + (ALIGNMENT - 1)) % SIZE_MOD) &&& 0xFFFFFFFFFFFFFFF8

/-- `in_heap` on the pointer at offset `p` of the arena at address `base`. -/
def in_heap (base : Nat) (s : State) (p : Nat) : Bool :=
  decide (base + p ≤ mem_heap_hi base s ∧ base + p ≥ mem_heap_lo base)

/-- `aligned` on the pointer at offset `p` of the arena at address `base`. -/
def aligned (base p : Nat) : Bool := decide (ALIGN (base + p) = base + p)

/-- The diagnostics of `mm_checkheap`, one for each `printf` of the checker;
pointers are recorded as offsets, the line number is left out. -/
inductive Diag where
  /-- The message of `check_heap_init` for a null `heap_basep`. -/
  | heap_not_initialized
  /-- The message `Heap incorrectly aligned!`. -/
  | heap_misaligned
  /-- The message `Heap not in allocated memory!`. -/
  | heap_not_in_memory
  /-- The message `Prologue block header error!`. -/
  | prologue_header
  /-- The message `Prologue block footer error!`. -/
  | prologue_footer
  /-- The message `Epilogue block error!`. -/
  | epilogue
  /-- The message `Prologue block header not in heap!`. -/
  | prologue_header_not_in_heap
  /-- The message `Prologue block footer not in heap!`. -/
  | prologue_footer_not_in_heap
  /-- The message `Epilogue block not in heap!`. -/
  | epilogue_not_in_heap
  /-- The message of `check_each_block` for a misaligned block pointer. -/
  | block_misaligned (bp : Nat)
  /-- The message of `check_each_block` for a header that differs from the footer. -/
  | tags_differ (bp : Nat)
  /-- The message `Consecutive free blocks at ... & ...!`. -/
  | consecutive_free (bp next : Nat)
  /-- The message `Free block ... not in heap!`. -/
  | free_block_not_in_heap (bp : Nat)
  /-- The message `Free block ... in wrong heap!`. -/
  | wrong_bucket (bp : Nat)
  /-- The message `Next/prev pointers inconsistent! ... & ...`. -/
  | links_inconsistent (bp next : Nat)
  /-- The message `Number of free blocks in heap and free list mismatch!`. -/
  | count_mismatch

/-- `check_heap_init`: the diagnostics it prints, after the diagnostics `out`
printed so far.  The global `heap_basep` is the pointer at offset 88 once
`mm_init` has run. -/
def check_heap_init (base : Nat) (s : State) (out : List Diag) : List Diag :=
  let out1 := if base + heap_basep = 0 then out ++ [Diag.heap_not_initialized] else out
  let out2 := if ¬ aligned base heap_basep then out1 ++ [Diag.heap_misaligned] else out1
  if ¬ in_heap base s heap_basep then out2 ++ [Diag.heap_not_in_memory] else out2

/-- `check_epi_and_pro`: the diagnostics it prints, after `out`. -/
def check_epi_and_pro (base : Nat) (s : State) (out : List Diag) : List Diag :=
  let epi := mem_heap_hi base s - 3 - base
  let out1 := if GET s.mem (HDRP heap_basep) ≠ PACK DSIZE ALLOC
    then out ++ [Diag.prologue_header] else out
  let out2 := if GET s.mem heap_basep ≠ PACK DSIZE ALLOC
    then out1 ++ [Diag.prologue_footer] else out1
  let out3 := if GET s.mem epi ≠ PACK 0 ALLOC then out2 ++ [Diag.epilogue] else out2
  let out4 := if ¬ in_heap base s (HDRP heap_basep)
    then out3 ++ [Diag.prologue_header_not_in_heap] else out3
  let out5 := if ¬ in_heap base s heap_basep
    then out4 ++ [Diag.prologue_footer_not_in_heap] else out4
  if ¬ in_heap base s epi then out5 ++ [Diag.epilogue_not_in_heap] else out5

/-- The loop of `check_each_block` with its diagnostics: the count
`free_cnt1` and the diagnostics printed, after `out`. -/
def check_each_block_log (base : Nat) (m : Mem) :
    Nat → Nat → Nat → List Diag → Option (Nat × List Diag)
  | 0, _, _, _ => none
  | fuel + 1, iter, free_cnt1, out =>
    if GET m iter ≠ PACK 0 ALLOC then
      let bp := iter + WSIZE
      let out1 := if ¬ aligned base bp then out ++ [Diag.block_misaligned bp] else out
      let cnt := if GET_ALLOC m (HDRP bp) = FREE then (free_cnt1 + 1) % SIZE_MOD else free_cnt1
      let out2 := if GET m (HDRP bp) ≠ GET m (FTRP m bp)
        then out1 ++ [Diag.tags_differ bp] else out1
      let out3 := if GET_ALLOC m (HDRP bp) = 0 ∧ GET_ALLOC m (HDRP (NEXT_BLKP m bp)) = 0
        then out2 ++ [Diag.consecutive_free bp (NEXT_BLKP m bp)] else out2
      check_each_block_log base m fuel (HDRP (NEXT_BLKP m bp)) cnt out3
    else some (free_cnt1, out)

/-- The inner loop of `check_free_list` with its diagnostics, in the list
with head `list_head` and index `idx`. -/
def check_free_list_walk_log (base : Nat) (s : State) (list_head idx : Nat) :
    Nat → Nat → Nat → List Diag → Option (Nat × List Diag)
  | 0, _, _, _ => none
  | fuel + 1, bp, free_cnt2, out =>
    if bp ≠ list_head then
      let out1 := if ¬ in_heap base s bp then out ++ [Diag.free_block_not_in_heap bp] else out
      let out2 := if list_index (GET_SIZE s.mem (HDRP bp)) ≠ idx
        then out1 ++ [Diag.wrong_bucket bp] else out1
      let out3 :=
        if bp ≠ first_listp + GET s.mem (PREV_SECT (NEXT_EMPT_BLKP s.mem bp)) ∨
            NEXT_EMPT_BLKP s.mem bp ≠ first_listp + GET s.mem (NEXT_SECT bp)
        then out2 ++ [Diag.links_inconsistent bp (NEXT_EMPT_BLKP s.mem bp)] else out2
      check_free_list_walk_log base s list_head idx fuel (NEXT_EMPT_BLKP s.mem bp)
        ((free_cnt2 + 1) % SIZE_MOD) out3
    else some (free_cnt2, out)

/-- The outer loop of `check_free_list` with its diagnostics. -/
def check_free_list_log (base : Nat) (s : State) (fuel : Nat) :
    Nat → Nat → Nat → Nat → List Diag → Option (Nat × List Diag)
  | 0, _, _, _, _ => none
  | cnt + 1, list_head, idx, free_cnt2, out =>
    if list_head ≠ last_listp + DSIZE then
      match check_free_list_walk_log base s list_head idx fuel
          (NEXT_EMPT_BLKP s.mem list_head) free_cnt2 out with
      | none => none
      | some (c, out1) =>
        check_free_list_log base s fuel cnt (list_head + DSIZE) ((idx + 1) % SIZE_MOD) c out1
    else some (free_cnt2, out)

/-- `mm_checkheap` on the arena at address `base`: the diagnostics it prints,
in order (`none`: a walk ran out of fuel). -/
def mm_checkheap (base fuel : Nat) (s : State) : Option (List Diag) :=
  let out1 := check_heap_init base s []
  let out2 := check_epi_and_pro base s out1
  match check_each_block_log base s.mem fuel (heap_basep + WSIZE) 0 out2 with
  | none => none
  | some (free_cnt1, out3) =>
    match check_free_list_log base s fuel (LIST_NUM + 1) first_listp 0 0 out3 with
    | none => none
    | some (free_cnt2, out4) =>
      some (if free_cnt1 ≠ free_cnt2 then out4 ++ [Diag.count_mismatch] else out4)

/-- A well-formed heap: the arena satisfies the representation invariant for
some list of blocks and some free lists. -/
def WellFormed (s : State) : Prop := ∃ (bs : List Blk) (L : Nat → List Nat), Inv s bs L

/-- The accumulator `acc = (best_bp, best_size)` of the best-fit loop is right
for the nodes `seen` so far: without a best block no node seen fits; a best
block fits, `best_size` is its size, every fitting node seen before it is
strictly larger and every fitting node seen after it is at least as large. -/
def BestSoFar (m : Mem) (asize : Nat) (seen : List Nat) (acc : Option Nat × Nat) : Prop :=
  (acc.1 = none → ∀ y ∈ seen, fits m asize y = false) ∧
  ∀ p, acc.1 = some p → acc.2 = GET_SIZE m (HDRP p) ∧ fits m asize p = true ∧
    ∃ l1 l2, seen = l1 ++ p :: l2 ∧
      (∀ y ∈ l1, fits m asize y = true → GET_SIZE m (HDRP p) < GET_SIZE m (HDRP y)) ∧
      (∀ y ∈ l2, fits m asize y = true → GET_SIZE m (HDRP p) ≤ GET_SIZE m (HDRP y))

/-- The function `malloc` as the spec words it: on a miss of the fit finder
the arena is extended and the fit finder runs again, on the extended arena;
the request is placed on the block it returns. -/
def malloc_refit (fuel limit : Nat) (s : State) (size : Nat) : Option (Option Nat × State) :=
  if size = 0 then some (none, s)
  else
    let adjustsize := adjust_size size
    match find_fit fuel s.mem adjustsize with
    | none => none
    | some (some bp) => some (some bp, { s with mem := place s.mem bp adjustsize })
    | some none =>
      let extendsize := if adjustsize > CHUNKSIZE then adjustsize else CHUNKSIZE
      match extend_heap limit s (extendsize / WSIZE) with
      | none => some (none, s)
      | some (_, s1) =>
        match find_fit fuel s1.mem adjustsize with
        | none => none
        | some none => some (none, s1)
        | some (some bp) => some (some bp, { s1 with mem := place s1.mem bp adjustsize })

/-- The state after `extend_heap` for a request of 5008 bytes on `fresh_heap`,
with growth allowed up to 10000 bytes. -/
def heap_grown : State :=
  match extend_heap 10000 fresh_heap (5008 / WSIZE) with
  | some r => r.2
  | none => fresh_heap

/-- The arena of `fresh_heap` with the previous offset of its only free block
overwritten by 8. -/
def heap_bad_prev : State := { fresh_heap with mem := PUT fresh_heap.mem (PREV_SECT 96) 8 }

/-- The lists of the arena of `fresh_heap`: bucket 9 holds the block at 96. -/
def fresh_lists : Nat → List Nat := fun i => if i = 9 then [96] else []

/-- The state after `malloc(4088)` on `fresh_heap`: the whole arena is one
allocated block. -/
def heap_full : State := { fresh_heap with mem := place fresh_heap.mem 96 (adjust_size 4088) }

/-- The state after `extend_heap(1)` on `heap_full`. -/
def heap_short : State :=
  match extend_heap 5000 heap_full 1 with
  | some r => r.2
  | none => heap_full

/-- The number of bytes `extend_heap(words)` asks `mem_sbrk` for: its local
`size`. -/
def extend_request (words : Nat) : Nat :=
  if words % 2 ≠ 0 then WSIZE * (words + 1) else WSIZE * words

/-! # Proofs -/

/-! ## Words and tags -/

theorem land_mask (x : Nat) (hx : x < 2 ^ 32) : x &&& 0xFFFFFFF8 = x / 8 * 8 := by
  have e1 : (0xFFFFFFF8 : Nat) = (2 ^ 29 - 1) <<< 3 := by decide
  have e2 : x / 8 * 8 = (x >>> 3) <<< 3 := by
    rw [Nat.shiftLeft_eq, Nat.shiftRight_eq_div_pow]
  rw [e1, e2]
  apply Nat.eq_of_testBit_eq
  intro i
  simp only [Nat.testBit_and, Nat.testBit_shiftLeft, Nat.testBit_shiftRight,
    Nat.testBit_two_pow_sub_one]
  by_cases h3 : 3 ≤ i
  · have e3 : 3 + (i - 3) = i := by omega
    rw [e3]
    by_cases h32 : i < 32
    · have : i - 3 < 29 := by omega
      simp [h3, this]
    · have hlt : x < 2 ^ i := lt_of_lt_of_le hx (Nat.pow_le_pow_right (by decide) (by omega))
      simp [Nat.testBit_lt_two_pow hlt]
  · simp [h3]

theorem lor_flag (s a : Nat) (hs : s % 8 = 0) (ha : a < 2) : s ||| a = s + a := by
  have h := Nat.mul_add_lt_is_or (i := 3) (b := a) (by omega) (s / 8)
  have e : 2 ^ 3 * (s / 8) = s := by omega
  rw [e] at h
  exact h.symm

theorem GET_lt (m : Mem) (p : Nat) : GET m p < 2 ^ 32 := by
  unfold GET
  have h0 := (m p).isLt
  have h1 := (m (p + 1)).isLt
  have h2 := (m (p + 2)).isLt
  have h3 := (m (p + 3)).isLt
  omega

theorem PUT_other (m : Mem) (p v a : Nat) (h : a < p ∨ p + 4 ≤ a) : PUT m p v a = m a := by
  unfold PUT
  rw [if_neg (by omega), if_neg (by omega), if_neg (by omega), if_neg (by omega)]

theorem GET_PUT_same (m : Mem) (p v : Nat) : GET (PUT m p v) p = v % 2 ^ 32 := by
  unfold GET PUT byteOf
  simp
  omega

theorem GET_PUT_eq (m : Mem) (p v : Nat) (hv : v < 2 ^ 32) : GET (PUT m p v) p = v := by
  rw [GET_PUT_same, Nat.mod_eq_of_lt hv]

theorem GET_congr (m m' : Mem) (p : Nat) (h : ∀ a, p ≤ a → a < p + 4 → m' a = m a) :
    GET m' p = GET m p := by
  unfold GET
  rw [h p (by omega) (by omega), h (p + 1) (by omega) (by omega),
    h (p + 2) (by omega) (by omega), h (p + 3) (by omega) (by omega)]

theorem GET_PUT_other (m : Mem) (p v q : Nat) (h : q + 4 ≤ p ∨ p + 4 ≤ q) :
    GET (PUT m p v) q = GET m q :=
  GET_congr _ _ _ (fun a _ _ => PUT_other m p v a (by omega))

theorem GET_SIZE_eq (m : Mem) (p : Nat) : GET_SIZE m p = GET m p / 8 * 8 :=
  land_mask _ (GET_lt m p)

theorem GET_ALLOC_eq (m : Mem) (p : Nat) : GET_ALLOC m p = GET m p % 2 :=
  Nat.and_one_is_mod _

theorem PACK_ALLOC (s : Nat) (hs : s % 8 = 0) : PACK s ALLOC = tag s true := by
  simp [PACK, ALLOC, tag, lor_flag s 1 hs (by decide)]

theorem PACK_FREE (s : Nat) : PACK s FREE = tag s false := by
  simp [PACK, FREE, tag]

theorem GET_SIZE_tag (m : Mem) (p s : Nat) (a : Bool) (hs : s % 8 = 0)
    (h : GET m p = tag s a) : GET_SIZE m p = s := by
  rw [GET_SIZE_eq, h]
  cases a <;> simp [tag] <;> omega

theorem GET_ALLOC_tag (m : Mem) (p s : Nat) (a : Bool) (hs : s % 8 = 0)
    (h : GET m p = tag s a) : GET_ALLOC m p = if a then 1 else 0 := by
  rw [GET_ALLOC_eq, h]
  cases a <;> simp [tag] <;> omega

/-! ## Free lists -/

theorem Seg_append (m : Mem) (l1 : List Nat) (y : Nat) (l2 : List Nat) (x z : Nat) :
    Seg m x (l1 ++ y :: l2) z ↔ Seg m x l1 y ∧ Seg m y l2 z := by
  induction l1 generalizing x with
  | nil => simp [Seg]
  | cons a l1 ih => simp [Seg, ih, and_assoc]

theorem Seg_frame (m m' : Mem) (l : List Nat) (x z : Nat) (h : Seg m x l z)
    (hn : ∀ u, u = x ∨ u ∈ l → GET m' u = GET m u)
    (hp : ∀ u, u ∈ l ∨ u = z → GET m' (u + 4) = GET m (u + 4)) : Seg m' x l z := by
  induction l generalizing x with
  | nil =>
    simp only [Seg, Lnk] at *
    rw [hn x (Or.inl rfl), hp z (Or.inr rfl)]
    exact h
  | cons a l ih =>
    simp only [Seg, Lnk] at *
    obtain ⟨⟨h1, h2⟩, h3⟩ := h
    refine ⟨⟨?_, ?_⟩, ih a h3 ?_ ?_⟩
    · rw [hn x (Or.inl rfl)]; exact h1
    · rw [hp a (Or.inl (List.mem_cons_self _ _))]; exact h2
    · intro u hu
      apply hn
      rcases hu with hu | hu
      · exact Or.inr (hu ▸ List.mem_cons_self _ _)
      · exact Or.inr (List.mem_cons_of_mem _ hu)
    · intro u hu
      apply hp
      rcases hu with hu | hu
      · exact Or.inl (List.mem_cons_of_mem _ hu)
      · exact Or.inr hu

/-- The successor of the start node is the first node of the chain. -/
theorem Seg_next (m : Mem) (l : List Nat) (x z : Nat) (h : Seg m x l z) :
    GET m x = (l ++ [z]).head (by simp) := by
  cases l with
  | nil => exact h.1
  | cons a l => exact h.1.1

theorem Seg_next_mem (m : Mem) (l : List Nat) (x z : Nat) (h : Seg m x l z) :
    GET m x ∈ l ∨ GET m x = z := by
  cases l with
  | nil => exact Or.inr h.1
  | cons a l => exact Or.inl (h.1.1 ▸ List.mem_cons_self _ _)

theorem Seg_prev_mem (m : Mem) (l : List Nat) (x z : Nat) (h : Seg m x l z) :
    GET m (z + 4) = x ∨ GET m (z + 4) ∈ l := by
  induction l generalizing x with
  | nil => exact Or.inl h.2
  | cons a l ih =>
    rcases ih a h.2 with h1 | h1
    · exact Or.inr (h1 ▸ List.mem_cons_self _ _)
    · exact Or.inr (List.mem_cons_of_mem _ h1)

theorem del_free_blk_eq (m : Mem) (bp n p : Nat) (hn : GET m bp = n) (hp : GET m (bp + 4) = p)
    (h1 : n ≠ bp) (h2 : bp % 8 = 0) (h3 : n % 8 = 0) :
    del_free_blk m bp = PUT (PUT m (n + 4) p) p n := by
  unfold del_free_blk
  simp only [NEXT_EMPT_BLKP, PREV_EMPT_BLKP, NEXT_SECT, PREV_SECT, first_listp, WSIZE,
    Nat.zero_add]
  rw [hn, hp, GET_PUT_other _ _ _ _ (by omega), GET_PUT_other _ _ _ _ (by omega), hn, hp]

theorem unlink_next (m : Mem) (n p u : Nat) (hn : n % 8 = 0) (hp : p % 8 = 0) (hu : u % 8 = 0)
    (h : u ≠ p) : GET (PUT (PUT m (n + 4) p) p n) u = GET m u := by
  rw [GET_PUT_other _ _ _ _ (by omega), GET_PUT_other _ _ _ _ (by omega)]

theorem unlink_prev (m : Mem) (n p u : Nat) (hn : n % 8 = 0) (hp : p % 8 = 0) (hu : u % 8 = 0)
    (h : u ≠ n) : GET (PUT (PUT m (n + 4) p) p n) (u + 4) = GET m (u + 4) := by
  rw [GET_PUT_other _ _ _ _ (by omega), GET_PUT_other _ _ _ _ (by omega)]

theorem unlink_lnk (m : Mem) (n p : Nat) (hn : n % 8 = 0) (hp : p % 8 = 0)
    (hn' : n < 2 ^ 32) (hp' : p < 2 ^ 32) : Lnk (PUT (PUT m (n + 4) p) p n) p n := by
  constructor
  · rw [GET_PUT_eq _ _ _ hn']
  · rw [GET_PUT_other _ _ _ _ (by omega), GET_PUT_eq _ _ _ hp']

theorem del_Seg (m : Mem) (pre post : List Nat) (x h bp : Nat)
    (hs : Seg m x (pre ++ bp :: post) h)
    (hal : ∀ u, u = x ∨ u ∈ pre ++ bp :: post ∨ u = h → u % 8 = 0 ∧ u < 2 ^ 32)
    (hnd : (x :: (pre ++ bp :: post)).Nodup)
    (hh : h ∉ pre ++ bp :: post) :
    Seg (del_free_blk m bp) x (pre ++ post) h := by
  have hs' := (Seg_append m pre bp post x h).1 hs
  have hbp : bp ∈ pre ++ bp :: post := by simp
  have hbpa := hal bp (Or.inr (Or.inl hbp))
  have hnm := Seg_next_mem m post bp h hs'.2
  have hpm := Seg_prev_mem m pre x bp hs'.1
  have hn_ne : GET m bp ≠ bp := by
    rcases hnm with h1 | h1
    · intro e
      rw [e] at h1
      have := (List.nodup_cons.1 hnd).2
      rw [List.nodup_append] at this
      have := (List.nodup_cons.1 this.2.1).1
      exact this h1
    · intro e
      have e2 : h = bp := by rw [← h1, e]
      exact hh (e2 ▸ hbp)
  have hna : GET m bp % 8 = 0 ∧ GET m bp < 2 ^ 32 := by
    apply hal
    rcases hnm with h1 | h1
    · exact Or.inr (Or.inl (by simp [h1]))
    · exact Or.inr (Or.inr h1)
  have hpa : GET m (bp + 4) % 8 = 0 ∧ GET m (bp + 4) < 2 ^ 32 := by
    apply hal
    rcases hpm with h1 | h1
    · exact Or.inl h1
    · exact Or.inr (Or.inl (by simp [h1]))
  rw [del_free_blk_eq m bp _ _ rfl rfl hn_ne hbpa.1 hna.1]
  clear hs'
  induction pre generalizing x with
  | nil =>
    simp only [List.nil_append, Seg] at hs ⊢
    have hp : GET m (bp + 4) = x := hs.1.2
    rw [hp] at hpa ⊢
    cases post with
    | nil =>
      have hn : GET m bp = h := hs.2.1
      rw [hn] at hna ⊢
      exact unlink_lnk m h x hna.1 hpa.1 hna.2 hpa.2
    | cons n post =>
      have hn : GET m bp = n := hs.2.1.1
      rw [hn] at hna ⊢
      refine ⟨unlink_lnk m n x hna.1 hpa.1 hna.2 hpa.2, ?_⟩
      apply Seg_frame m _ post n h hs.2.2
      · intro u hu
        have hu' : u ∈ n :: post := by
          rcases hu with hu | hu
          · simp [hu]
          · simp [hu]
        apply unlink_next _ _ _ _ hna.1 hpa.1 (hal u (Or.inr (Or.inl (by simp [hu'])))).1
        intro e
        rw [e] at hu'
        have := (List.nodup_cons.1 hnd).1
        simp only [List.nil_append, List.mem_cons, not_or] at this
        simp only [List.mem_cons] at hu'
        tauto
      · intro u hu
        apply unlink_prev _ _ _ _ hna.1 hpa.1
        · apply (hal u _).1
          rcases hu with hu | hu
          · exact Or.inr (Or.inl (by simp [hu]))
          · exact Or.inr (Or.inr hu)
        · intro e
          rcases hu with hu | hu
          · rw [e] at hu
            have := (List.nodup_cons.1 hnd).2
            simp only [List.nil_append, List.nodup_cons] at this
            exact this.2.1 hu
          · apply hh
            rw [← hu, e]
            simp
  | cons y pre ih =>
    simp only [List.cons_append, Seg] at hs ⊢
    have hnd' := (List.nodup_cons.1 hnd)
    have hpm' := Seg_prev_mem m pre y bp ((Seg_append m pre bp post y h).1 hs.2).1
    refine ⟨⟨?_, ?_⟩, ?_⟩
    · rw [unlink_next _ _ _ _ hna.1 hpa.1 (hal x (Or.inl rfl)).1]
      · exact hs.1.1
      · intro e
        apply hnd'.1
        rw [e]
        rcases hpm' with h1 | h1
        · simp [h1]
        · simp [h1]
    · rw [unlink_prev _ _ _ _ hna.1 hpa.1 (hal y (Or.inr (Or.inl (by simp)))).1]
      · exact hs.1.2
      · intro e
        rcases hnm with h1 | h1
        · have := (List.nodup_cons.1 hnd'.2).1
          apply this
          rw [e]
          simp [h1]
        · apply hh
          rw [← h1, ← e]
          simp
    · apply ih y hs.2
      · intro u hu
        apply hal
        rcases hu with hu | hu | hu
        · exact Or.inr (Or.inl (by simp [hu]))
        · exact Or.inr (Or.inl (by simp [hu]))
        · exact Or.inr (Or.inr hu)
      · exact hnd'.2
      · intro hc
        apply hh
        simp [hc]
      · simp
      · exact hpm'

theorem ins_free_blk_eq (m : Mem) (bp i f : Nat) (hf : GET m (i * 8) = f)
    (hfp : GET m (f + 4) = i * 8) (h2 : i * 8 ≠ bp)
    (h3 : bp % 8 = 0) (h4 : f % 8 = 0) :
    ins_free_blk m bp i = PUT (PUT (PUT (PUT m bp f) (bp + 4) (i * 8)) (i * 8) bp) (f + 4) bp := by
  have hlt : f < 2 ^ 32 := hf ▸ GET_lt m _
  unfold ins_free_blk
  simp only [NEXT_EMPT_BLKP, NEXT_SECT, PREV_SECT, first_listp, WSIZE, DSIZE,
    Nat.zero_add, Nat.sub_zero]
  rw [hf, GET_PUT_eq _ _ _ hlt, GET_PUT_other _ _ _ _ (by omega), hfp,
    GET_PUT_other _ _ _ _ (by omega), GET_PUT_other _ _ _ _ (by omega), GET_PUT_eq _ _ _ hlt]

theorem link_next (m : Mem) (bp h f u : Nat) (h3 : bp % 8 = 0) (h4 : f % 8 = 0)
    (h5 : h % 8 = 0) (hu : u % 8 = 0) (hu1 : u ≠ bp) (hu2 : u ≠ h) :
    GET (PUT (PUT (PUT (PUT m bp f) (bp + 4) h) h bp) (f + 4) bp) u = GET m u := by
  rw [GET_PUT_other _ _ _ _ (by omega), GET_PUT_other _ _ _ _ (by omega),
    GET_PUT_other _ _ _ _ (by omega), GET_PUT_other _ _ _ _ (by omega)]

theorem link_prev (m : Mem) (bp h f u : Nat) (h3 : bp % 8 = 0) (h4 : f % 8 = 0)
    (h5 : h % 8 = 0) (hu : u % 8 = 0) (hu1 : u ≠ bp) (hu2 : u ≠ f) :
    GET (PUT (PUT (PUT (PUT m bp f) (bp + 4) h) h bp) (f + 4) bp) (u + 4) = GET m (u + 4) := by
  rw [GET_PUT_other _ _ _ _ (by omega), GET_PUT_other _ _ _ _ (by omega),
    GET_PUT_other _ _ _ _ (by omega), GET_PUT_other _ _ _ _ (by omega)]

theorem link_lnk (m : Mem) (bp h f : Nat) (h3 : bp % 8 = 0) (h4 : f % 8 = 0)
    (h5 : h % 8 = 0) (h1 : f ≠ bp) (h2 : h ≠ bp) (hb : bp < 2 ^ 32) (hh : h < 2 ^ 32)
    (hf : f < 2 ^ 32) :
    Lnk (PUT (PUT (PUT (PUT m bp f) (bp + 4) h) h bp) (f + 4) bp) h bp ∧
    Lnk (PUT (PUT (PUT (PUT m bp f) (bp + 4) h) h bp) (f + 4) bp) bp f := by
  refine ⟨⟨?_, ?_⟩, ⟨?_, ?_⟩⟩
  · rw [GET_PUT_other _ _ _ _ (by omega), GET_PUT_eq _ _ _ hb]
  · rw [GET_PUT_other _ _ _ _ (by omega), GET_PUT_other _ _ _ _ (by omega),
      GET_PUT_eq _ _ _ hh]
  · rw [GET_PUT_other _ _ _ _ (by omega), GET_PUT_other _ _ _ _ (by omega),
      GET_PUT_other _ _ _ _ (by omega), GET_PUT_eq _ _ _ hf]
  · rw [GET_PUT_eq _ _ _ hb]

theorem ins_Seg (m : Mem) (l : List Nat) (i bp : Nat) (hs : Seg m (i * 8) l (i * 8))
    (hal : ∀ u ∈ l, u % 8 = 0 ∧ i * 8 ≠ u) (hnd : l.Nodup)
    (hb1 : bp % 8 = 0) (hb2 : bp < 2 ^ 32) (hb3 : i * 8 ≠ bp) (hb4 : bp ∉ l)
    (hi : i * 8 < 2 ^ 32) :
    Seg (ins_free_blk m bp i) (i * 8) (bp :: l) (i * 8) := by
  have h5 : i * 8 % 8 = 0 := by omega
  cases l with
  | nil =>
    have hf : GET m (i * 8) = i * 8 := hs.1
    rw [ins_free_blk_eq m bp i _ hf hs.2 hb3 hb1 h5]
    exact link_lnk m bp _ _ hb1 h5 h5 hb3 hb3 hb2 hi hi
  | cons f l =>
    have hf : GET m (i * 8) = f := hs.1.1
    have hfa := hal f (List.mem_cons_self _ _)
    have hfb : f ≠ bp := fun e => hb4 (e ▸ List.mem_cons_self _ _)
    have hflt : f < 2 ^ 32 := hf ▸ GET_lt m _
    rw [ins_free_blk_eq m bp i _ hf hs.1.2 hb3 hb1 hfa.1]
    have hl := link_lnk m bp (i * 8) f hb1 hfa.1 h5 hfb hb3 hb2 hi hflt
    refine ⟨hl.1, hl.2, ?_⟩
    apply Seg_frame m _ l f (i * 8) hs.2
    · intro u hu
      have hu' : u ∈ f :: l := by
        rcases hu with hu | hu
        · simp [hu]
        · simp [hu]
      have hua := hal u hu'
      apply link_next m bp _ f u hb1 hfa.1 h5 hua.1
      · intro e; exact hb4 (e ▸ hu')
      · exact fun e => hua.2 e.symm
    · intro u hu
      rcases hu with hu | hu
      · have hua := hal u (List.mem_cons_of_mem _ hu)
        apply link_prev m bp _ f u hb1 hfa.1 h5 hua.1
        · intro e; exact hb4 (e ▸ List.mem_cons_of_mem _ hu)
        · intro e
          exact (List.nodup_cons.1 hnd).1 (e ▸ hu)
      · rw [hu]
        exact link_prev m bp _ f _ hb1 hfa.1 h5 h5 hb3 hfa.2

theorem Lists_frame (m m' : Mem) (L : Nat → List Nat) (h : Lists m L)
    (hf : ∀ a, LinkArea L a → m' a = m a) : Lists m' L := by
  refine ⟨?_, h.nodup, h.node, h.disj⟩
  intro i hi
  apply Seg_frame m m' _ _ _ (h.seg i hi)
  · intro u hu
    apply GET_congr
    intro a h1 h2
    apply hf
    rcases hu with hu | hu
    · left; omega
    · right; exact ⟨i, hi, u, hu, by omega, by omega⟩
  · intro u hu
    apply GET_congr
    intro a h1 h2
    apply hf
    rcases hu with hu | hu
    · right; exact ⟨i, hi, u, hu, by omega, by omega⟩
    · left; omega

theorem ins_frame (m : Mem) (L : Nat → List Nat) (h : Lists m L) (i bp : Nat) (hi : i < 10)
    (hb0 : 96 ≤ bp) (hb1 : bp % 8 = 0) (hb4 : ∀ j, j < 10 → bp ∉ L j)
    (a : Nat) (ha : ¬ LinkArea L a) (hab : ¬ (bp ≤ a ∧ a < bp + 8)) :
    ins_free_blk m bp i a = m a := by
  have hs := h.seg i hi
  have hfm := Seg_next_mem m _ _ _ hs
  have hfp : GET m (GET m (i * 8) + 4) = i * 8 := by
    cases hl : L i with
    | nil => rw [hl] at hs; rw [hs.1]; exact hs.2
    | cons f l => rw [hl] at hs; rw [hs.1.1]; exact hs.1.2
  have hf8 : GET m (i * 8) % 8 = 0 := by
    rcases hfm with h1 | h1
    · exact (h.node i hi _ h1).2.1
    · omega
  have hfb : GET m (i * 8) ≠ bp := by
    rcases hfm with h1 | h1
    · intro e; exact hb4 i hi (e ▸ h1)
    · omega
  rw [ins_free_blk_eq m bp i _ rfl hfp (by omega) hb1 hf8]
  have hnot : ¬ (GET m (i * 8) ≤ a ∧ a < GET m (i * 8) + 8) := by
    intro hc
    apply ha
    rcases hfm with h1 | h1
    · right; exact ⟨i, hi, _, h1, hc.1, hc.2⟩
    · left; omega
  have ha80 : ¬ a < 80 := fun hc => ha (Or.inl hc)
  rw [PUT_other _ _ _ _ (by omega), PUT_other _ _ _ _ (by omega),
    PUT_other _ _ _ _ (by omega), PUT_other _ _ _ _ (by omega)]

theorem ins_Lists (m : Mem) (L : Nat → List Nat) (h : Lists m L) (i bp : Nat) (hi : i < 10)
    (hb0 : 96 ≤ bp) (hb1 : bp % 8 = 0) (hb2 : bp < 2 ^ 32) (hb4 : ∀ j, j < 10 → bp ∉ L j) :
    Lists (ins_free_blk m bp i) (Function.update L i (bp :: L i)) := by
  have hs := h.seg i hi
  have hfm := Seg_next_mem m _ _ _ hs
  have hfp : GET m (GET m (i * 8) + 4) = i * 8 := by
    cases hl : L i with
    | nil => rw [hl] at hs; rw [hs.1]; exact hs.2
    | cons f l => rw [hl] at hs; rw [hs.1.1]; exact hs.1.2
  have hf8 : GET m (i * 8) % 8 = 0 := by
    rcases hfm with h1 | h1
    · exact (h.node i hi _ h1).2.1
    · omega
  have hfb : GET m (i * 8) ≠ bp := by
    rcases hfm with h1 | h1
    · intro e; exact hb4 i hi (e ▸ h1)
    · omega
  constructor
  · intro j hj
    by_cases hji : j = i
    · subst hji
      rw [Function.update_same]
      apply ins_Seg m _ j bp hs _ (h.nodup j hj) hb1 hb2 (by omega) (hb4 j hj) (by omega)
      intro u hu
      have := h.node j hj u hu
      omega
    · rw [Function.update_noteq hji]
      rw [ins_free_blk_eq m bp i _ rfl hfp (by omega) hb1 hf8]
      apply Seg_frame m _ _ _ _ (h.seg j hj)
      · intro u hu
        have hu8 : u % 8 = 0 := by
          rcases hu with hu | hu
          · omega
          · exact (h.node j hj u hu).2.1
        apply link_next m bp _ _ u hb1 hf8 (by omega) hu8
        · rcases hu with hu | hu
          · omega
          · intro e; exact hb4 j hj (e ▸ hu)
        · rcases hu with hu | hu
          · omega
          · have := h.node j hj u hu
            omega
      · intro u hu
        have hu8 : u % 8 = 0 := by
          rcases hu with hu | hu
          · exact (h.node j hj u hu).2.1
          · omega
        apply link_prev m bp _ _ u hb1 hf8 (by omega) hu8
        · rcases hu with hu | hu
          · intro e; exact hb4 j hj (e ▸ hu)
          · omega
        · rcases hu with hu | hu
          · intro e
            rcases hfm with h1 | h1
            · exact hji (h.disj j i hj hi u hu (e ▸ h1))
            · have := h.node j hj u hu
              omega
          · rcases hfm with h1 | h1
            · have := h.node i hi _ h1
              omega
            · omega
  · intro j hj
    by_cases hji : j = i
    · subst hji
      rw [Function.update_same]
      exact List.nodup_cons.2 ⟨hb4 j hj, h.nodup j hj⟩
    · rw [Function.update_noteq hji]
      exact h.nodup j hj
  · intro j hj y hy
    by_cases hji : j = i
    · subst hji
      rw [Function.update_same] at hy
      rcases List.mem_cons.1 hy with e | hy
      · subst e; exact ⟨hb0, hb1, hb2⟩
      · exact h.node j hj y hy
    · rw [Function.update_noteq hji] at hy
      exact h.node j hj y hy
  · intro j k hj hk y hy1 hy2
    by_cases hji : j = i <;> by_cases hki : k = i
    · rw [hji, hki]
    · subst hji
      rw [Function.update_same] at hy1
      rw [Function.update_noteq hki] at hy2
      rcases List.mem_cons.1 hy1 with e | hy1
      · subst e; exact absurd hy2 (hb4 k hk)
      · exact h.disj j k hj hk y hy1 hy2
    · subst hki
      rw [Function.update_same] at hy2
      rw [Function.update_noteq hji] at hy1
      rcases List.mem_cons.1 hy2 with e | hy2
      · subst e; exact absurd hy1 (hb4 j hj)
      · exact h.disj j k hj hk y hy1 hy2
    · rw [Function.update_noteq hji] at hy1
      rw [Function.update_noteq hki] at hy2
      exact h.disj j k hj hk y hy1 hy2

/-- What `del_free_blk` reads at a listed block: its successor and its
predecessor are nodes of the same list, and the unlinking is two stores. -/
theorem del_nodes (m : Mem) (L : Nat → List Nat) (h : Lists m L) (i bp : Nat) (hi : i < 10)
    (hb : bp ∈ L i) :
    (GET m bp ∈ L i ∨ GET m bp = i * 8) ∧ (GET m (bp + 4) ∈ L i ∨ GET m (bp + 4) = i * 8) ∧
    GET m bp ≠ bp ∧
    del_free_blk m bp = PUT (PUT m (GET m bp + 4) (GET m (bp + 4))) (GET m (bp + 4)) (GET m bp) := by
  obtain ⟨pre, post, hl⟩ := List.append_of_mem hb
  have hs := h.seg i hi
  rw [hl] at hs
  have hs' := (Seg_append m pre bp post _ _).1 hs
  have hnd := h.nodup i hi
  rw [hl] at hnd
  have hnm := Seg_next_mem m post bp _ hs'.2
  have hpm := Seg_prev_mem m pre _ bp hs'.1
  have hbn := h.node i hi bp hb
  have h1 : GET m bp ∈ L i ∨ GET m bp = i * 8 := by
    rcases hnm with h1 | h1
    · left; rw [hl]; simp [h1]
    · right; exact h1
  have h2 : GET m (bp + 4) ∈ L i ∨ GET m (bp + 4) = i * 8 := by
    rcases hpm with h1 | h1
    · right; exact h1
    · left; rw [hl]; simp [h1]
  have h3 : GET m bp ≠ bp := by
    rcases hnm with h1 | h1
    · intro e
      rw [e] at h1
      rw [List.nodup_append] at hnd
      exact (List.nodup_cons.1 hnd.2.1).1 h1
    · omega
  have h4 : GET m bp % 8 = 0 := by
    rcases h1 with h1 | h1
    · exact (h.node i hi _ h1).2.1
    · omega
  exact ⟨h1, h2, h3, del_free_blk_eq m bp _ _ rfl rfl h3 hbn.2.1 h4⟩

theorem del_frame (m : Mem) (L : Nat → List Nat) (h : Lists m L) (i bp : Nat) (hi : i < 10)
    (hb : bp ∈ L i) (a : Nat) (ha : ¬ LinkArea L a) : del_free_blk m bp a = m a := by
  obtain ⟨h1, h2, _, h4⟩ := del_nodes m L h i bp hi hb
  rw [h4]
  have hn : ¬ (GET m bp ≤ a ∧ a < GET m bp + 8) := by
    intro hc
    apply ha
    rcases h1 with h1 | h1
    · right; exact ⟨i, hi, _, h1, hc.1, hc.2⟩
    · left; omega
  have hp : ¬ (GET m (bp + 4) ≤ a ∧ a < GET m (bp + 4) + 8) := by
    intro hc
    apply ha
    rcases h2 with h2 | h2
    · right; exact ⟨i, hi, _, h2, hc.1, hc.2⟩
    · left; omega
  rw [PUT_other _ _ _ _ (by omega), PUT_other _ _ _ _ (by omega)]

theorem del_Lists (m : Mem) (L : Nat → List Nat) (h : Lists m L) (i bp : Nat) (hi : i < 10)
    (hb : bp ∈ L i) :
    Lists (del_free_blk m bp) (Function.update L i ((L i).erase bp)) := by
  obtain ⟨h1, h2, h3, h4⟩ := del_nodes m L h i bp hi hb
  have hn8 : GET m bp % 8 = 0 := by
    rcases h1 with h1 | h1
    · exact (h.node i hi _ h1).2.1
    · omega
  have hp8 : GET m (bp + 4) % 8 = 0 := by
    rcases h2 with h2 | h2
    · exact (h.node i hi _ h2).2.1
    · omega
  have hsub : ∀ y, y ∈ (L i).erase bp → y ∈ L i := fun y hy => List.mem_of_mem_erase hy
  constructor
  · intro j hj
    by_cases hji : j = i
    · subst hji
      rw [Function.update_same]
      obtain ⟨pre, post, hl⟩ := List.append_of_mem hb
      have hnd := h.nodup j hj
      have hs := h.seg j hj
      rw [hl] at hnd hs ⊢
      have hbpre : bp ∉ pre := by
        intro hc
        rw [List.nodup_append] at hnd
        exact hnd.2.2 hc (List.mem_cons_self _ _) 
      rw [List.erase_append_right _ hbpre, List.erase_cons_head]
      apply del_Seg m pre post _ _ bp hs
      · intro u hu
        rcases hu with hu | hu | hu
        · omega
        · have := h.node j hj u (hl ▸ hu); omega
        · omega
      · refine List.nodup_cons.2 ⟨?_, hnd⟩
        intro hc
        have := h.node j hj _ (hl ▸ hc)
        omega
      · intro hc
        have := h.node j hj _ (hl ▸ hc)
        omega
    · rw [Function.update_noteq hji, h4]
      apply Seg_frame m _ _ _ _ (h.seg j hj)
      · intro u hu
        have hu8 : u % 8 = 0 := by
          rcases hu with hu | hu
          · omega
          · exact (h.node j hj u hu).2.1
        apply unlink_next m _ _ u hn8 hp8 hu8
        intro e
        rcases hu with hu | hu <;> rcases h2 with h2 | h2
        · have := h.node i hi _ h2; omega
        · omega
        · exact hji (h.disj j i hj hi u hu (e ▸ h2))
        · have := h.node j hj u hu; omega
      · intro u hu
        have hu8 : u % 8 = 0 := by
          rcases hu with hu | hu
          · exact (h.node j hj u hu).2.1
          · omega
        apply unlink_prev m _ _ u hn8 hp8 hu8
        intro e
        rcases hu with hu | hu <;> rcases h1 with h1 | h1
        · exact hji (h.disj j i hj hi u hu (e ▸ h1))
        · have := h.node j hj u hu; omega
        · have := h.node i hi _ h1; omega
        · omega
  · intro j hj
    by_cases hji : j = i
    · subst hji
      rw [Function.update_same]
      exact (h.nodup j hj).erase bp
    · rw [Function.update_noteq hji]
      exact h.nodup j hj
  · intro j hj y hy
    by_cases hji : j = i
    · subst hji
      rw [Function.update_same] at hy
      exact h.node j hj y (hsub y hy)
    · rw [Function.update_noteq hji] at hy
      exact h.node j hj y hy
  · intro j k hj hk y hy1 hy2
    have e1 : y ∈ L j := by
      by_cases hji : j = i
      · subst hji; rw [Function.update_same] at hy1; exact hsub y hy1
      · rw [Function.update_noteq hji] at hy1; exact hy1
    have e2 : y ∈ L k := by
      by_cases hki : k = i
      · subst hki; rw [Function.update_same] at hy2; exact hsub y hy2
      · rw [Function.update_noteq hki] at hy2; exact hy2
    exact h.disj j k hj hk y e1 e2

/-! ## Layout -/

theorem Layout_append (l1 l2 : List Blk) (p e : Nat) :
    Layout p (l1 ++ l2) e ↔ ∃ q, Layout p l1 q ∧ Layout q l2 e := by
  induction l1 generalizing p with
  | nil => simp [Layout]
  | cons b l1 ih =>
    rw [List.cons_append]
    simp only [Layout]
    rw [ih]
    constructor
    · rintro ⟨h1, h2, h3, q, h4, h5⟩
      exact ⟨q, ⟨h1, h2, h3, h4⟩, h5⟩
    · rintro ⟨q, ⟨h1, h2, h3, h4⟩, h5⟩
      exact ⟨h1, h2, h3, q, h4, h5⟩

theorem Layout_le (l : List Blk) (p e : Nat) (h : Layout p l e) : p ≤ e := by
  induction l generalizing p with
  | nil => exact le_of_eq h
  | cons b l ih =>
    have := ih _ h.2.2.2
    omega

theorem Layout_mod (l : List Blk) (p e : Nat) (h : Layout p l e) (hp : p % 8 = 0) :
    e % 8 = 0 := by
  induction l generalizing p with
  | nil => exact h ▸ hp
  | cons b l ih =>
    have h2 := h.2.2.1
    exact ih _ h.2.2.2 (by omega)

theorem Layout_mem (l : List Blk) (p e : Nat) (h : Layout p l e) (b : Blk) (hb : b ∈ l) :
    p ≤ b.bp ∧ b.bp + b.size ≤ e ∧ 16 ≤ b.size ∧ b.size % 8 = 0 ∧ (p % 8 = 0 → b.bp % 8 = 0) := by
  induction l generalizing p with
  | nil => simp at hb
  | cons c l ih =>
    obtain ⟨h1, h2, h3, h4⟩ := h
    rcases List.mem_cons.1 hb with e1 | hb
    · subst e1
      have := Layout_le _ _ _ h4
      exact ⟨by omega, by omega, h2, h3, fun hp => by omega⟩
    · have := ih _ h4 hb
      exact ⟨by omega, this.2.1, this.2.2.1, this.2.2.2.1, fun hp => this.2.2.2.2 (by omega)⟩

theorem Layout_sep (l : List Blk) (p e : Nat) (h : Layout p l e) (b c : Blk) (hb : b ∈ l)
    (hc : c ∈ l) : b = c ∨ b.bp + b.size ≤ c.bp ∨ c.bp + c.size ≤ b.bp := by
  induction l generalizing p with
  | nil => simp at hb
  | cons d l ih =>
    obtain ⟨h1, h2, h3, h4⟩ := h
    rcases List.mem_cons.1 hb with e1 | hb' <;> rcases List.mem_cons.1 hc with e2 | hc'
    · left; rw [e1, e2]
    · have := Layout_mem _ _ _ h4 c hc'
      right; left; rw [e1]; omega
    · have := Layout_mem _ _ _ h4 b hb'
      right; right; rw [e2]; omega
    · exact ih _ h4 hb' hc'

/-- Two blocks of a layout with the same pointer are the same block. -/
theorem Layout_inj (l : List Blk) (p e : Nat) (h : Layout p l e) (b c : Blk) (hb : b ∈ l)
    (hc : c ∈ l) (hbc : b.bp = c.bp) : b = c := by
  have h1 := Layout_mem _ _ _ h b hb
  have h2 := Layout_mem _ _ _ h c hc
  rcases Layout_sep l p e h b c hb hc with h3 | h3 | h3
  · exact h3
  · omega
  · omega

theorem Layout_split (pre : List Blk) (b : Blk) (post : List Blk) (p e : Nat) :
    Layout p (pre ++ b :: post) e ↔
      Layout p pre b.bp ∧ 16 ≤ b.size ∧ b.size % 8 = 0 ∧ Layout (b.bp + b.size) post e := by
  rw [Layout_append]
  constructor
  · rintro ⟨q, h1, h2, h3, h4, h5⟩
    subst h2
    exact ⟨h1, h3, h4, h5⟩
  · rintro ⟨h1, h3, h4, h5⟩
    exact ⟨b.bp, h1, rfl, h3, h4, h5⟩

theorem ListsOf.subL {L : Nat → List Nat} {bs : List Blk} (h : ListsOf L bs) : SubL L bs := by
  intro i hi y hy
  obtain ⟨b, hb, e, _⟩ := (h i hi y).1 hy
  exact ⟨b, hb, e⟩

/-! ## Heaps with a hole -/

theorem Hole.mem_pre {m brk pre q r post} (h : Hole m brk pre q r post) (b : Blk)
    (hb : b ∈ pre) :
    96 ≤ b.bp ∧ b.bp + b.size ≤ q ∧ 16 ≤ b.size ∧ b.size % 8 = 0 ∧ b.bp % 8 = 0 := by
  have := Layout_mem _ _ _ h.lpre b hb
  exact ⟨this.1, this.2.1, this.2.2.1, this.2.2.2.1, this.2.2.2.2 (by decide)⟩

theorem Hole.q_mod {m brk pre q r post} (h : Hole m brk pre q r post) : q % 8 = 0 ∧ 96 ≤ q :=
  ⟨Layout_mod _ _ _ h.lpre (by decide), Layout_le _ _ _ h.lpre⟩

theorem Hole.r_le {m brk pre q r post} (h : Hole m brk pre q r post) : r ≤ brk :=
  Layout_le _ _ _ h.lpost

theorem Hole.mem_post {m brk pre q r post} (h : Hole m brk pre q r post) (b : Blk)
    (hb : b ∈ post) :
    r ≤ b.bp ∧ b.bp + b.size ≤ brk ∧ 16 ≤ b.size ∧ b.size % 8 = 0 ∧ (r % 8 = 0 → b.bp % 8 = 0) :=
  Layout_mem _ _ _ h.lpost b hb

theorem Hole.sep {m brk pre q r post} (h : Hole m brk pre q r post) (b c : Blk)
    (hb : b ∈ pre ++ post) (hc : c ∈ pre ++ post) :
    b = c ∨ b.bp + b.size ≤ c.bp ∨ c.bp + c.size ≤ b.bp := by
  have hqr := h.qr
  rcases List.mem_append.1 hb with hb | hb <;> rcases List.mem_append.1 hc with hc | hc
  · exact Layout_sep _ _ _ h.lpre b c hb hc
  · have h1 := h.mem_pre b hb
    have h2 := h.mem_post c hc
    right; left; omega
  · have h1 := h.mem_post b hb
    have h2 := h.mem_pre c hc
    right; right; omega
  · exact Layout_sep _ _ _ h.lpost b c hb hc

/-- The geometry of a block of a heap with a hole. -/
theorem Hole.mem {m brk pre q r post} (h : Hole m brk pre q r post) (b : Blk)
    (hb : b ∈ pre ++ post) :
    96 ≤ b.bp ∧ b.bp + b.size ≤ brk ∧ 16 ≤ b.size ∧ (b.bp + b.size ≤ q ∨ r ≤ b.bp) := by
  have hqr := h.qr
  have hq := h.q_mod
  rcases List.mem_append.1 hb with hb | hb
  · have h1 := h.mem_pre b hb
    have := h.r_le
    exact ⟨h1.1, by omega, h1.2.2.1, Or.inl h1.2.1⟩
  · have h1 := h.mem_post b hb
    exact ⟨by omega, h1.2.1, h1.2.2.1, Or.inr h1.1⟩

/-- The link bytes lie inside the payloads of listed blocks or in the offset
table: away from every tag word, from the prologue, the epilogue and the
hole. -/
theorem link_cases {pre post : List Blk}
    {L : Nat → List Nat} (hL : SubL L (pre ++ post)) (a : Nat) (ha : LinkArea L a) :
    a < 80 ∨ ∃ c ∈ pre ++ post, c.bp ≤ a ∧ a < c.bp + 8 := by
  rcases ha with ha | ⟨i, hi, y, hy, h1, h2⟩
  · exact Or.inl ha
  · obtain ⟨c, hc, e⟩ := hL i hi y hy
    exact Or.inr ⟨c, hc, by omega, by omega⟩

theorem Hole.tag_not_link {m brk pre q r post} (h : Hole m brk pre q r post)
    {L : Nat → List Nat} (hL : SubL L (pre ++ post)) (b : Blk) (hb : b ∈ pre ++ post) (a : Nat)
    (ha : (b.bp - 4 ≤ a ∧ a < b.bp) ∨ (b.bp + b.size - 8 ≤ a ∧ a < b.bp + b.size - 4)) :
    ¬ LinkArea L a := by
  intro hl
  have hbm := h.mem b hb
  rcases link_cases hL a hl with h1 | ⟨c, hc, h1, h2⟩
  · omega
  · have hcm := h.mem c hc
    rcases h.sep b c hb hc with e | e | e
    · subst e; omega
    · omega
    · omega

theorem Hole.hole_not_link {m brk pre q r post} (h : Hole m brk pre q r post)
    {L : Nat → List Nat} (hL : SubL L (pre ++ post)) (a : Nat) (h1 : q - 4 ≤ a) (h2 : a < r) :
    ¬ LinkArea L a := by
  intro hl
  have hq := h.q_mod
  rcases link_cases hL a hl with h3 | ⟨c, hc, h3, h4⟩
  · omega
  · have hcm := h.mem c hc
    omega

theorem Hole.frame {m brk pre q r post} (h : Hole m brk pre q r post)
    {L : Nat → List Nat} (hL : SubL L (pre ++ post)) (m' : Mem)
    (hf : ∀ a, ¬ LinkArea L a → ¬ (q - 4 ≤ a ∧ a < r - 4) → m' a = m a) :
    Hole m' brk pre q r post := by
  have hqr := h.qr
  have hq := h.q_mod
  have hr := h.r_le
  have key : ∀ b ∈ pre ++ post, Tagged m b → Tagged m' b := by
    intro b hb ht
    have hbm := h.mem b hb
    constructor
    · rw [← ht.1]
      apply GET_congr
      intro a h1 h2
      apply hf a (h.tag_not_link hL b hb a (Or.inl ⟨by omega, by omega⟩))
      omega
    · rw [← ht.2]
      apply GET_congr
      intro a h1 h2
      apply hf a (h.tag_not_link hL b hb a (Or.inr ⟨by omega, by omega⟩))
      omega
  have hfix : ∀ a, 84 ≤ a → (a < 92 ∨ (brk - 4 ≤ a ∧ a < brk)) → m' a = m a := by
    intro a h1 h2
    apply hf
    · intro hl
      rcases link_cases hL a hl with h3 | ⟨c, hc, h3, h4⟩
      · omega
      · have hcm := h.mem c hc
        omega
    · omega
  refine ⟨h.lpre, h.lpost, h.qr, ?_, ?_, ⟨?_, ?_⟩, ?_, h.bound⟩
  · exact fun b hb => key b (List.mem_append_left _ hb) (h.tpre b hb)
  · exact fun b hb => key b (List.mem_append_right _ hb) (h.tpost b hb)
  · rw [← h.pro.1]
    exact GET_congr _ _ _ (fun a h1 h2 => hfix a h1 (Or.inl (by omega)))
  · rw [← h.pro.2]
    exact GET_congr _ _ _ (fun a h1 h2 => hfix a (by omega) (Or.inl (by omega)))
  · rw [← h.epi]
    exact GET_congr _ _ _ (fun a h1 h2 => hfix a (by omega) (Or.inr ⟨by omega, by omega⟩))

theorem Heap.hole {m brk pre b post} (h : Heap m brk (pre ++ b :: post)) :
    Hole m brk pre b.bp (b.bp + b.size) post := by
  have hl := (Layout_split pre b post 96 brk).1 h.lay
  refine ⟨hl.1, hl.2.2.2, by omega, ?_, ?_, h.pro, h.epi, h.bound⟩
  · exact fun c hc => h.tags c (by simp [hc])
  · exact fun c hc => h.tags c (by simp [hc])

theorem Heap.hole_end {m brk bs} (h : Heap m brk bs) : Hole m brk bs brk brk [] :=
  ⟨h.lay, rfl, le_refl _, h.tags, by simp, h.pro, h.epi, h.bound⟩

theorem Hole.heap_end {m brk bs} (h : Hole m brk bs brk brk []) : Heap m brk bs :=
  ⟨h.lpre, h.tpre, h.pro, h.epi, h.bound⟩

theorem Hole.fill {m brk pre q r post} (h : Hole m brk pre q r post) (b : Blk)
    (hb : b.bp = q) (hr : q + b.size = r) (h16 : 16 ≤ b.size) (h8 : b.size % 8 = 0)
    (ht : Tagged m b) : Heap m brk (pre ++ b :: post) := by
  refine ⟨(Layout_split pre b post 96 brk).2 ⟨hb ▸ h.lpre, h16, h8, ?_⟩, ?_, h.pro, h.epi, h.bound⟩
  · rw [hb, hr]; exact h.lpost
  · intro c hc
    rcases List.mem_append.1 hc with hc | hc
    · exact h.tpre c hc
    · rcases List.mem_cons.1 hc with e | hc
      · exact e ▸ ht
      · exact h.tpost c hc

theorem Hole.grow_left {m brk pre pb q r post} (h : Hole m brk (pre ++ [pb]) q r post) :
    Hole m brk pre pb.bp r post ∧ pb.bp + pb.size = q ∧ 16 ≤ pb.size := by
  have hl := (Layout_split pre pb [] 96 q).1 h.lpre
  have e : pb.bp + pb.size = q := hl.2.2.2
  refine ⟨⟨hl.1, h.lpost, ?_, ?_, h.tpost, h.pro, h.epi, h.bound⟩, e, hl.2.1⟩
  · have := h.qr; omega
  · exact fun c hc => h.tpre c (by simp [hc])

theorem Hole.grow_right {m brk pre q r nb post} (h : Hole m brk pre q r (nb :: post)) :
    Hole m brk pre q (nb.bp + nb.size) post ∧ nb.bp = r ∧ 16 ≤ nb.size := by
  obtain ⟨h1, h2, h3, h4⟩ := h.lpost
  refine ⟨⟨h.lpre, h1 ▸ h4, ?_, h.tpre, ?_, h.pro, h.epi, h.bound⟩, h1, h2⟩
  · have := h.qr; omega
  · exact fun c hc => h.tpost c (by simp [hc])

theorem Hole.push_left {m brk pre q r post} (h : Hole m brk pre q r post) (b : Blk)
    (hb : b.bp = q) (hr : q + b.size ≤ r) (h16 : 16 ≤ b.size) (h8 : b.size % 8 = 0)
    (ht : Tagged m b) : Hole m brk (pre ++ [b]) (q + b.size) r post := by
  refine ⟨(Layout_split pre b [] 96 _).2 ⟨hb ▸ h.lpre, h16, h8, ?_⟩, h.lpost, hr, ?_, h.tpost,
    h.pro, h.epi, h.bound⟩
  · rw [hb]; rfl
  · intro c hc
    rcases List.mem_append.1 hc with hc | hc
    · exact h.tpre c hc
    · rw [List.mem_singleton.1 hc]; exact ht

theorem Heap.frame_links {m brk bs} (h : Heap m brk bs) {L : Nat → List Nat} (hL : SubL L bs)
    (m' : Mem) (hf : ∀ a, ¬ LinkArea L a → m' a = m a) : Heap m' brk bs := by
  apply Hole.heap_end
  apply h.hole_end.frame (L := L) (by simpa using hL)
  intro a h1 _
  exact hf a h1

/-- Writing the two tag words of a block. -/
theorem Tagged_put (m : Mem) (b : Blk) (h16 : 16 ≤ b.size) (hlt : b.size < 2 ^ 32)
    (h8 : b.size % 8 = 0) (hbp : 4 ≤ b.bp) :
    Tagged (PUT (PUT m (b.bp - 4) (tag b.size b.alloc)) (b.bp + b.size - 8) (tag b.size b.alloc))
      b := by
  have ht : tag b.size b.alloc < 2 ^ 32 := by
    unfold tag; split <;> omega
  constructor
  · rw [GET_PUT_other _ _ _ _ (by omega), GET_PUT_eq _ _ _ ht]
  · rw [GET_PUT_eq _ _ _ ht]

theorem list_index_loop_le (fuel size idx : Nat) : list_index_loop fuel size idx ≤ idx + fuel := by
  induction fuel generalizing size idx with
  | zero => simp [list_index_loop]
  | succ n ih =>
    simp only [list_index_loop]
    split
    · have := ih (size >>> 1) (idx + 1); omega
    · omega

theorem list_index_lt (size : Nat) : list_index size < 10 := by
  unfold list_index
  simp only [LIST_NUM]
  split <;> omega

theorem ListsOf_insert (L : Nat → List Nat) (pre post : List Blk) (nb : Blk)
    (h : ListsOf L (pre ++ post)) (hf : nb.alloc = false) :
    ListsOf (Function.update L (list_index nb.size) (nb.bp :: L (list_index nb.size)))
      (pre ++ nb :: post) := by
  intro i hi y
  by_cases e : i = list_index nb.size
  · subst e
    rw [Function.update_same, List.mem_cons, h _ hi y]
    constructor
    · rintro (h1 | ⟨b, hb, h2⟩)
      · exact ⟨nb, by simp, h1.symm, hf, rfl⟩
      · refine ⟨b, ?_, h2⟩
        rcases List.mem_append.1 hb with hb | hb
        · simp [hb]
        · simp [hb]
    · rintro ⟨b, hb, h2⟩
      rcases List.mem_append.1 hb with hb | hb
      · exact Or.inr ⟨b, by simp [hb], h2⟩
      · rcases List.mem_cons.1 hb with e | hb
        · subst e; exact Or.inl h2.1.symm
        · exact Or.inr ⟨b, by simp [hb], h2⟩
  · rw [Function.update_noteq e, h _ hi y]
    constructor
    · rintro ⟨b, hb, h2⟩
      refine ⟨b, ?_, h2⟩
      rcases List.mem_append.1 hb with hb | hb
      · simp [hb]
      · simp [hb]
    · rintro ⟨b, hb, h2⟩
      rcases List.mem_append.1 hb with hb | hb
      · exact ⟨b, by simp [hb], h2⟩
      · rcases List.mem_cons.1 hb with e' | hb
        · subst e'; exact absurd h2.2.2.symm e
        · exact ⟨b, by simp [hb], h2⟩

theorem ListsOf_alloc (L : Nat → List Nat) (pre post : List Blk) (b : Blk)
    (hf : b.alloc = true) : ListsOf L (pre ++ b :: post) ↔ ListsOf L (pre ++ post) := by
  have key : ∀ i y, (∃ c ∈ pre ++ b :: post, c.bp = y ∧ c.alloc = false ∧ list_index c.size = i) ↔
      (∃ c ∈ pre ++ post, c.bp = y ∧ c.alloc = false ∧ list_index c.size = i) := by
    intro i y
    constructor
    · rintro ⟨c, hc, h2⟩
      rcases List.mem_append.1 hc with hc | hc
      · exact ⟨c, by simp [hc], h2⟩
      · rcases List.mem_cons.1 hc with e | hc
        · subst e; rw [hf] at h2; simp at h2
        · exact ⟨c, by simp [hc], h2⟩
    · rintro ⟨c, hc, h2⟩
      refine ⟨c, ?_, h2⟩
      rcases List.mem_append.1 hc with hc | hc
      · simp [hc]
      · simp [hc]
  constructor
  · intro h i hi y; rw [h i hi y, key]
  · intro h i hi y; rw [h i hi y, key]

theorem ListsOf_erase (L : Nat → List Nat) (pre post : List Blk) (b : Blk) (p e : Nat)
    (h : ListsOf L (pre ++ b :: post)) (hl : Layout p (pre ++ b :: post) e)
    (hnd : (L (list_index b.size)).Nodup) :
    ListsOf (Function.update L (list_index b.size) ((L (list_index b.size)).erase b.bp))
      (pre ++ post) := by
  have hne : ∀ c ∈ pre ++ post, c.bp ≠ b.bp := by
    intro c hc hcb
    have hl' := (Layout_split pre b post p e).1 hl
    rcases List.mem_append.1 hc with hc | hc
    · have := Layout_mem _ _ _ hl'.1 c hc; omega
    · have := Layout_mem _ _ _ hl'.2.2.2 c hc; omega
  have key : ∀ i y, y ≠ b.bp →
      ((∃ c ∈ pre ++ b :: post, c.bp = y ∧ c.alloc = false ∧ list_index c.size = i) ↔
      (∃ c ∈ pre ++ post, c.bp = y ∧ c.alloc = false ∧ list_index c.size = i)) := by
    intro i y hy
    constructor
    · rintro ⟨c, hc, h2⟩
      rcases List.mem_append.1 hc with hc | hc
      · exact ⟨c, by simp [hc], h2⟩
      · rcases List.mem_cons.1 hc with e | hc
        · subst e; exact absurd h2.1 (Ne.symm hy)
        · exact ⟨c, by simp [hc], h2⟩
    · rintro ⟨c, hc, h2⟩
      refine ⟨c, ?_, h2⟩
      rcases List.mem_append.1 hc with hc | hc
      · simp [hc]
      · simp [hc]
  intro i hi y
  by_cases e : i = list_index b.size
  · subst e
    rw [Function.update_same, hnd.mem_erase_iff]
    constructor
    · rintro ⟨h1, h2⟩
      exact (key _ y h1).1 ((h _ hi y).1 h2)
    · rintro ⟨c, hc, h2⟩
      have hy : y ≠ b.bp := h2.1 ▸ hne c hc
      exact ⟨hy, (h _ hi y).2 ((key _ y hy).2 ⟨c, hc, h2⟩)⟩
  · rw [Function.update_noteq e, h i hi y]
    constructor
    · rintro ⟨c, hc, h2⟩
      rcases List.mem_append.1 hc with hc | hc
      · exact ⟨c, by simp [hc], h2⟩
      · rcases List.mem_cons.1 hc with e' | hc
        · subst e'; exact absurd h2.2.2.symm e
        · exact ⟨c, by simp [hc], h2⟩
    · rintro ⟨c, hc, h2⟩
      refine ⟨c, ?_, h2⟩
      rcases List.mem_append.1 hc with hc | hc
      · simp [hc]
      · simp [hc]

theorem NoAdj_insert_free (pre post : List Blk) (nb : Blk) (h1 : NoAdj pre) (h2 : NoAdj post)
    (hp : ∀ x ∈ pre.getLast?, x.alloc = true) (hq : ∀ y ∈ post.head?, y.alloc = true) :
    NoAdj (pre ++ nb :: post) := by
  unfold NoAdj at *
  rw [List.chain'_append]
  refine ⟨h1, ?_, ?_⟩
  · rw [List.chain'_cons']
    exact ⟨fun y hy => Or.inr (hq y hy), h2⟩
  · intro x hx y hy
    exact Or.inl (hp x hx)

theorem NoAdj_split (pre post : List Blk) (b : Blk) (h : NoAdj (pre ++ b :: post)) :
    NoAdj pre ∧ NoAdj post ∧ (b.alloc = false → (∀ x ∈ pre.getLast?, x.alloc = true) ∧
      (∀ y ∈ post.head?, y.alloc = true)) := by
  unfold NoAdj at *
  rw [List.chain'_append, List.chain'_cons'] at h
  refine ⟨h.1, h.2.1.2, fun hb => ⟨?_, ?_⟩⟩
  · intro x hx
    have := h.2.2 x hx b (by simp)
    simpa [hb] using this
  · intro y hy
    have := h.2.1.1 y hy
    simpa [hb] using this

theorem NoAdj_insert_alloc (pre post : List Blk) (b : Blk) (h1 : NoAdj pre) (h2 : NoAdj post)
    (hb : b.alloc = true) : NoAdj (pre ++ b :: post) := by
  unfold NoAdj at *
  rw [List.chain'_append]
  refine ⟨h1, ?_, ?_⟩
  · rw [List.chain'_cons']
    exact ⟨fun y _ => Or.inl hb, h2⟩
  · intro x _ y hy
    simp at hy
    exact Or.inr (hy ▸ hb)

/-- Closing a hole with one free block: write its tags and insert it in the
list of its size class. -/
theorem fill_free (m : Mem) (brk : Nat) (pre post : List Blk) (q S : Nat) (L : Nat → List Nat)
    (h : Hole m brk pre q (q + S) post) (h16 : 16 ≤ S) (h8 : S % 8 = 0)
    (hl : Lists m L) (hm : ListsOf L (pre ++ post)) (hn1 : NoAdj pre) (hn2 : NoAdj post)
    (hp : ∀ x ∈ pre.getLast?, x.alloc = true) (hq : ∀ y ∈ post.head?, y.alloc = true) :
    Inv ⟨ins_free_blk (PUT (PUT m (q - 4) (tag S false)) (q + S - 8) (tag S false)) q
          (list_index S), brk⟩
      (pre ++ ⟨q, S, false⟩ :: post)
      (Function.update L (list_index S) (q :: L (list_index S))) ∧
    ∀ a, ¬ LinkArea L a → ¬ (q - 4 ≤ a ∧ a < q + S - 4) →
      ins_free_blk (PUT (PUT m (q - 4) (tag S false)) (q + S - 8) (tag S false)) q
          (list_index S) a = m a := by
  have hsub := hm.subL
  have hqm := h.q_mod
  have hr := h.r_le
  have hbd := h.bound
  have hidx := list_index_lt S
  have ht := Tagged_put m ⟨q, S, false⟩ h16 (by simp only; omega) h8 (by simp only; omega)
  have hf2 : ∀ a, ¬ (q - 4 ≤ a ∧ a < q + S - 4) →
      PUT (PUT m (q - 4) (tag S false)) (q + S - 8) (tag S false) a = m a := by
    intro a ha
    rw [PUT_other _ _ _ _ (by omega), PUT_other _ _ _ _ (by omega)]
  replace ht : GET (PUT (PUT m (q - 4) (tag S false)) (q + S - 8) (tag S false)) (q - 4) =
      tag S false ∧ GET (PUT (PUT m (q - 4) (tag S false)) (q + S - 8) (tag S false))
      (q + S - 8) = tag S false := ht
  generalize PUT (PUT m (q - 4) (tag S false)) (q + S - 8) (tag S false) = m2 at ht hf2 ⊢
  have hl2 : Lists m2 L := by
    apply Lists_frame m m2 L hl
    intro a ha
    apply hf2
    intro hc
    exact h.hole_not_link hsub a hc.1 (by omega) ha
  have hqL : ∀ j, j < 10 → q ∉ L j := by
    intro j hj hc
    obtain ⟨c, hc1, hc2⟩ := hsub j hj q hc
    have := h.mem c hc1
    omega
  have hins := ins_frame m2 L hl2 (list_index S) q hidx hqm.2 hqm.1 hqL
  have hfr : ∀ a, ¬ LinkArea L a → ¬ (q - 4 ≤ a ∧ a < q + S - 4) →
      ins_free_blk m2 q (list_index S) a = m a := by
    intro a h1 h2
    rw [hins a h1 (by omega)]
    exact hf2 a h2
  refine ⟨⟨?_, ?_, ?_, ?_⟩, hfr⟩
  · have hh : Hole (ins_free_blk m2 q (list_index S)) brk pre q (q + S) post :=
      h.frame hsub _ (fun a h1 h2 => hfr a h1 (by omega))
    apply hh.fill ⟨q, S, false⟩ rfl rfl h16 h8
    show GET _ (q - 4) = tag S false ∧ GET _ (q + S - 8) = tag S false
    constructor
    · rw [← ht.1]
      apply GET_congr
      intro a h1 h2
      exact hins a (h.hole_not_link hsub a (by omega) (by omega)) (by omega)
    · rw [← ht.2]
      apply GET_congr
      intro a h1 h2
      exact hins a (h.hole_not_link hsub a (by omega) (by omega)) (by omega)
  · exact ins_Lists m2 L hl2 (list_index S) q hidx hqm.2 hqm.1 (by omega) hqL
  · exact ListsOf_insert L pre post ⟨q, S, false⟩ hm rfl
  · exact NoAdj_insert_free pre post _ hn1 hn2 hp hq

theorem PUT_GET_self (m : Mem) (p v : Nat) (h : GET m p = v) : PUT m p v = m := by
  funext a
  unfold PUT byteOf
  unfold GET at h
  have h0 := (m p).isLt
  have h1 := (m (p + 1)).isLt
  have h2 := (m (p + 2)).isLt
  have h3 := (m (p + 3)).isLt
  split
  · next e => subst e; apply Fin.ext; simp only; omega
  · split
    · next e => subst e; apply Fin.ext; simp only; omega
    · split
      · next e => subst e; apply Fin.ext; simp only; omega
      · split
        · next e => subst e; apply Fin.ext; simp only; omega
        · rfl

theorem LinkArea_erase (L : Nat → List Nat) (i y a : Nat)
    (h : LinkArea (Function.update L i ((L i).erase y)) a) : LinkArea L a := by
  rcases h with h | ⟨j, hj, z, hz, h1, h2⟩
  · exact Or.inl h
  · right
    refine ⟨j, hj, z, ?_, h1, h2⟩
    by_cases e : j = i
    · subst e
      rw [Function.update_same] at hz
      exact List.mem_of_mem_erase hz
    · rw [Function.update_noteq e] at hz
      exact hz

theorem LinkArea_cons (L : Nat → List Nat) (i y a : Nat)
    (h : LinkArea (Function.update L i (y :: L i)) a) : LinkArea L a ∨ (y ≤ a ∧ a < y + 8) := by
  rcases h with h | ⟨j, hj, z, hz, h1, h2⟩
  · exact Or.inl (Or.inl h)
  · by_cases e : j = i
    · subst e
      rw [Function.update_same] at hz
      rcases List.mem_cons.1 hz with e | hz
      · subst e; exact Or.inr ⟨h1, h2⟩
      · exact Or.inl (Or.inr ⟨j, hj, z, hz, h1, h2⟩)
    · rw [Function.update_noteq e] at hz
      exact Or.inl (Or.inr ⟨j, hj, z, hz, h1, h2⟩)

/-! ## Reading the neighbours of a block -/

theorem tag_lt (s : Nat) (a : Bool) (h : s + 1 < 2 ^ 32) : tag s a < 2 ^ 32 := by
  unfold tag; split <;> omega

theorem Hole.prev_nil {m brk q r post} (h : Hole m brk [] q r post) :
    q = 96 ∧ GET_ALLOC m (FTRP m (PREV_BLKP m q)) = 1 := by
  have hq : 96 = q := h.lpre
  subst hq
  have h1 : GET_SIZE m 88 = 8 := GET_SIZE_tag m 88 8 true (by decide) h.pro.2
  have h2 : GET_SIZE m 84 = 8 := GET_SIZE_tag m 84 8 true (by decide) h.pro.1
  refine ⟨rfl, ?_⟩
  simp only [PREV_BLKP, FTRP, HDRP, DSIZE, WSIZE, h1, h2]
  exact GET_ALLOC_tag m 88 8 true (by decide) h.pro.2

theorem Hole.prev_cons {m brk pre pb q r post} (h : Hole m brk (pre ++ [pb]) q r post) :
    PREV_BLKP m q = pb.bp ∧ FTRP m pb.bp = q - 8 ∧
    GET_ALLOC m (q - 8) = (if pb.alloc then 1 else 0) ∧ GET_SIZE m (pb.bp - 4) = pb.size ∧
    96 ≤ pb.bp ∧ pb.bp + pb.size = q := by
  have hb := h.mem_pre pb (by simp)
  have hg := h.grow_left
  have ht := h.tpre pb (by simp)
  have e : pb.bp + pb.size - 8 = q - 8 := by omega
  unfold Tagged at ht
  rw [e] at ht
  have h1 : GET_SIZE m (q - 8) = pb.size := GET_SIZE_tag m _ _ _ hb.2.2.2.1 ht.2
  have h2 : GET_SIZE m (pb.bp - 4) = pb.size := GET_SIZE_tag m _ _ _ hb.2.2.2.1 ht.1
  have h3 : PREV_BLKP m q = pb.bp := by
    simp only [PREV_BLKP, DSIZE, h1]; omega
  refine ⟨h3, ?_, GET_ALLOC_tag m _ _ _ hb.2.2.2.1 ht.2, h2, hb.1, hg.2.1⟩
  simp only [FTRP, HDRP, WSIZE, DSIZE, h2]; omega

theorem Hole.next_nil {m brk pre q r} (h : Hole m brk pre q r []) :
    r = brk ∧ GET_ALLOC m (r - 4) = 1 := by
  have hr : r = brk := h.lpost
  subst hr
  exact ⟨rfl, GET_ALLOC_tag m _ 0 true (by decide) h.epi⟩

theorem Hole.next_cons {m brk pre q r nb post} (h : Hole m brk pre q r (nb :: post)) :
    nb.bp = r ∧ GET_ALLOC m (r - 4) = (if nb.alloc then 1 else 0) ∧
    GET_SIZE m (r - 4) = nb.size := by
  have hb := h.mem_post nb (by simp)
  have hg := h.grow_right
  have ht := h.tpost nb (by simp)
  unfold Tagged at ht
  rw [hg.2.1] at ht
  exact ⟨hg.2.1, GET_ALLOC_tag m _ _ _ hb.2.2.2.1 ht.1, GET_SIZE_tag m _ _ _ hb.2.2.2.1 ht.1⟩

/-- Unlinking a listed block next to a hole. -/
theorem del_step (m : Mem) (brk : Nat) (pre post : List Blk) (q r : Nat) (L : Nat → List Nat)
    (c : Blk) (h : Hole m brk pre q r post) (hl : Lists m L) (hs : SubL L (pre ++ post))
    (hcl : c.bp ∈ L (list_index c.size)) :
    Lists (del_free_blk m c.bp)
      (Function.update L (list_index c.size) ((L (list_index c.size)).erase c.bp)) ∧
    Hole (del_free_blk m c.bp) brk pre q r post ∧
    (∀ a, ¬ LinkArea L a → del_free_blk m c.bp a = m a) := by
  have hidx := list_index_lt c.size
  have hfr := del_frame m L hl _ c.bp hidx hcl
  exact ⟨del_Lists m L hl _ c.bp hidx hcl, h.frame hs _ (fun a h1 _ => hfr a h1), hfr⟩

theorem ListsOf_remove (L : Nat → List Nat) (pre post : List Blk) (b : Blk)
    (h : ListsOf L (pre ++ b :: post)) (hne : ∀ c ∈ pre ++ post, c.bp ≠ b.bp)
    (hnd : (L (list_index b.size)).Nodup) :
    ListsOf (Function.update L (list_index b.size) ((L (list_index b.size)).erase b.bp))
      (pre ++ post) := by
  have key : ∀ i y, y ≠ b.bp →
      ((∃ c ∈ pre ++ b :: post, c.bp = y ∧ c.alloc = false ∧ list_index c.size = i) ↔
      (∃ c ∈ pre ++ post, c.bp = y ∧ c.alloc = false ∧ list_index c.size = i)) := by
    intro i y hy
    constructor
    · rintro ⟨c, hc, h2⟩
      rcases List.mem_append.1 hc with hc | hc
      · exact ⟨c, by simp [hc], h2⟩
      · rcases List.mem_cons.1 hc with e | hc
        · subst e; exact absurd h2.1 (Ne.symm hy)
        · exact ⟨c, by simp [hc], h2⟩
    · rintro ⟨c, hc, h2⟩
      refine ⟨c, ?_, h2⟩
      rcases List.mem_append.1 hc with hc | hc
      · simp [hc]
      · simp [hc]
  intro i hi y
  by_cases e : i = list_index b.size
  · subst e
    rw [Function.update_same, hnd.mem_erase_iff]
    constructor
    · rintro ⟨h1, h2⟩
      exact (key _ y h1).1 ((h _ hi y).1 h2)
    · rintro ⟨c, hc, h2⟩
      have hy : y ≠ b.bp := h2.1 ▸ hne c hc
      exact ⟨hy, (h _ hi y).2 ((key _ y hy).2 ⟨c, hc, h2⟩)⟩
  · rw [Function.update_noteq e, h i hi y]
    constructor
    · rintro ⟨c, hc, h2⟩
      rcases List.mem_append.1 hc with hc | hc
      · exact ⟨c, by simp [hc], h2⟩
      · rcases List.mem_cons.1 hc with e' | hc
        · subst e'; exact absurd h2.2.2.symm e
        · exact ⟨c, by simp [hc], h2⟩
    · rintro ⟨c, hc, h2⟩
      refine ⟨c, ?_, h2⟩
      rcases List.mem_append.1 hc with hc | hc
      · simp [hc]
      · simp [hc]

/-! ## `coalesce` -/

theorem coalesce_eq1 (m : Mem) (q : Nat) (hp : GET_ALLOC m (FTRP m (PREV_BLKP m q)) = 1)
    (hn : GET_ALLOC m (HDRP (NEXT_BLKP m q)) = 1) :
    coalesce m q = (q, ins_free_blk m q (list_index (GET_SIZE m (HDRP q)))) := by
  unfold coalesce
  simp [hp, hn]

theorem coalesce_eq2 (m : Mem) (q : Nat) (hp : GET_ALLOC m (FTRP m (PREV_BLKP m q)) = 0)
    (hn : GET_ALLOC m (HDRP (NEXT_BLKP m q)) = 1) :
    coalesce m q =
      (let m1 := del_free_blk m (PREV_BLKP m q)
       let bp' := PREV_BLKP m1 q
       let size' := GET_SIZE m (HDRP q) + GET_SIZE m1 (HDRP bp')
       let m2 := PUT m1 (HDRP bp') (PACK size' FREE)
       let m3 := PUT m2 (FTRP m2 bp') (PACK size' FREE)
       (bp', ins_free_blk m3 bp' (list_index size'))) := by
  unfold coalesce
  simp [hp, hn]

theorem coalesce_eq3 (m : Mem) (q : Nat) (hp : GET_ALLOC m (FTRP m (PREV_BLKP m q)) = 1)
    (hn : GET_ALLOC m (HDRP (NEXT_BLKP m q)) = 0) :
    coalesce m q =
      (let m1 := del_free_blk m (NEXT_BLKP m q)
       let size' := GET_SIZE m (HDRP q) + GET_SIZE m1 (HDRP (NEXT_BLKP m1 q))
       let m2 := PUT m1 (HDRP q) (PACK size' FREE)
       let m3 := PUT m2 (FTRP m2 q) (PACK size' FREE)
       (q, ins_free_blk m3 q (list_index size'))) := by
  unfold coalesce
  simp [hp, hn]

theorem coalesce_eq4 (m : Mem) (q : Nat) (hp : GET_ALLOC m (FTRP m (PREV_BLKP m q)) = 0)
    (hn : GET_ALLOC m (HDRP (NEXT_BLKP m q)) = 0) :
    coalesce m q =
      (let m1 := del_free_blk m (PREV_BLKP m q)
       let m2 := del_free_blk m1 (NEXT_BLKP m1 q)
       let size' := GET_SIZE m (HDRP q) + GET_SIZE m2 (HDRP (PREV_BLKP m2 q))
       let size'' := size' + GET_SIZE m2 (HDRP (NEXT_BLKP m2 q))
       let bp' := PREV_BLKP m2 q
       let m3 := PUT m2 (HDRP bp') (PACK size'' FREE)
       let m4 := PUT m3 (FTRP m3 bp') (PACK size'' FREE)
       (bp', ins_free_blk m4 bp' (list_index size''))) := by
  unfold coalesce
  simp [hp, hn]

theorem FTRP_PUT_hdr (m : Mem) (bp T : Nat) (a : Bool) (h8 : T % 8 = 0) (hlt : T + 1 < 2 ^ 32) :
    FTRP (PUT m (bp - 4) (tag T a)) bp = bp + T - 8 := by
  simp only [FTRP, HDRP, WSIZE, DSIZE]
  rw [GET_SIZE_tag _ _ T a h8 (GET_PUT_eq _ _ _ (tag_lt T a hlt))]

theorem Hole.ne_of_mem {m brk pre q r post} (h : Hole m brk pre q r post) (b : Blk)
    (hb : b ∈ pre ++ post) (c : Blk) (hc : c ∈ pre ++ post) (hbc : c.bp = b.bp) : c = b := by
  have h1 := h.mem b hb
  have h2 := h.mem c hc
  rcases h.sep b c hb hc with e | e | e
  · exact e.symm
  · omega
  · omega

theorem coalesce_prev (m : Mem) (brk : Nat) (pre post : List Blk) (pb : Blk) (q S : Nat)
    (L : Nat → List Nat) (h : Hole m brk (pre ++ [pb]) q (q + S) post)
    (ht : Tagged m ⟨q, S, false⟩) (h16 : 16 ≤ S) (h8 : S % 8 = 0)
    (hl : Lists m L) (hm : ListsOf L (pre ++ pb :: post)) (hn1 : NoAdj (pre ++ [pb]))
    (hn2 : NoAdj post) (hpf : pb.alloc = false) (hq : ∀ y ∈ post.head?, y.alloc = true) :
    (coalesce m q).1 = pb.bp ∧
    Inv ⟨(coalesce m q).2, brk⟩ (pre ++ ⟨pb.bp, S + pb.size, false⟩ :: post)
      (Lins (Ldel L pb) ⟨pb.bp, S + pb.size, false⟩) ∧
    ∀ a, ¬ LinkArea L a → ¬ (pb.bp - 4 ≤ a ∧ a < q + S - 4) → (coalesce m q).2 a = m a := by
  have hm' : ListsOf L ((pre ++ [pb]) ++ post) := by simpa using hm
  have hpr := h.prev_cons
  have hbd := h.bound
  have hr := h.r_le
  have hqm := h.q_mod
  have hpbm := h.mem_pre pb (by simp)
  -- what `coalesce` reads
  have hS : GET_SIZE m (HDRP q) = S := GET_SIZE_tag m _ S false h8 ht.1
  have hnx : NEXT_BLKP m q = q + S := by
    simp only [NEXT_BLKP, WSIZE]
    rw [GET_SIZE_tag m _ S false h8 ht.1]
  have hna : GET_ALLOC m (HDRP (NEXT_BLKP m q)) = 1 := by
    rw [hnx]
    cases post with
    | nil => exact h.next_nil.2
    | cons nb post =>
      have := h.next_cons
      rw [hq nb (by simp)] at this
      exact this.2.1
  have hpa : GET_ALLOC m (FTRP m (PREV_BLKP m q)) = 0 := by
    rw [hpr.1, hpr.2.1, hpr.2.2.1, hpf]; rfl
  -- the unlinking
  obtain ⟨hl1, hh1, hf1⟩ := del_step m brk _ post q (q + S) L pb h hl hm'.subL
    ((hm _ (list_index_lt _) pb.bp).2 ⟨pb, by simp, rfl, hpf, rfl⟩)
  have hpr1 := hh1.prev_cons
  obtain ⟨hg, -, -⟩ := hh1.grow_left
  have e1 : q + S = pb.bp + (S + pb.size) := by omega
  rw [e1] at hg
  have hm1 : ListsOf (Ldel L pb) (pre ++ post) := by
    apply ListsOf_remove L pre post pb hm _ (hl.nodup _ (list_index_lt _))
    intro c hc hcb
    have hc' : c ∈ (pre ++ [pb]) ++ post := by
      rcases List.mem_append.1 hc with hc | hc
      · simp [hc]
      · simp [hc]
    have := h.ne_of_mem pb (by simp) c hc' hcb
    subst this
    rcases List.mem_append.1 hc with hc | hc
    · have := hg.mem_pre c hc; omega
    · have := hg.mem_post c hc; omega
  have hns := NoAdj_split pre [] pb hn1
  obtain ⟨hinv, hfr⟩ := fill_free (del_free_blk m pb.bp) brk pre post pb.bp (S + pb.size)
    (Ldel L pb) hg (by omega) (by omega) hl1 hm1 hns.1 hn2 (hns.2.2 hpf).1 hq
  have hT : S + pb.size + 1 < 2 ^ 32 := by omega
  have hc : coalesce m q = (pb.bp, ins_free_blk
      (PUT (PUT (del_free_blk m pb.bp) (pb.bp - 4) (tag (S + pb.size) false))
        (pb.bp + (S + pb.size) - 8) (tag (S + pb.size) false)) pb.bp
      (list_index (S + pb.size))) := by
    rw [coalesce_eq2 m q hpa hna]
    simp only [hpr.1, hpr1.1, hS]
    simp only [HDRP, WSIZE, hpr1.2.2.2.1, PACK_FREE,
      FTRP_PUT_hdr _ _ _ _ (show (S + pb.size) % 8 = 0 by omega) hT]
  rw [hc]
  refine ⟨rfl, hinv, ?_⟩
  intro a h1 h2
  simp only
  rw [hfr a (fun hc => h1 (LinkArea_erase L _ _ a hc)) (by omega)]
  exact hf1 a h1

theorem prev_alloc_read {m brk pre q r post} (h : Hole m brk pre q r post)
    (hp : ∀ x ∈ pre.getLast?, x.alloc = true) : GET_ALLOC m (FTRP m (PREV_BLKP m q)) = 1 := by
  rcases List.eq_nil_or_concat pre with e | ⟨pre', pb, e⟩
  · subst e; exact h.prev_nil.2
  · rw [List.concat_eq_append] at e
    subst e
    have hpr := h.prev_cons
    rw [hpr.1, hpr.2.1, hpr.2.2.1, hp pb (by simp)]
    rfl

theorem next_alloc_read {m brk pre q r post} (h : Hole m brk pre q r post)
    (hq : ∀ y ∈ post.head?, y.alloc = true) : GET_ALLOC m (r - 4) = 1 := by
  cases post with
  | nil => exact h.next_nil.2
  | cons nb post =>
    have := h.next_cons
    rw [hq nb (by simp)] at this
    exact this.2.1

theorem coalesce_none (m : Mem) (brk : Nat) (pre post : List Blk) (q S : Nat)
    (L : Nat → List Nat) (h : Hole m brk pre q (q + S) post)
    (ht : Tagged m ⟨q, S, false⟩) (h16 : 16 ≤ S) (h8 : S % 8 = 0)
    (hl : Lists m L) (hm : ListsOf L (pre ++ post)) (hn1 : NoAdj pre)
    (hn2 : NoAdj post) (hp : ∀ x ∈ pre.getLast?, x.alloc = true)
    (hq : ∀ y ∈ post.head?, y.alloc = true) :
    (coalesce m q).1 = q ∧
    Inv ⟨(coalesce m q).2, brk⟩ (pre ++ ⟨q, S, false⟩ :: post) (Lins L ⟨q, S, false⟩) ∧
    ∀ a, ¬ LinkArea L a → ¬ (q - 4 ≤ a ∧ a < q + S - 4) → (coalesce m q).2 a = m a := by
  have hS : GET_SIZE m (HDRP q) = S := GET_SIZE_tag m _ S false h8 ht.1
  have hnx : NEXT_BLKP m q = q + S := by
    simp only [NEXT_BLKP, WSIZE]
    rw [GET_SIZE_tag m _ S false h8 ht.1]
  have hna : GET_ALLOC m (HDRP (NEXT_BLKP m q)) = 1 := by
    rw [hnx]; exact next_alloc_read h hq
  have hpa := prev_alloc_read h hp
  obtain ⟨hinv, hfr⟩ := fill_free m brk pre post q S L h h16 h8 hl hm hn1 hn2 hp hq
  have e2 : PUT (PUT m (q - 4) (tag S false)) (q + S - 8) (tag S false) = m := by
    rw [PUT_GET_self m (q - 4) _ ht.1, PUT_GET_self m (q + S - 8) _ ht.2]
  rw [e2] at hinv hfr
  have hc : coalesce m q = (q, ins_free_blk m q (list_index S)) := by
    rw [coalesce_eq1 m q hpa hna, hS]
  rw [hc]
  exact ⟨rfl, hinv, hfr⟩

theorem coalesce_next (m : Mem) (brk : Nat) (pre post : List Blk) (nb : Blk) (q S : Nat)
    (L : Nat → List Nat) (h : Hole m brk pre q (q + S) (nb :: post))
    (ht : Tagged m ⟨q, S, false⟩) (h16 : 16 ≤ S) (h8 : S % 8 = 0)
    (hl : Lists m L) (hm : ListsOf L (pre ++ nb :: post)) (hn1 : NoAdj pre)
    (hn2 : NoAdj (nb :: post)) (hnf : nb.alloc = false)
    (hp : ∀ x ∈ pre.getLast?, x.alloc = true) :
    (coalesce m q).1 = q ∧
    Inv ⟨(coalesce m q).2, brk⟩ (pre ++ ⟨q, S + nb.size, false⟩ :: post)
      (Lins (Ldel L nb) ⟨q, S + nb.size, false⟩) ∧
    ∀ a, ¬ LinkArea L a → ¬ (q - 4 ≤ a ∧ a < q + S + nb.size - 4) →
      (coalesce m q).2 a = m a := by
  have hnc := h.next_cons
  have hbd := h.bound
  have hqm := h.q_mod
  have hnbm := h.mem_post nb (by simp)
  have hS : GET_SIZE m (HDRP q) = S := GET_SIZE_tag m _ S false h8 ht.1
  have hnx : NEXT_BLKP m q = nb.bp := by
    simp only [NEXT_BLKP, WSIZE]
    rw [GET_SIZE_tag m _ S false h8 ht.1, hnc.1]
  have hna : GET_ALLOC m (HDRP (NEXT_BLKP m q)) = 0 := by
    rw [hnx, hnc.1]
    have := hnc.2.1
    rw [hnf] at this
    exact this
  have hpa := prev_alloc_read h hp
  have e0 : q + S = nb.bp := hnc.1.symm
  obtain ⟨hl1, hh1, hf1⟩ := del_step m brk pre (nb :: post) q (q + S) L nb h hl hm.subL
    ((hm _ (list_index_lt _) nb.bp).2 ⟨nb, by simp, rfl, hnf, rfl⟩)
  have hnc1 := hh1.next_cons
  obtain ⟨hg, -, -⟩ := hh1.grow_right
  have e1 : nb.bp + nb.size = q + (S + nb.size) := by omega
  rw [e1] at hg
  have hhd : GET (del_free_blk m nb.bp) (q - 4) = tag S false := by
    rw [← ht.1]
    apply GET_congr
    intro a h1 h2
    exact hf1 a (h.hole_not_link hm.subL a (by omega) (by omega))
  have hnx1 : NEXT_BLKP (del_free_blk m nb.bp) q = nb.bp := by
    simp only [NEXT_BLKP, WSIZE]
    rw [GET_SIZE_tag _ _ S false h8 hhd, hnc.1]
  have hm1 : ListsOf (Ldel L nb) (pre ++ post) := by
    apply ListsOf_remove L pre post nb hm _ (hl.nodup _ (list_index_lt _))
    intro c hc hcb
    rcases List.mem_append.1 hc with hc | hc
    · have := hg.mem_pre c hc; omega
    · have := hg.mem_post c hc; omega
  have hns := NoAdj_split [] post nb hn2
  obtain ⟨hinv, hfr⟩ := fill_free (del_free_blk m nb.bp) brk pre post q (S + nb.size)
    (Ldel L nb) hg (by omega) (by omega) hl1 hm1 hn1 hns.2.1 hp (hns.2.2 hnf).2
  have hr := hg.r_le
  have hT : S + nb.size + 1 < 2 ^ 32 := by omega
  have hc : coalesce m q = (q, ins_free_blk
      (PUT (PUT (del_free_blk m nb.bp) (q - 4) (tag (S + nb.size) false))
        (q + (S + nb.size) - 8) (tag (S + nb.size) false)) q
      (list_index (S + nb.size))) := by
    have hsz : GET_SIZE (del_free_blk m nb.bp) (nb.bp - 4) = nb.size := by
      have := hnc1.2.2
      rw [← hnc.1] at this
      exact this
    rw [coalesce_eq3 m q hpa hna]
    simp only [hnx, hnx1, hS]
    simp only [HDRP, WSIZE, hsz, PACK_FREE,
      FTRP_PUT_hdr _ _ _ _ (show (S + nb.size) % 8 = 0 by omega) hT]
  rw [hc]
  refine ⟨rfl, hinv, ?_⟩
  intro a h1 h2
  simp only
  rw [hfr a (fun hc => h1 (LinkArea_erase L _ _ a hc)) (by omega)]
  exact hf1 a h1

theorem SubL_Ldel (L : Nat → List Nat) (b : Blk) (bs : List Blk) (h : SubL L bs) :
    SubL (Ldel L b) bs := by
  intro i hi y hy
  apply h i hi y
  unfold Ldel at hy
  by_cases e : i = list_index b.size
  · subst e
    rw [Function.update_same] at hy
    exact List.mem_of_mem_erase hy
  · rw [Function.update_noteq e] at hy
    exact hy

theorem mem_Ldel (L : Nat → List Nat) (b : Blk) (i y : Nat) (h : y ∈ L i) (hy : y ≠ b.bp) :
    y ∈ Ldel L b i := by
  unfold Ldel
  by_cases e : i = list_index b.size
  · subst e
    rw [Function.update_same]
    exact (List.mem_erase_of_ne hy).2 h
  · rw [Function.update_noteq e]
    exact h

theorem coalesce_both (m : Mem) (brk : Nat) (pre post : List Blk) (pb nb : Blk) (q S : Nat)
    (L : Nat → List Nat) (h : Hole m brk (pre ++ [pb]) q (q + S) (nb :: post))
    (ht : Tagged m ⟨q, S, false⟩) (h16 : 16 ≤ S) (h8 : S % 8 = 0)
    (hl : Lists m L) (hm : ListsOf L (pre ++ pb :: nb :: post)) (hn1 : NoAdj (pre ++ [pb]))
    (hn2 : NoAdj (nb :: post)) (hpf : pb.alloc = false) (hnf : nb.alloc = false) :
    (coalesce m q).1 = pb.bp ∧
    Inv ⟨(coalesce m q).2, brk⟩ (pre ++ ⟨pb.bp, S + pb.size + nb.size, false⟩ :: post)
      (Lins (Ldel (Ldel L pb) nb) ⟨pb.bp, S + pb.size + nb.size, false⟩) ∧
    ∀ a, ¬ LinkArea L a → ¬ (pb.bp - 4 ≤ a ∧ a < q + S + nb.size - 4) →
      (coalesce m q).2 a = m a := by
  have hm' : ListsOf L ((pre ++ [pb]) ++ nb :: post) := by simpa using hm
  have hpr := h.prev_cons
  have hnc := h.next_cons
  have hbd := h.bound
  have hqm := h.q_mod
  have hpbm := h.mem_pre pb (by simp)
  have hnbm := h.mem_post nb (by simp)
  have hS : GET_SIZE m (HDRP q) = S := GET_SIZE_tag m _ S false h8 ht.1
  have hnx : NEXT_BLKP m q = nb.bp := by
    simp only [NEXT_BLKP, WSIZE]
    rw [GET_SIZE_tag m _ S false h8 ht.1, hnc.1]
  have hna : GET_ALLOC m (HDRP (NEXT_BLKP m q)) = 0 := by
    rw [hnx, hnc.1]
    have := hnc.2.1
    rw [hnf] at this
    exact this
  have hpa : GET_ALLOC m (FTRP m (PREV_BLKP m q)) = 0 := by
    rw [hpr.1, hpr.2.1, hpr.2.2.1, hpf]; rfl
  -- first unlinking
  obtain ⟨hl1, hh1, hf1⟩ := del_step m brk _ _ q (q + S) L pb h hl hm'.subL
    ((hm _ (list_index_lt _) pb.bp).2 ⟨pb, by simp, rfl, hpf, rfl⟩)
  have hhd1 : GET (del_free_blk m pb.bp) (q - 4) = tag S false := by
    rw [← ht.1]
    apply GET_congr
    intro a h1 h2
    exact hf1 a (h.hole_not_link hm'.subL a (by omega) (by omega))
  have hnx1 : NEXT_BLKP (del_free_blk m pb.bp) q = nb.bp := by
    simp only [NEXT_BLKP, WSIZE]
    rw [GET_SIZE_tag _ _ S false h8 hhd1, hnc.1]
  -- second unlinking
  have hs1 : SubL (Ldel L pb) ((pre ++ [pb]) ++ nb :: post) := SubL_Ldel L pb _ hm'.subL
  have hnl : nb.bp ∈ Ldel L pb (list_index nb.size) := by
    apply mem_Ldel
    · exact (hm _ (list_index_lt _) nb.bp).2 ⟨nb, by simp, rfl, hnf, rfl⟩
    · omega
  obtain ⟨hl2, hh2, hf2⟩ := del_step _ brk _ _ q (q + S) (Ldel L pb) nb hh1 hl1 hs1 hnl
  have hpr2 := hh2.prev_cons
  have hnc2 := hh2.next_cons
  have hhd2 : GET (del_free_blk (del_free_blk m pb.bp) nb.bp) (q - 4) = tag S false := by
    rw [← hhd1]
    apply GET_congr
    intro a h1 h2
    exact hf2 a (hh1.hole_not_link hs1 a (by omega) (by omega))
  have hnx2 : NEXT_BLKP (del_free_blk (del_free_blk m pb.bp) nb.bp) q = nb.bp := by
    simp only [NEXT_BLKP, WSIZE]
    rw [GET_SIZE_tag _ _ S false h8 hhd2, hnc.1]
  have hsz2 : GET_SIZE (del_free_blk (del_free_blk m pb.bp) nb.bp) (nb.bp - 4) = nb.size := by
    have := hnc2.2.2
    rw [← hnc.1] at this
    exact this
  obtain ⟨hg0, -, -⟩ := hh2.grow_left
  obtain ⟨hg, -, -⟩ := hg0.grow_right
  have e1 : nb.bp + nb.size = pb.bp + (S + pb.size + nb.size) := by omega
  rw [e1] at hg
  have hm1 : ListsOf (Ldel L pb) (pre ++ nb :: post) := by
    apply ListsOf_remove L pre (nb :: post) pb hm _ (hl.nodup _ (list_index_lt _))
    intro c hc hcb
    rcases List.mem_append.1 hc with hc | hc
    · have := hg.mem_pre c hc; omega
    · have := hg0.mem_post c hc; omega
  have hm2 : ListsOf (Ldel (Ldel L pb) nb) (pre ++ post) := by
    apply ListsOf_remove (Ldel L pb) pre post nb hm1 _ (hl1.nodup _ (list_index_lt _))
    intro c hc hcb
    rcases List.mem_append.1 hc with hc | hc
    · have := hg.mem_pre c hc; omega
    · have := hg.mem_post c hc; omega
  have hns1 := NoAdj_split pre [] pb hn1
  have hns2 := NoAdj_split [] post nb hn2
  obtain ⟨hinv, hfr⟩ := fill_free _ brk pre post pb.bp (S + pb.size + nb.size)
    (Ldel (Ldel L pb) nb) hg (by omega) (by omega) hl2 hm2 hns1.1 hns2.2.1 (hns1.2.2 hpf).1
    (hns2.2.2 hnf).2
  have hr := hg.r_le
  have hT : S + pb.size + nb.size + 1 < 2 ^ 32 := by omega
  have hc : coalesce m q = (pb.bp, ins_free_blk
      (PUT (PUT (del_free_blk (del_free_blk m pb.bp) nb.bp) (pb.bp - 4)
          (tag (S + pb.size + nb.size) false))
        (pb.bp + (S + pb.size + nb.size) - 8) (tag (S + pb.size + nb.size) false)) pb.bp
      (list_index (S + pb.size + nb.size))) := by
    rw [coalesce_eq4 m q hpa hna]
    simp only [hpr.1, hnx1, hpr2.1, hnx2, hS]
    simp only [HDRP, WSIZE, hsz2, hpr2.2.2.2.1, PACK_FREE,
      FTRP_PUT_hdr _ _ _ _ (show (S + pb.size + nb.size) % 8 = 0 by omega) hT]
  rw [hc]
  refine ⟨rfl, hinv, ?_⟩
  intro a h1 h2
  simp only
  have h1' : ¬ LinkArea (Ldel L pb) a := fun hc => h1 (LinkArea_erase L _ _ a hc)
  rw [hfr a (fun hc => h1' (LinkArea_erase (Ldel L pb) _ _ a hc)) (by omega)]
  rw [hf2 a h1']
  exact hf1 a h1

/-- Writing the tags of a block at the start of a hole. -/
theorem put_tags_step (m : Mem) (brk : Nat) (pre post : List Blk) (q r : Nat)
    (L : Nat → List Nat) (t : Blk) (h : Hole m brk pre q r post) (hl : Lists m L)
    (hs : SubL L (pre ++ post)) (hq : t.bp = q) (hr : q + t.size ≤ r) (h16 : 16 ≤ t.size)
    (h8 : t.size % 8 = 0) :
    Hole (PUT (PUT m (q - 4) (tag t.size t.alloc)) (q + t.size - 8) (tag t.size t.alloc))
      brk pre q r post ∧
    Lists (PUT (PUT m (q - 4) (tag t.size t.alloc)) (q + t.size - 8) (tag t.size t.alloc)) L ∧
    Tagged (PUT (PUT m (q - 4) (tag t.size t.alloc)) (q + t.size - 8) (tag t.size t.alloc)) t ∧
    ∀ a, ¬ (q - 4 ≤ a ∧ a < q + t.size - 4) →
      PUT (PUT m (q - 4) (tag t.size t.alloc)) (q + t.size - 8) (tag t.size t.alloc) a = m a := by
  have hqm := h.q_mod
  have hrl := h.r_le
  have hbd := h.bound
  have hf : ∀ a, ¬ (q - 4 ≤ a ∧ a < q + t.size - 4) →
      PUT (PUT m (q - 4) (tag t.size t.alloc)) (q + t.size - 8) (tag t.size t.alloc) a = m a := by
    intro a ha
    rw [PUT_other _ _ _ _ (by omega), PUT_other _ _ _ _ (by omega)]
  refine ⟨?_, ?_, ?_, hf⟩
  · exact h.frame hs _ (fun a _ h2 => hf a (by omega))
  · apply Lists_frame m _ L hl
    intro a ha
    apply hf
    intro hc
    exact h.hole_not_link hs a hc.1 (by omega) ha
  · have := Tagged_put m t h16 (by omega) h8 (by omega)
    rw [hq] at this
    exact this

/-! ## `place` -/

theorem place_eq_split (m : Mem) (bp asize : Nat)
    (h : (GET_SIZE m (HDRP bp) + SIZE_MOD - asize) % SIZE_MOD ≥ 2 * DSIZE) :
    place m bp asize =
      (let bsize := GET_SIZE m (HDRP bp)
       let m1 := del_free_blk m bp
       let m2 := PUT m1 (HDRP bp) (PACK asize ALLOC)
       let m3 := PUT m2 (FTRP m2 bp) (PACK asize ALLOC)
       let bp' := NEXT_BLKP m3 bp
       let m4 := PUT m3 (HDRP bp') (PACK ((bsize + SIZE_MOD - asize) % SIZE_MOD) FREE)
       let m5 := PUT m4 (FTRP m4 bp') (PACK ((bsize + SIZE_MOD - asize) % SIZE_MOD) FREE)
       ins_free_blk m5 bp' (list_index ((bsize + SIZE_MOD - asize) % SIZE_MOD))) := by
  unfold place
  simp only [if_pos h]

theorem place_eq_whole (m : Mem) (bp asize : Nat)
    (h : ¬ (GET_SIZE m (HDRP bp) + SIZE_MOD - asize) % SIZE_MOD ≥ 2 * DSIZE) :
    place m bp asize =
      (let bsize := GET_SIZE m (HDRP bp)
       let m1 := del_free_blk m bp
       let m2 := PUT m1 (HDRP bp) (PACK bsize ALLOC)
       PUT m2 (FTRP m2 bp) (PACK bsize ALLOC)) := by
  unfold place
  simp only [if_neg h]

theorem size_sub (B asize : Nat) (h : asize ≤ B) (hB : B < 2 ^ 32) :
    (B + SIZE_MOD - asize) % SIZE_MOD = B - asize := by
  unfold SIZE_MOD
  omega

theorem place_whole (m : Mem) (brk : Nat) (pre post : List Blk) (b : Blk) (asize : Nat)
    (L : Nat → List Nat) (hinv : Inv ⟨m, brk⟩ (pre ++ b :: post) L) (hbf : b.alloc = false)
    (ha : asize ≤ b.size) (hsm : b.size - asize < 16) :
    Inv ⟨place m b.bp asize, brk⟩ (pre ++ ⟨b.bp, b.size, true⟩ :: post) (Ldel L b) ∧
    ∀ a, ¬ LinkArea L a → ¬ (b.bp - 4 ≤ a ∧ a < b.bp + b.size - 4) →
      place m b.bp asize a = m a := by
  have hheap : Heap m brk (pre ++ b :: post) := hinv.heap
  have hl : Lists m L := hinv.lists
  have hbd := hheap.bound
  have hbm := Layout_mem _ _ _ hheap.lay b (by simp)
  have htb := hheap.tags b (by simp)
  have hS : GET_SIZE m (HDRP b.bp) = b.size := GET_SIZE_tag m _ _ _ hbm.2.2.2.1 htb.1
  have hS' : GET_SIZE m (b.bp - 4) = b.size := hS
  have hidx := list_index_lt b.size
  have hcl : b.bp ∈ L (list_index b.size) :=
    (hinv.memb _ hidx b.bp).2 ⟨b, by simp, rfl, hbf, rfl⟩
  have hl1 := del_Lists m L hl _ b.bp hidx hcl
  have hf1 := del_frame m L hl _ b.bp hidx hcl
  have hheap1 := hheap.frame_links hinv.memb.subL _ hf1
  have hh := hheap1.hole
  have hm1 : ListsOf (Ldel L b) (pre ++ post) :=
    ListsOf_erase L pre post b 96 brk hinv.memb hheap.lay (hl.nodup _ hidx)
  obtain ⟨hh3, hl3, ht3, hf3⟩ := put_tags_step _ brk pre post b.bp (b.bp + b.size) (Ldel L b)
    ⟨b.bp, b.size, true⟩ hh hl1 hm1.subL rfl (le_refl _) hbm.2.2.1 hbm.2.2.2.1
  simp only at hh3 hl3 ht3 hf3
  have hns := NoAdj_split pre post b hinv.noadj
  have hc : place m b.bp asize =
      PUT (PUT (del_free_blk m b.bp) (b.bp - 4) (tag b.size true)) (b.bp + b.size - 8)
        (tag b.size true) := by
    rw [place_eq_whole]
    · simp only [HDRP, WSIZE, hS', PACK_ALLOC _ hbm.2.2.2.1,
        FTRP_PUT_hdr _ _ _ _ hbm.2.2.2.1 (show b.size + 1 < 2 ^ 32 by omega)]
    · rw [hS, size_sub _ _ ha (by omega)]
      simp only [DSIZE]; omega
  rw [hc]
  refine ⟨⟨?_, hl3, ?_, ?_⟩, ?_⟩
  · exact hh3.fill ⟨b.bp, b.size, true⟩ rfl rfl hbm.2.2.1 hbm.2.2.2.1 ht3
  · exact (ListsOf_alloc _ pre post ⟨b.bp, b.size, true⟩ rfl).2 hm1
  · exact NoAdj_insert_alloc pre post _ hns.1 hns.2.1 rfl
  · intro a h1 h2
    rw [hf3 a h2]
    exact hf1 a h1

theorem place_split (m : Mem) (brk : Nat) (pre post : List Blk) (b : Blk) (asize : Nat)
    (L : Nat → List Nat) (hinv : Inv ⟨m, brk⟩ (pre ++ b :: post) L) (hbf : b.alloc = false)
    (ha : asize ≤ b.size) (h16 : 16 ≤ asize) (h8 : asize % 8 = 0)
    (hsm : 16 ≤ b.size - asize) :
    Inv ⟨place m b.bp asize, brk⟩
      (pre ++ ⟨b.bp, asize, true⟩ :: ⟨b.bp + asize, b.size - asize, false⟩ :: post)
      (Lins (Ldel L b) ⟨b.bp + asize, b.size - asize, false⟩) ∧
    ∀ a, ¬ LinkArea L a → ¬ (b.bp - 4 ≤ a ∧ a < b.bp + b.size - 4) →
      place m b.bp asize a = m a := by
  have hheap : Heap m brk (pre ++ b :: post) := hinv.heap
  have hl : Lists m L := hinv.lists
  have hbd := hheap.bound
  have hbm := Layout_mem _ _ _ hheap.lay b (by simp)
  have htb := hheap.tags b (by simp)
  have hS : GET_SIZE m (HDRP b.bp) = b.size := GET_SIZE_tag m _ _ _ hbm.2.2.2.1 htb.1
  have hS' : GET_SIZE m (b.bp - 4) = b.size := hS
  have hidx := list_index_lt b.size
  have hcl : b.bp ∈ L (list_index b.size) :=
    (hinv.memb _ hidx b.bp).2 ⟨b, by simp, rfl, hbf, rfl⟩
  have hl1 := del_Lists m L hl _ b.bp hidx hcl
  have hf1 := del_frame m L hl _ b.bp hidx hcl
  have hheap1 := hheap.frame_links hinv.memb.subL _ hf1
  have hh := hheap1.hole
  have hm1 : ListsOf (Ldel L b) (pre ++ post) :=
    ListsOf_erase L pre post b 96 brk hinv.memb hheap.lay (hl.nodup _ hidx)
  obtain ⟨hh3, hl3, ht3, hf3⟩ := put_tags_step _ brk pre post b.bp (b.bp + b.size) (Ldel L b)
    ⟨b.bp, asize, true⟩ hh hl1 hm1.subL rfl (by simp only; omega) h16 h8
  simp only at hh3 hl3 ht3 hf3
  have hp3 := hh3.push_left ⟨b.bp, asize, true⟩ rfl (by simp only; omega) h16 h8 ht3
  simp only at hp3
  have e1 : b.bp + b.size = b.bp + asize + (b.size - asize) := by omega
  rw [e1] at hp3
  have hns := NoAdj_split pre post b hinv.noadj
  have hm3 : ListsOf (Ldel L b) ((pre ++ [⟨b.bp, asize, true⟩]) ++ post) := by
    have := (ListsOf_alloc _ pre post ⟨b.bp, asize, true⟩ rfl).2 hm1
    simpa using this
  obtain ⟨hinv5, hf5⟩ := fill_free _ brk (pre ++ [⟨b.bp, asize, true⟩]) post (b.bp + asize)
    (b.size - asize) (Ldel L b) hp3 hsm (by omega) hl3 hm3
    (NoAdj_insert_alloc pre [] _ hns.1 (by simp [NoAdj]) rfl) hns.2.1 (by simp) (hns.2.2 hbf).2
  have hhd : GET (PUT (PUT (del_free_blk m b.bp) (b.bp - 4) (tag asize true))
      (b.bp + asize - 8) (tag asize true)) (b.bp - 4) = tag asize true := ht3.1
  have hc : place m b.bp asize =
      ins_free_blk (PUT (PUT (PUT (PUT (del_free_blk m b.bp) (b.bp - 4) (tag asize true))
          (b.bp + asize - 8) (tag asize true)) (b.bp + asize - 4) (tag (b.size - asize) false))
        (b.bp + asize + (b.size - asize) - 8) (tag (b.size - asize) false)) (b.bp + asize)
        (list_index (b.size - asize)) := by
    rw [place_eq_split]
    · have hnx : NEXT_BLKP (PUT (PUT (del_free_blk m b.bp) (b.bp - 4) (tag asize true))
          (b.bp + asize - 8) (tag asize true)) b.bp = b.bp + asize := by
        simp only [NEXT_BLKP, WSIZE]
        rw [GET_SIZE_tag _ _ asize true h8 hhd]
      simp only [HDRP, WSIZE, hS', PACK_ALLOC _ h8, PACK_FREE,
        size_sub _ _ ha (show b.size < 2 ^ 32 by omega),
        FTRP_PUT_hdr _ _ _ _ h8 (show asize + 1 < 2 ^ 32 by omega), hnx]
      rw [FTRP_PUT_hdr _ (b.bp + asize) (b.size - asize) false (by omega) (by omega)]
    · rw [hS, size_sub _ _ ha (by omega)]
      simp only [DSIZE]; omega
  rw [hc]
  refine ⟨?_, ?_⟩
  · have : (pre ++ [⟨b.bp, asize, true⟩]) ++ ⟨b.bp + asize, b.size - asize, false⟩ :: post =
        pre ++ ⟨b.bp, asize, true⟩ :: ⟨b.bp + asize, b.size - asize, false⟩ :: post := by simp
    rw [← this]
    exact hinv5
  · intro a h1 h2
    have h1' : ¬ LinkArea (Ldel L b) a := fun hc => h1 (LinkArea_erase L _ _ a hc)
    rw [hf5 a h1' (by omega), hf3 a (by omega)]
    exact hf1 a h1

/-- What `coalesce` achieves on a free block that fills a hole, whatever its
neighbours are. -/
theorem coalesce_spec (m : Mem) (brk : Nat) (pre post : List Blk) (q S : Nat)
    (L : Nat → List Nat) (h : Hole m brk pre q (q + S) post)
    (ht : Tagged m ⟨q, S, false⟩) (h16 : 16 ≤ S) (h8 : S % 8 = 0)
    (hl : Lists m L) (hm : ListsOf L (pre ++ post)) (hn1 : NoAdj pre) (hn2 : NoAdj post) :
    ∃ (pre' post' : List Blk) (f : Blk) (L' : Nat → List Nat),
      Inv ⟨(coalesce m q).2, brk⟩ (pre' ++ f :: post') L' ∧
      f.bp = (coalesce m q).1 ∧ f.alloc = false ∧ f.bp ≤ q ∧ q + S ≤ f.bp + f.size ∧
      (∀ c ∈ pre ++ post, c.alloc = true → c ∈ pre' ++ post') ∧
      (∀ c ∈ pre' ++ post', c ∈ pre ++ post) ∧
      (∀ a, ¬ LinkArea L a → ¬ (f.bp - 4 ≤ a ∧ a < f.bp + f.size - 4) →
        (coalesce m q).2 a = m a) := by
  rcases List.eq_nil_or_concat pre with e | ⟨pre', pb, e⟩
  · -- no previous block
    have hp : ∀ x ∈ pre.getLast?, x.alloc = true := by subst e; simp
    cases post with
    | nil =>
      obtain ⟨h1, h2, h3⟩ := coalesce_none m brk pre [] q S L h ht h16 h8 hl hm hn1 hn2 hp
        (by simp)
      exact ⟨pre, [], ⟨q, S, false⟩, _, h2, h1.symm, rfl, le_refl _, le_refl _,
        fun c hc _ => hc, fun c hc => hc, h3⟩
    | cons nb post =>
      cases hnb : nb.alloc with
      | true =>
        obtain ⟨h1, h2, h3⟩ := coalesce_none m brk pre (nb :: post) q S L h ht h16 h8 hl hm
          hn1 hn2 hp (by simp [hnb])
        exact ⟨pre, nb :: post, ⟨q, S, false⟩, _, h2, h1.symm, rfl, le_refl _, le_refl _,
          fun c hc _ => hc, fun c hc => hc, h3⟩
      | false =>
        obtain ⟨h1, h2, h3⟩ := coalesce_next m brk pre post nb q S L h ht h16 h8 hl hm
          hn1 hn2 hnb hp
        refine ⟨pre, post, ⟨q, S + nb.size, false⟩, _, h2, h1.symm, rfl, le_refl _, ?_, ?_, ?_,
          ?_⟩
        · simp only; omega
        · intro c hc hca
          rcases List.mem_append.1 hc with hc | hc
          · simp [hc]
          · rcases List.mem_cons.1 hc with e' | hc
            · subst e'; rw [hnb] at hca; simp at hca
            · simp [hc]
        · intro c hc
          rcases List.mem_append.1 hc with hc | hc
          · simp [hc]
          · simp [hc]
        · intro a ha1 ha2
          exact h3 a ha1 (by simp only at ha2; omega)
  · rw [List.concat_eq_append] at e
    subst e
    have hqe := h.grow_left.2.1
    cases hpb : pb.alloc with
    | true =>
      have hp : ∀ x ∈ (pre' ++ [pb]).getLast?, x.alloc = true := by simp [hpb]
      cases post with
      | nil =>
        obtain ⟨h1, h2, h3⟩ := coalesce_none m brk _ [] q S L h ht h16 h8 hl hm hn1 hn2 hp
          (by simp)
        exact ⟨_, [], ⟨q, S, false⟩, _, h2, h1.symm, rfl, le_refl _, le_refl _,
          fun c hc _ => hc, fun c hc => hc, h3⟩
      | cons nb post =>
        cases hnb : nb.alloc with
        | true =>
          obtain ⟨h1, h2, h3⟩ := coalesce_none m brk _ (nb :: post) q S L h ht h16 h8 hl hm
            hn1 hn2 hp (by simp [hnb])
          exact ⟨_, nb :: post, ⟨q, S, false⟩, _, h2, h1.symm, rfl, le_refl _, le_refl _,
            fun c hc _ => hc, fun c hc => hc, h3⟩
        | false =>
          obtain ⟨h1, h2, h3⟩ := coalesce_next m brk _ post nb q S L h ht h16 h8 hl hm
            hn1 hn2 hnb hp
          refine ⟨_, post, ⟨q, S + nb.size, false⟩, _, h2, h1.symm, rfl, le_refl _, ?_, ?_,
            ?_, ?_⟩
          · simp only; omega
          · intro c hc hca
            rcases List.mem_append.1 hc with hc | hc
            · exact List.mem_append_left _ hc
            · rcases List.mem_cons.1 hc with e' | hc
              · subst e'; rw [hnb] at hca; simp at hca
              · exact List.mem_append_right _ hc
          · intro c hc
            rcases List.mem_append.1 hc with hc | hc
            · exact List.mem_append_left _ hc
            · exact List.mem_append_right _ (List.mem_cons_of_mem _ hc)
          · intro a ha1 ha2
            exact h3 a ha1 (by simp only at ha2; omega)
    | false =>
      cases post with
      | nil =>
        obtain ⟨h1, h2, h3⟩ := coalesce_prev m brk pre' [] pb q S L h ht h16 h8 hl
          (by simpa using hm) hn1 hn2 hpb (by simp)
        refine ⟨pre', [], ⟨pb.bp, S + pb.size, false⟩, _, h2, h1.symm, rfl, ?_, ?_, ?_, ?_, ?_⟩
        · simp only; omega
        · simp only; omega
        · intro c hc hca
          simp only [List.append_nil, List.mem_append, List.mem_singleton, List.mem_cons,
            List.not_mem_nil, or_false] at hc ⊢
          rcases hc with hc | hc
          · exact hc
          · subst hc; rw [hpb] at hca; simp at hca
        · intro c hc
          simp only [List.append_nil, List.mem_append, List.mem_singleton, List.mem_cons,
            List.not_mem_nil, or_false] at hc ⊢
          exact Or.inl hc
        · intro a ha1 ha2
          exact h3 a ha1 (by simp only at ha2; omega)
      | cons nb post =>
        cases hnb : nb.alloc with
        | true =>
          obtain ⟨h1, h2, h3⟩ := coalesce_prev m brk pre' (nb :: post) pb q S L h ht h16 h8 hl
            (by simpa using hm) hn1 hn2 hpb (by simp [hnb])
          refine ⟨pre', nb :: post, ⟨pb.bp, S + pb.size, false⟩, _, h2, h1.symm, rfl, ?_, ?_,
            ?_, ?_, ?_⟩
          · simp only; omega
          · simp only; omega
          · intro c hc hca
            simp only [List.mem_append, List.mem_singleton, List.mem_cons, List.not_mem_nil,
              or_false] at hc ⊢
            rcases hc with (hc | hc) | hc
            · exact Or.inl hc
            · subst hc; rw [hpb] at hca; simp at hca
            · exact Or.inr hc
          · intro c hc
            simp only [List.mem_append, List.mem_singleton, List.mem_cons, List.not_mem_nil,
              or_false] at hc ⊢
            tauto
          · intro a ha1 ha2
            exact h3 a ha1 (by simp only at ha2; omega)
        | false =>
          obtain ⟨h1, h2, h3⟩ := coalesce_both m brk pre' post pb nb q S L h ht h16 h8 hl
            (by simpa using hm) hn1 hn2 hpb hnb
          have hnbm := h.grow_right.2
          refine ⟨pre', post, ⟨pb.bp, S + pb.size + nb.size, false⟩, _, h2, h1.symm, rfl, ?_,
            ?_, ?_, ?_, ?_⟩
          · simp only; omega
          · simp only; omega
          · intro c hc hca
            simp only [List.mem_append, List.mem_singleton, List.mem_cons, List.not_mem_nil,
              or_false] at hc ⊢
            rcases hc with (hc | hc) | hc | hc
            · exact Or.inl hc
            · subst hc; rw [hpb] at hca; simp at hca
            · subst hc; rw [hnb] at hca; simp at hca
            · exact Or.inr hc
          · intro c hc
            simp only [List.mem_append, List.mem_singleton, List.mem_cons, List.not_mem_nil,
              or_false] at hc ⊢
            tauto
          · intro a ha1 ha2
            exact h3 a ha1 (by simp only at ha2; omega)

/-! ## `free` -/

theorem free_spec (s : State) (pre post : List Blk) (b : Blk) (L : Nat → List Nat)
    (hinv : Inv s (pre ++ b :: post) L) (hb : b.alloc = true) :
    ∃ (pre' post' : List Blk) (f : Blk) (L' : Nat → List Nat),
      Inv (free s (some b.bp)) (pre' ++ f :: post') L' ∧
      (free s (some b.bp)).brk = s.brk ∧
      f.alloc = false ∧ f.bp ≤ b.bp ∧ b.bp + b.size ≤ f.bp + f.size ∧
      (∀ c ∈ pre ++ post, c.alloc = true → c ∈ pre' ++ post') ∧
      (∀ c ∈ pre' ++ post', c ∈ pre ++ post) ∧
      (∀ a, ¬ LinkArea L a → ¬ (f.bp - 4 ≤ a ∧ a < f.bp + f.size - 4) →
        (free s (some b.bp)).mem a = s.mem a) := by
  have hheap := hinv.heap
  have hbm := Layout_mem _ _ _ hheap.lay b (by simp)
  have htb := hheap.tags b (by simp)
  have hbd := hheap.bound
  have hS : GET_SIZE s.mem (b.bp - 4) = b.size := GET_SIZE_tag _ _ _ _ hbm.2.2.2.1 htb.1
  have hm0 : ListsOf L (pre ++ post) := (ListsOf_alloc L pre post b hb).1 hinv.memb
  obtain ⟨hh2, hl2, ht2, hf2⟩ := put_tags_step s.mem s.brk pre post b.bp (b.bp + b.size) L
    ⟨b.bp, b.size, false⟩ hheap.hole hinv.lists hm0.subL rfl (le_refl _) hbm.2.2.1 hbm.2.2.2.1
  simp only at hh2 hl2 ht2 hf2
  have hns := NoAdj_split pre post b hinv.noadj
  obtain ⟨pre', post', f, L', h1, h2, h3, h4, h5, h6, h7, h8⟩ :=
    coalesce_spec _ s.brk pre post b.bp b.size L hh2 ht2 hbm.2.2.1 hbm.2.2.2.1 hl2 hm0
      hns.1 hns.2.1
  have hc : free s (some b.bp) =
      ⟨(coalesce (PUT (PUT s.mem (b.bp - 4) (tag b.size false)) (b.bp + b.size - 8)
        (tag b.size false)) b.bp).2, s.brk⟩ := by
    simp only [free, HDRP, WSIZE, hS, PACK_FREE,
      FTRP_PUT_hdr _ _ _ _ hbm.2.2.2.1 (show b.size + 1 < 2 ^ 32 by omega)]
  rw [hc]
  refine ⟨pre', post', f, L', h1, rfl, h3, h4, h5, h6, h7, ?_⟩
  intro a ha1 ha2
  simp only
  rw [h8 a ha1 ha2]
  exact hf2 a (by omega)

/-! ## `extend_heap` -/

theorem Heap.extend {m brk bs} (h : Heap m brk bs) (m' : Mem) (brk' : Nat)
    (hf : ∀ a, a < brk - 4 → m' a = m a) (he : GET m' (brk' - 4) = 1) (hle : brk ≤ brk')
    (hbd : brk' ≤ 2 ^ 32) : Hole m' brk' bs brk brk' [] := by
  have hb96 := Layout_le _ _ _ h.lay
  have key : ∀ b ∈ bs, Tagged m b → Tagged m' b := by
    intro b hb ht
    have hbm := Layout_mem _ _ _ h.lay b hb
    constructor
    · rw [← ht.1]
      exact GET_congr _ _ _ (fun a h1 h2 => hf a (by omega))
    · rw [← ht.2]
      exact GET_congr _ _ _ (fun a h1 h2 => hf a (by omega))
  refine ⟨h.lay, rfl, hle, fun b hb => key b hb (h.tags b hb), by simp, ⟨?_, ?_⟩, he, hbd⟩
  · rw [← h.pro.1]
    exact GET_congr _ _ _ (fun a h1 h2 => hf a (by omega))
  · rw [← h.pro.2]
    exact GET_congr _ _ _ (fun a h1 h2 => hf a (by omega))

theorem extend_heap_none (limit : Nat) (s : State) (words : Nat) :
    extend_heap limit s words = none ↔
      limit < s.brk + (if words % 2 ≠ 0 then WSIZE * (words + 1) else WSIZE * words) := by
  unfold extend_heap mem_sbrk
  simp only
  split_ifs <;> simp <;> omega

theorem extend_heap_spec (limit : Nat) (s : State) (words : Nat) (bs : List Blk)
    (L : Nat → List Nat) (hinv : Inv s bs L) (hlim : limit ≤ 2 ^ 32) (hw : 4 ≤ words)
    (bp : Nat) (s' : State) (he : extend_heap limit s words = some (bp, s')) :
    ∃ (pre' post' : List Blk) (f : Blk) (L' : Nat → List Nat),
      Inv s' (pre' ++ f :: post') L' ∧
      s'.brk = s.brk + 4 * (words + words % 2) ∧ s'.brk ≤ limit ∧
      f.bp = bp ∧ f.alloc = false ∧ 4 * (words + words % 2) ≤ f.size ∧
      (∀ c ∈ bs, c.alloc = true → c ∈ pre' ++ post') ∧
      (∀ c ∈ pre' ++ post', c ∈ bs) ∧
      (∀ a, ¬ LinkArea L a → a < f.bp - 4 → s'.mem a = s.mem a) ∧
      f.bp + f.size = s'.brk := by
  have hheap := hinv.heap
  have hb96 := Layout_le _ _ _ hheap.lay
  have hb8 := Layout_mod _ _ _ hheap.lay (by decide)
  obtain ⟨S, hSdef⟩ : ∃ S, S = 4 * (words + words % 2) := ⟨_, rfl⟩
  have hsz : (if words % 2 ≠ 0 then WSIZE * (words + 1) else WSIZE * words) = S := by
    simp only [WSIZE]; split_ifs <;> omega
  have h16 : 16 ≤ S := by omega
  have h8 : S % 8 = 0 := by omega
  unfold extend_heap mem_sbrk at he
  rw [hsz] at he
  simp only at he
  split_ifs at he with hfit
  simp only [Option.some.injEq, Prod.mk.injEq] at he
  obtain ⟨he1, he2⟩ := he
  have hT : S + 1 < 2 ^ 32 := by omega
  have hm3 : PUT (PUT (PUT s.mem (HDRP s.brk) (PACK S FREE))
        (FTRP (PUT s.mem (HDRP s.brk) (PACK S FREE)) s.brk) (PACK S FREE))
      (HDRP (NEXT_BLKP (PUT (PUT s.mem (HDRP s.brk) (PACK S FREE))
        (FTRP (PUT s.mem (HDRP s.brk) (PACK S FREE)) s.brk) (PACK S FREE)) s.brk))
      (PACK 0 ALLOC) =
      PUT (PUT (PUT s.mem (s.brk - 4) (tag S false)) (s.brk + S - 8) (tag S false))
        (s.brk + S - 4) 1 := by
    simp only [HDRP, WSIZE, PACK_FREE, FTRP_PUT_hdr _ _ _ _ h8 hT]
    have hhd : GET (PUT (PUT s.mem (s.brk - 4) (tag S false)) (s.brk + S - 8) (tag S false))
        (s.brk - 4) = tag S false := by
      rw [GET_PUT_other _ _ _ _ (by omega), GET_PUT_eq _ _ _ (tag_lt _ _ hT)]
    simp only [NEXT_BLKP, WSIZE, GET_SIZE_tag _ _ S false h8 hhd]
    rfl
  rw [hm3] at he1 he2
  obtain ⟨m3, hm3d⟩ : ∃ m3, m3 = PUT (PUT (PUT s.mem (s.brk - 4) (tag S false)) (s.brk + S - 8)
      (tag S false)) (s.brk + S - 4) 1 := ⟨_, rfl⟩
  rw [← hm3d] at he1 he2
  have hf3 : ∀ a, a < s.brk - 4 → m3 a = s.mem a := by
    intro a ha
    rw [hm3d, PUT_other _ _ _ _ (by omega), PUT_other _ _ _ _ (by omega),
      PUT_other _ _ _ _ (by omega)]
  have hepi : GET m3 (s.brk + S - 4) = 1 := by
    rw [hm3d, GET_PUT_eq _ _ _ (by decide)]
  have hh3 : Hole m3 (s.brk + S) bs s.brk (s.brk + S) [] :=
    hheap.extend m3 (s.brk + S) hf3 hepi (by omega) (by omega)
  have ht3 : Tagged m3 ⟨s.brk, S, false⟩ := by
    constructor
    · show GET m3 (s.brk - 4) = tag S false
      rw [hm3d, GET_PUT_other _ _ _ _ (by omega), GET_PUT_other _ _ _ _ (by omega),
        GET_PUT_eq _ _ _ (tag_lt _ _ hT)]
    · show GET m3 (s.brk + S - 8) = tag S false
      rw [hm3d, GET_PUT_other _ _ _ _ (by omega), GET_PUT_eq _ _ _ (tag_lt _ _ hT)]
  have hsub := hinv.memb.subL
  have hlk : ∀ a, LinkArea L a → a < s.brk - 4 := by
    intro a ha
    rcases ha with ha | ⟨i, hi, y, hy, h1, h2⟩
    · omega
    · obtain ⟨c, hc, e⟩ := hsub i hi y hy
      have := Layout_mem _ _ _ hheap.lay c hc
      omega
  have hl3 : Lists m3 L := Lists_frame s.mem m3 L hinv.lists (fun a ha => hf3 a (hlk a ha))
  obtain ⟨pre', post', f, L', h1, h2, h3, h4, h5, h6, h7, h8'⟩ :=
    coalesce_spec m3 (s.brk + S) bs [] s.brk S L hh3 ht3 h16 h8 hl3 (by simpa using hinv.memb)
      hinv.noadj (by simp [NoAdj])
  subst he2
  have hfe := (Layout_mem _ _ _ h1.heap.lay f (by simp)).2.1
  simp only at hfe
  refine ⟨pre', post', f, L', h1, by rw [← hSdef], hfit, by rw [h2, he1], h3, by omega, ?_, ?_,
    ?_, ?_⟩
  · intro c hc hca
    exact h6 c (by simpa using hc) hca
  · intro c hc
    simpa using h7 c hc
  · intro a ha1 ha2
    simp only
    rw [h8' a ha1 (by omega)]
    exact hf3 a (by omega)
  · simp only; omega

/-! ## `find_fit` -/

theorem first_fit_list_eq (m : Mem) (asize h : Nat) (l : List Nat) (x fuel : Nat)
    (hs : Seg m x l h) (hne : ∀ y ∈ l, y ≠ h) (hf : l.length < fuel) :
    first_fit_list m asize h fuel (GET m x) = some (l.find? (fits m asize)) := by
  induction l generalizing x fuel with
  | nil =>
    obtain ⟨f, rfl⟩ : ∃ f, fuel = f + 1 := ⟨fuel - 1, by simp at hf; omega⟩
    have : GET m x = h := hs.1
    simp [first_fit_list, this]
  | cons y l ih =>
    obtain ⟨f, rfl⟩ : ∃ f, fuel = f + 1 := ⟨fuel - 1, by simp at hf; omega⟩
    have hxy : GET m x = y := hs.1.1
    have hyh : y ≠ h := hne y (List.mem_cons_self _ _)
    have hih := ih y f hs.2 (fun z hz => hne z (List.mem_cons_of_mem _ hz))
      (by simp at hf; omega)
    rw [hxy]
    simp only [first_fit_list, ne_eq, hyh, not_false_eq_true, if_true, List.find?_cons]
    by_cases hfit : GET_ALLOC m (HDRP y) = 0 ∧ GET_SIZE m (HDRP y) ≥ asize
    · have : fits m asize y = true := by simp [fits, hfit]
      rw [if_pos hfit, this]
    · have : fits m asize y = false := by simp only [fits]; exact decide_eq_false hfit
      rw [if_neg hfit, this]
      simp only [NEXT_EMPT_BLKP, NEXT_SECT, first_listp, Nat.zero_add]
      exact hih

theorem best_fit_list_eq (m : Mem) (asize h : Nat) (l : List Nat) (x fuel : Nat)
    (best : Option Nat × Nat)
    (hs : Seg m x l h) (hne : ∀ y ∈ l, y ≠ h) (hf : l.length < fuel) :
    best_fit_list m asize h fuel (GET m x) best = some (l.foldl (bf_step m asize) best) := by
  induction l generalizing x fuel best with
  | nil =>
    obtain ⟨f, rfl⟩ : ∃ f, fuel = f + 1 := ⟨fuel - 1, by simp at hf; omega⟩
    have : GET m x = h := hs.1
    simp [best_fit_list, this]
  | cons y l ih =>
    obtain ⟨f, rfl⟩ : ∃ f, fuel = f + 1 := ⟨fuel - 1, by simp at hf; omega⟩
    have hxy : GET m x = y := hs.1.1
    have hyh : y ≠ h := hne y (List.mem_cons_self _ _)
    have hih := ih y f (bf_step m asize best y) hs.2
      (fun z hz => hne z (List.mem_cons_of_mem _ hz)) (by simp at hf; omega)
    rw [hxy]
    simp only [best_fit_list, ne_eq, hyh, not_false_eq_true, if_true, List.foldl_cons]
    simp only [NEXT_EMPT_BLKP, NEXT_SECT, first_listp, Nat.zero_add]
    exact hih

theorem Lists.head_ne {m L} (hl : Lists m L) (i : Nat) (hi : i < 10) :
    ∀ y ∈ L i, y ≠ i * 8 := by
  intro y hy
  have := hl.node i hi y hy
  omega

theorem first_fit_lists_eq (m : Mem) (asize fuel : Nat) (L : Nat → List Nat) (hl : Lists m L)
    (hf : ∀ j, j < 10 → (L j).length < fuel) (n i cnt : Nat) (hn : i + n = 10) (hc : n < cnt) :
    first_fit_lists m asize fuel cnt (i * 8) = some ((scan L n i).find? (fits m asize)) := by
  induction n generalizing i cnt with
  | zero =>
    obtain ⟨c, rfl⟩ : ∃ c, cnt = c + 1 := ⟨cnt - 1, by omega⟩
    have : i = 10 := by omega
    subst this
    simp [first_fit_lists, scan, last_listp, first_listp, LIST_NUM, DSIZE]
  | succ n ih =>
    obtain ⟨c, rfl⟩ : ∃ c, cnt = c + 1 := ⟨cnt - 1, by omega⟩
    have hi : i < 10 := by omega
    have hne : i * 8 ≠ last_listp + DSIZE := by
      simp only [last_listp, first_listp, LIST_NUM, DSIZE]; omega
    have hin := first_fit_list_eq m asize (i * 8) (L i) (i * 8) fuel (hl.seg i hi)
      (hl.head_ne i hi) (hf i hi)
    have hrec := ih (i + 1) c (by omega) (by omega)
    simp only [first_fit_lists, ne_eq, hne, not_false_eq_true, if_true, NEXT_EMPT_BLKP,
      NEXT_SECT, first_listp, Nat.zero_add, hin, scan, List.find?_append]
    cases hfd : (L i).find? (fits m asize) with
    | some bp => simp
    | none =>
      simp only [Option.none_or]
      have e : i * 8 + DSIZE = (i + 1) * 8 := by simp only [DSIZE]; omega
      rw [e]
      exact hrec

theorem best_fit_lists_eq (m : Mem) (asize fuel : Nat) (L : Nat → List Nat) (hl : Lists m L)
    (hf : ∀ j, j < 10 → (L j).length < fuel) (n i cnt : Nat) (best : Option Nat × Nat)
    (hn : i + n = 10) (hc : n < cnt) :
    best_fit_lists m asize fuel cnt (i * 8) best =
      some ((scan L n i).foldl (bf_step m asize) best) := by
  induction n generalizing i cnt best with
  | zero =>
    obtain ⟨c, rfl⟩ : ∃ c, cnt = c + 1 := ⟨cnt - 1, by omega⟩
    have : i = 10 := by omega
    subst this
    simp [best_fit_lists, scan, last_listp, first_listp, LIST_NUM, DSIZE]
  | succ n ih =>
    obtain ⟨c, rfl⟩ : ∃ c, cnt = c + 1 := ⟨cnt - 1, by omega⟩
    have hi : i < 10 := by omega
    have hne : i * 8 ≠ last_listp + DSIZE := by
      simp only [last_listp, first_listp, LIST_NUM, DSIZE]; omega
    have hin := best_fit_list_eq m asize (i * 8) (L i) (i * 8) fuel best (hl.seg i hi)
      (hl.head_ne i hi) (hf i hi)
    have hrec := ih (i + 1) c ((L i).foldl (bf_step m asize) best) (by omega) (by omega)
    simp only [best_fit_lists, ne_eq, hne, not_false_eq_true, if_true, NEXT_EMPT_BLKP,
      NEXT_SECT, first_listp, Nat.zero_add, hin, scan, List.foldl_append]
    have e : i * 8 + DSIZE = (i + 1) * 8 := by simp only [DSIZE]; omega
    rw [e]
    exact hrec

/-- With enough fuel `find_fit` returns: the first fit in scan order for the
small size classes, the outcome of the best-fit rounds for the others. -/
theorem find_fit_eq (m : Mem) (asize fuel : Nat) (L : Nat → List Nat) (hl : Lists m L)
    (hf : ∀ j, j < 10 → (L j).length < fuel) :
    find_fit fuel m asize = some
      (if list_index asize < LIST_THR then
        (scan L (10 - list_index asize) (list_index asize)).find? (fits m asize)
      else ((scan L (10 - list_index asize) (list_index asize)).foldl (bf_step m asize)
        (none, 16 * (1 <<< list_index asize))).1) := by
  have hidx := list_index_lt asize
  unfold find_fit
  simp only [first_listp, Nat.zero_add, DSIZE, LIST_NUM]
  split_ifs with h1
  · exact first_fit_lists_eq m asize fuel L hl hf _ _ _ (by omega) (by omega)
  · rw [best_fit_lists_eq m asize fuel L hl hf (10 - list_index asize) _ _ _ (by omega)
      (by omega)]

theorem scan_mem (L : Nat → List Nat) (n i y : Nat) (h : y ∈ scan L n i) :
    ∃ j, i ≤ j ∧ j < i + n ∧ y ∈ L j := by
  induction n generalizing i with
  | zero => simp [scan] at h
  | succ n ih =>
    simp only [scan, List.mem_append] at h
    rcases h with h | h
    · exact ⟨i, le_refl _, by omega, h⟩
    · obtain ⟨j, h1, h2, h3⟩ := ih (i + 1) h
      exact ⟨j, by omega, by omega, h3⟩

theorem bf_foldl_sound (m : Mem) (asize : Nat) (l : List Nat) (best : Option Nat × Nat)
    (y : Nat) (h : (l.foldl (bf_step m asize) best).1 = some y) :
    best.1 = some y ∨ (y ∈ l ∧ fits m asize y = true) := by
  induction l generalizing best with
  | nil => exact Or.inl h
  | cons z l ih =>
    rw [List.foldl_cons] at h
    rcases ih _ h with h1 | h1
    · unfold bf_step at h1
      split_ifs at h1 with h2 h3
      · simp only [Option.some.injEq] at h1
        subst h1
        exact Or.inr ⟨List.mem_cons_self _ _, by simp [fits, h2]⟩
      · exact Or.inl h1
      · exact Or.inl h1
    · exact Or.inr ⟨List.mem_cons_of_mem _ h1.1, h1.2⟩

theorem find_fit_sound (m : Mem) (asize fuel : Nat) (L : Nat → List Nat) (hl : Lists m L)
    (hf : ∀ j, j < 10 → (L j).length < fuel) (bp : Nat)
    (h : find_fit fuel m asize = some (some bp)) :
    ∃ j, j < 10 ∧ bp ∈ L j ∧ GET_ALLOC m (HDRP bp) = 0 ∧ GET_SIZE m (HDRP bp) ≥ asize := by
  rw [find_fit_eq m asize fuel L hl hf] at h
  have hidx := list_index_lt asize
  simp only [Option.some.injEq] at h
  have key : bp ∈ scan L (10 - list_index asize) (list_index asize) ∧ fits m asize bp = true := by
    split_ifs at h
    · exact ⟨List.mem_of_find?_eq_some h, List.find?_some h⟩
    · rcases bf_foldl_sound m asize _ _ bp h with h1 | h1
      · simp at h1
      · exact h1
  obtain ⟨j, h1, h2, h3⟩ := scan_mem L _ _ bp key.1
  have hfit := key.2
  simp only [fits, decide_eq_true_eq] at hfit
  exact ⟨j, by omega, h3, hfit.1, hfit.2⟩

theorem nodup_length_le (l : List Nat) (a b : Nat) (hnd : l.Nodup)
    (h : ∀ y ∈ l, a ≤ y ∧ y < b) : l.length ≤ b - a := by
  have h1 : l.toFinset ⊆ Finset.Ico a b := by
    intro y hy
    rw [List.mem_toFinset] at hy
    rw [Finset.mem_Ico]
    exact h y hy
  have h2 := Finset.card_le_card h1
  rw [List.toFinset_card_of_nodup hnd, Nat.card_Ico] at h2
  exact h2

/-- The arena size is enough fuel for every free-list walk. -/
theorem Inv.fuel {s bs L} (h : Inv s bs L) : ∀ j, j < 10 → (L j).length < s.brk := by
  intro j hj
  have h1 := nodup_length_le (L j) 96 s.brk (h.lists.nodup j hj) (by
    intro y hy
    obtain ⟨c, hc, e⟩ := h.memb.subL j hj y hy
    have := Layout_mem _ _ _ h.heap.lay c hc
    omega)
  by_cases hl : L j = []
  · rw [hl]
    have := Layout_le _ _ _ h.heap.lay
    simp; omega
  · obtain ⟨y, hy⟩ := List.exists_mem_of_ne_nil _ hl
    obtain ⟨c, hc, e⟩ := h.memb.subL j hj y hy
    have := Layout_mem _ _ _ h.heap.lay c hc
    omega

/-- The bytes of an allocated block hold no free-list link. -/
theorem alloc_not_link (bs : List Blk) (L : Nat → List Nat) (e : Nat) (hlay : Layout 96 bs e)
    (hm : ListsOf L bs) (c : Blk) (hc : c ∈ bs) (hca : c.alloc = true) (a : Nat)
    (h1 : c.bp - 4 ≤ a) (h2 : a < c.bp + c.size - 4) : ¬ LinkArea L a := by
  intro hl
  have hcm := Layout_mem _ _ _ hlay c hc
  rcases hl with hl | ⟨i, hi, y, hy, h3, h4⟩
  · omega
  · obtain ⟨d, hd, e1, e2, -⟩ := (hm i hi y).1 hy
    have hdm := Layout_mem _ _ _ hlay d hd
    rcases Layout_sep _ _ _ hlay c d hc hd with e3 | e3 | e3
    · subst e3; rw [hca] at e2; simp at e2
    · omega
    · omega

/-! ## Fuel -/

theorem first_fit_list_mono (m : Mem) (asize h fuel bp k : Nat) (r : Option Nat)
    (hr : first_fit_list m asize h fuel bp = some r) :
    first_fit_list m asize h (fuel + k) bp = some r := by
  induction fuel generalizing bp with
  | zero => simp [first_fit_list] at hr
  | succ f ih =>
    have e : f + 1 + k = (f + k) + 1 := by omega
    rw [e]
    simp only [first_fit_list] at hr ⊢
    split_ifs at hr ⊢ with h1 h2
    · exact hr
    · exact ih _ hr
    · exact hr

theorem first_fit_lists_mono (m : Mem) (asize fuel cnt lh k : Nat) (r : Option Nat)
    (hr : first_fit_lists m asize fuel cnt lh = some r) :
    first_fit_lists m asize (fuel + k) cnt lh = some r := by
  induction cnt generalizing lh with
  | zero => simp [first_fit_lists] at hr
  | succ c ih =>
    simp only [first_fit_lists] at hr ⊢
    split_ifs at hr ⊢ with h1
    · cases hin : first_fit_list m asize lh fuel (NEXT_EMPT_BLKP m lh) with
      | none => rw [hin] at hr; simp at hr
      | some x =>
        rw [hin] at hr
        rw [first_fit_list_mono m asize lh fuel _ k x hin]
        cases x with
        | none => exact ih _ hr
        | some bp => exact hr
    · exact hr

theorem best_fit_list_mono (m : Mem) (asize h fuel bp k : Nat) (best r : Option Nat × Nat)
    (hr : best_fit_list m asize h fuel bp best = some r) :
    best_fit_list m asize h (fuel + k) bp best = some r := by
  induction fuel generalizing bp best with
  | zero => simp [best_fit_list] at hr
  | succ f ih =>
    have e : f + 1 + k = (f + k) + 1 := by omega
    rw [e]
    simp only [best_fit_list] at hr ⊢
    by_cases h1 : bp ≠ h
    · rw [if_pos h1] at hr ⊢
      exact ih _ _ hr
    · rw [if_neg h1] at hr ⊢
      exact hr

theorem best_fit_lists_mono (m : Mem) (asize fuel cnt lh k : Nat) (best r : Option Nat × Nat)
    (hr : best_fit_lists m asize fuel cnt lh best = some r) :
    best_fit_lists m asize (fuel + k) cnt lh best = some r := by
  induction cnt generalizing lh best with
  | zero => simp [best_fit_lists] at hr
  | succ c ih =>
    simp only [best_fit_lists] at hr ⊢
    split_ifs at hr ⊢ with h1
    · cases hin : best_fit_list m asize lh fuel (NEXT_EMPT_BLKP m lh) best with
      | none => rw [hin] at hr; simp at hr
      | some x =>
        rw [hin] at hr
        rw [best_fit_list_mono m asize lh fuel _ k best x hin]
        exact ih _ _ hr
    · exact hr

/-- A result of `find_fit` does not depend on the fuel that produced it. -/
theorem find_fit_mono (m : Mem) (asize fuel k : Nat) (r : Option Nat)
    (hr : find_fit fuel m asize = some r) : find_fit (fuel + k) m asize = some r := by
  unfold find_fit at hr ⊢
  simp only at hr ⊢
  split_ifs at hr ⊢ with h1
  · exact first_fit_lists_mono _ _ _ _ _ k r hr
  · cases hb : best_fit_lists m asize fuel (LIST_NUM + 1) (first_listp + list_index asize * DSIZE)
        (none, 16 * 1 <<< list_index asize) with
    | none => rw [hb] at hr; simp at hr
    | some x =>
      rw [hb] at hr
      rw [best_fit_lists_mono _ _ _ _ _ k _ x hb]
      exact hr

/-! ## `malloc` -/

theorem adjust_size_eq (n : Nat) (hn : n + 15 < 2 ^ 64) :
    adjust_size n = if n ≤ 8 then 16 else 8 * ((n + 15) / 8) := by
  unfold adjust_size SIZE_MOD
  simp only [DSIZE]
  split_ifs
  · rfl
  · omega

theorem adjust_size_bounds (n : Nat) (hn : n + 15 < 2 ^ 64) :
    16 ≤ adjust_size n ∧ adjust_size n % 8 = 0 ∧ n + 8 ≤ adjust_size n ∧
    adjust_size n < n + 16 + 8 := by
  rw [adjust_size_eq n hn]
  split_ifs <;> omega

theorem place_spec (m : Mem) (brk : Nat) (pre post : List Blk) (b : Blk) (asize : Nat)
    (L : Nat → List Nat) (hinv : Inv ⟨m, brk⟩ (pre ++ b :: post) L) (hbf : b.alloc = false)
    (ha : asize ≤ b.size) (h16 : 16 ≤ asize) (h8 : asize % 8 = 0) :
    ∃ (bs' : List Blk) (L' : Nat → List Nat) (nb : Blk),
      Inv ⟨place m b.bp asize, brk⟩ bs' L' ∧ nb ∈ bs' ∧ nb.bp = b.bp ∧ nb.alloc = true ∧
      asize ≤ nb.size ∧ nb.size ≤ b.size ∧
      (∀ c ∈ pre ++ post, c ∈ bs') ∧
      (∀ c ∈ bs', c.alloc = true → c = nb ∨ c ∈ pre ++ post) ∧
      (∀ a, ¬ LinkArea L a → ¬ (b.bp - 4 ≤ a ∧ a < b.bp + b.size - 4) →
        place m b.bp asize a = m a) := by
  by_cases hsm : 16 ≤ b.size - asize
  · obtain ⟨h1, h2⟩ := place_split m brk pre post b asize L hinv hbf ha h16 h8 hsm
    refine ⟨_, _, ⟨b.bp, asize, true⟩, h1, by simp, rfl, rfl, le_refl _, ha, ?_, ?_, h2⟩
    · intro c hc
      rcases List.mem_append.1 hc with hc | hc
      · simp [hc]
      · simp [hc]
    · intro c hc hca
      simp only [List.mem_append, List.mem_cons] at hc ⊢
      rcases hc with hc | hc | hc | hc
      · exact Or.inr (Or.inl hc)
      · exact Or.inl hc
      · subst hc; simp at hca
      · exact Or.inr (Or.inr hc)
  · obtain ⟨h1, h2⟩ := place_whole m brk pre post b asize L hinv hbf ha (by omega)
    refine ⟨_, _, ⟨b.bp, b.size, true⟩, h1, by simp, rfl, rfl, ha, le_refl _, ?_, ?_, h2⟩
    · intro c hc
      rcases List.mem_append.1 hc with hc | hc
      · simp [hc]
      · simp [hc]
    · intro c hc hca
      simp only [List.mem_append, List.mem_cons] at hc ⊢
      rcases hc with hc | hc | hc
      · exact Or.inr (Or.inl hc)
      · exact Or.inl hc
      · exact Or.inr (Or.inr hc)

theorem malloc_zero (fuel limit : Nat) (s : State) : malloc fuel limit s 0 = some (none, s) := by
  simp [malloc]

theorem malloc_place_step (s : State) (bs : List Blk) (L : Nat → List Nat) (hinv : Inv s bs L)
    (b : Blk) (hb : b ∈ bs) (hbf : b.alloc = false) (asize : Nat) (ha : asize ≤ b.size)
    (h16 : 16 ≤ asize) (h8 : asize % 8 = 0) :
    ∃ (bs' : List Blk) (L' : Nat → List Nat) (nb : Blk),
      Inv ⟨place s.mem b.bp asize, s.brk⟩ bs' L' ∧ nb ∈ bs' ∧ nb.bp = b.bp ∧
      nb.alloc = true ∧ asize ≤ nb.size ∧
      (∀ c ∈ bs, c.alloc = true → c ∈ bs') ∧
      (∀ c ∈ bs', c.alloc = true → c = nb ∨ c ∈ bs) ∧
      (∀ c ∈ bs, c.alloc = true → c.bp ≠ b.bp) ∧
      (∀ c ∈ bs, c.alloc = true → ∀ a, c.bp - 4 ≤ a → a < c.bp + c.size - 4 →
        place s.mem b.bp asize a = s.mem a) := by
  obtain ⟨pre, post, rfl⟩ := List.append_of_mem hb
  have hlay := hinv.heap.lay
  obtain ⟨bs', L', nb, h1, h2, h3, h4, h5, -, h7, h8', h9⟩ :=
    place_spec s.mem s.brk pre post b asize L hinv hbf ha h16 h8
  have hne : ∀ c ∈ pre ++ b :: post, c.alloc = true → c.bp ≠ b.bp := by
    intro c hc hca hcb
    have := Layout_inj _ _ _ hlay c b hc (by simp) hcb
    subst this
    rw [hca] at hbf; simp at hbf
  have hin : ∀ c ∈ pre ++ b :: post, c.alloc = true → c ∈ pre ++ post := by
    intro c hc hca
    simp only [List.mem_append, List.mem_cons] at hc ⊢
    rcases hc with hc | hc | hc
    · exact Or.inl hc
    · subst hc; rw [hca] at hbf; simp at hbf
    · exact Or.inr hc
  refine ⟨bs', L', nb, h1, h2, h3, h4, h5, ?_, ?_, hne, ?_⟩
  · exact fun c hc hca => h7 c (hin c hc hca)
  · intro c hc hca
    rcases h8' c hc hca with h | h
    · exact Or.inl h
    · right
      simp only [List.mem_append, List.mem_cons] at h ⊢
      tauto
  · intro c hc hca a ha1 ha2
    apply h9 a (alloc_not_link _ L _ hlay hinv.memb c hc hca a ha1 ha2)
    have hcm := Layout_mem _ _ _ hlay c hc
    have hbm := Layout_mem _ _ _ hlay b (by simp)
    rcases Layout_sep _ _ _ hlay c b hc (by simp) with e | e | e
    · subst e; rw [hca] at hbf; simp at hbf
    · omega
    · omega

theorem malloc_spec (fuel limit : Nat) (s : State) (n : Nat) (bs : List Blk)
    (L : Nat → List Nat) (hinv : Inv s bs L) (hlim : limit ≤ 2 ^ 32) (hn : 0 < n)
    (hn2 : n + 15 < 2 ^ 64) (r : Option Nat × State) (hm : malloc fuel limit s n = some r) :
    ∃ (bs' : List Blk) (L' : Nat → List Nat), Inv r.2 bs' L' ∧ MallocPost s bs n r bs' := by
  have hadj := adjust_size_bounds n hn2
  have hlay := hinv.heap.lay
  unfold malloc at hm
  rw [if_neg (by omega)] at hm
  simp only at hm
  cases hff : find_fit fuel s.mem (adjust_size n) with
  | none => rw [hff] at hm; simp at hm
  | some x =>
    rw [hff] at hm
    cases x with
    | some bp =>
      simp only [Option.some.injEq] at hm
      subst hm
      have hff' := find_fit_mono _ _ _ s.brk _ hff
      obtain ⟨j, hj, hbl, -, hsz⟩ := find_fit_sound s.mem _ _ L hinv.lists
        (fun j hj => lt_of_lt_of_le (hinv.fuel j hj) (by omega)) bp hff'
      obtain ⟨b, hb, hbp, hbf, -⟩ := (hinv.memb j hj bp).1 hbl
      have hbm := Layout_mem _ _ _ hlay b hb
      have hS : GET_SIZE s.mem (HDRP bp) = b.size := by
        rw [← hbp]
        exact GET_SIZE_tag _ _ _ _ hbm.2.2.2.1 (hinv.heap.tags b hb).1
      rw [hS] at hsz
      obtain ⟨bs', L', nb, h1, h2, h3, h4, h5, h6, h7, h8, h9⟩ :=
        malloc_place_step s bs L hinv b hb hbf (adjust_size n) hsz hadj.1 hadj.2.1
      subst hbp
      refine ⟨bs', L', h1, ⟨le_refl _, h6, h9, ?_, ?_, ?_⟩⟩
      · intro c hc hca
        rcases h7 c hc hca with h | h
        · right; simp only; rw [h, h3]
        · exact Or.inl h
      · intro p hp
        simp only [Option.some.injEq] at hp
        subst hp
        exact ⟨nb, h2, h3, h4, h5, h8⟩
      · intro hc; simp at hc
    | none =>
      simp only at hm
      obtain ⟨E, hE⟩ : ∃ E, E = (if adjust_size n > CHUNKSIZE then adjust_size n else CHUNKSIZE) :=
        ⟨_, rfl⟩
      rw [← hE] at hm
      have hE1 : adjust_size n ≤ E ∧ 512 ≤ E ∧ E % 8 = 0 := by
        rw [hE]
        simp only [CHUNKSIZE]
        split_ifs with h <;> simp at h ⊢ <;> omega
      cases hext : extend_heap limit s (E / WSIZE) with
      | none =>
        rw [hext] at hm
        simp only [Option.some.injEq] at hm
        subst hm
        exact ⟨bs, L, hinv, ⟨le_refl _, fun c hc _ => hc, fun _ _ _ _ _ _ => rfl,
          fun c hc _ => Or.inl hc, fun p hp => by simp at hp, fun _ => rfl⟩⟩
      | some x =>
        obtain ⟨bp, s1⟩ := x
        rw [hext] at hm
        simp only [Option.some.injEq] at hm
        subst hm
        have hw : 4 * (E / WSIZE + E / WSIZE % 2) = E := by simp only [WSIZE]; omega
        obtain ⟨pre', post', f, L1, g1, g2, g3, g4, g5, g6, g7, g8, g9, g10⟩ :=
          extend_heap_spec limit s (E / WSIZE) bs L hinv hlim (by simp only [WSIZE]; omega)
            bp s1 hext
        rw [hw] at g2 g6
        have hlay1 := g1.heap.lay
        have hfm := Layout_mem _ _ _ hlay1 f (by simp)
        obtain ⟨bs', L', nb, h1, h2, h3, h4, h5, h6, h7, h8, h9⟩ :=
          malloc_place_step s1 _ L1 g1 f (by simp) g5 (adjust_size n) (by omega) hadj.1 hadj.2.1
        have hin : ∀ c ∈ bs, c.alloc = true → c ∈ pre' ++ f :: post' := by
          intro c hc hca
          have := g7 c hc hca
          simp only [List.mem_append, List.mem_cons] at this ⊢
          tauto
        subst g4
        refine ⟨bs', L', h1, ⟨by simp only; omega, ?_, ?_, ?_, ?_, ?_⟩⟩
        · exact fun c hc hca => h6 c (hin c hc hca) hca
        · intro c hc hca a ha1 ha2
          simp only
          rw [h9 c (hin c hc hca) hca a ha1 ha2]
          apply g9 a (alloc_not_link _ L _ hlay hinv.memb c hc hca a ha1 ha2)
          have hc1 := hin c hc hca
          have hcm := Layout_mem _ _ _ hlay c hc
          rcases Layout_sep _ _ _ hlay1 c f hc1 (by simp) with e | e | e
          · subst e; rw [hca] at g5; simp at g5
          · omega
          · have hb0 := Layout_mem _ _ _ hlay c hc
            have := hinv.heap.bound
            omega
        · intro c hc hca
          rcases h7 c hc hca with h | h
          · right; simp only; rw [h, h3]
          · simp only [List.mem_append, List.mem_cons] at h
            rcases h with h | h | h
            · exact Or.inl (g8 c (List.mem_append_left _ h))
            · subst h; rw [hca] at g5; simp at g5
            · exact Or.inl (g8 c (List.mem_append_right _ h))
        · intro p hp
          simp only [Option.some.injEq] at hp
          subst hp
          exact ⟨nb, h2, h3, h4, h5, fun c hc hca => h8 c (hin c hc hca) hca⟩
        · intro hc; simp at hc

/-! ## `mm_init` -/

theorem init_table_spec (m : Mem) (n off : Nat) (ho : off % 8 = 0) (hlt : off + 8 * n ≤ 2 ^ 32) :
    (∀ a, a < off ∨ off + 8 * n ≤ a → init_table m n off a = m a) ∧
    (∀ k, k < n → GET (init_table m n off) (off + 8 * k) = off + 8 * k ∧
      GET (init_table m n off) (off + 8 * k + 4) = off + 8 * k) := by
  induction n generalizing m off with
  | zero => simp [init_table]
  | succ n ih =>
    obtain ⟨ih1, ih2⟩ := ih (PUT (PUT m off off) (off + 4) off) (off + 8) (by omega) (by omega)
    have e : init_table m (n + 1) off = init_table (PUT (PUT m off off) (off + 4) off) n (off + 8) := by
      simp [init_table, first_listp, WSIZE, DSIZE]
    rw [e]
    constructor
    · intro a ha
      rw [ih1 a (by omega), PUT_other _ _ _ _ (by omega), PUT_other _ _ _ _ (by omega)]
    · intro k hk
      cases k with
      | zero =>
        simp only [Nat.mul_zero, Nat.add_zero]
        constructor
        · rw [GET_congr _ _ _ (fun a h1 h2 => ih1 a (by omega)),
            GET_PUT_other _ _ _ _ (by omega), GET_PUT_eq _ _ _ (by omega)]
        · rw [GET_congr _ _ _ (fun a h1 h2 => ih1 a (by omega)),
            GET_PUT_eq _ _ _ (by omega)]
      | succ k =>
        have := ih2 k (by omega)
        have e2 : off + 8 * (k + 1) = off + 8 + 8 * k := by omega
        rw [e2]
        exact this

/-- The state in which `mm_init` calls `extend_heap`: an empty heap. -/
theorem init_empty (m0 : Mem) :
    Inv ⟨PUT (PUT (PUT (PUT (init_table m0 10 0) 80 0) 84 9) 88 9) 92 1, 96⟩ []
      (fun _ => []) := by
  obtain ⟨h1, h2⟩ := init_table_spec m0 10 0 (by decide) (by decide)
  refine ⟨⟨rfl, by simp, ⟨?_, ?_⟩, ?_, ?_⟩, ⟨?_, by simp, by simp, by simp⟩, ?_, ?_⟩
  · dsimp only
    rw [GET_PUT_other _ _ _ _ (by omega), GET_PUT_other _ _ _ _ (by omega),
      GET_PUT_eq _ _ _ (by decide)]
  · dsimp only
    rw [GET_PUT_other _ _ _ _ (by omega), GET_PUT_eq _ _ _ (by decide)]
  · dsimp only
    rw [GET_PUT_eq _ _ _ (by decide)]
  · dsimp only; decide
  · intro i hi
    have := h2 i hi
    simp only [Nat.zero_add] at this
    have e : 8 * i = i * 8 := by omega
    rw [e] at this
    show Lnk _ _ _
    constructor
    · dsimp only
      rw [GET_PUT_other _ _ _ _ (by omega), GET_PUT_other _ _ _ _ (by omega),
        GET_PUT_other _ _ _ _ (by omega), GET_PUT_other _ _ _ _ (by omega)]
      exact this.1
    · dsimp only
      rw [GET_PUT_other _ _ _ _ (by omega), GET_PUT_other _ _ _ _ (by omega),
        GET_PUT_other _ _ _ _ (by omega), GET_PUT_other _ _ _ _ (by omega)]
      exact this.2
  · intro i hi y
    simp
  · simp [NoAdj]

theorem mm_init_eq (limit : Nat) (m0 : Mem) :
    mm_init limit m0 =
      if 96 ≤ limit then
        match extend_heap limit
          ⟨PUT (PUT (PUT (PUT (init_table m0 10 0) 80 0) 84 9) 88 9) 92 1, 96⟩ 1024 with
        | none => (-1, ⟨PUT (PUT (PUT (PUT (init_table m0 10 0) 80 0) 84 9) 88 9) 92 1, 96⟩)
        | some (_, s2) => (0, s2)
      else (-1, ⟨m0, 0⟩) := by
  unfold mm_init mem_sbrk
  simp only [LIST_NUM, WSIZE, Nat.zero_add, last_listp, first_listp, DSIZE,
    PACK_ALLOC 8 (by decide), PACK_ALLOC 0 (by decide), tag, INISIZE]
  simp only [Nat.reduceMul, Nat.reduceAdd, Nat.reduceSub, if_true]
  split_ifs <;> rfl

theorem mm_init_spec (limit : Nat) (m0 : Mem) (hlim : limit ≤ 2 ^ 32)
    (h : (mm_init limit m0).1 = 0) :
    ∃ (bs : List Blk) (L : Nat → List Nat), Inv (mm_init limit m0).2 bs L := by
  rw [mm_init_eq] at h ⊢
  split_ifs at h ⊢ with h1
  · have hinv := init_empty m0
    cases hext : extend_heap limit
        ⟨PUT (PUT (PUT (PUT (init_table m0 10 0) 80 0) 84 9) 88 9) 92 1, 96⟩ 1024 with
    | none =>
      rw [hext] at h
      simp at h
    | some x =>
      obtain ⟨bp, s2⟩ := x
      obtain ⟨pre', post', f, L', g1, -⟩ := extend_heap_spec limit _ _ [] _ hinv hlim (by decide)
        bp s2 hext
      exact ⟨_, _, g1⟩
  · simp at h

theorem Layout_length (l : List Blk) (p e : Nat) (h : Layout p l e) : p + 16 * l.length ≤ e := by
  induction l generalizing p with
  | nil => simp; exact le_of_eq h
  | cons b l ih =>
    have := ih _ h.2.2.2
    have := h.2.1
    simp only [List.length_cons]
    omega

theorem blocks_from_eq (m : Mem) (bs : List Blk) (p e fuel : Nat) (hl : Layout p bs e)
    (ht : ∀ b ∈ bs, Tagged m b) (he : GET m (e - 4) = 1) (hp : 4 ≤ p) (hf : bs.length < fuel) :
    blocks_from m fuel (p - 4) = bs := by
  induction bs generalizing p fuel with
  | nil =>
    obtain ⟨f, rfl⟩ : ∃ f, fuel = f + 1 := ⟨fuel - 1, by simp at hf; omega⟩
    have : p = e := hl
    subst this
    simp [blocks_from, he, PACK, ALLOC]
  | cons b bs ih =>
    obtain ⟨f, rfl⟩ : ∃ f, fuel = f + 1 := ⟨fuel - 1, by simp at hf; omega⟩
    obtain ⟨h1, h2, h3, h4⟩ := hl
    have htb := ht b (List.mem_cons_self _ _)
    unfold Tagged at htb
    rw [h1] at htb
    have hne : GET m (p - 4) ≠ PACK 0 ALLOC := by
      rw [htb.1]
      simp only [PACK, ALLOC, tag]
      split <;> simp <;> omega
    have e1 : p - 4 + 4 = p := by omega
    have hsz : GET_SIZE m (p - 4) = b.size := GET_SIZE_tag m _ _ _ h3 htb.1
    have hal : GET_ALLOC m (p - 4) = if b.alloc then 1 else 0 := GET_ALLOC_tag m _ _ _ h3 htb.1
    have hrec := ih (p + b.size) f h4 (fun c hc => ht c (List.mem_cons_of_mem _ hc)) (by omega)
      (by simp at hf; omega)
    have hd : decide ((if b.alloc then 1 else 0) ≠ 0) = b.alloc := by
      cases b.alloc <;> simp
    simp only [blocks_from, if_pos hne, WSIZE, HDRP, NEXT_BLKP, e1, hsz, hal, FREE, hrec, hd]
    rw [← h1]

theorem Inv.blocks {s bs L} (h : Inv s bs L) : heap_blocks s = bs := by
  have hlen := Layout_length _ _ _ h.heap.lay
  exact blocks_from_eq s.mem bs 96 s.brk s.brk h.heap.lay h.heap.tags h.heap.epi (by decide)
    (by omega)

/-- Stores into payloads of allocated blocks keep the invariant. -/
theorem Inv.payload {s bs L} (h : Inv s bs L) (m' : Mem)
    (hm : ∀ a, m' a ≠ s.mem a → ∃ c ∈ bs, c.alloc = true ∧ c.bp ≤ a ∧ a < c.bp + c.size - 8) :
    Inv ⟨m', s.brk⟩ bs L := by
  have hlay := h.heap.lay
  have hb96 := Layout_le _ _ _ hlay
  have key : ∀ a, (∀ c ∈ bs, c.alloc = true → ¬ (c.bp ≤ a ∧ a < c.bp + c.size - 8)) →
      m' a = s.mem a := by
    intro a ha
    by_contra hne
    obtain ⟨c, hc, h1, h2⟩ := hm a hne
    exact ha c hc h1 h2
  refine ⟨⟨hlay, ?_, ⟨?_, ?_⟩, ?_, h.heap.bound⟩, ?_, h.memb, h.noadj⟩
  · intro b hb
    have hbm := Layout_mem _ _ _ hlay b hb
    have htb := h.heap.tags b hb
    constructor
    · rw [← htb.1]
      apply GET_congr
      intro a h1 h2
      apply key
      intro c hc _
      have hcm := Layout_mem _ _ _ hlay c hc
      rcases Layout_sep _ _ _ hlay b c hb hc with e | e | e
      · subst e; omega
      · omega
      · omega
    · rw [← htb.2]
      apply GET_congr
      intro a h1 h2
      apply key
      intro c hc _
      have hcm := Layout_mem _ _ _ hlay c hc
      rcases Layout_sep _ _ _ hlay b c hb hc with e | e | e
      · subst e; omega
      · omega
      · omega
  · rw [← h.heap.pro.1]
    apply GET_congr
    intro a h1 h2
    apply key
    intro c hc _
    have hcm := Layout_mem _ _ _ hlay c hc
    omega
  · rw [← h.heap.pro.2]
    apply GET_congr
    intro a h1 h2
    apply key
    intro c hc _
    have hcm := Layout_mem _ _ _ hlay c hc
    omega
  · rw [← h.heap.epi]
    apply GET_congr
    intro a h1 h2
    apply key
    intro c hc _
    have hcm := Layout_mem _ _ _ hlay c hc
    simp only at h1 h2 ⊢
    omega
  · apply Lists_frame s.mem m' L h.lists
    intro a ha
    apply key
    intro c hc hca hin
    exact alloc_not_link bs L _ hlay h.memb c hc hca a (by omega) (by omega) ha

theorem free_post (s : State) (bs : List Blk) (b : Blk) (L : Nat → List Nat)
    (hinv : Inv s bs L) (hb : b ∈ bs) (hba : b.alloc = true) :
    ∃ (bs' : List Blk) (L' : Nat → List Nat), Inv (free s (some b.bp)) bs' L' ∧
      FreePost s bs b (free s (some b.bp)) bs' := by
  obtain ⟨pre, post, rfl⟩ := List.append_of_mem hb
  have hlay := hinv.heap.lay
  obtain ⟨pre', post', f, L', h1, h2, h3, h4, h5, h6, h7, h8⟩ := free_spec s pre post b L hinv hba
  have hlay' := h1.heap.lay
  have hsplit := (Layout_split pre b post 96 s.brk).1 hlay
  have hnb : ∀ c ∈ pre ++ post, c ≠ b := by
    intro c hc e
    subst e
    rcases List.mem_append.1 hc with hc | hc
    · have := Layout_mem _ _ _ hsplit.1 c hc; omega
    · have := Layout_mem _ _ _ hsplit.2.2.2 c hc; omega
  have hin : ∀ c ∈ pre ++ b :: post, c ≠ b → c ∈ pre ++ post := by
    intro c hc hne
    simp only [List.mem_append, List.mem_cons] at hc ⊢
    tauto
  have hkeep : ∀ c ∈ pre ++ b :: post, c.alloc = true → c ≠ b → c ∈ pre' ++ f :: post' := by
    intro c hc hca hne
    have := h6 c (hin c hc hne) hca
    simp only [List.mem_append, List.mem_cons] at this ⊢
    tauto
  refine ⟨_, L', h1, ⟨h2, ⟨f, by simp, h3, h4, h5⟩, hkeep, ?_, ?_⟩⟩
  · intro c hc hca hne a ha1 ha2
    apply h8 a (alloc_not_link _ L _ hlay hinv.memb c hc hca a ha1 ha2)
    have hc' := hkeep c hc hca hne
    have hcm := Layout_mem _ _ _ hlay' c hc'
    have hfm := Layout_mem _ _ _ hlay' f (by simp)
    rcases Layout_sep _ _ _ hlay' c f hc' (by simp) with e | e | e
    · subst e; rw [hca] at h3; simp at h3
    · omega
    · omega
  · intro c hc hca
    simp only [List.mem_append, List.mem_cons] at hc
    have hc2 : c ∈ pre ++ post := by
      rcases hc with hc | hc | hc
      · exact h7 c (List.mem_append_left _ hc)
      · subst hc; rw [hca] at h3; simp at h3
      · exact h7 c (List.mem_append_right _ hc)
    refine ⟨?_, hnb c hc2⟩
    simp only [List.mem_append, List.mem_cons] at hc2 ⊢
    tauto

/-! ## `realloc` and `calloc` -/

theorem realloc_move (fuel limit : Nat) (s : State) (n : Nat) (bs : List Blk)
    (L : Nat → List Nat) (b : Blk) (hinv : Inv s bs L) (hlim : limit ≤ 2 ^ 32) (hn : 0 < n)
    (hn2 : n + 15 < 2 ^ 64) (hb : b ∈ bs) (hba : b.alloc = true) (q : Nat) (s1 : State)
    (hm : malloc fuel limit s n = some (some q, s1)) :
    realloc fuel limit s (some b.bp) n =
      some (some q, free ⟨memcpy s1.mem q b.bp (min b.size n), s1.brk⟩ (some b.bp)) ∧
    realloc_copy_size s1.mem b.bp n = min b.size n ∧
    ∃ (bs2 : List Blk) (L2 : Nat → List Nat),
      Inv (free ⟨memcpy s1.mem q b.bp (min b.size n), s1.brk⟩ (some b.bp)) bs2 L2 ∧
      ReallocPost s bs b n q (free ⟨memcpy s1.mem q b.bp (min b.size n), s1.brk⟩ (some b.bp))
        bs2 := by
  obtain ⟨bs1, L1, hinv1, MP⟩ := malloc_spec fuel limit s n bs L hinv hlim hn hn2 _ hm
  simp only at hinv1
  obtain ⟨nb, hnb, hnbq, hnba, hnbs, hnbn⟩ := MP.new q rfl
  have hadj := adjust_size_bounds n hn2
  have hb1 : b ∈ bs1 := MP.keep b hb hba
  have hlay1 := hinv1.heap.lay
  have hbm := Layout_mem _ _ _ hlay1 b hb1
  have hnbm := Layout_mem _ _ _ hlay1 nb hnb
  have hS : GET_SIZE s1.mem (HDRP b.bp) = b.size :=
    GET_SIZE_tag _ _ _ _ hbm.2.2.2.1 (hinv1.heap.tags b hb1).1
  have hk : realloc_copy_size s1.mem b.bp n = min b.size n := by
    unfold realloc_copy_size
    rw [hS]
    simp only
    split_ifs <;> omega
  have hre : realloc fuel limit s (some b.bp) n =
      some (some q, free ⟨memcpy s1.mem q b.bp (min b.size n), s1.brk⟩ (some b.bp)) := by
    unfold realloc
    rw [if_neg (by omega)]
    simp only [hm, hk]
  have hbq : b.bp ≠ q := hnbn b hb hba
  have hbnb : nb ≠ b := fun e => hbq (by rw [← e, hnbq])
  -- the copy stays inside the payload of the new block
  have hcopy : ∀ a, memcpy s1.mem q b.bp (min b.size n) a ≠ s1.mem a →
      q ≤ a ∧ a < q + min b.size n := by
    intro a ha
    unfold memcpy at ha
    by_contra hc
    rw [if_neg hc] at ha
    exact ha rfl
  have hinv2 : Inv ⟨memcpy s1.mem q b.bp (min b.size n), s1.brk⟩ bs1 L1 := by
    apply hinv1.payload
    intro a ha
    have := hcopy a ha
    exact ⟨nb, hnb, hnba, by omega, by omega⟩
  obtain ⟨bs2, L2, hinv3, FP⟩ := free_post _ bs1 b L1 hinv2 hb1 hba
  have hout : ∀ c ∈ bs1, c ≠ nb → ∀ a, c.bp - 4 ≤ a → a < c.bp + c.size - 4 →
      memcpy s1.mem q b.bp (min b.size n) a = s1.mem a := by
    intro c hc hne a ha1 ha2
    by_contra hx
    have := hcopy a hx
    have hcm := Layout_mem _ _ _ hlay1 c hc
    rcases Layout_sep _ _ _ hlay1 c nb hc hnb with e | e | e
    · exact hne e
    · omega
    · omega
  refine ⟨hre, hk, bs2, L2, hinv3, ⟨?_, ?_, ?_, ?_, ?_, FP.freed, ?_⟩⟩
  · have := FP.brk_eq
    have := MP.brk_le
    simp only at *
    omega
  · exact fun c hc hca hne => FP.keep c (MP.keep c hc hca) hca hne
  · intro c hc hca hne a ha1 ha2
    have hc1 := MP.keep c hc hca
    have hcnb : c ≠ nb := fun e => hnbn c hc hca (by rw [e, hnbq])
    rw [FP.bytes c hc1 hca hne a ha1 ha2]
    simp only
    rw [hout c hc1 hcnb a ha1 ha2]
    exact MP.bytes c hc hca a ha1 ha2
  · exact ⟨nb, FP.keep nb hnb hnba hbnb, hnbq, hnba, hnbs, hnbn⟩
  · intro a ha1 ha2
    rw [FP.bytes nb hnb hnba hbnb (q + a) (by omega) (by omega)]
    simp only
    have : memcpy s1.mem q b.bp (min b.size n) (q + a) = s1.mem (b.bp + a) := by
      unfold memcpy
      rw [if_pos ⟨by omega, by omega⟩]
      congr 1
      omega
    rw [this]
    have hbm0 := Layout_mem _ _ _ hinv.heap.lay b hb
    exact MP.bytes b hb hba (b.bp + a) (by omega) (by omega)
  · intro c hc hca
    obtain ⟨h1, h2⟩ := FP.old c hc hca
    rcases MP.old c h1 hca with h3 | h3
    · exact Or.inr ⟨h3, h2⟩
    · left
      simp only [Option.some.injEq] at h3
      exact h3.symm

theorem calloc_spec (fuel limit : Nat) (s : State) (nmemb size : Nat) (bs : List Blk)
    (L : Nat → List Nat) (hinv : Inv s bs L) (hlim : limit ≤ 2 ^ 32)
    (hsz : nmemb * size % 2 ^ 64 + 15 < 2 ^ 64) (p : Option Nat) (s' : State)
    (h : calloc fuel limit s nmemb size = CallocResult.ret p s') :
    ∃ (bs' : List Blk) (L' : Nat → List Nat), Inv s' bs' L' ∧
      MallocPost s bs (nmemb * size % 2 ^ 64) (p, s') bs' ∧
      (∀ q, p = some q → ∀ a, a < nmemb * size % 2 ^ 64 → s'.mem (q + a) = 0) ∧
      (p = none → nmemb * size % 2 ^ 64 = 0) := by
  obtain ⟨T, hT⟩ : ∃ T, T = nmemb * size % 2 ^ 64 := ⟨_, rfl⟩
  rw [← hT] at hsz ⊢
  unfold calloc at h
  simp only [SIZE_MOD, ← hT] at h
  cases hm : malloc fuel limit s T with
  | none => rw [hm] at h; simp at h
  | some r =>
    obtain ⟨r1, s1⟩ := r
    rw [hm] at h
    by_cases hT0 : T = 0
    · subst hT0
      rw [malloc_zero] at hm
      simp only [Option.some.injEq, Prod.mk.injEq] at hm
      obtain ⟨e1, e2⟩ := hm
      subst e1 e2
      simp only [if_true, CallocResult.ret.injEq] at h
      obtain ⟨e1, e2⟩ := h
      subst e1 e2
      exact ⟨bs, L, hinv, ⟨le_refl _, fun c hc _ => hc, fun _ _ _ _ _ _ => rfl,
        fun c hc _ => Or.inl hc, fun p hp => by simp at hp, fun _ => rfl⟩, by simp, fun _ => rfl⟩
    · obtain ⟨bs1, L1, hinv1, MP⟩ := malloc_spec fuel limit s T bs L hinv hlim (by omega) hsz _ hm
      have hadj := adjust_size_bounds T hsz
      cases r1 with
      | none =>
        simp only [if_neg hT0] at h
        exact absurd h (by simp)
      | some bp =>
        simp only [CallocResult.ret.injEq] at h
        obtain ⟨e1, e2⟩ := h
        subst e1 e2
        obtain ⟨nb, hnb, hnbq, hnba, hnbs, hnbn⟩ := MP.new bp rfl
        have hlay1 := hinv1.heap.lay
        have hnbm := Layout_mem _ _ _ hlay1 nb hnb
        have hset : ∀ a, memset s1.mem bp 0 T a ≠ s1.mem a → bp ≤ a ∧ a < bp + T := by
          intro a ha
          unfold memset at ha
          by_contra hc
          rw [if_neg hc] at ha
          exact ha rfl
        have hinv2 : Inv ⟨memset s1.mem bp 0 T, s1.brk⟩ bs1 L1 := by
          apply hinv1.payload
          intro a ha
          have := hset a ha
          exact ⟨nb, hnb, hnba, by omega, by omega⟩
        refine ⟨bs1, L1, hinv2, ⟨MP.brk_le, MP.keep, ?_, MP.old, MP.new, ?_⟩, ?_, ?_⟩
        · intro c hc hca a ha1 ha2
          simp only
          have hc1 := MP.keep c hc hca
          have hcm := Layout_mem _ _ _ hlay1 c hc1
          have : memset s1.mem bp 0 T a = s1.mem a := by
            by_contra hx
            have := hset a hx
            rcases Layout_sep _ _ _ hlay1 c nb hc1 hnb with e | e | e
            · exact hnbn c hc hca (by rw [e, hnbq])
            · omega
            · omega
          rw [this]
          exact MP.bytes c hc hca a ha1 ha2
        · intro hc; simp at hc
        · intro q hq a ha
          simp only [Option.some.injEq] at hq
          subst hq
          simp only [memset]
          rw [if_pos ⟨by omega, by omega⟩]
          rfl
        · intro hc; simp at hc

theorem allocated_iff {s bs L} (h : Inv s bs L) (p : Nat) :
    allocated s p ↔ ∃ b ∈ bs, b.bp = p ∧ b.alloc = true := by
  unfold allocated
  rw [h.blocks]

theorem free_inv (s : State) (bs : List Blk) (L : Nat → List Nat) (hinv : Inv s bs L)
    (ptr : Option Nat) (hv : ∀ p, ptr = some p → allocated s p) :
    ∃ (bs' : List Blk) (L' : Nat → List Nat), Inv (free s ptr) bs' L' := by
  cases ptr with
  | none => exact ⟨bs, L, hinv⟩
  | some p =>
    obtain ⟨b, hb, hbp, hba⟩ := (allocated_iff hinv p).1 (hv p rfl)
    subst hbp
    obtain ⟨bs', L', h1, -⟩ := free_post s bs b L hinv hb hba
    exact ⟨bs', L', h1⟩

theorem realloc_inv (fuel limit : Nat) (s : State) (ptr : Option Nat) (n : Nat)
    (bs : List Blk) (L : Nat → List Nat) (hinv : Inv s bs L) (hlim : limit ≤ 2 ^ 32)
    (hn2 : n + 15 < 2 ^ 64) (hv : ∀ p, ptr = some p → allocated s p)
    (r : Option Nat × State) (h : realloc fuel limit s ptr n = some r) :
    ∃ (bs' : List Blk) (L' : Nat → List Nat), Inv r.2 bs' L' := by
  by_cases hn : n = 0
  · subst hn
    simp only [realloc, if_true, Option.some.injEq] at h
    subst h
    exact free_inv s bs L hinv ptr hv
  · cases ptr with
    | none =>
      simp only [realloc, if_neg hn] at h
      obtain ⟨bs', L', h1, -⟩ := malloc_spec fuel limit s n bs L hinv hlim (by omega) hn2 r h
      exact ⟨bs', L', h1⟩
    | some p =>
      obtain ⟨b, hb, hbp, hba⟩ := (allocated_iff hinv p).1 (hv p rfl)
      subst hbp
      cases hm : malloc fuel limit s n with
      | none => simp [realloc, hn, hm] at h
      | some x =>
        obtain ⟨r1, s1⟩ := x
        cases r1 with
        | none =>
          simp only [realloc, if_neg hn, hm, Option.some.injEq] at h
          subst h
          obtain ⟨bs', L', h1, -⟩ := malloc_spec fuel limit s n bs L hinv hlim (by omega) hn2 _ hm
          exact ⟨bs', L', h1⟩
        | some q =>
          obtain ⟨h1, -, bs2, L2, h2, -⟩ := realloc_move fuel limit s n bs L b hinv hlim
            (by omega) hn2 hb hba q s1 hm
          rw [h1] at h
          simp only [Option.some.injEq] at h
          subst h
          exact ⟨bs2, L2, h2⟩

/-- Every reachable state satisfies the representation invariant. -/
theorem Reachable.inv {s : State} (h : Reachable s) :
    ∃ (bs : List Blk) (L : Nat → List Nat), Inv s bs L := by
  induction h with
  | init limit m0 hl h => exact mm_init_spec limit m0 hl h
  | malloc s fuel limit size r _ hl hv h ih =>
    obtain ⟨bs, L, hinv⟩ := ih
    by_cases hz : size = 0
    · subst hz
      rw [malloc_zero] at h
      simp only [Option.some.injEq] at h
      subst h
      exact ⟨bs, L, hinv⟩
    · obtain ⟨bs', L', h1, -⟩ := malloc_spec fuel limit s size bs L hinv hl (by omega) hv r h
      exact ⟨bs', L', h1⟩
  | free s ptr _ hv ih =>
    obtain ⟨bs, L, hinv⟩ := ih
    exact free_inv s bs L hinv ptr hv
  | realloc s fuel limit ptr size r _ hl hv hp h ih =>
    obtain ⟨bs, L, hinv⟩ := ih
    exact realloc_inv fuel limit s ptr size bs L hinv hl hv hp r h
  | calloc s fuel limit nmemb size p s' _ hl hv h ih =>
    obtain ⟨bs, L, hinv⟩ := ih
    obtain ⟨bs', L', h1, -⟩ := calloc_spec fuel limit s nmemb size bs L hinv hl hv p s' h
    exact ⟨bs', L', h1⟩
  | store s a v _ hv ih =>
    obtain ⟨bs, L, hinv⟩ := ih
    rw [hinv.blocks] at hv
    refine ⟨bs, L, hinv.payload _ ?_⟩
    intro x hx
    have : x = a := by
      by_contra hne
      simp only [store, if_neg hne] at hx
      exact hx rfl
    subst this
    exact hv

/-! ## Termination -/

theorem find_fit_total {s bs L} (h : Inv s bs L) (fuel asize : Nat) (hf : s.brk ≤ fuel) :
    ∃ r, find_fit fuel s.mem asize = some r :=
  ⟨_, find_fit_eq s.mem asize fuel L h.lists
    (fun j hj => lt_of_lt_of_le (h.fuel j hj) hf)⟩

/-- With the arena size as fuel `malloc` returns. -/
theorem malloc_total {s bs L} (h : Inv s bs L) (fuel limit n : Nat) (hf : s.brk ≤ fuel) :
    ∃ r, malloc fuel limit s n = some r := by
  obtain ⟨x, hx⟩ := find_fit_total h fuel (adjust_size n) hf
  unfold malloc
  split_ifs
  · exact ⟨_, rfl⟩
  · simp only [hx]
    cases x with
    | some bp => exact ⟨_, rfl⟩
    | none =>
      simp only
      cases extend_heap limit s
        ((if adjust_size n > CHUNKSIZE then adjust_size n else CHUNKSIZE) / WSIZE) with
      | none => exact ⟨_, rfl⟩
      | some y => exact ⟨_, rfl⟩

theorem realloc_total {s bs L} (h : Inv s bs L) (fuel limit : Nat) (ptr : Option Nat) (n : Nat)
    (hf : s.brk ≤ fuel) : ∃ r, realloc fuel limit s ptr n = some r := by
  obtain ⟨x, hx⟩ := malloc_total h fuel limit n hf
  unfold realloc
  split_ifs
  · exact ⟨_, rfl⟩
  · cases ptr with
    | none => exact ⟨x, hx⟩
    | some p =>
      simp only [hx]
      obtain ⟨r1, s1⟩ := x
      cases r1 with
      | none => exact ⟨_, rfl⟩
      | some q => exact ⟨_, rfl⟩

theorem calloc_total {s bs L} (h : Inv s bs L) (fuel limit nmemb size : Nat)
    (hf : s.brk ≤ fuel) : calloc fuel limit s nmemb size ≠ CallocResult.nofuel := by
  obtain ⟨x, hx⟩ := malloc_total h fuel limit (nmemb * size % SIZE_MOD) hf
  unfold calloc
  simp only [hx]
  obtain ⟨r1, s1⟩ := x
  cases r1 with
  | none => simp only; split_ifs <;> simp
  | some q => simp

/-- The tag words of a block of the heap, as the macros read them. -/
theorem Inv.read {s bs L} (h : Inv s bs L) (b : Blk) (hb : b ∈ bs) :
    GET_SIZE s.mem (HDRP b.bp) = b.size ∧
    GET_ALLOC s.mem (HDRP b.bp) = (if b.alloc then 1 else 0) ∧
    GET s.mem (FTRP s.mem b.bp) = GET s.mem (HDRP b.bp) ∧
    b.bp % 8 = 0 ∧ 96 ≤ b.bp ∧ b.bp + b.size ≤ s.brk ∧ 16 ≤ b.size ∧ b.size % 8 = 0 := by
  have hbm := Layout_mem _ _ _ h.heap.lay b hb
  have ht := h.heap.tags b hb
  have h1 : GET_SIZE s.mem (HDRP b.bp) = b.size := GET_SIZE_tag _ _ _ _ hbm.2.2.2.1 ht.1
  refine ⟨h1, GET_ALLOC_tag _ _ _ _ hbm.2.2.2.1 ht.1, ?_, hbm.2.2.2.2 (by decide), hbm.1,
    hbm.2.1, hbm.2.2.1, hbm.2.2.2.1⟩
  simp only [FTRP, h1, DSIZE]
  rw [ht.2]
  exact ht.1.symm

theorem fresh_heap_reachable : Reachable fresh_heap :=
  Reachable.init 5000 zero_mem (by decide) (by decide)

theorem malloc_fresh_one : malloc 10 5000 fresh_heap 1 = some (some 96, heap_one) := rfl

theorem heap_one_reachable : Reachable heap_one :=
  Reachable.malloc fresh_heap 10 5000 1 (some 96, heap_one) fresh_heap_reachable (by decide)
    (by decide) malloc_fresh_one

theorem malloc_heap_one : malloc 10 5000 heap_one 16 = some (some 112, heap_two) := rfl

theorem realloc_heap_one :
    realloc 10 5000 heap_one (some 96) 16 = some (some 112, heap_moved) := rfl

theorem heap_one_blocks : heap_blocks heap_one = [⟨96, 16, true⟩, ⟨112, 4080, false⟩] := by
  decide

/-- C1: in a reachable state, a call `malloc(n)` with `n > 0` (and `n` small
enough for the size adjustment not to wrap, which holds whenever the adjusted
size fits the 32-bit tag word) returns when it is given the arena size as
fuel, and when it returns a non-null pointer `p`, the block at `p` is marked
allocated, is a block of the arena, and its recorded size minus the 8 bytes of
header and footer is at least `n`. -/
theorem malloc_payload_capacity (s : State) (hs : Reachable s) (fuel limit n p : Nat)
    (s' : State) (hl : limit ≤ 2 ^ 32) (hn : 0 < n) (hv : n + 15 < 2 ^ 64)
    (h : malloc fuel limit s n = some (some p, s')) :
    (∃ r, malloc s.brk limit s n = some r) ∧
    GET_ALLOC s'.mem (HDRP p) = ALLOC ∧ n ≤ GET_SIZE s'.mem (HDRP p) - DSIZE ∧
    ∃ b ∈ heap_blocks s', b.bp = p ∧ b.alloc = true ∧ n ≤ b.size - 8 := by
  obtain ⟨bs, L, hinv⟩ := hs.inv
  obtain ⟨bs', L', hinv', MP⟩ := malloc_spec fuel limit s n bs L hinv hl hn hv _ h
  obtain ⟨b, hb, hbp, hba, hbs, -⟩ := MP.new p rfl
  have hadj := adjust_size_bounds n hv
  have hrd := hinv'.read b hb
  simp only at hinv' hrd
  rw [hbp, hba] at hrd
  refine ⟨malloc_total hinv _ limit n (le_refl _), ?_, ?_, ?_⟩
  · rw [hrd.2.1]; rfl
  · rw [hrd.1]; simp only [DSIZE]; omega
  · rw [hinv'.blocks]
    exact ⟨b, hb, hbp, hba, by omega⟩

theorem malloc_payload_capacity_witness :
    (∃ r, malloc fresh_heap.brk 5000 fresh_heap 1 = some r) ∧
    GET_ALLOC heap_one.mem (HDRP 96) = ALLOC ∧ 1 ≤ GET_SIZE heap_one.mem (HDRP 96) - DSIZE ∧
    ∃ b ∈ heap_blocks heap_one, b.bp = 96 ∧ b.alloc = true ∧ 1 ≤ b.size - 8 :=
  malloc_payload_capacity fresh_heap fresh_heap_reachable 10 5000 1 96 heap_one (by decide)
    (by decide) (by decide) malloc_fresh_one

/-- C2: in a reachable state, every non-null pointer returned by a valid
`malloc`, `realloc` or `calloc` call is an arena-relative offset that is a
multiple of 8. -/
theorem returned_pointer_aligned (s : State) (hs : Reachable s) (fuel limit n p : Nat)
    (s' : State) (hl : limit ≤ 2 ^ 32) (hv : n + 15 < 2 ^ 64)
    (h : malloc fuel limit s n = some (some p, s') ∨
      (∃ ptr, (∀ q, ptr = some q → allocated s q) ∧
        realloc fuel limit s ptr n = some (some p, s')) ∨
      (∃ c k, c * k % 2 ^ 64 = n ∧ calloc fuel limit s c k = CallocResult.ret (some p) s')) :
    p % ALIGNMENT = 0 := by
  obtain ⟨bs, L, hinv⟩ := hs.inv
  have key : ∀ r : Option Nat × State, malloc fuel limit s n = some r → r.1 = some p →
      p % 8 = 0 := by
    intro r hm hr
    have hn : 0 < n := by
      by_contra hc
      have : n = 0 := by omega
      subst this
      rw [malloc_zero] at hm
      simp only [Option.some.injEq] at hm
      subst hm
      simp at hr
    obtain ⟨bs', L', hinv', MP⟩ := malloc_spec fuel limit s n bs L hinv hl hn hv r hm
    obtain ⟨b, hb, hbp, -⟩ := MP.new p hr
    rw [← hbp]
    exact (hinv'.read b hb).2.2.2.1
  show p % 8 = 0
  rcases h with h | ⟨ptr, hp, h⟩ | ⟨c, k, hck, h⟩
  · exact key _ h rfl
  · by_cases hn : n = 0
    · subst hn
      simp [realloc] at h
    · cases ptr with
      | none =>
        simp only [realloc, if_neg hn] at h
        exact key _ h rfl
      | some q =>
        cases hm : malloc fuel limit s n with
        | none => simp [realloc, hn, hm] at h
        | some x =>
          obtain ⟨r1, s1⟩ := x
          cases r1 with
          | none => simp [realloc, hn, hm] at h
          | some q' =>
            simp only [realloc, if_neg hn, hm, Option.some.injEq, Prod.mk.injEq] at h
            exact key _ hm (by rw [h.1])
  · subst hck
    obtain ⟨bs', L', hinv', MP, -⟩ := calloc_spec fuel limit s c k bs L hinv hl hv _ s' h
    obtain ⟨b, hb, hbp, -⟩ := MP.new p rfl
    rw [← hbp]
    exact (hinv'.read b hb).2.2.2.1

theorem returned_pointer_aligned_witness : 96 % ALIGNMENT = 0 :=
  returned_pointer_aligned fresh_heap fresh_heap_reachable 10 5000 1 96 heap_one (by decide)
    (by decide) (Or.inl malloc_fresh_one)

/-- C3: in a reachable state, a valid call of `malloc`, `calloc`, `free` or
`realloc`, the last two on a pointer other than that of the allocated block
`b`, leaves every byte of `b` unchanged: its header word, its payload and its
footer word. -/
theorem allocated_block_untouched (s : State) (hs : Reachable s) (b : Blk)
    (hb : b ∈ heap_blocks s) (hba : b.alloc = true) (a : Nat) (ha1 : b.bp - 4 ≤ a)
    (ha2 : a < b.bp + b.size - 4) (fuel limit n : Nat) (hl : limit ≤ 2 ^ 32)
    (hv : n + 15 < 2 ^ 64) (s' : State)
    (h : (∃ p, malloc fuel limit s n = some (p, s')) ∨
      (∃ c k p, c * k % 2 ^ 64 = n ∧ calloc fuel limit s c k = CallocResult.ret p s') ∨
      (∃ q, q ≠ some b.bp ∧ (∀ p, q = some p → allocated s p) ∧ free s q = s') ∨
      (∃ q p, q ≠ some b.bp ∧ (∀ p, q = some p → allocated s p) ∧
        realloc fuel limit s q n = some (p, s'))) :
    s'.mem a = s.mem a := by
  obtain ⟨bs, L, hinv⟩ := hs.inv
  rw [hinv.blocks] at hb
  have kmalloc : ∀ p s1, malloc fuel limit s n = some (p, s1) → s1.mem a = s.mem a := by
    intro p s1 hm
    by_cases hn : n = 0
    · subst hn
      rw [malloc_zero] at hm
      simp only [Option.some.injEq, Prod.mk.injEq] at hm
      rw [hm.2]
    · obtain ⟨bs', L', -, MP⟩ := malloc_spec fuel limit s n bs L hinv hl (by omega) hv _ hm
      exact MP.bytes b hb hba a ha1 ha2
  have kfree : ∀ q, q ≠ some b.bp → (∀ p, q = some p → allocated s p) →
      (free s q).mem a = s.mem a := by
    intro q hq hp
    cases q with
    | none => rfl
    | some p =>
      obtain ⟨c, hc, hcp, hca⟩ := (allocated_iff hinv p).1 (hp p rfl)
      subst hcp
      obtain ⟨bs', L', -, FP⟩ := free_post s bs c L hinv hc hca
      exact FP.bytes b hb hba (fun e => hq (by rw [e])) a ha1 ha2
  rcases h with ⟨p, h⟩ | ⟨c, k, p, hck, h⟩ | ⟨q, hq, hp, h⟩ | ⟨q, p, hq, hp, h⟩
  · exact kmalloc p s' h
  · subst hck
    obtain ⟨bs', L', -, MP, -⟩ := calloc_spec fuel limit s c k bs L hinv hl hv _ s' h
    exact MP.bytes b hb hba a ha1 ha2
  · rw [← h]
    exact kfree q hq hp
  · by_cases hn : n = 0
    · subst hn
      simp only [realloc, if_true, Option.some.injEq, Prod.mk.injEq] at h
      rw [← h.2]
      exact kfree q hq hp
    · cases q with
      | none =>
        simp only [realloc, if_neg hn] at h
        exact kmalloc p s' h
      | some q =>
        obtain ⟨c, hc, hcp, hca⟩ := (allocated_iff hinv q).1 (hp q rfl)
        subst hcp
        cases hm : malloc fuel limit s n with
        | none => simp [realloc, hn, hm] at h
        | some x =>
          obtain ⟨r1, s1⟩ := x
          cases r1 with
          | none =>
            simp only [realloc, if_neg hn, hm, Option.some.injEq, Prod.mk.injEq] at h
            rw [← h.2]
            exact kmalloc none s1 hm
          | some q' =>
            obtain ⟨h1, -, bs2, L2, -, RP⟩ := realloc_move fuel limit s n bs L c hinv hl
              (by omega) hv hc hca q' s1 hm
            rw [h1] at h
            simp only [Option.some.injEq, Prod.mk.injEq] at h
            rw [← h.2]
            exact RP.bytes b hb hba (fun e => hq (by rw [e])) a ha1 ha2

theorem allocated_block_untouched_witness : heap_two.mem 96 = heap_one.mem 96 :=
  allocated_block_untouched heap_one heap_one_reachable ⟨96, 16, true⟩ (by decide) rfl 96
    (by decide) (by decide) 10 5000 16 (by decide) (by decide) heap_two
    (Or.inl ⟨some 112, malloc_heap_one⟩)

/-- C4: in a reachable state no two physically adjacent blocks between the
prologue and the epilogue are both free. -/
theorem no_adjacent_free (s : State) (hs : Reachable s) :
    List.Chain' (fun a b : Blk => ¬ (a.alloc = false ∧ b.alloc = false)) (heap_blocks s) := by
  obtain ⟨bs, L, hinv⟩ := hs.inv
  rw [hinv.blocks]
  apply List.Chain'.imp _ hinv.noadj
  intro a b h
  rcases h with h | h <;> simp [h]

theorem free_count_le (bs : List Blk) : free_count bs ≤ bs.length :=
  List.length_filter_le _ _

theorem check_each_block_loop_eq (m : Mem) (bs : List Blk) (p e fuel c : Nat)
    (hl : Layout p bs e) (ht : ∀ b ∈ bs, Tagged m b) (he : GET m (e - 4) = 1) (hp : 4 ≤ p)
    (hf : bs.length < fuel) (hc : c + bs.length < SIZE_MOD) :
    check_each_block_loop m fuel (p - 4) c = some (c + free_count bs) := by
  induction bs generalizing p fuel c with
  | nil =>
    obtain ⟨f, rfl⟩ : ∃ f, fuel = f + 1 := ⟨fuel - 1, by simp at hf; omega⟩
    have : p = e := hl
    subst this
    simp [check_each_block_loop, he, PACK, ALLOC, free_count]
  | cons b bs ih =>
    obtain ⟨f, rfl⟩ : ∃ f, fuel = f + 1 := ⟨fuel - 1, by simp at hf; omega⟩
    obtain ⟨h1, h2, h3, h4⟩ := hl
    have htb := ht b (List.mem_cons_self _ _)
    unfold Tagged at htb
    rw [h1] at htb
    have hne : GET m (p - 4) ≠ PACK 0 ALLOC := by
      rw [htb.1]
      simp only [PACK, ALLOC, tag]
      split <;> simp <;> omega
    have e1 : p - 4 + 4 = p := by omega
    have hsz : GET_SIZE m (p - 4) = b.size := GET_SIZE_tag m _ _ _ h3 htb.1
    have hal : GET_ALLOC m (p - 4) = if b.alloc then 1 else 0 := GET_ALLOC_tag m _ _ _ h3 htb.1
    simp only [List.length_cons] at hf hc
    have hrec := fun c' hc' => ih (p + b.size) f c' h4
      (fun c hc => ht c (List.mem_cons_of_mem _ hc)) (by omega) (by omega) hc'
    simp only [check_each_block_loop, if_pos hne, WSIZE, HDRP, NEXT_BLKP, e1, hsz, hal, FREE]
    cases hba : b.alloc with
    | true =>
      simp only [if_true, one_ne_zero, if_false]
      rw [hrec c (by omega)]
      simp [free_count, List.filter_cons, hba]
    | false =>
      simp only [Bool.false_eq_true, if_false, if_true]
      rw [Nat.mod_eq_of_lt (by omega), hrec (c + 1) (by omega)]
      simp [free_count, List.filter_cons, hba]
      omega

theorem check_free_list_walk_eq (m : Mem) (h : Nat) (l : List Nat) (x fuel c : Nat)
    (hs : Seg m x l h) (hne : ∀ y ∈ l, y ≠ h) (hf : l.length < fuel)
    (hc : c + l.length < SIZE_MOD) :
    check_free_list_walk m h fuel (GET m x) c = some (c + l.length) := by
  induction l generalizing x fuel c with
  | nil =>
    obtain ⟨f, rfl⟩ : ∃ f, fuel = f + 1 := ⟨fuel - 1, by simp at hf; omega⟩
    have : GET m x = h := hs.1
    simp [check_free_list_walk, this]
  | cons y l ih =>
    obtain ⟨f, rfl⟩ : ∃ f, fuel = f + 1 := ⟨fuel - 1, by simp at hf; omega⟩
    have hxy : GET m x = y := hs.1.1
    have hyh : y ≠ h := hne y (List.mem_cons_self _ _)
    simp only [List.length_cons] at hf hc
    have hih := ih y f (c + 1) hs.2 (fun z hz => hne z (List.mem_cons_of_mem _ hz)) (by omega)
      (by omega)
    simp only [check_free_list_walk, hxy, if_pos hyh, NEXT_EMPT_BLKP, first_listp, NEXT_SECT,
      Nat.zero_add]
    rw [Nat.mod_eq_of_lt (by omega), hih]
    simp only [List.length_cons]
    congr 1
    omega

theorem check_free_list_loop_eq (m : Mem) (fuel : Nat) (L : Nat → List Nat) (hl : Lists m L)
    (hf : ∀ j, j < 10 → (L j).length < fuel) (n i cnt c : Nat) (hn : i + n = 10) (hcnt : n < cnt)
    (hc : c + (scan L n i).length < SIZE_MOD) :
    check_free_list_loop m fuel cnt (i * 8) c = some (c + (scan L n i).length) := by
  induction n generalizing i cnt c with
  | zero =>
    obtain ⟨k, rfl⟩ : ∃ k, cnt = k + 1 := ⟨cnt - 1, by omega⟩
    have : i = 10 := by omega
    subst this
    simp [check_free_list_loop, scan, last_listp, first_listp, LIST_NUM, DSIZE]
  | succ n ih =>
    obtain ⟨k, rfl⟩ : ∃ k, cnt = k + 1 := ⟨cnt - 1, by omega⟩
    have hi : i < 10 := by omega
    have hne : i * 8 ≠ last_listp + DSIZE := by
      simp only [last_listp, first_listp, LIST_NUM, DSIZE]
      omega
    simp only [scan, List.length_append] at hc ⊢
    have hw := check_free_list_walk_eq m (i * 8) (L i) (i * 8) fuel c (hl.seg i hi)
      (hl.head_ne i hi) (hf i hi) (by omega)
    have hih := ih (i + 1) k (c + (L i).length) (by omega) (by omega) (by omega)
    simp only [check_free_list_loop, if_pos hne, NEXT_EMPT_BLKP, first_listp, NEXT_SECT,
      Nat.zero_add, hw]
    have e : i * 8 + DSIZE = (i + 1) * 8 := by simp only [DSIZE]; ring
    rw [e, hih, Nat.add_assoc]

theorem scan_mem_iff (L : Nat → List Nat) (n i y : Nat) :
    y ∈ scan L n i ↔ ∃ j, i ≤ j ∧ j < i + n ∧ y ∈ L j := by
  induction n generalizing i with
  | zero =>
    simp only [scan, List.not_mem_nil, false_iff]
    rintro ⟨j, h1, h2, -⟩
    omega
  | succ n ih =>
    simp only [scan, List.mem_append, ih]
    constructor
    · rintro (h | ⟨j, h1, h2, h3⟩)
      · exact ⟨i, le_refl _, by omega, h⟩
      · exact ⟨j, by omega, by omega, h3⟩
    · rintro ⟨j, h1, h2, h3⟩
      by_cases e : j = i
      · subst e; exact Or.inl h3
      · exact Or.inr ⟨j, by omega, by omega, h3⟩

theorem scan_nodup (m : Mem) (L : Nat → List Nat) (hl : Lists m L) (n i : Nat)
    (hn : i + n ≤ 10) : (scan L n i).Nodup := by
  induction n generalizing i with
  | zero => simp [scan]
  | succ n ih =>
    simp only [scan]
    rw [List.nodup_append]
    refine ⟨hl.nodup i (by omega), ih (i + 1) (by omega), ?_⟩
    intro y hy hy2
    obtain ⟨j, h1, h2, h3⟩ := (scan_mem_iff L n (i + 1) y).1 hy2
    have := hl.disj i j (by omega) (by omega) y hy h3
    omega

theorem free_bps_nodup (bs : List Blk) (p e : Nat) (h : Layout p bs e) :
    ((bs.filter (fun b => !b.alloc)).map Blk.bp).Nodup := by
  induction bs generalizing p with
  | nil => simp
  | cons b bs ih =>
    have hrec := ih _ h.2.2.2
    have hfresh : ∀ c ∈ bs, c.bp ≠ b.bp := by
      intro c hc
      have := Layout_mem _ _ _ h.2.2.2 c hc
      have := h.1
      have := h.2.1
      omega
    rw [List.filter_cons]
    split
    · rw [List.map_cons, List.nodup_cons]
      refine ⟨?_, hrec⟩
      intro hmem
      obtain ⟨c, hc, e1⟩ := List.mem_map.1 hmem
      exact hfresh c (List.mem_of_mem_filter hc) e1
    · exact hrec

/-- The lists hold as many nodes as the arena has free blocks. -/
theorem scan_length {s bs L} (h : Inv s bs L) : (scan L 10 0).length = free_count bs := by
  have h1 := scan_nodup s.mem L h.lists 10 0 (by omega)
  have h2 := free_bps_nodup bs 96 s.brk h.heap.lay
  have hp : List.Perm (scan L 10 0) ((bs.filter (fun b => !b.alloc)).map Blk.bp) := by
    rw [List.perm_ext_iff_of_nodup h1 h2]
    intro y
    rw [scan_mem_iff, List.mem_map]
    constructor
    · rintro ⟨j, -, hj, hy⟩
      obtain ⟨b, hb, e1, e2, -⟩ := (h.memb j (by omega) y).1 hy
      exact ⟨b, List.mem_filter.2 ⟨hb, by simp [e2]⟩, e1⟩
    · rintro ⟨b, hb, e1⟩
      obtain ⟨hb1, hb2⟩ := List.mem_filter.1 hb
      have hi := list_index_lt b.size
      exact ⟨list_index b.size, Nat.zero_le _, by omega,
        (h.memb _ hi y).2 ⟨b, hb1, e1, by simpa using hb2, rfl⟩⟩
  rw [hp.length_eq, List.length_map, free_count]

theorem check_each_block_eq {s bs L} (h : Inv s bs L) (fuel : Nat) (hf : s.brk ≤ fuel) :
    check_each_block fuel s = some (free_count bs) := by
  have hlen := Layout_length _ _ _ h.heap.lay
  have hb := h.heap.bound
  have := check_each_block_loop_eq s.mem bs 96 s.brk fuel 0 h.heap.lay h.heap.tags h.heap.epi
    (by decide) (by omega) (by simp only [SIZE_MOD]; omega)
  rw [Nat.zero_add] at this
  exact this

theorem check_free_list_eq {s bs L} (h : Inv s bs L) (fuel : Nat) (hf : s.brk ≤ fuel) :
    check_free_list fuel s = some (free_count bs) := by
  have hlen := Layout_length _ _ _ h.heap.lay
  have hb := h.heap.bound
  have hfc := free_count_le bs
  have hsl := scan_length h
  have := check_free_list_loop_eq s.mem fuel L h.lists
    (fun j hj => lt_of_lt_of_le (h.fuel j hj) hf) 10 0 11 0 (by omega) (by omega)
    (by simp only [SIZE_MOD]; omega)
  rw [Nat.zero_add, hsl, Nat.zero_mul] at this
  exact this

/-- C5: in a reachable state, with fuel for the whole arena, the walk of
`check_each_block` and the walk of `check_free_list` both return, and they
return the same number: the free blocks of the arena are as many as the nodes
of the ten free lists. -/
theorem free_counts_agree (s : State) (hs : Reachable s) (fuel : Nat) (hf : s.brk ≤ fuel) :
    ∃ n, check_each_block fuel s = some n ∧ check_free_list fuel s = some n ∧
      n = free_count (heap_blocks s) := by
  obtain ⟨bs, L, hinv⟩ := hs.inv
  exact ⟨free_count bs, check_each_block_eq hinv fuel hf, check_free_list_eq hinv fuel hf,
    by rw [hinv.blocks]⟩

theorem free_counts_agree_witness :
    ∃ n, check_each_block 5000 fresh_heap = some n ∧ check_free_list 5000 fresh_heap = some n ∧
      n = free_count (heap_blocks fresh_heap) :=
  free_counts_agree fresh_heap fresh_heap_reachable 5000 (by decide)

theorem Layout_sum (l : List Blk) (p e : Nat) (h : Layout p l e) :
    p + (l.map Blk.size).sum = e := by
  induction l generalizing p with
  | nil => simpa using h
  | cons b l ih =>
    have := ih _ h.2.2.2
    simp only [List.map_cons, List.sum_cons]
    omega

theorem walk_end_eq (m : Mem) (bs : List Blk) (p e fuel : Nat) (hl : Layout p bs e)
    (ht : ∀ b ∈ bs, Tagged m b) (he : GET m (e - 4) = 1) (hp : 4 ≤ p) (hf : bs.length < fuel) :
    walk_end m fuel (p - 4) = some (e - 4) := by
  induction bs generalizing p fuel with
  | nil =>
    obtain ⟨f, rfl⟩ : ∃ f, fuel = f + 1 := ⟨fuel - 1, by simp at hf; omega⟩
    have : p = e := hl
    subst this
    simp [walk_end, he, PACK, ALLOC]
  | cons b bs ih =>
    obtain ⟨f, rfl⟩ : ∃ f, fuel = f + 1 := ⟨fuel - 1, by simp at hf; omega⟩
    obtain ⟨h1, h2, h3, h4⟩ := hl
    have htb := ht b (List.mem_cons_self _ _)
    unfold Tagged at htb
    rw [h1] at htb
    have hne : GET m (p - 4) ≠ PACK 0 ALLOC := by
      rw [htb.1]
      simp only [PACK, ALLOC, tag]
      split <;> simp <;> omega
    have e1 : p - 4 + 4 = p := by omega
    have hsz : GET_SIZE m (p - 4) = b.size := GET_SIZE_tag m _ _ _ h3 htb.1
    have hrec := ih (p + b.size) f h4 (fun c hc => ht c (List.mem_cons_of_mem _ hc)) (by omega)
      (by simp at hf; omega)
    simp only [walk_end, if_pos hne, WSIZE, HDRP, NEXT_BLKP, e1, hsz, hrec]

/-- C6: in a reachable state the recorded sizes of the blocks between the
prologue and the epilogue add up, with the 96 bytes of offset table, padding,
prologue and epilogue, to the arena size; the blocks tile the arena from the
first payload pointer to its end, and the walk from the first header by
recorded sizes stops on the epilogue word in the last 4 bytes of the arena. -/
theorem sizes_fill_arena (s : State) (hs : Reachable s) :
    ((heap_blocks s).map Blk.size).sum + 96 = s.brk ∧
    Layout (heap_basep + DSIZE) (heap_blocks s) s.brk ∧
    (∀ b ∈ heap_blocks s, b.size = GET_SIZE s.mem (HDRP b.bp)) ∧
    GET s.mem (s.brk - WSIZE) = PACK 0 ALLOC ∧
    walk_end s.mem s.brk (heap_basep + WSIZE) = some (s.brk - WSIZE) := by
  obtain ⟨bs, L, hinv⟩ := hs.inv
  rw [hinv.blocks]
  have hsum := Layout_sum _ _ _ hinv.heap.lay
  have hlen := Layout_length _ _ _ hinv.heap.lay
  refine ⟨by omega, hinv.heap.lay, fun b hb => (hinv.read b hb).1.symm, hinv.heap.epi, ?_⟩
  exact walk_end_eq s.mem bs 96 s.brk s.brk hinv.heap.lay hinv.heap.tags hinv.heap.epi
    (by decide) (by omega)

theorem sizes_fill_arena_witness :
    ((heap_blocks fresh_heap).map Blk.size).sum + 96 = fresh_heap.brk ∧
    Layout (heap_basep + DSIZE) (heap_blocks fresh_heap) fresh_heap.brk ∧
    (∀ b ∈ heap_blocks fresh_heap, b.size = GET_SIZE fresh_heap.mem (HDRP b.bp)) ∧
    GET fresh_heap.mem (fresh_heap.brk - WSIZE) = PACK 0 ALLOC ∧
    walk_end fresh_heap.mem fresh_heap.brk (heap_basep + WSIZE) = some (fresh_heap.brk - WSIZE) :=
  sizes_fill_arena fresh_heap fresh_heap_reachable

/-- C7: in a reachable state, for an allocated block `b` and a valid request
`n > 0`, `realloc(b.bp, n)` returns when given the arena size as fuel; and when
it returns a non-null `q`, the first `min(c, n)` bytes at `q` are the first
`min(c, n)` bytes that were at `b.bp`, where `c` is the payload capacity of
`b`; the block at `q` is allocated with payload capacity at least `n`; the old
block is no longer allocated and lies inside a free block.  In particular, if
`b.bp` came from `malloc(n)`, all of the first `n` bytes are preserved. -/
theorem realloc_preserves_prefix (s : State) (hs : Reachable s) (b : Blk)
    (hb : b ∈ heap_blocks s) (hba : b.alloc = true) (fuel limit n q : Nat) (s' : State)
    (hl : limit ≤ 2 ^ 32) (hn : 0 < n) (hv : n + 15 < 2 ^ 64)
    (h : realloc fuel limit s (some b.bp) n = some (some q, s')) :
    (∃ r, realloc s.brk limit s (some b.bp) n = some r) ∧
    (∀ a, a < min (b.size - 8) n → s'.mem (q + a) = s.mem (b.bp + a)) ∧
    (∃ nb ∈ heap_blocks s', nb.bp = q ∧ nb.alloc = true ∧ n ≤ nb.size - 8) ∧
    ¬ allocated s' b.bp ∧
    (∃ f ∈ heap_blocks s', f.alloc = false ∧ f.bp ≤ b.bp ∧ b.bp + b.size ≤ f.bp + f.size) ∧
    (∀ s0 fuel0 limit0, Reachable s0 → limit0 ≤ 2 ^ 32 →
      malloc fuel0 limit0 s0 n = some (some b.bp, s) →
      ∀ a, a < n → s'.mem (q + a) = s.mem (b.bp + a)) := by
  obtain ⟨bs, L, hinv⟩ := hs.inv
  rw [hinv.blocks] at hb
  have hadj := adjust_size_bounds n hv
  cases hm : malloc fuel limit s n with
  | none => simp [realloc, Nat.pos_iff_ne_zero.1 hn, hm] at h
  | some x =>
    obtain ⟨r1, s1⟩ := x
    cases r1 with
    | none => simp [realloc, Nat.pos_iff_ne_zero.1 hn, hm] at h
    | some q' =>
      obtain ⟨h1, -, bs2, L2, hinv2, RP⟩ := realloc_move fuel limit s n bs L b hinv hl hn hv hb
        hba q' s1 hm
      rw [h1] at h
      simp only [Option.some.injEq, Prod.mk.injEq] at h
      obtain ⟨hq, hs'⟩ := h
      subst hq
      rw [hs'] at hinv2 RP
      obtain ⟨nb, hnb, hnbp, hnba, hnbs, hnew⟩ := RP.new
      have hcopy : ∀ a, a < min (b.size - 8) n → s'.mem (q' + a) = s.mem (b.bp + a) := by
        intro a ha
        exact RP.copied a (by omega) (by omega)
      refine ⟨realloc_total hinv _ limit _ n (le_refl _), hcopy, ?_, ?_, ?_, ?_⟩
      · rw [hinv2.blocks]
        exact ⟨nb, hnb, hnbp, hnba, by omega⟩
      · rw [allocated_iff hinv2]
        rintro ⟨c, hc, hcp, hca⟩
        rcases RP.old c hc hca with e | ⟨hc1, hc2⟩
        · exact hnew b hb hba (by rw [← hcp, e])
        · exact hc2 (Layout_inj _ _ _ hinv.heap.lay c b hc1 hb hcp)
      · rw [hinv2.blocks]
        exact RP.freed
      · intro s0 fuel0 limit0 hs0 hl0 hm0 a ha
        obtain ⟨bs0, L0, hinv0⟩ := hs0.inv
        obtain ⟨bsx, Lx, hinvx, MP⟩ := malloc_spec fuel0 limit0 s0 n bs0 L0 hinv0 hl0 hn hv _ hm0
        obtain ⟨c, hc, hcp, -, hcs, -⟩ := MP.new b.bp rfl
        simp only at hinvx
        have e1 : heap_blocks s = bsx := hinvx.blocks
        rw [hinv.blocks] at e1
        rw [← e1] at hc
        have e2 : c = b := Layout_inj _ _ _ hinv.heap.lay c b hc hb hcp
        rw [e2] at hcs
        exact hcopy a (by omega)

theorem realloc_preserves_prefix_witness :
    (∃ r, realloc heap_one.brk 5000 heap_one (some 96) 16 = some r) ∧
    heap_moved.mem (112 + 0) = heap_one.mem (96 + 0) ∧ ¬ allocated heap_moved 96 :=
  have h := realloc_preserves_prefix heap_one heap_one_reachable ⟨96, 16, true⟩ (by decide) rfl
    10 5000 16 112 heap_moved (by decide) (by decide) (by decide) realloc_heap_one
  ⟨h.1, h.2.1 0 (by decide), h.2.2.2.1⟩

/-- C8: `realloc` does not copy `min(old payload size, n)` bytes.  On the arena
that holds one allocated block of size 16 at 96 (payload capacity 8),
`realloc(96, 16)` gets the new block at 112 and copies
`min(GET_SIZE(HDRP(96)), 16) = 16` bytes, not `min(8, 16) = 8`: the bytes of the
old footer at 104 and of the header that follows it are read and land in the
new payload, whose byte 8 holds the tag byte 17 of the old footer. -/
theorem realloc_copies_block_size :
    heap_blocks heap_one = [⟨96, 16, true⟩, ⟨112, 4080, false⟩] ∧
    malloc 10 5000 heap_one 16 = some (some 112, heap_two) ∧
    realloc 10 5000 heap_one (some 96) 16 = some (some 112, heap_moved) ∧
    realloc_copy_size heap_two.mem 96 16 = 16 ∧
    min (GET_SIZE heap_one.mem (HDRP 96) - DSIZE) 16 = 8 ∧
    FTRP heap_one.mem 96 = 104 ∧
    heap_moved.mem (112 + 8) = heap_one.mem 104 ∧
    (heap_moved.mem (112 + 8)).val = 17 :=
  ⟨heap_one_blocks, rfl, rfl, by decide, by decide, by decide, rfl, rfl⟩

/-- C9: in a reachable state, for `count * size > 0` with no overflow in the
size computations (`count * size < 2^64 - 15`), when the underlying
`malloc(count * size)` returns a non-null `p`, `calloc(count, size)` returns
`p`, the block at `p` is an allocated block of the arena with payload capacity
at least `count * size`, and the bytes `p[0 .. count * size)` are all zero. -/
theorem calloc_zero_filled (s : State) (hs : Reachable s) (fuel limit c k p : Nat) (s1 : State)
    (hl : limit ≤ 2 ^ 32) (hpos : 0 < c * k) (hv : c * k + 15 < 2 ^ 64)
    (hm : malloc fuel limit s (c * k) = some (some p, s1)) :
    ∃ s', calloc fuel limit s c k = CallocResult.ret (some p) s' ∧
      GET_ALLOC s'.mem (HDRP p) = ALLOC ∧
      (∃ b ∈ heap_blocks s', b.bp = p ∧ b.alloc = true ∧ c * k ≤ b.size - 8) ∧
      ∀ a, a < c * k → s'.mem (p + a) = 0 := by
  obtain ⟨bs, L, hinv⟩ := hs.inv
  have hmod : c * k % 2 ^ 64 = c * k := Nat.mod_eq_of_lt (by omega)
  have hadj := adjust_size_bounds (c * k) hv
  have hc : calloc fuel limit s c k =
      CallocResult.ret (some p) { s1 with mem := memset s1.mem p 0 (c * k) } := by
    simp only [calloc, SIZE_MOD, hmod, hm]
  obtain ⟨bs', L', hinv', MP, hz, -⟩ := calloc_spec fuel limit s c k bs L hinv hl
    (by rw [hmod]; exact hv) _ _ hc
  rw [hmod] at MP hz
  obtain ⟨b, hb, hbp, hba, hbs, -⟩ := MP.new p rfl
  have hrd := hinv'.read b hb
  rw [hbp, hba] at hrd
  refine ⟨_, hc, ?_, ?_, hz p rfl⟩
  · rw [hrd.2.1]; rfl
  · rw [hinv'.blocks]
    exact ⟨b, hb, hbp, hba, by omega⟩

theorem calloc_zero_filled_witness :
    ∃ s', calloc 10 5000 fresh_heap 1 1 = CallocResult.ret (some 96) s' ∧
      GET_ALLOC s'.mem (HDRP 96) = ALLOC ∧
      (∃ b ∈ heap_blocks s', b.bp = 96 ∧ b.alloc = true ∧ 1 * 1 ≤ b.size - 8) ∧
      ∀ a, a < 1 * 1 → s'.mem (96 + a) = 0 :=
  calloc_zero_filled fresh_heap fresh_heap_reachable 10 5000 1 1 96 heap_one (by decide)
    (by decide) (by decide) malloc_fresh_one

/-- C10: `calloc` does not surface out-of-memory as a null result.  On the
fresh arena of 4192 bytes with growth refused beyond 5000 bytes,
`calloc(1, 5000)` finds no fitting free block, the growth primitive refuses,
`malloc` returns `NULL` leaving the state unchanged, and `calloc` then calls
`memset(NULL, 0, 5000)`: a store through the null pointer.  `realloc` on the
same request tests the result of `malloc` and returns `NULL`. -/
theorem calloc_faults_when_out_of_memory :
    find_fit 10 fresh_heap.mem (adjust_size (1 * 5000)) = some none ∧
    extend_heap 5000 fresh_heap (adjust_size (1 * 5000) / WSIZE) = none ∧
    malloc 10 5000 fresh_heap (1 * 5000) = some (none, fresh_heap) ∧
    calloc 10 5000 fresh_heap 1 5000 = CallocResult.fault ∧
    realloc 10 5000 heap_one (some 96) 5000 = some (none, heap_one) :=
  ⟨rfl, rfl, rfl, rfl, rfl⟩

theorem fresh_heap_blocks : heap_blocks fresh_heap = [⟨96, 4096, false⟩] := by
  decide

/-- When no free block of the arena has the size asked for, `find_fit` returns
`NULL`. -/
theorem find_fit_none {s bs L} (h : Inv s bs L) (fuel asize : Nat) (hf : s.brk ≤ fuel)
    (hfit : ∀ b ∈ bs, b.alloc = false → b.size < asize) :
    find_fit fuel s.mem asize = some none := by
  obtain ⟨r, hr⟩ := find_fit_total h fuel asize hf
  cases r with
  | none => exact hr
  | some bp =>
    exfalso
    obtain ⟨j, hj, hbp, -, hsz⟩ := find_fit_sound s.mem asize fuel L h.lists
      (fun j hj => lt_of_lt_of_le (h.fuel j hj) hf) bp hr
    obtain ⟨b, hb, e1, e2, -⟩ := (h.memb j hj bp).1 hbp
    have hrd := h.read b hb
    rw [e1] at hrd
    have := hfit b hb e2
    omega

/-- C11: in a reachable state, when no free block of the arena has at least the
adjusted size of `n > 0` and `mem_sbrk` refuses the request `extend_heap`
makes, `find_fit` returns `NULL` and `malloc(n)` returns `NULL` and leaves the
state as it was: the same arena contents, hence the same free lists, and the
same arena size. -/
theorem malloc_out_of_memory (s : State) (hs : Reachable s) (fuel limit n : Nat)
    (hf : s.brk ≤ fuel) (hn : 0 < n)
    (hfit : ∀ b ∈ heap_blocks s, b.alloc = false → b.size < adjust_size n)
    (hgrow : mem_sbrk limit s
      (if (if adjust_size n > CHUNKSIZE then adjust_size n else CHUNKSIZE) / WSIZE % 2 ≠ 0
        then WSIZE * ((if adjust_size n > CHUNKSIZE then adjust_size n else CHUNKSIZE) / WSIZE + 1)
        else WSIZE * ((if adjust_size n > CHUNKSIZE then adjust_size n else CHUNKSIZE) / WSIZE))
      = none) :
    find_fit fuel s.mem (adjust_size n) = some none ∧
    extend_heap limit s
      ((if adjust_size n > CHUNKSIZE then adjust_size n else CHUNKSIZE) / WSIZE) = none ∧
    malloc fuel limit s n = some (none, s) := by
  obtain ⟨bs, L, hinv⟩ := hs.inv
  rw [hinv.blocks] at hfit
  have h1 := find_fit_none hinv fuel (adjust_size n) hf hfit
  have h2 : extend_heap limit s
      ((if adjust_size n > CHUNKSIZE then adjust_size n else CHUNKSIZE) / WSIZE) = none := by
    unfold extend_heap
    simp only [hgrow]
  refine ⟨h1, h2, ?_⟩
  unfold malloc
  rw [if_neg (by omega)]
  simp only [h1, h2]

theorem malloc_out_of_memory_witness :
    find_fit 4192 fresh_heap.mem (adjust_size 5000) = some none ∧
    extend_heap 5000 fresh_heap
      ((if adjust_size 5000 > CHUNKSIZE then adjust_size 5000 else CHUNKSIZE) / WSIZE) = none ∧
    malloc 4192 5000 fresh_heap 5000 = some (none, fresh_heap) :=
  malloc_out_of_memory fresh_heap fresh_heap_reachable 4192 5000 5000 (by decide) (by decide)
    (by rw [fresh_heap_blocks]; decide) rfl

/-- C12: when the `malloc(n)` inside `realloc(p, n)`, `n > 0`, returns `NULL`,
`realloc` returns `NULL` and the state is the state before the call: the old
block is still allocated with the same size and bytes, and nothing else of
the allocator state has changed. -/
theorem realloc_out_of_memory (s : State) (p fuel limit n : Nat) (s1 : State) (hn : 0 < n)
    (hm : malloc fuel limit s n = some (none, s1)) :
    realloc fuel limit s (some p) n = some (none, s) ∧ s1 = s ∧
    (∀ b ∈ heap_blocks s, b.bp = p → b.alloc = true → allocated s1 p) := by
  have h1 : s1 = s := by
    unfold malloc at hm
    rw [if_neg (by omega)] at hm
    simp only at hm
    split at hm
    · simp at hm
    · simp at hm
    · split at hm
      · simp at hm
      · simp only [Option.some.injEq, Prod.mk.injEq, true_and] at hm
        exact hm.symm
  subst h1
  refine ⟨?_, rfl, fun b hb hbp hba => ⟨b, hb, hbp, hba⟩⟩
  unfold realloc
  rw [if_neg (by omega)]
  simp only [hm]

theorem realloc_out_of_memory_witness :
    realloc 10 5000 heap_one (some 96) 5000 = some (none, heap_one) ∧ heap_one = heap_one ∧
    (∀ b ∈ heap_blocks heap_one, b.bp = 96 → b.alloc = true → allocated heap_one 96) :=
  realloc_out_of_memory heap_one 96 10 5000 5000 heap_one (by decide) rfl

/-- C17: in a reachable state, for every block between the prologue and the
epilogue the header word and the footer word are equal; the footer is the
word at block start + size - 4, and both words hold the size and the
allocated flag of the block. -/
theorem header_equals_footer (s : State) (hs : Reachable s) (b : Blk)
    (hb : b ∈ heap_blocks s) :
    GET s.mem (HDRP b.bp) = GET s.mem (FTRP s.mem b.bp) ∧
    FTRP s.mem b.bp = HDRP b.bp + b.size - WSIZE ∧
    GET_SIZE s.mem (HDRP b.bp) = b.size ∧ GET_SIZE s.mem (FTRP s.mem b.bp) = b.size ∧
    GET_ALLOC s.mem (FTRP s.mem b.bp) = GET_ALLOC s.mem (HDRP b.bp) ∧
    (GET_ALLOC s.mem (HDRP b.bp) = ALLOC ↔ b.alloc = true) := by
  obtain ⟨bs, L, hinv⟩ := hs.inv
  rw [hinv.blocks] at hb
  have hrd := hinv.read b hb
  have hge : GET_SIZE s.mem (FTRP s.mem b.bp) = GET_SIZE s.mem (HDRP b.bp) := by
    unfold GET_SIZE; rw [hrd.2.2.1]
  have hga : GET_ALLOC s.mem (FTRP s.mem b.bp) = GET_ALLOC s.mem (HDRP b.bp) := by
    unfold GET_ALLOC; rw [hrd.2.2.1]
  refine ⟨hrd.2.2.1.symm, ?_, hrd.1, by rw [hge, hrd.1], hga, ?_⟩
  · have h1 := hrd.1
    have h2 := hrd.2.2.2
    simp only [FTRP, HDRP, WSIZE, DSIZE] at h1 ⊢
    rw [h1]
    omega
  · rw [hrd.2.1]
    cases b.alloc <;> simp [ALLOC]

theorem header_equals_footer_witness :
    GET heap_one.mem (HDRP 96) = GET heap_one.mem (FTRP heap_one.mem 96) ∧
    FTRP heap_one.mem 96 = HDRP 96 + 16 - WSIZE ∧
    GET_SIZE heap_one.mem (HDRP 96) = 16 ∧ GET_SIZE heap_one.mem (FTRP heap_one.mem 96) = 16 ∧
    GET_ALLOC heap_one.mem (FTRP heap_one.mem 96) = GET_ALLOC heap_one.mem (HDRP 96) ∧
    (GET_ALLOC heap_one.mem (HDRP 96) = ALLOC ↔ true = true) :=
  header_equals_footer heap_one heap_one_reachable ⟨96, 16, true⟩ (by decide)

/-- C19: `realloc(ptr, 0)` returns `NULL` and leaves the state `free(ptr)`
leaves; for `n > 0`, `realloc(NULL, n)` returns what `malloc(n)` returns and
leaves the state `malloc(n)` leaves.  In a reachable state both return when
given the arena size as fuel. -/
theorem realloc_as_free_or_malloc (s : State) (hs : Reachable s) (ptr : Option Nat)
    (fuel limit n : Nat) (hn : 0 < n) :
    realloc fuel limit s ptr 0 = some (none, free s ptr) ∧
    realloc fuel limit s none n = malloc fuel limit s n ∧
    ∃ r, realloc s.brk limit s none n = some r := by
  obtain ⟨bs, L, hinv⟩ := hs.inv
  refine ⟨by simp [realloc], ?_, realloc_total hinv _ limit none n (le_refl _)⟩
  unfold realloc
  rw [if_neg (by omega)]

theorem realloc_as_free_or_malloc_witness :
    realloc 10 5000 heap_one (some 96) 0 = some (none, free heap_one (some 96)) ∧
    realloc 10 5000 heap_one none 16 = malloc 10 5000 heap_one 16 ∧
    ∃ r, realloc heap_one.brk 5000 heap_one none 16 = some r :=
  realloc_as_free_or_malloc heap_one heap_one_reachable (some 96) 10 5000 16 (by decide)

/-- C20: in every state `malloc(0)` returns `NULL` and leaves the state as it
was, whatever the growth primitive would allow: no block is allocated, the
arena does not grow and no byte changes. -/
theorem malloc_zero_is_noop (fuel limit : Nat) (s : State) :
    malloc fuel limit s 0 = some (none, s) ∧
    (∀ r, malloc fuel limit s 0 = some r → r.1 = none ∧ r.2.brk = s.brk ∧ r.2.mem = s.mem ∧
      heap_blocks r.2 = heap_blocks s) := by
  have h : malloc fuel limit s 0 = some (none, s) := by simp [malloc]
  refine ⟨h, ?_⟩
  intro r hr
  rw [h] at hr
  simp only [Option.some.injEq] at hr
  subst hr
  exact ⟨rfl, rfl, rfl, rfl⟩

theorem list_index_loop_ge (fuel size idx : Nat) : idx ≤ list_index_loop fuel size idx := by
  induction fuel generalizing size idx with
  | zero => simp [list_index_loop]
  | succ f ih =>
    simp only [list_index_loop]
    split
    · exact le_trans (Nat.le_succ _) (ih _ _)
    · exact le_refl _

theorem list_index_loop_mono (fuel a b idx : Nat) (h : a ≤ b) :
    list_index_loop fuel a idx ≤ list_index_loop fuel b idx := by
  induction fuel generalizing a b idx with
  | zero => simp [list_index_loop]
  | succ f ih =>
    simp only [list_index_loop]
    by_cases ha : a > 0
    · have hb : b > 0 := by omega
      rw [if_pos ha, if_pos hb]
      apply ih
      simp only [Nat.shiftRight_eq_div_pow]
      exact Nat.div_le_div_right h
    · rw [if_neg ha]
      split
      · exact le_trans (Nat.le_succ _) (list_index_loop_ge _ _ _)
      · exact le_refl _

/-- A larger size has a larger or equal list index. -/
theorem list_index_mono (a b : Nat) (h : a ≤ b) : list_index a ≤ list_index b := by
  have h1 := list_index_loop_mono 64 (a >>> 4) (b >>> 4) 0 (by
    simp only [Nat.shiftRight_eq_div_pow]
    exact Nat.div_le_div_right h)
  simp only [list_index, LIST_NUM]
  split <;> split <;> omega

theorem bf_foldl_some (m : Mem) (asize : Nat) (l : List Nat) (best : Option Nat × Nat)
    (h : best.1 ≠ none ∨ ∃ y ∈ l, fits m asize y = true) :
    (l.foldl (bf_step m asize) best).1 ≠ none := by
  induction l generalizing best with
  | nil =>
    rcases h with h | ⟨y, hy, -⟩
    · exact h
    · simp at hy
  | cons x l ih =>
    simp only [List.foldl_cons]
    apply ih
    by_cases hb : best.1 = none
    · rcases h with h | ⟨y, hy, hfy⟩
      · exact absurd hb h
      · rcases List.mem_cons.1 hy with e | hy
        · subst e
          left
          simp only [fits, decide_eq_true_eq] at hfy
          simp [bf_step, hfy, hb]
        · exact Or.inr ⟨y, hy, hfy⟩
    · left
      unfold bf_step
      split
      · split
        · simp
        · exact hb
      · exact hb

/-- When a free block of the arena has at least the size asked for, `find_fit`
returns a block. -/
theorem find_fit_some {s bs L} (h : Inv s bs L) (fuel asize : Nat) (hf : s.brk ≤ fuel)
    (b : Blk) (hb : b ∈ bs) (hbf : b.alloc = false) (hsz : asize ≤ b.size) :
    ∃ bp, find_fit fuel s.mem asize = some (some bp) := by
  have hfe := find_fit_eq s.mem asize fuel L h.lists
    (fun j hj => lt_of_lt_of_le (h.fuel j hj) hf)
  have hi := list_index_lt b.size
  have hmono := list_index_mono asize b.size hsz
  have hmem : b.bp ∈ scan L (10 - list_index asize) (list_index asize) := by
    rw [scan_mem_iff]
    exact ⟨list_index b.size, hmono, by omega, (h.memb _ hi b.bp).2 ⟨b, hb, rfl, hbf, rfl⟩⟩
  have hrd := h.read b hb
  have hfits : fits s.mem asize b.bp = true := by
    simp only [fits, decide_eq_true_eq, hrd.1, hrd.2.1, hbf]
    exact ⟨by simp, hsz⟩
  rw [hfe]
  split
  · cases hfind : (scan L (10 - list_index asize) (list_index asize)).find? (fits s.mem asize) with
    | none =>
      rw [List.find?_eq_none] at hfind
      exact absurd hfits (hfind _ hmem)
    | some y => exact ⟨y, rfl⟩
  · have := bf_foldl_some s.mem asize (scan L (10 - list_index asize) (list_index asize))
      (none, 16 * (1 <<< list_index asize)) (Or.inr ⟨b.bp, hmem, hfits⟩)
    obtain ⟨y, hy⟩ := Option.ne_none_iff_exists'.1 this
    exact ⟨y, by rw [hy]⟩

theorem malloc_b1 : malloc 10 5000 fresh_heap 100 = some (some 96, heap_b1) := rfl

theorem malloc_b2 : malloc 10 5000 heap_b1 200 = some (some 208, heap_b2) := rfl

theorem heap_b2_blocks :
    heap_blocks heap_b2 = [⟨96, 112, true⟩, ⟨208, 208, true⟩, ⟨416, 3776, false⟩] := by
  decide

theorem heap_b3_blocks :
    heap_blocks heap_b3 = [⟨96, 112, false⟩, ⟨208, 208, true⟩, ⟨416, 3776, false⟩] := by
  decide

theorem heap_b3_reachable : Reachable heap_b3 :=
  Reachable.free heap_b2 (some 96)
    (Reachable.malloc heap_b1 10 5000 200 (some 208, heap_b2)
      (Reachable.malloc fresh_heap 10 5000 100 (some 96, heap_b1) fresh_heap_reachable
        (by decide) (by decide) malloc_b1)
      (by decide) (by decide) malloc_b2)
    (by
      intro p hp
      simp only [Option.some.injEq] at hp
      subst hp
      exact ⟨⟨96, 112, true⟩, by rw [heap_b2_blocks]; decide, rfl, rfl⟩)

/-- C14: in a reachable state, when some free block of the arena has at least
the adjusted size of `n > 0`, `find_fit` returns a block and `malloc(n)`
returns it, placed, without a call of `extend_heap`: the result does not
depend on what the growth primitive allows, and the arena size is
unchanged. -/
theorem malloc_reuses_free_block (s : State) (hs : Reachable s) (fuel limit n : Nat)
    (hf : s.brk ≤ fuel) (hn : 0 < n) (b : Blk) (hb : b ∈ heap_blocks s)
    (hbf : b.alloc = false) (hsz : adjust_size n ≤ b.size) :
    ∃ p, find_fit fuel s.mem (adjust_size n) = some (some p) ∧
      (∀ lim, malloc fuel lim s n =
        some (some p, { s with mem := place s.mem p (adjust_size n) })) ∧
      ∀ s', malloc fuel limit s n = some (some p, s') → s'.brk = s.brk := by
  obtain ⟨bs, L, hinv⟩ := hs.inv
  rw [hinv.blocks] at hb
  obtain ⟨p, hp⟩ := find_fit_some hinv fuel (adjust_size n) hf b hb hbf hsz
  have hm : ∀ lim, malloc fuel lim s n =
      some (some p, { s with mem := place s.mem p (adjust_size n) }) := by
    intro lim
    unfold malloc
    rw [if_neg (by omega)]
    simp only [hp]
  refine ⟨p, hp, hm, ?_⟩
  intro s' hs'
  rw [hm limit] at hs'
  simp only [Option.some.injEq, Prod.mk.injEq, true_and] at hs'
  rw [← hs']

theorem malloc_reuses_free_block_witness :
    (∃ p, find_fit 4192 heap_b3.mem (adjust_size 90) = some (some p) ∧
      (∀ lim, malloc 4192 lim heap_b3 90 =
        some (some p, { heap_b3 with mem := place heap_b3.mem p (adjust_size 90) })) ∧
      ∀ s', malloc 4192 5000 heap_b3 90 = some (some p, s') → s'.brk = heap_b3.brk) ∧
    malloc 4192 5000 heap_b3 90 = some (some 96, heap_b4) ∧ heap_b4.brk = heap_b2.brk :=
  ⟨malloc_reuses_free_block heap_b3 heap_b3_reachable 4192 5000 90 (by decide) (by decide)
    ⟨96, 112, false⟩ (by rw [heap_b3_blocks]; decide) rfl (by decide), rfl, rfl⟩

theorem free_prev_nil : free_prev [] = none := rfl

theorem free_prev_concat (pre : List Blk) (pb : Blk) :
    free_prev (pre ++ [pb]) = if pb.alloc then none else some pb := by
  simp [free_prev]

theorem free_next_nil : free_next [] = none := rfl

theorem free_next_cons (nb : Blk) (post : List Blk) :
    free_next (nb :: post) = if nb.alloc then none else some nb := by
  simp [free_next]

theorem coalesce_blocks (m : Mem) (brk : Nat) (pre post : List Blk) (q S : Nat)
    (L : Nat → List Nat) (h : Hole m brk pre q (q + S) post)
    (ht : Tagged m ⟨q, S, false⟩) (h16 : 16 ≤ S) (h8 : S % 8 = 0)
    (hl : Lists m L) (hm : ListsOf L (pre ++ post)) (hn1 : NoAdj pre) (hn2 : NoAdj post) :
    (∃ L', Inv ⟨(coalesce m q).2, brk⟩ (blocks_after_free pre ⟨q, S, true⟩ post) L') ∧
    (coalesce m q).1 = (merged pre ⟨q, S, true⟩ post).bp := by
  rcases List.eq_nil_or_concat pre with e | ⟨pre', pb, e⟩
  · have hp : ∀ x ∈ pre.getLast?, x.alloc = true := by subst e; simp
    subst e
    cases post with
    | nil =>
      obtain ⟨h1, h2, -⟩ := coalesce_none m brk [] [] q S L h ht h16 h8 hl hm hn1 hn2 hp
        (by simp)
      simp only [blocks_after_free, merged, free_prev_nil, free_next_nil, Option.isSome_none,
        Bool.false_eq_true, if_false, Nat.add_zero]
      exact ⟨⟨_, h2⟩, h1⟩
    | cons nb post =>
      cases hnb : nb.alloc with
      | true =>
        obtain ⟨h1, h2, -⟩ := coalesce_none m brk [] (nb :: post) q S L h ht h16 h8 hl hm
          hn1 hn2 hp (by simp [hnb])
        simp only [blocks_after_free, merged, free_prev_nil, free_next_cons, hnb, if_true,
          Option.isSome_none, Bool.false_eq_true, if_false, Nat.add_zero]
        exact ⟨⟨_, h2⟩, h1⟩
      | false =>
        obtain ⟨h1, h2, -⟩ := coalesce_next m brk [] post nb q S L h ht h16 h8 hl hm
          hn1 hn2 hnb hp
        simp only [blocks_after_free, merged, free_prev_nil, free_next_cons, hnb,
          Option.isSome_none, Option.isSome_some, Bool.false_eq_true, if_false, if_true,
          Nat.add_zero, List.tail_cons]
        exact ⟨⟨_, h2⟩, h1⟩
  · rw [List.concat_eq_append] at e
    subst e
    cases hpb : pb.alloc with
    | true =>
      have hp : ∀ x ∈ (pre' ++ [pb]).getLast?, x.alloc = true := by simp [hpb]
      cases post with
      | nil =>
        obtain ⟨h1, h2, -⟩ := coalesce_none m brk _ [] q S L h ht h16 h8 hl hm hn1 hn2 hp
          (by simp)
        simp only [blocks_after_free, merged, free_prev_concat, free_next_nil, hpb, if_true,
          Option.isSome_none, Bool.false_eq_true, if_false, Nat.add_zero]
        exact ⟨⟨_, h2⟩, h1⟩
      | cons nb post =>
        cases hnb : nb.alloc with
        | true =>
          obtain ⟨h1, h2, -⟩ := coalesce_none m brk _ (nb :: post) q S L h ht h16 h8 hl hm
            hn1 hn2 hp (by simp [hnb])
          simp only [blocks_after_free, merged, free_prev_concat, free_next_cons, hpb, hnb,
            if_true, Option.isSome_none, Bool.false_eq_true, if_false, Nat.add_zero]
          exact ⟨⟨_, h2⟩, h1⟩
        | false =>
          obtain ⟨h1, h2, -⟩ := coalesce_next m brk _ post nb q S L h ht h16 h8 hl hm
            hn1 hn2 hnb hp
          simp only [blocks_after_free, merged, free_prev_concat, free_next_cons, hpb, hnb,
            Option.isSome_none, Option.isSome_some, Bool.false_eq_true, if_false, if_true,
            Nat.add_zero, List.tail_cons]
          exact ⟨⟨_, h2⟩, h1⟩
    | false =>
      cases post with
      | nil =>
        obtain ⟨h1, h2, -⟩ := coalesce_prev m brk pre' [] pb q S L h ht h16 h8 hl
          (by simpa using hm) hn1 hn2 hpb (by simp)
        simp only [blocks_after_free, merged, free_prev_concat, free_next_nil, hpb,
          Option.isSome_none, Option.isSome_some, Bool.false_eq_true, if_false, if_true,
          Nat.add_zero, List.dropLast_concat]
        exact ⟨⟨_, h2⟩, h1⟩
      | cons nb post =>
        cases hnb : nb.alloc with
        | true =>
          obtain ⟨h1, h2, -⟩ := coalesce_prev m brk pre' (nb :: post) pb q S L h ht h16 h8 hl
            (by simpa using hm) hn1 hn2 hpb (by simp [hnb])
          simp only [blocks_after_free, merged, free_prev_concat, free_next_cons, hpb, hnb,
            Option.isSome_none, Option.isSome_some, Bool.false_eq_true, if_false, if_true,
            Nat.add_zero, List.dropLast_concat]
          exact ⟨⟨_, h2⟩, h1⟩
        | false =>
          obtain ⟨h1, h2, -⟩ := coalesce_both m brk pre' post pb nb q S L h ht h16 h8 hl
            (by simpa using hm) hn1 hn2 hpb hnb
          simp only [blocks_after_free, merged, free_prev_concat, free_next_cons, hpb, hnb,
            Option.isSome_some, Bool.false_eq_true, if_false, if_true,
            List.dropLast_concat, List.tail_cons]
          exact ⟨⟨_, h2⟩, h1⟩

theorem free_blocks (s : State) (pre post : List Blk) (b : Blk) (L : Nat → List Nat)
    (hinv : Inv s (pre ++ b :: post) L) (hb : b.alloc = true) :
    (∃ L', Inv (free s (some b.bp)) (blocks_after_free pre b post) L') ∧
    (free s (some b.bp)).brk = s.brk := by
  have hheap := hinv.heap
  have hbm := Layout_mem _ _ _ hheap.lay b (by simp)
  have htb := hheap.tags b (by simp)
  have hbd := hheap.bound
  have hS : GET_SIZE s.mem (b.bp - 4) = b.size := GET_SIZE_tag _ _ _ _ hbm.2.2.2.1 htb.1
  have hm0 : ListsOf L (pre ++ post) := (ListsOf_alloc L pre post b hb).1 hinv.memb
  obtain ⟨hh2, hl2, ht2, -⟩ := put_tags_step s.mem s.brk pre post b.bp (b.bp + b.size) L
    ⟨b.bp, b.size, false⟩ hheap.hole hinv.lists hm0.subL rfl (le_refl _) hbm.2.2.1 hbm.2.2.2.1
  simp only at hh2 hl2 ht2
  have hns := NoAdj_split pre post b hinv.noadj
  obtain ⟨h1, -⟩ :=
    coalesce_blocks _ s.brk pre post b.bp b.size L hh2 ht2 hbm.2.2.1 hbm.2.2.2.1 hl2 hm0
      hns.1 hns.2.1
  have hc : free s (some b.bp) =
      ⟨(coalesce (PUT (PUT s.mem (b.bp - 4) (tag b.size false)) (b.bp + b.size - 8)
        (tag b.size false)) b.bp).2, s.brk⟩ := by
    simp only [free, HDRP, WSIZE, hS, PACK_FREE,
      FTRP_PUT_hdr _ _ _ _ hbm.2.2.2.1 (show b.size + 1 < 2 ^ 32 by omega)]
  rw [hc]
  have eb : (⟨b.bp, b.size, true⟩ : Blk) = b := by
    cases b
    simp only at hb
    simp [hb]
  rw [eb] at h1
  exact ⟨h1, rfl⟩

theorem malloc_c1 : malloc 10 5000 fresh_heap 32 = some (some 96, heap_c1) := rfl

theorem malloc_c2 : malloc 10 5000 heap_c1 32 = some (some 136, heap_c2) := rfl

theorem malloc_c3 : malloc 10 5000 heap_c2 32 = some (some 176, heap_c3) := rfl

theorem heap_c3_blocks : heap_blocks heap_c3 =
    [⟨96, 40, true⟩, ⟨136, 40, true⟩, ⟨176, 40, true⟩, ⟨216, 3976, false⟩] := by
  decide

theorem heap_c4_blocks : heap_blocks heap_c4 =
    [⟨96, 40, true⟩, ⟨136, 40, false⟩, ⟨176, 40, true⟩, ⟨216, 3976, false⟩] := by
  decide

theorem heap_c4_reachable : Reachable heap_c4 :=
  Reachable.free heap_c3 (some 136)
    (Reachable.malloc heap_c2 10 5000 32 (some 176, heap_c3)
      (Reachable.malloc heap_c1 10 5000 32 (some 136, heap_c2)
        (Reachable.malloc fresh_heap 10 5000 32 (some 96, heap_c1) fresh_heap_reachable
          (by decide) (by decide) malloc_c1)
        (by decide) (by decide) malloc_c2)
      (by decide) (by decide) malloc_c3)
    (by
      intro p hp
      simp only [Option.some.injEq] at hp
      subst hp
      exact ⟨⟨136, 40, true⟩, by rw [heap_c3_blocks]; decide, rfl, rfl⟩)

theorem no_adjacent_free_witness :
    heap_blocks heap_c4 =
      [⟨96, 40, true⟩, ⟨136, 40, false⟩, ⟨176, 40, true⟩, ⟨216, 3976, false⟩] ∧
    List.Chain' (fun a b : Blk => ¬ (a.alloc = false ∧ b.alloc = false))
      (heap_blocks heap_c4) :=
  ⟨heap_c4_blocks, no_adjacent_free heap_c4 heap_c4_reachable⟩

/-- C13: in a reachable state whose blocks are `pre`, the allocated block `b`
and `post`, after `free(b)` the arena holds the blocks `pre` and `post` without
the free neighbours of `b`, and between them one free block that covers `b`
and those neighbours: it starts at the previous neighbour if that was free
and at `b` otherwise, its size is the size of `b` plus the sizes of the
absorbed neighbours, its header and footer record that size and the free
state, and the arena size is unchanged. -/
theorem free_coalesces (s : State) (hs : Reachable s) (pre post : List Blk) (b : Blk)
    (hbs : heap_blocks s = pre ++ b :: post) (hba : b.alloc = true) :
    heap_blocks (free s (some b.bp)) = blocks_after_free pre b post ∧
    (free s (some b.bp)).brk = s.brk ∧
    GET_SIZE (free s (some b.bp)).mem (HDRP (merged pre b post).bp) = (merged pre b post).size ∧
    GET_ALLOC (free s (some b.bp)).mem (HDRP (merged pre b post).bp) = FREE ∧
    GET (free s (some b.bp)).mem (FTRP (free s (some b.bp)).mem (merged pre b post).bp) =
      GET (free s (some b.bp)).mem (HDRP (merged pre b post).bp) := by
  obtain ⟨bs, L, hinv⟩ := hs.inv
  rw [hinv.blocks] at hbs
  subst hbs
  obtain ⟨⟨L', hinv'⟩, hbrk⟩ := free_blocks s pre post b L hinv hba
  have hrd := hinv'.read (merged pre b post) (by simp [blocks_after_free])
  exact ⟨hinv'.blocks, hbrk, hrd.1, hrd.2.1, hrd.2.2.1⟩

theorem free_coalesces_witness :
    heap_blocks (free heap_c4 (some 96)) =
      [⟨96, 80, false⟩, ⟨176, 40, true⟩, ⟨216, 3976, false⟩] ∧
    (free heap_c4 (some 96)).brk = heap_c4.brk ∧
    GET_SIZE (free heap_c4 (some 96)).mem (HDRP 96) = 80 ∧
    GET_ALLOC (free heap_c4 (some 96)).mem (HDRP 96) = FREE ∧
    GET (free heap_c4 (some 96)).mem (FTRP (free heap_c4 (some 96)).mem 96) =
      GET (free heap_c4 (some 96)).mem (HDRP 96) :=
  free_coalesces heap_c4 heap_c4_reachable [] [⟨136, 40, false⟩, ⟨176, 40, true⟩,
    ⟨216, 3976, false⟩] ⟨96, 40, true⟩ heap_c4_blocks rfl

theorem malloc_a1 : malloc 10 5000 fresh_heap 16 = some (some 96, heap_a1) := rfl

/-- An arena whose blocks are all free has exactly one block. -/
theorem all_free_single (bs : List Blk) (e : Nat) (hn : NoAdj bs)
    (hf : ∀ c ∈ bs, c.alloc = false) (hl : Layout 96 bs e) (he : 96 < e) :
    bs = [⟨96, e - 96, false⟩] := by
  cases bs with
  | nil =>
    have : 96 = e := hl
    omega
  | cons a bs =>
    cases bs with
    | nil =>
      obtain ⟨h1, -, -, h4⟩ := hl
      have h5 : 96 + a.size = e := h4
      have h6 := hf a (by simp)
      cases a
      simp only at h1 h5 h6
      subst h1 h6
      simp only [List.cons.injEq, Blk.mk.injEq, and_true, true_and]
      omega
    | cons b bs =>
      exfalso
      unfold NoAdj at hn
      rw [List.chain'_cons] at hn
      have h1 := hf a (by simp)
      have h2 := hf b (by simp)
      rcases hn.1 with h | h
      · rw [h1] at h; simp at h
      · rw [h2] at h; simp at h

/-- Right after a successful `mm_init` the arena is 4192 bytes and holds one
free block of 4096 bytes. -/
theorem mm_init_blocks (limit : Nat) (m0 : Mem) (hlim : limit ≤ 2 ^ 32)
    (h : (mm_init limit m0).1 = 0) :
    (∃ L, Inv (mm_init limit m0).2 [⟨96, 4096, false⟩] L) ∧ (mm_init limit m0).2.brk = 4192 := by
  rw [mm_init_eq] at h ⊢
  split_ifs at h ⊢ with h1
  · have hinv := init_empty m0
    cases hext : extend_heap limit
        ⟨PUT (PUT (PUT (PUT (init_table m0 10 0) 80 0) 84 9) 88 9) 92 1, 96⟩ 1024 with
    | none =>
      rw [hext] at h
      simp at h
    | some x =>
      obtain ⟨bp, s2⟩ := x
      obtain ⟨pre', post', f, L', g1, g2, -, -, g5, -, -, g8, -, -⟩ :=
        extend_heap_spec limit _ _ [] _ hinv hlim (by decide) bp s2 hext
      simp only at g1 g2 ⊢
      have hall : ∀ c ∈ pre' ++ f :: post', c.alloc = false := by
        intro c hc
        simp only [List.mem_append, List.mem_cons] at hc
        rcases hc with hc | hc | hc
        · exact absurd (g8 c (by simp [hc])) (by simp)
        · rw [hc]; exact g5
        · exact absurd (g8 c (by simp [hc])) (by simp)
      have hb : s2.brk = 4192 := by rw [g2]
      have := all_free_single _ _ g1.noadj hall g1.heap.lay (by omega)
      rw [this, hb] at g1
      exact ⟨⟨L', g1⟩, hb⟩
  · simp at h

/-- On an arena whose only block is free, a successful `malloc` returns the
first payload pointer. -/
theorem malloc_single_free (s : State) (S : Nat) (L : Nat → List Nat)
    (hinv : Inv s [⟨96, S, false⟩] L) (fuel limit n p : Nat) (s' : State) (hl : limit ≤ 2 ^ 32)
    (hn : 0 < n) (hv : n + 15 < 2 ^ 64) (hm : malloc fuel limit s n = some (some p, s')) :
    p = 96 ∧ (adjust_size n ≤ S → s' = { s with mem := place s.mem 96 (adjust_size n) }) := by
  have hadj := adjust_size_bounds n hv
  unfold malloc at hm
  rw [if_neg (by omega)] at hm
  simp only at hm
  cases hff : find_fit fuel s.mem (adjust_size n) with
  | none => rw [hff] at hm; simp at hm
  | some x =>
    rw [hff] at hm
    have hff' := find_fit_mono _ _ _ s.brk _ hff
    cases x with
    | some bp =>
      simp only [Option.some.injEq, Prod.mk.injEq] at hm
      obtain ⟨j, hj, hbl, -, -⟩ := find_fit_sound s.mem _ _ L hinv.lists
        (fun j hj => lt_of_lt_of_le (hinv.fuel j hj) (by omega)) bp hff'
      obtain ⟨b, hb, hbp, -, -⟩ := (hinv.memb j hj bp).1 hbl
      simp only [List.mem_singleton] at hb
      subst hb
      simp only at hbp
      subst hbp
      exact ⟨hm.1.symm, fun _ => hm.2.symm⟩
    | none =>
      simp only at hm
      obtain ⟨E, hE⟩ : ∃ E, E = (if adjust_size n > CHUNKSIZE then adjust_size n else CHUNKSIZE) :=
        ⟨_, rfl⟩
      rw [← hE] at hm
      have hE1 : adjust_size n ≤ E ∧ 512 ≤ E ∧ E % 8 = 0 := by
        rw [hE]
        simp only [CHUNKSIZE]
        split_ifs with h <;> simp at h ⊢ <;> omega
      cases hext : extend_heap limit s (E / WSIZE) with
      | none =>
        rw [hext] at hm
        simp at hm
      | some x =>
        obtain ⟨bp, s1⟩ := x
        rw [hext] at hm
        simp only [Option.some.injEq, Prod.mk.injEq] at hm
        obtain ⟨pre', post', f, L1, g1, g2, -, g4, g5, -, -, g8, -, -⟩ :=
          extend_heap_spec limit s (E / WSIZE) _ L hinv hl (by simp only [WSIZE]; omega)
            bp s1 hext
        have hall : ∀ c ∈ pre' ++ f :: post', c.alloc = false := by
          intro c hc
          simp only [List.mem_append, List.mem_cons] at hc
          rcases hc with hc | hc | hc
          · have := g8 c (by simp [hc])
            simp only [List.mem_singleton] at this
            rw [this]
          · rw [hc]; exact g5
          · have := g8 c (by simp [hc])
            simp only [List.mem_singleton] at this
            rw [this]
        have h96 := Layout_le _ _ _ hinv.heap.lay
        simp only [WSIZE] at g2
        have hsing := all_free_single _ _ g1.noadj hall g1.heap.lay (by omega)
        have hf : f ∈ pre' ++ f :: post' := by simp
        rw [hsing, List.mem_singleton] at hf
        have hbp : bp = 96 := by rw [← g4, hf]
        refine ⟨by rw [← hm.1, hbp], ?_⟩
        intro hS
        exfalso
        obtain ⟨q, hq⟩ := find_fit_some hinv (fuel + s.brk) (adjust_size n) (by omega)
          ⟨96, S, false⟩ (by simp) rfl hS
        rw [hff'] at hq
        simp at hq

/-- C15: right after a successful `mm_init`, when `malloc(n)`, `n > 0`,
returns a non-null `p`, then `p` is the first payload pointer, and after
`free(p)` the walk from the first block to the epilogue sees exactly one
block: it is free, starts at `p` and ends where the arena ends.  `malloc(16)`
succeeds there; the block it returns has size 24, whose list index is 1, and
after the `free` the single free block has size 4096. -/
theorem malloc_free_round_trip (limit : Nat) (m0 : Mem) (hl0 : limit ≤ 2 ^ 32)
    (hi : (mm_init limit m0).1 = 0) (fuel lim n p : Nat) (s' : State) (hl : lim ≤ 2 ^ 32)
    (hn : 0 < n) (hv : n + 15 < 2 ^ 64)
    (hm : malloc fuel lim (mm_init limit m0).2 n = some (some p, s')) :
    p = heap_basep + DSIZE ∧
    heap_blocks (free s' (some p)) = [⟨p, s'.brk - p, false⟩] ∧
    (free s' (some p)).brk = s'.brk ∧
    (∃ s16, malloc 4192 lim (mm_init limit m0).2 16 = some (some 96, s16)) ∧
    (n = 16 → heap_blocks s' = [⟨96, 24, true⟩, ⟨120, 4072, false⟩] ∧
      GET_SIZE s'.mem (HDRP p) = 24 ∧ list_index 24 = 1 ∧
      heap_blocks (free s' (some p)) = [⟨96, 4096, false⟩]) := by
  obtain ⟨⟨L, hinv⟩, hbrk⟩ := mm_init_blocks limit m0 hl0 hi
  generalize (mm_init limit m0).2 = s at hinv hbrk hm ⊢
  obtain ⟨hp, hfit⟩ := malloc_single_free s 4096 L hinv fuel lim n p s' hl hn hv hm
  obtain ⟨bs', L', hinv', MP⟩ := malloc_spec fuel lim s n _ L hinv hl hn hv _ hm
  simp only at hinv'
  obtain ⟨b, hb, hbp, hba, -, -⟩ := MP.new p rfl
  obtain ⟨bs2, L2, hinv2, FP⟩ := free_post s' bs' b L' hinv' hb hba
  rw [hbp] at hinv2 FP
  have hall : ∀ c ∈ bs2, c.alloc = false := by
    intro c hc
    by_contra hca
    have hca' : c.alloc = true := by simpa using hca
    obtain ⟨hc1, hc2⟩ := FP.old c hc hca'
    rcases MP.old c hc1 hca' with h | h
    · simp only [List.mem_singleton] at h
      rw [h] at hca'
      simp at hca'
    · simp only [Option.some.injEq] at h
      exact hc2 (Layout_inj _ _ _ hinv'.heap.lay c b hc1 hb (by rw [hbp, h]))
  have hle := MP.brk_le
  simp only at hle
  have hbrk2 := FP.brk_eq
  have hsing := all_free_single bs2 _ hinv2.noadj hall hinv2.heap.lay (by omega)
  have hblocks : heap_blocks (free s' (some p)) = [⟨p, s'.brk - p, false⟩] := by
    rw [hinv2.blocks, hsing, hbrk2, hp]
  have h16 : ∃ s16, malloc 4192 lim s 16 = some (some 96, s16) := by
    obtain ⟨r, hr⟩ := malloc_total hinv 4192 lim 16 (by omega)
    obtain ⟨q, hq⟩ := find_fit_some hinv 4192 (adjust_size 16) (by omega) ⟨96, 4096, false⟩
      (by simp) rfl (by decide)
    have : malloc 4192 lim s 16 =
        some (some q, { s with mem := place s.mem q (adjust_size 16) }) := by
      unfold malloc
      rw [if_neg (by omega)]
      simp only [hq]
    have hq96 := (malloc_single_free s 4096 L hinv 4192 lim 16 q _ hl (by omega) (by decide)
      this).1
    rw [hq96] at this
    exact ⟨_, this⟩
  refine ⟨hp, hblocks, hbrk2, h16, ?_⟩
  intro e16
  subst e16
  have hs' := hfit (by decide)
  have hsplit := (place_split s.mem s.brk [] [] ⟨96, 4096, false⟩ (adjust_size 16) L hinv rfl
    (by decide) (by decide) (by decide) (by decide)).1
  have e24 : adjust_size 16 = 24 := by decide
  rw [e24] at hsplit hs'
  simp only [List.nil_append] at hsplit
  have hb1 : heap_blocks s' = [⟨96, 24, true⟩, ⟨120, 4072, false⟩] := by
    rw [hs']
    exact hsplit.blocks
  have hrd := hsplit.read ⟨96, 24, true⟩ (by simp)
  refine ⟨hb1, ?_, by decide, ?_⟩
  · rw [hs', hp]
    exact hrd.1
  · rw [hblocks, hp, hs']
    simp only [List.cons.injEq, Blk.mk.injEq, and_true, true_and]
    omega

theorem malloc_free_round_trip_witness :
    heap_blocks (free heap_a1 (some 96)) = [⟨96, heap_a1.brk - 96, false⟩] ∧
    (∃ s16, malloc 4192 5000 (mm_init 5000 zero_mem).2 16 = some (some 96, s16)) ∧
    heap_blocks heap_a1 = [⟨96, 24, true⟩, ⟨120, 4072, false⟩] ∧
    GET_SIZE heap_a1.mem (HDRP 96) = 24 ∧ list_index 24 = 1 ∧
    heap_blocks (free heap_a1 (some 96)) = [⟨96, 4096, false⟩] :=
  have h := malloc_free_round_trip 5000 zero_mem (by decide) (by decide) 10 5000 16 96 heap_a1
    (by decide) (by decide) (by decide) malloc_a1
  ⟨h.2.1, h.2.2.2.1, h.2.2.2.2 rfl⟩

theorem list_nodes_eq (m : Mem) (h : Nat) (l : List Nat) (x fuel : Nat)
    (hs : Seg m x l h) (hne : ∀ y ∈ l, y ≠ h) (hf : l.length < fuel) :
    list_nodes m h fuel (GET m x) = some l := by
  induction l generalizing x fuel with
  | nil =>
    obtain ⟨f, rfl⟩ : ∃ f, fuel = f + 1 := ⟨fuel - 1, by simp at hf; omega⟩
    have : GET m x = h := hs.1
    simp [list_nodes, this]
  | cons y l ih =>
    obtain ⟨f, rfl⟩ : ∃ f, fuel = f + 1 := ⟨fuel - 1, by simp at hf; omega⟩
    have hxy : GET m x = y := hs.1.1
    have hyh : y ≠ h := hne y (List.mem_cons_self _ _)
    simp only [List.length_cons] at hf
    have hih := ih y f hs.2 (fun z hz => hne z (List.mem_cons_of_mem _ hz)) (by omega)
    simp only [list_nodes, hxy, if_pos hyh, NEXT_EMPT_BLKP, first_listp, NEXT_SECT,
      Nat.zero_add, hih]

theorem bucket_eq {s bs L} (h : Inv s bs L) (fuel : Nat) (hf : s.brk ≤ fuel) (i : Nat)
    (hi : i < 10) : bucket fuel s i = some (L i) := by
  have := list_nodes_eq s.mem (i * 8) (L i) (i * 8) fuel (h.lists.seg i hi)
    (h.lists.head_ne i hi) (lt_of_lt_of_le (h.fuel i hi) hf)
  simp only [bucket, first_listp, DSIZE, NEXT_EMPT_BLKP, NEXT_SECT, Nat.zero_add]
  exact this

/-- C18: in a reachable state, with fuel for the whole arena, the walks of the
ten bucket lists return lists `B 0`, ..., `B 9` such that every free block of
the arena is in the list of its size class `list_index(size)` and occurs
exactly once in the ten lists together, no pointer occurs twice in a list,
every listed pointer is the pointer of a free block of the arena in the list
of its size class, and no allocated block is listed. -/
theorem buckets_hold_free_blocks (s : State) (hs : Reachable s) (fuel : Nat)
    (hf : s.brk ≤ fuel) :
    ∃ B : Nat → List Nat, (∀ i, i < LIST_NUM → bucket fuel s i = some (B i)) ∧
      (∀ b ∈ heap_blocks s, b.alloc = false →
        b.bp ∈ B (list_index b.size) ∧ (scan B LIST_NUM 0).count b.bp = 1 ∧
        ∀ i, i < LIST_NUM → b.bp ∈ B i → i = list_index b.size) ∧
      (∀ i, i < LIST_NUM → ∀ y ∈ B i,
        ∃ b ∈ heap_blocks s, b.bp = y ∧ b.alloc = false ∧ list_index b.size = i) ∧
      (∀ b ∈ heap_blocks s, b.alloc = true → ∀ i, i < LIST_NUM → b.bp ∉ B i) := by
  obtain ⟨bs, L, hinv⟩ := hs.inv
  rw [hinv.blocks]
  simp only [LIST_NUM]
  refine ⟨L, fun i hi => bucket_eq hinv fuel hf i hi, ?_, ?_, ?_⟩
  · intro b hb hbf
    have hi := list_index_lt b.size
    have hmem : b.bp ∈ L (list_index b.size) := (hinv.memb _ hi b.bp).2 ⟨b, hb, rfl, hbf, rfl⟩
    refine ⟨hmem, ?_, ?_⟩
    · apply List.count_eq_one_of_mem (scan_nodup s.mem L hinv.lists 10 0 (by omega))
      rw [scan_mem_iff]
      exact ⟨_, Nat.zero_le _, by omega, hmem⟩
    · intro i hi2 hbi
      exact hinv.lists.disj i _ hi2 hi b.bp hbi hmem
  · intro i hi y hy
    exact (hinv.memb i hi y).1 hy
  · intro b hb hba i hi hbi
    obtain ⟨c, hc, e1, e2, -⟩ := (hinv.memb i hi b.bp).1 hbi
    have := Layout_inj _ _ _ hinv.heap.lay c b hc hb e1
    rw [this, hba] at e2
    simp at e2

theorem buckets_hold_free_blocks_witness :
    ∃ B : Nat → List Nat, (∀ i, i < LIST_NUM → bucket 5000 heap_b3 i = some (B i)) ∧
      (∀ b ∈ heap_blocks heap_b3, b.alloc = false →
        b.bp ∈ B (list_index b.size) ∧ (scan B LIST_NUM 0).count b.bp = 1 ∧
        ∀ i, i < LIST_NUM → b.bp ∈ B i → i = list_index b.size) ∧
      (∀ i, i < LIST_NUM → ∀ y ∈ B i,
        ∃ b ∈ heap_blocks heap_b3, b.bp = y ∧ b.alloc = false ∧ list_index b.size = i) ∧
      (∀ b ∈ heap_blocks heap_b3, b.alloc = true → ∀ i, i < LIST_NUM → b.bp ∉ B i) :=
  buckets_hold_free_blocks heap_b3 heap_b3_reachable 5000 (by decide)

theorem land_mask64 (x : Nat) (hx : x < 2 ^ 64) : x &&& 0xFFFFFFFFFFFFFFF8 = x / 8 * 8 := by
  have e1 : (0xFFFFFFFFFFFFFFF8 : Nat) = (2 ^ 61 - 1) <<< 3 := by decide
  have e2 : x / 8 * 8 = (x >>> 3) <<< 3 := by
    rw [Nat.shiftLeft_eq, Nat.shiftRight_eq_div_pow]
  rw [e1, e2]
  apply Nat.eq_of_testBit_eq
  intro i
  simp only [Nat.testBit_and, Nat.testBit_shiftLeft, Nat.testBit_shiftRight,
    Nat.testBit_two_pow_sub_one]
  by_cases h3 : 3 ≤ i
  · have e3 : 3 + (i - 3) = i := by omega
    rw [e3]
    by_cases h64 : i < 64
    · have : i - 3 < 61 := by omega
      simp [h3, this]
    · have hlt : x < 2 ^ i := lt_of_lt_of_le hx (Nat.pow_le_pow_right (by decide) (by omega))
      simp [Nat.testBit_lt_two_pow hlt]
  · simp [h3]

theorem aligned_eq (base p : Nat) (h8 : (base + p) % 8 = 0) (hb : base + p + 7 < 2 ^ 64) :
    aligned base p = true := by
  simp only [aligned, ALIGN, ALIGNMENT, SIZE_MOD, decide_eq_true_eq]
  rw [Nat.mod_eq_of_lt (by omega), land_mask64 _ (by omega)]
  omega

theorem in_heap_eq (base : Nat) (s : State) (p : Nat) (h : p < s.brk) :
    in_heap base s p = true := by
  simp only [in_heap, mem_heap_hi, mem_heap_lo, decide_eq_true_eq]
  omega

/-- The allocated bit of the header that follows a block. -/
theorem next_header_alloc (m : Mem) (bs : List Blk) (p e : Nat) (hl : Layout p bs e)
    (ht : ∀ b ∈ bs, Tagged m b) (he : GET m (e - 4) = 1) :
    GET_ALLOC m (p - 4) = 1 ∨ ∃ c ∈ bs.head?, c.alloc = false := by
  cases bs with
  | nil =>
    have : p = e := hl
    subst this
    left
    rw [GET_ALLOC_eq, he]
  | cons c bs =>
    obtain ⟨h1, -, h3, -⟩ := hl
    have htc := ht c (List.mem_cons_self _ _)
    rw [← h1]
    have := GET_ALLOC_tag m _ _ _ h3 htc.1
    cases hc : c.alloc with
    | true => left; rw [this, hc]; rfl
    | false => right; exact ⟨c, by simp, hc⟩

theorem check_each_block_log_step (base : Nat) (m : Mem) (fuel iter c : Nat)
    (out : List Diag) (hne : GET m iter ≠ PACK 0 ALLOC)
    (hali : aligned base (iter + WSIZE) = true)
    (hft : GET m (HDRP (iter + WSIZE)) = GET m (FTRP m (iter + WSIZE)))
    (hnext : ¬ (GET_ALLOC m (HDRP (iter + WSIZE)) = 0 ∧
      GET_ALLOC m (HDRP (NEXT_BLKP m (iter + WSIZE))) = 0)) :
    check_each_block_log base m (fuel + 1) iter c out =
      check_each_block_log base m fuel (HDRP (NEXT_BLKP m (iter + WSIZE)))
        (if GET_ALLOC m (HDRP (iter + WSIZE)) = FREE then (c + 1) % SIZE_MOD else c) out := by
  have h1 : ¬ (GET m (HDRP (iter + WSIZE)) ≠ GET m (FTRP m (iter + WSIZE))) := fun h => h hft
  rw [check_each_block_log, if_pos hne]
  simp only [hali, not_true_eq_false, if_false, if_neg h1, if_neg hnext]

theorem check_each_block_log_eq (base : Nat) (m : Mem) (bs : List Blk) (p e fuel c : Nat)
    (out : List Diag) (hl : Layout p bs e) (ht : ∀ b ∈ bs, Tagged m b)
    (he : GET m (e - 4) = 1) (hp : 4 ≤ p) (hn : NoAdj bs) (hp8 : (base + p) % 8 = 0)
    (hb : base + e + 7 < 2 ^ 64) (hf : bs.length < fuel) (hc : c + bs.length < SIZE_MOD) :
    check_each_block_log base m fuel (p - 4) c out = some (c + free_count bs, out) := by
  induction bs generalizing p fuel c with
  | nil =>
    obtain ⟨f, rfl⟩ : ∃ f, fuel = f + 1 := ⟨fuel - 1, by simp at hf; omega⟩
    have : p = e := hl
    subst this
    simp [check_each_block_log, he, PACK, ALLOC, free_count]
  | cons b bs ih =>
    obtain ⟨f, rfl⟩ : ∃ f, fuel = f + 1 := ⟨fuel - 1, by simp at hf; omega⟩
    obtain ⟨h1, h2, h3, h4⟩ := hl
    have htb := ht b (List.mem_cons_self _ _)
    unfold Tagged at htb
    rw [h1] at htb
    have hle := Layout_le _ _ _ h4
    have hne : GET m (p - 4) ≠ PACK 0 ALLOC := by
      rw [htb.1]
      simp only [PACK, ALLOC, tag]
      split <;> simp <;> omega
    have e1 : p - 4 + WSIZE = p := by simp only [WSIZE]; omega
    have hsz : GET_SIZE m (p - 4) = b.size := GET_SIZE_tag m _ _ _ h3 htb.1
    have hal : GET_ALLOC m (p - 4) = if b.alloc then 1 else 0 := GET_ALLOC_tag m _ _ _ h3 htb.1
    have hali : aligned base (p - 4 + WSIZE) = true := by
      rw [e1]; exact aligned_eq base p hp8 (by omega)
    have hH : HDRP (p - 4 + WSIZE) = p - 4 := by rw [e1]; rfl
    have hN : NEXT_BLKP m (p - 4 + WSIZE) = p + b.size := by
      rw [e1]; simp only [NEXT_BLKP, WSIZE, hsz]
    have hF : FTRP m (p - 4 + WSIZE) = p + b.size - 8 := by
      rw [e1]; simp only [FTRP, HDRP, WSIZE, DSIZE, hsz]
    have hHN : HDRP (p + b.size) = p + b.size - 4 := rfl
    have hft : GET m (HDRP (p - 4 + WSIZE)) = GET m (FTRP m (p - 4 + WSIZE)) := by
      rw [hH, hF, htb.1, htb.2]
    have hn' : NoAdj bs := by
      unfold NoAdj at hn ⊢
      exact hn.tail
    have hnext : ¬ (GET_ALLOC m (HDRP (p - 4 + WSIZE)) = 0 ∧
        GET_ALLOC m (HDRP (NEXT_BLKP m (p - 4 + WSIZE))) = 0) := by
      rw [hH, hN, hHN]
      rintro ⟨g1, g2⟩
      rcases next_header_alloc m bs (p + b.size) e h4
        (fun c hc => ht c (List.mem_cons_of_mem _ hc)) he with h | ⟨c, hc, hcf⟩
      · rw [h] at g2; simp at g2
      · cases bs with
        | nil => simp at hc
        | cons d bs =>
          simp only [List.head?_cons, Option.mem_def, Option.some.injEq] at hc
          subst hc
          unfold NoAdj at hn
          rw [List.chain'_cons] at hn
          rw [hal] at g1
          rcases hn.1 with h | h
          · rw [h] at g1; simp at g1
          · rw [h] at hcf; simp at hcf
    simp only [List.length_cons] at hf hc
    have hrec := fun c' hc' => ih (p + b.size) f c' h4
      (fun c hc => ht c (List.mem_cons_of_mem _ hc)) (by omega) hn' (by omega) (by omega) hc'
    rw [check_each_block_log_step base m f (p - 4) c out hne hali hft hnext, hH, hN, hHN, hal]
    cases hba : b.alloc with
    | true =>
      have e0 : (if (if true = true then 1 else 0) = FREE then (c + 1) % SIZE_MOD else c) = c := by
        simp [FREE]
      rw [e0, hrec c (by omega)]
      simp [free_count, List.filter_cons, hba]
    | false =>
      have e0 : (if (if false = true then 1 else 0) = FREE then (c + 1) % SIZE_MOD else c) =
          c + 1 := by
        simp only [Bool.false_eq_true, if_false, FREE, if_true]
        exact Nat.mod_eq_of_lt (by omega)
      rw [e0, hrec (c + 1) (by omega)]
      simp only [free_count, List.filter_cons, hba, Bool.not_false, if_true, List.length_cons]
      congr 2
      omega

theorem check_free_list_walk_log_step (base : Nat) (s : State) (h idx fuel bp c : Nat)
    (out : List Diag) (hne : bp ≠ h) (hin : in_heap base s bp = true)
    (hidx : list_index (GET_SIZE s.mem (HDRP bp)) = idx)
    (hback : GET s.mem (PREV_SECT (NEXT_EMPT_BLKP s.mem bp)) = bp) :
    check_free_list_walk_log base s h idx (fuel + 1) bp c out =
      check_free_list_walk_log base s h idx fuel (NEXT_EMPT_BLKP s.mem bp)
        ((c + 1) % SIZE_MOD) out := by
  have h1 : ¬ (list_index (GET_SIZE s.mem (HDRP bp)) ≠ idx) := fun h => h hidx
  have h2 : ¬ (bp ≠ first_listp + GET s.mem (PREV_SECT (NEXT_EMPT_BLKP s.mem bp)) ∨
      NEXT_EMPT_BLKP s.mem bp ≠ first_listp + GET s.mem (NEXT_SECT bp)) := by
    rw [hback]
    simp [first_listp, NEXT_EMPT_BLKP]
  rw [check_free_list_walk_log, if_pos hne]
  simp only [hin, not_true_eq_false, if_false, if_neg h1, if_neg h2]

theorem check_free_list_walk_log_eq (base : Nat) (s : State) (h idx : Nat) (l : List Nat)
    (x fuel c : Nat) (out : List Diag) (hs : Seg s.mem x l h) (hne : ∀ y ∈ l, y ≠ h)
    (hok : ∀ y ∈ l, y < s.brk ∧ list_index (GET_SIZE s.mem (HDRP y)) = idx)
    (hf : l.length < fuel) (hc : c + l.length < SIZE_MOD) :
    check_free_list_walk_log base s h idx fuel (GET s.mem x) c out =
      some (c + l.length, out) := by
  induction l generalizing x fuel c with
  | nil =>
    obtain ⟨f, rfl⟩ : ∃ f, fuel = f + 1 := ⟨fuel - 1, by simp at hf; omega⟩
    have : GET s.mem x = h := hs.1
    simp [check_free_list_walk_log, this]
  | cons y l ih =>
    obtain ⟨f, rfl⟩ : ∃ f, fuel = f + 1 := ⟨fuel - 1, by simp at hf; omega⟩
    have hxy : GET s.mem x = y := hs.1.1
    have hyh : y ≠ h := hne y (List.mem_cons_self _ _)
    have hy := hok y (List.mem_cons_self _ _)
    have hnx : NEXT_EMPT_BLKP s.mem y = GET s.mem y := by
      simp only [NEXT_EMPT_BLKP, first_listp, NEXT_SECT, Nat.zero_add]
    have hback : GET s.mem (PREV_SECT (NEXT_EMPT_BLKP s.mem y)) = y := by
      rw [hnx]
      have hseg := hs.2
      cases l with
      | nil =>
        have h1 : GET s.mem y = h := hseg.1
        rw [h1]
        exact hseg.2
      | cons z l =>
        have h1 : GET s.mem y = z := hseg.1.1
        rw [h1]
        exact hseg.1.2
    simp only [List.length_cons] at hf hc
    have hih := ih y f (c + 1) hs.2 (fun z hz => hne z (List.mem_cons_of_mem _ hz))
      (fun z hz => hok z (List.mem_cons_of_mem _ hz)) (by omega) (by omega)
    rw [hxy, check_free_list_walk_log_step base s h idx f y c out hyh
      (in_heap_eq base s y hy.1) hy.2 hback, hnx, Nat.mod_eq_of_lt (by omega), hih]
    simp only [List.length_cons]
    congr 2
    omega

theorem check_free_list_log_eq (base : Nat) {s : State} {bs : List Blk} {L : Nat → List Nat}
    (hinv : Inv s bs L) (fuel : Nat) (hf : s.brk ≤ fuel) (n i cnt c : Nat) (out : List Diag)
    (hn : i + n = 10) (hcnt : n < cnt) (hc : c + (scan L n i).length < SIZE_MOD) :
    check_free_list_log base s fuel cnt (i * 8) i c out =
      some (c + (scan L n i).length, out) := by
  induction n generalizing i cnt c with
  | zero =>
    obtain ⟨k, rfl⟩ : ∃ k, cnt = k + 1 := ⟨cnt - 1, by omega⟩
    have : i = 10 := by omega
    subst this
    simp [check_free_list_log, scan, last_listp, first_listp, LIST_NUM, DSIZE]
  | succ n ih =>
    obtain ⟨k, rfl⟩ : ∃ k, cnt = k + 1 := ⟨cnt - 1, by omega⟩
    have hi : i < 10 := by omega
    have hne : i * 8 ≠ last_listp + DSIZE := by
      simp only [last_listp, first_listp, LIST_NUM, DSIZE]
      omega
    simp only [scan, List.length_append] at hc ⊢
    have hok : ∀ y ∈ L i, y < s.brk ∧ list_index (GET_SIZE s.mem (HDRP y)) = i := by
      intro y hy
      obtain ⟨b, hb, e1, -, e3⟩ := (hinv.memb i hi y).1 hy
      have hrd := hinv.read b hb
      rw [e1] at hrd
      rw [hrd.1, e3]
      exact ⟨by omega, rfl⟩
    have hw := check_free_list_walk_log_eq base s (i * 8) i (L i) (i * 8) fuel c out
      (hinv.lists.seg i hi) (hinv.lists.head_ne i hi) hok
      (lt_of_lt_of_le (hinv.fuel i hi) hf) (by omega)
    have hih := ih (i + 1) k (c + (L i).length) (by omega) (by omega) (by omega)
    simp only [check_free_list_log, if_pos hne, NEXT_EMPT_BLKP, first_listp, NEXT_SECT,
      Nat.zero_add, hw]
    have e : i * 8 + DSIZE = (i + 1) * 8 := by simp only [DSIZE]; ring
    have e2 : (i + 1) % SIZE_MOD = i + 1 := Nat.mod_eq_of_lt (by simp only [SIZE_MOD]; omega)
    rw [e, e2, hih, Nat.add_assoc]

theorem mm_checkheap_eq {s bs L} (hinv : Inv s bs L) (base fuel : Nat) (hf : s.brk ≤ fuel)
    (hb8 : base % 8 = 0) (hb : base + 2 ^ 32 + 7 < 2 ^ 64) : mm_checkheap base fuel s = some [] := by
  have hlay := hinv.heap.lay
  have hlen := Layout_length _ _ _ hlay
  have hbd := hinv.heap.bound
  have h96 := Layout_le _ _ _ hlay
  have hfc := free_count_le bs
  have e88 : heap_basep = 88 := by decide
  have e84 : HDRP heap_basep = 84 := by decide
  have h1 : check_heap_init base s [] = [] := by
    have ha := aligned_eq base heap_basep (by rw [e88]; omega) (by rw [e88]; omega)
    have hi := in_heap_eq base s heap_basep (by rw [e88]; omega)
    have hz : ¬ base + heap_basep = 0 := by rw [e88]; omega
    simp [check_heap_init, ha, hi, hz]
  have h2 : check_epi_and_pro base s [] = [] := by
    have hi1 := in_heap_eq base s (HDRP heap_basep) (by rw [e84]; omega)
    have hi2 := in_heap_eq base s heap_basep (by rw [e88]; omega)
    have he : mem_heap_hi base s - 3 - base = s.brk - 4 := by
      simp only [mem_heap_hi]; omega
    have hi3 := in_heap_eq base s (s.brk - 4) (by omega)
    have g1 : GET s.mem (HDRP heap_basep) = PACK DSIZE ALLOC := hinv.heap.pro.1
    have g2 : GET s.mem heap_basep = PACK DSIZE ALLOC := hinv.heap.pro.2
    have g3 : GET s.mem (s.brk - 4) = PACK 0 ALLOC := hinv.heap.epi
    simp [check_epi_and_pro, he, hi1, hi2, hi3, g1, g2, g3]
  have h3 := check_each_block_log_eq base s.mem bs 96 s.brk fuel 0 [] hlay hinv.heap.tags
    hinv.heap.epi (by decide) hinv.noadj (by omega) (by omega) (by omega)
    (by simp only [SIZE_MOD]; omega)
  have hsl := scan_length hinv
  have h4 := check_free_list_log_eq base hinv fuel hf 10 0 11 0 [] (by omega) (by omega)
    (by simp only [SIZE_MOD]; omega)
  rw [Nat.zero_add] at h3
  rw [Nat.zero_add, hsl, Nat.zero_mul] at h4
  have h3' : check_each_block_log base s.mem fuel (heap_basep + WSIZE) 0 [] =
      some (free_count bs, []) := h3
  have h4' : check_free_list_log base s fuel (LIST_NUM + 1) first_listp 0 0 [] =
      some (free_count bs, []) := h4
  simp only [mm_checkheap, h1, h2, h3', h4', ne_eq, not_true_eq_false, if_false]

/-- C16: in a reachable state of an arena at an 8-byte aligned address `base`
(with the arena inside the 64-bit address space), with fuel for the whole
arena, `mm_checkheap` returns and prints no diagnostic:
none from `check_heap_init`, `check_epi_and_pro`, `check_each_block` or
`check_free_list`, and no count mismatch. -/
theorem checkheap_silent (s : State) (hs : Reachable s) (base fuel : Nat) (hf : s.brk ≤ fuel)
    (hb8 : base % ALIGNMENT = 0) (hb : base + 2 ^ 32 + 7 < 2 ^ 64) :
    mm_checkheap base fuel s = some [] := by
  obtain ⟨bs, L, hinv⟩ := hs.inv
  exact mm_checkheap_eq hinv base fuel hf hb8 hb

theorem checkheap_silent_witness : mm_checkheap 4096 5000 heap_b3 = some [] :=
  checkheap_silent heap_b3 heap_b3_reachable 4096 5000 (by decide) (by decide) (by decide)

/-- C21: in every state `free(NULL)` returns with the state as it was: the
same arena contents, hence the same bucket lists and blocks, and the same
arena size. -/
theorem free_null_is_noop (s : State) :
    free s none = s ∧ (free s none).mem = s.mem ∧ (free s none).brk = s.brk ∧
    heap_blocks (free s none) = heap_blocks s ∧
    ∀ fuel i, bucket fuel (free s none) i = bucket fuel s i :=
  ⟨rfl, rfl, rfl, rfl, fun _ _ => rfl⟩

/-- C22: in a reachable state, when a valid `malloc(n)`, `n > 0`, returns a
non-null `p`, the block at `p` is a block of the new arena of size at least
`n + 8`; from its header to its footer it lies after the prologue and the
offset table and before the epilogue word, so the bytes `[p, p + n)` are inside
the arena; and it is disjoint from every block that was allocated before the
call. -/
theorem malloc_block_in_arena (s : State) (hs : Reachable s) (fuel limit n p : Nat)
    (s' : State) (hl : limit ≤ 2 ^ 32) (hn : 0 < n) (hv : n + 15 < 2 ^ 64)
    (h : malloc fuel limit s n = some (some p, s')) :
    ∃ b ∈ heap_blocks s', b.bp = p ∧ b.alloc = true ∧ n + DSIZE ≤ b.size ∧
      heap_basep + WSIZE ≤ HDRP p ∧ last_listp + DSIZE ≤ HDRP p ∧
      FTRP s'.mem p + WSIZE ≤ s'.brk - WSIZE ∧
      FTRP s'.mem p = p + b.size - DSIZE ∧ p + n ≤ FTRP s'.mem p ∧
      ∀ c ∈ heap_blocks s, c.alloc = true →
        c.bp + c.size - WSIZE ≤ HDRP p ∨ p + b.size - WSIZE ≤ HDRP c.bp := by
  obtain ⟨bs, L, hinv⟩ := hs.inv
  obtain ⟨bs', L', hinv', MP⟩ := malloc_spec fuel limit s n bs L hinv hl hn hv _ h
  obtain ⟨b, hb, hbp, hba, hbs, hnew⟩ := MP.new p rfl
  have hadj := adjust_size_bounds n hv
  have hrd := hinv'.read b hb
  simp only at hinv' hrd
  rw [hbp] at hrd
  have hF : FTRP s'.mem p = p + b.size - DSIZE := by
    simp only [FTRP, hrd.1]
  rw [hinv'.blocks, hinv.blocks]
  refine ⟨b, hb, hbp, hba, ?_, ?_, ?_, ?_, hF, ?_, ?_⟩
  · simp only [DSIZE]; omega
  · simp only [heap_basep, last_listp, first_listp, LIST_NUM, DSIZE, WSIZE, HDRP]; omega
  · simp only [last_listp, first_listp, LIST_NUM, DSIZE, WSIZE, HDRP]; omega
  · rw [hF]; simp only [DSIZE, WSIZE]; omega
  · rw [hF]; simp only [DSIZE]; omega
  · intro c hc hca
    have hc' := MP.keep c hc hca
    have hcm := Layout_mem _ _ _ hinv'.heap.lay c hc'
    rcases Layout_sep _ _ _ hinv'.heap.lay c b hc' hb with e | e | e
    · exact absurd (by rw [e, hbp]) (hnew c hc hca)
    · left; simp only [HDRP, WSIZE]; omega
    · right; simp only [HDRP, WSIZE]; omega

theorem malloc_block_in_arena_witness :
    ∃ b ∈ heap_blocks heap_two, b.bp = 112 ∧ b.alloc = true ∧ 16 + DSIZE ≤ b.size ∧
      heap_basep + WSIZE ≤ HDRP 112 ∧ last_listp + DSIZE ≤ HDRP 112 ∧
      FTRP heap_two.mem 112 + WSIZE ≤ heap_two.brk - WSIZE ∧
      FTRP heap_two.mem 112 = 112 + b.size - DSIZE ∧ 112 + 16 ≤ FTRP heap_two.mem 112 ∧
      ∀ c ∈ heap_blocks heap_one, c.alloc = true →
        c.bp + c.size - WSIZE ≤ HDRP 112 ∨ 112 + b.size - WSIZE ≤ HDRP c.bp :=
  malloc_block_in_arena heap_one heap_one_reachable 10 5000 16 112 heap_two (by decide)
    (by decide) (by decide) malloc_heap_one

/-- C23: in a reachable state, with the arena size as fuel, `find_fit(a)`
returns; it returns `NULL` if and only if no free block of the arena has size
at least `a`, and a block it returns is a free block of the arena of size at
least `a`. -/
theorem find_fit_complete (s : State) (hs : Reachable s) (fuel a : Nat) (hf : s.brk ≤ fuel) :
    ∃ r, find_fit fuel s.mem a = some r ∧
      (r = none ↔ ∀ b ∈ heap_blocks s, b.alloc = false → b.size < a) ∧
      ∀ p, r = some p → ∃ b ∈ heap_blocks s, b.bp = p ∧ b.alloc = false ∧ a ≤ b.size ∧
        GET_ALLOC s.mem (HDRP p) = FREE ∧ GET_SIZE s.mem (HDRP p) ≥ a := by
  obtain ⟨bs, L, hinv⟩ := hs.inv
  rw [hinv.blocks]
  obtain ⟨r, hr⟩ := find_fit_total hinv fuel a hf
  have hsound : ∀ p, r = some p → ∃ b ∈ bs, b.bp = p ∧ b.alloc = false ∧ a ≤ b.size ∧
      GET_ALLOC s.mem (HDRP p) = FREE ∧ GET_SIZE s.mem (HDRP p) ≥ a := by
    intro p hp
    subst hp
    obtain ⟨j, hj, hbp, hal, hsz⟩ := find_fit_sound s.mem a fuel L hinv.lists
      (fun j hj => lt_of_lt_of_le (hinv.fuel j hj) hf) p hr
    obtain ⟨b, hb, e1, e2, -⟩ := (hinv.memb j hj p).1 hbp
    have hrd := hinv.read b hb
    rw [e1] at hrd
    exact ⟨b, hb, e1, e2, by omega, hal, hsz⟩
  refine ⟨r, hr, ⟨?_, ?_⟩, hsound⟩
  · intro hnone b hb hbf
    by_contra hge
    obtain ⟨q, hq⟩ := find_fit_some hinv fuel a hf b hb hbf (by omega)
    rw [hr, hnone] at hq
    simp at hq
  · intro hall
    have := find_fit_none hinv fuel a hf hall
    rw [hr] at this
    simpa using this

theorem find_fit_complete_witness :
    ∃ r, find_fit 5000 heap_b3.mem 104 = some r ∧
      (r = none ↔ ∀ b ∈ heap_blocks heap_b3, b.alloc = false → b.size < 104) ∧
      ∀ p, r = some p → ∃ b ∈ heap_blocks heap_b3, b.bp = p ∧ b.alloc = false ∧ 104 ≤ b.size ∧
        GET_ALLOC heap_b3.mem (HDRP p) = FREE ∧ GET_SIZE heap_b3.mem (HDRP p) ≥ 104 :=
  find_fit_complete heap_b3 heap_b3_reachable 5000 104 (by decide)

/-- C30: for a request size `n ≥ 1` with `n + 15` below `2^64`, the adjusted
size computed by `malloc` is `max(16, 8 * ceil((n + 8) / 8))`: a multiple of 8,
at least 16, at least `n + 8` and less than `n + 16`. -/
theorem adjust_size_formula (n : Nat) (hn : 1 ≤ n) (hv : n + 15 < 2 ^ 64) :
    adjust_size n = max 16 (8 * ((n + 8 + 7) / 8)) ∧ adjust_size n % 8 = 0 ∧
    16 ≤ adjust_size n ∧ n + 8 ≤ adjust_size n ∧ adjust_size n < n + 16 := by
  rw [adjust_size_eq n hv]
  split <;> omega

theorem adjust_size_formula_witness :
    adjust_size 16 = max 16 (8 * ((16 + 8 + 7) / 8)) ∧ adjust_size 16 % 8 = 0 ∧
    16 ≤ adjust_size 16 ∧ 16 + 8 ≤ adjust_size 16 ∧ adjust_size 16 < 16 + 16 :=
  adjust_size_formula 16 (by decide) (by decide)

theorem size_half (x : Nat) (hx : 0 < x) : Nat.size x = Nat.size (x / 2) + 1 := by
  apply le_antisymm
  · rw [Nat.size_le, pow_succ]
    have := Nat.lt_size_self (x / 2)
    omega
  · rw [Nat.succ_le_iff, Nat.lt_size]
    by_cases h : x / 2 = 0
    · rw [h]; simp; omega
    · have h2 : Nat.size (x / 2) - 1 < Nat.size (x / 2) := by
        have : 0 < Nat.size (x / 2) := Nat.size_pos.2 (by omega)
        omega
      rw [Nat.lt_size] at h2
      have e : Nat.size (x / 2) = Nat.size (x / 2) - 1 + 1 := by
        have : 0 < Nat.size (x / 2) := Nat.size_pos.2 (by omega)
        omega
      rw [e, pow_succ]
      omega

/-- The loop of `list_index` counts the bits of `size`. -/
theorem list_index_loop_eq (fuel x idx : Nat) (h : x < 2 ^ fuel) :
    list_index_loop fuel x idx = idx + Nat.size x := by
  induction fuel generalizing x idx with
  | zero =>
    have : x = 0 := by simpa using h
    subst this
    simp [list_index_loop]
  | succ f ih =>
    simp only [list_index_loop]
    by_cases hx : x > 0
    · rw [if_pos hx, Nat.shiftRight_eq_div_pow, pow_one,
        ih (x / 2) (idx + 1) (by rw [pow_succ] at h; omega), size_half x hx]
      omega
    · have : x = 0 := by omega
      subst this
      simp

/-- The list index is the bit length of `size >> 4`, capped at 9. -/
theorem list_index_eq (s : Nat) : list_index s = min 9 (Nat.size (s >>> 4)) := by
  have hlt := list_index_lt s
  have hd : s >>> 4 = s / 16 := by rw [Nat.shiftRight_eq_div_pow]
  by_cases h : 4096 ≤ s
  · have h4096 : list_index 4096 = 9 := by decide
    have := list_index_mono 4096 s h
    have : 9 ≤ Nat.size (s >>> 4) := by
      rw [Nat.succ_le_iff, Nat.lt_size, hd]
      omega
    omega
  · have hx : s >>> 4 < 2 ^ 64 := by rw [hd]; omega
    simp only [list_index, LIST_NUM, list_index_loop_eq 64 _ 0 hx, Nat.zero_add]
    split <;> omega

/-- Below 128 bytes, and only there, the list index is below `LIST_THR`. -/
theorem list_index_small (a : Nat) : list_index a < LIST_THR ↔ a < 128 := by
  have hd : a >>> 4 = a / 16 := by rw [Nat.shiftRight_eq_div_pow]
  rw [list_index_eq, hd]
  simp only [LIST_THR]
  have h1 : Nat.size (a / 16) ≤ 3 ↔ a / 16 < 2 ^ 3 := Nat.size_le
  omega

/-- C29: the list index of a size `s` is the bit length of `s >> 4`, capped at
9: it is 0 below 16, `k` from `16 * 2^(k-1)` to `16 * 2^k - 1` for `k` from 1
to 8, and 9 from 4096 on; it is at most 9 and monotone in `s`. -/
theorem list_index_classes (s : Nat) :
    list_index s = min 9 (Nat.size (s >>> 4)) ∧ list_index s ≤ LIST_NUM - 1 ∧
    (s < 16 → list_index s = 0) ∧
    (∀ k, 1 ≤ k → k ≤ 8 → 16 * 2 ^ (k - 1) ≤ s → s < 16 * 2 ^ k → list_index s = k) ∧
    (4096 ≤ s → list_index s = 9) ∧ ∀ t, s ≤ t → list_index s ≤ list_index t := by
  have hlt := list_index_lt s
  have h4096 : list_index 4096 = 9 := by decide
  have hbig : 4096 ≤ s → list_index s = 9 := by
    intro h
    have := list_index_mono 4096 s h
    omega
  have hd : s >>> 4 = s / 16 := by rw [Nat.shiftRight_eq_div_pow]
  have hmain := list_index_eq s
  refine ⟨hmain, by simp only [LIST_NUM]; omega, ?_, ?_, hbig, fun t ht => list_index_mono s t ht⟩
  · intro h
    rw [hmain, hd]
    have : s / 16 = 0 := by omega
    rw [this]
    simp
  · intro k hk1 hk8 hlo hhi
    rw [hmain, hd]
    have e : Nat.size (s / 16) = k := by
      apply le_antisymm
      · rw [Nat.size_le]
        omega
      · have : k - 1 < Nat.size (s / 16) := by
          rw [Nat.lt_size]
          rw [Nat.le_div_iff_mul_le (by decide)]
          omega
        omega
    rw [e]
    omega

theorem Reachable.wellFormed {s : State} (h : Reachable s) : WellFormed s := h.inv

theorem find_congr (l : List Nat) (p q : Nat → Bool) (h : ∀ x ∈ l, p x = q x) :
    l.find? p = l.find? q := by
  induction l with
  | nil => rfl
  | cons x l ih =>
    simp only [List.find?_cons, h x (List.mem_cons_self _ _)]
    rw [ih (fun y hy => h y (List.mem_cons_of_mem _ hy))]

/-- On a listed block the test of `find_fit` is the size test alone. -/
theorem fits_listed {s bs L} (h : Inv s bs L) (a : Nat) (n i y : Nat) (hn : i + n ≤ 10)
    (hy : y ∈ scan L n i) : fits s.mem a y = decide (GET_SIZE s.mem (HDRP y) ≥ a) := by
  obtain ⟨j, h1, h2, h3⟩ := (scan_mem_iff L n i y).1 hy
  obtain ⟨b, hb, e1, e2, -⟩ := (h.memb j (by omega) y).1 h3
  have hrd := h.read b hb
  rw [e1, e2] at hrd
  simp [fits, hrd.2.1]

/-- C24: in a well-formed heap, for an adjusted size `a` below 128 bytes,
which are exactly the sizes with `list_index(a) < LIST_THR`, `find_fit(a)`
returns the first block of size at least `a` in the order of the bucket lists
`list_index(a)`, ..., 9, each from head to tail, and `NULL` when those lists
hold no such block. -/
theorem find_fit_first_fit (s : State) (hw : WellFormed s) (fuel a : Nat) (hf : s.brk ≤ fuel)
    (ha : a < 128) :
    (list_index a < LIST_THR ↔ a < 128) ∧
    ∃ B : Nat → List Nat, (∀ i, i < LIST_NUM → bucket fuel s i = some (B i)) ∧
      find_fit fuel s.mem a = some ((scan B (LIST_NUM - list_index a) (list_index a)).find?
        (fun bp => decide (GET_SIZE s.mem (HDRP bp) ≥ a))) := by
  obtain ⟨bs, L, hinv⟩ := hw
  have hidx := (list_index_small a).2 ha
  have hi := list_index_lt a
  refine ⟨list_index_small a, L, fun i hi => bucket_eq hinv fuel hf i hi, ?_⟩
  rw [find_fit_eq s.mem a fuel L hinv.lists (fun j hj => lt_of_lt_of_le (hinv.fuel j hj) hf),
    if_pos hidx]
  congr 1
  apply find_congr
  intro y hy
  exact fits_listed hinv a _ _ y (by omega) hy

theorem find_fit_first_fit_witness :
    (list_index 104 < LIST_THR ↔ 104 < 128) ∧
    ∃ B : Nat → List Nat, (∀ i, i < LIST_NUM → bucket 5000 heap_b3 i = some (B i)) ∧
      find_fit 5000 heap_b3.mem 104 = some ((scan B (LIST_NUM - list_index 104)
        (list_index 104)).find? (fun bp => decide (GET_SIZE heap_b3.mem (HDRP bp) ≥ 104))) :=
  find_fit_first_fit heap_b3 heap_b3_reachable.wellFormed 5000 104 (by decide) (by decide)

theorem bf_foldl_best (m : Mem) (a : Nat) (rest seen : List Nat) (acc : Option Nat × Nat)
    (h : BestSoFar m a seen acc) :
    BestSoFar m a (seen ++ rest) (rest.foldl (bf_step m a) acc) := by
  induction rest generalizing seen acc with
  | nil => simpa using h
  | cons x rest ih =>
    rw [List.foldl_cons]
    have e : seen ++ x :: rest = (seen ++ [x]) ++ rest := by simp
    rw [e]
    apply ih
    obtain ⟨h1, h2⟩ := h
    by_cases hx : GET_ALLOC m (HDRP x) = 0 ∧ GET_SIZE m (HDRP x) ≥ a
    · have hfx : fits m a x = true := by simp only [fits, decide_eq_true_eq]; exact hx
      cases hb : acc.1 with
      | none =>
        have hst : bf_step m a acc x = (some x, GET_SIZE m (HDRP x)) := by
          simp [bf_step, hx, hb]
        rw [hst]
        refine ⟨by simp, ?_⟩
        intro p hp
        simp only [Option.some.injEq] at hp
        subst hp
        refine ⟨rfl, hfx, seen, [], by simp, ?_, by simp⟩
        intro y hy hfy
        rw [h1 hb y hy] at hfy
        simp at hfy
      | some p =>
        obtain ⟨g1, g2, l1, l2, g3, g4, g5⟩ := h2 p hb
        by_cases hlt : GET_SIZE m (HDRP x) < acc.2
        · have hst : bf_step m a acc x = (some x, GET_SIZE m (HDRP x)) := by
            simp [bf_step, hx, hlt]
          rw [hst]
          refine ⟨by simp, ?_⟩
          intro q hq
          simp only [Option.some.injEq] at hq
          subst hq
          refine ⟨rfl, hfx, seen, [], by simp, ?_, by simp⟩
          intro y hy hfy
          rw [g3] at hy
          simp only [List.mem_append, List.mem_cons] at hy
          rcases hy with hy | hy | hy
          · have := g4 y hy hfy; omega
          · subst hy; omega
          · have := g5 y hy hfy; omega
        · have hst : bf_step m a acc x = acc := by
            simp [bf_step, hx, hlt, hb]
          rw [hst]
          refine ⟨by simp [hb], ?_⟩
          intro q hq
          rw [hb] at hq
          simp only [Option.some.injEq] at hq
          subst hq
          refine ⟨g1, g2, l1, l2 ++ [x], by rw [g3]; simp, g4, ?_⟩
          intro y hy hfy
          simp only [List.mem_append, List.mem_singleton] at hy
          rcases hy with hy | hy
          · exact g5 y hy hfy
          · subst hy; omega
    · have hfx : fits m a x = false := by
        simp only [fits, decide_eq_false_iff_not]; exact hx
      have hst : bf_step m a acc x = acc := by
        simp [bf_step, hx]
      rw [hst]
      refine ⟨?_, ?_⟩
      · intro hb y hy
        simp only [List.mem_append, List.mem_singleton] at hy
        rcases hy with hy | hy
        · exact h1 hb y hy
        · subst hy; exact hfx
      · intro p hp
        obtain ⟨g1, g2, l1, l2, g3, g4, g5⟩ := h2 p hp
        refine ⟨g1, g2, l1, l2 ++ [x], by rw [g3]; simp, g4, ?_⟩
        intro y hy hfy
        simp only [List.mem_append, List.mem_singleton] at hy
        rcases hy with hy | hy
        · exact g5 y hy hfy
        · subst hy; rw [hfx] at hfy; simp at hfy

/-- C25: in a well-formed heap, for an adjusted size `a` of at least 128
bytes, `find_fit(a)` returns, among the blocks of size at least `a` in the
bucket lists `list_index(a)`, ..., 9 taken in scan order, one of smallest
size, and among those the first met: every candidate before it is strictly
larger, every candidate after it is at least as large.  It returns `NULL`
exactly when those lists hold no block of size at least `a`. -/
theorem find_fit_best_fit (s : State) (hw : WellFormed s) (fuel a : Nat) (hf : s.brk ≤ fuel)
    (ha : 128 ≤ a) :
    LIST_THR ≤ list_index a ∧
    ∃ (B : Nat → List Nat) (r : Option Nat),
      (∀ i, i < LIST_NUM → bucket fuel s i = some (B i)) ∧
      find_fit fuel s.mem a = some r ∧
      (r = none ↔ ∀ y ∈ scan B (LIST_NUM - list_index a) (list_index a),
        GET_SIZE s.mem (HDRP y) < a) ∧
      ∀ p, r = some p → ∃ l1 l2,
        scan B (LIST_NUM - list_index a) (list_index a) = l1 ++ p :: l2 ∧
        a ≤ GET_SIZE s.mem (HDRP p) ∧
        (∀ y ∈ l1, a ≤ GET_SIZE s.mem (HDRP y) →
          GET_SIZE s.mem (HDRP p) < GET_SIZE s.mem (HDRP y)) ∧
        (∀ y ∈ l2, a ≤ GET_SIZE s.mem (HDRP y) →
          GET_SIZE s.mem (HDRP p) ≤ GET_SIZE s.mem (HDRP y)) := by
  obtain ⟨bs, L, hinv⟩ := hw
  have hidx : ¬ list_index a < LIST_THR := by
    rw [list_index_small]; omega
  have hi := list_index_lt a
  have hfit : ∀ y ∈ scan L (10 - list_index a) (list_index a),
      (fits s.mem a y = true ↔ a ≤ GET_SIZE s.mem (HDRP y)) := by
    intro y hy
    rw [fits_listed hinv a _ _ y (by omega) hy]
    simp
  have hbest := bf_foldl_best s.mem a (scan L (10 - list_index a) (list_index a)) []
    (none, 16 * (1 <<< list_index a)) ⟨by simp, by simp⟩
  rw [List.nil_append] at hbest
  obtain ⟨h1, h2⟩ := hbest
  refine ⟨by omega, L, ((scan L (10 - list_index a) (list_index a)).foldl (bf_step s.mem a)
    (none, 16 * (1 <<< list_index a))).1, fun i hi => bucket_eq hinv fuel hf i hi, ?_,
    ⟨?_, ?_⟩, ?_⟩
  · rw [find_fit_eq s.mem a fuel L hinv.lists
      (fun j hj => lt_of_lt_of_le (hinv.fuel j hj) hf), if_neg hidx]
  · intro hnone y hy
    simp only [LIST_NUM] at hy
    have := h1 hnone y hy
    by_contra hge
    rw [(hfit y hy).2 (by omega)] at this
    simp at this
  · intro hall
    by_contra hne
    obtain ⟨p, hp⟩ := Option.ne_none_iff_exists'.1 hne
    obtain ⟨-, g2, l1, l2, g3, -, -⟩ := h2 p hp
    have hpm : p ∈ scan L (10 - list_index a) (list_index a) := by rw [g3]; simp
    have := hall p (by simp only [LIST_NUM]; exact hpm)
    have := (hfit p hpm).1 g2
    omega
  · intro p hp
    obtain ⟨-, g2, l1, l2, g3, g4, g5⟩ := h2 p hp
    have hpm : p ∈ scan L (10 - list_index a) (list_index a) := by rw [g3]; simp
    refine ⟨l1, l2, by simp only [LIST_NUM]; exact g3, (hfit p hpm).1 g2, ?_, ?_⟩
    · intro y hy hge
      exact g4 y hy ((hfit y (by rw [g3]; simp [hy])).2 hge)
    · intro y hy hge
      exact g5 y hy ((hfit y (by rw [g3]; simp [hy])).2 hge)

theorem find_fit_best_fit_witness :
    LIST_THR ≤ list_index 208 ∧
    ∃ (B : Nat → List Nat) (r : Option Nat),
      (∀ i, i < LIST_NUM → bucket 5000 heap_b3 i = some (B i)) ∧
      find_fit 5000 heap_b3.mem 208 = some r ∧
      (r = none ↔ ∀ y ∈ scan B (LIST_NUM - list_index 208) (list_index 208),
        GET_SIZE heap_b3.mem (HDRP y) < 208) ∧
      ∀ p, r = some p → ∃ l1 l2,
        scan B (LIST_NUM - list_index 208) (list_index 208) = l1 ++ p :: l2 ∧
        208 ≤ GET_SIZE heap_b3.mem (HDRP p) ∧
        (∀ y ∈ l1, 208 ≤ GET_SIZE heap_b3.mem (HDRP y) →
          GET_SIZE heap_b3.mem (HDRP p) < GET_SIZE heap_b3.mem (HDRP y)) ∧
        (∀ y ∈ l2, 208 ≤ GET_SIZE heap_b3.mem (HDRP y) →
          GET_SIZE heap_b3.mem (HDRP p) ≤ GET_SIZE heap_b3.mem (HDRP y)) :=
  find_fit_best_fit heap_b3 heap_b3_reachable.wellFormed 5000 208 (by decide) (by decide)

/-- After a miss of `find_fit` and a successful `extend_heap`, the block
`extend_heap` returns is the block `find_fit` finds on the extended arena. -/
theorem refit_finds_extension {s bs L} (hinv : Inv s bs L) (fuel limit a bp : Nat) (s1 : State)
    (hl : limit ≤ 2 ^ 32) (hf : limit ≤ fuel) (h8 : a % 8 = 0)
    (hmiss : find_fit fuel s.mem a = some none)
    (hext : extend_heap limit s ((if a > CHUNKSIZE then a else CHUNKSIZE) / WSIZE) =
      some (bp, s1)) :
    find_fit fuel s1.mem a = some (some bp) := by
  obtain ⟨E, hE⟩ : ∃ E, E = (if a > CHUNKSIZE then a else CHUNKSIZE) := ⟨_, rfl⟩
  rw [← hE] at hext
  have hE1 : a ≤ E ∧ 512 ≤ E ∧ E % 8 = 0 := by
    rw [hE]
    simp only [CHUNKSIZE]
    split_ifs with h <;> simp at h ⊢ <;> omega
  have hw : 4 * (E / WSIZE + E / WSIZE % 2) = E := by simp only [WSIZE]; omega
  obtain ⟨pre', post', f, L1, g1, g2, g3, g4, g5, g6, -, g8, -, -⟩ :=
    extend_heap_spec limit s (E / WSIZE) bs L hinv hl (by simp only [WSIZE]; omega) bp s1 hext
  rw [hw] at g2 g6
  have hsb : s.brk ≤ fuel := by omega
  have hnofit : ∀ c ∈ bs, c.alloc = false → c.size < a := by
    intro c hc hcf
    by_contra hge
    obtain ⟨q, hq⟩ := find_fit_some hinv fuel a hsb c hc hcf (by omega)
    rw [hmiss] at hq
    simp at hq
  obtain ⟨q, hq⟩ := find_fit_some g1 fuel a (by omega) f (by simp) g5 (by omega)
  obtain ⟨j, hj, hql, -, hsz⟩ := find_fit_sound s1.mem a fuel L1 g1.lists
    (fun j hj => lt_of_lt_of_le (g1.fuel j hj) (by omega)) q hq
  obtain ⟨c, hc, e1, e2, -⟩ := (g1.memb j hj q).1 hql
  have hrd := g1.read c hc
  rw [e1] at hrd
  have hcf : c = f := by
    simp only [List.mem_append, List.mem_cons] at hc
    rcases hc with hc | hc | hc
    · have := hnofit c (g8 c (by simp [hc])) e2
      omega
    · exact hc
    · have := hnofit c (g8 c (by simp [hc])) e2
      omega
  rw [hq, ← e1, hcf, g4]

/-- C27: in a reachable state, when `find_fit(a)` misses and `extend_heap`
succeeds, the block `extend_heap` returns, on which `malloc` places the
request, is the block that `find_fit(a)` returns on the extended arena; so
`malloc` returns what `malloc_refit`, which runs the fit finder again after
the extension, returns. -/
theorem malloc_places_on_refit (s : State) (hs : Reachable s) (fuel limit a bp : Nat)
    (s1 : State) (hl : limit ≤ 2 ^ 32) (hf : limit ≤ fuel) (h8 : a % 8 = 0)
    (hmiss : find_fit fuel s.mem a = some none)
    (hext : extend_heap limit s ((if a > CHUNKSIZE then a else CHUNKSIZE) / WSIZE) =
      some (bp, s1)) :
    find_fit fuel s1.mem a = some (some bp) ∧
    ∀ n, 0 < n → adjust_size n = a →
      malloc fuel limit s n = some (some bp, { s1 with mem := place s1.mem bp a }) ∧
      malloc_refit fuel limit s n = malloc fuel limit s n := by
  obtain ⟨bs, L, hinv⟩ := hs.inv
  have h1 := refit_finds_extension hinv fuel limit a bp s1 hl hf h8 hmiss hext
  refine ⟨h1, ?_⟩
  intro n hn hna
  have hm : malloc fuel limit s n = some (some bp, { s1 with mem := place s1.mem bp a }) := by
    unfold malloc
    rw [if_neg (by omega), hna]
    simp only [hmiss, hext]
  refine ⟨hm, ?_⟩
  rw [hm]
  unfold malloc_refit
  rw [if_neg (by omega), hna]
  simp only [hmiss, hext, h1]

theorem malloc_places_on_refit_witness :
    find_fit 10000 heap_grown.mem 5008 = some (some 96) ∧
    ∀ n, 0 < n → adjust_size n = 5008 →
      malloc 10000 10000 fresh_heap n =
        some (some 96, { heap_grown with mem := place heap_grown.mem 96 5008 }) ∧
      malloc_refit 10000 10000 fresh_heap n = malloc 10000 10000 fresh_heap n :=
  malloc_places_on_refit fresh_heap fresh_heap_reachable 10000 10000 5008 96 heap_grown
    (by decide) (by decide) (by decide) rfl rfl

/-- C28: `check_free_list` does not test the previous offset of the first
block of a bucket list.  On the arena of `fresh_heap` with the previous offset
of the only free block (at 96, first and last node of bucket 9, after the head
at 72) overwritten by 8, the walk of bucket 9 reaches the block at 96 from
the head, the previous offset of the block designates offset 8 and not the
head, and `check_free_list`, as all of `mm_checkheap`, prints no diagnostic. -/
theorem checker_misses_first_prev :
    bucket 5000 heap_bad_prev 9 = some [96] ∧
    NEXT_EMPT_BLKP heap_bad_prev.mem (first_listp + 9 * DSIZE) = 96 ∧
    PREV_EMPT_BLKP heap_bad_prev.mem 96 = 8 ∧
    PREV_EMPT_BLKP heap_bad_prev.mem 96 ≠ first_listp + 9 * DSIZE ∧
    check_free_list_log 4096 heap_bad_prev 5000 (LIST_NUM + 1) first_listp 0 0 [] =
      some (1, []) ∧
    mm_checkheap 4096 5000 heap_bad_prev = some [] :=
  ⟨rfl, rfl, rfl, by decide, rfl, rfl⟩

/-- C26: in a well-formed heap whose blocks are `pre`, the free block `b` of
size `B` and `post`, for an adjusted size `a` (a multiple of 8) with
`16 ≤ a ≤ B`, `place(b, a)` takes `b` out of its bucket list.  If
`B - a ≥ 16` the blocks become `pre`, an allocated block of size `a` at `b`, a
free block of size `B - a` at `b + a`, and `post`, and the free block is put at
the head of bucket list `list_index(B - a)`; otherwise the blocks become
`pre`, an allocated block of size `B` at `b`, and `post`.  In both cases the
heap stays well formed, and the header and the footer of every block agree. -/
theorem place_splits_or_fills (s : State) (hw : WellFormed s) (pre post : List Blk) (b : Blk)
    (hbs : heap_blocks s = pre ++ b :: post) (hbf : b.alloc = false) (a fuel : Nat)
    (h16 : 16 ≤ a) (h8 : a % 8 = 0) (ha : a ≤ b.size) (hf : s.brk ≤ fuel) :
    ∃ B : Nat → List Nat, (∀ i, i < LIST_NUM → bucket fuel s i = some (B i)) ∧
      b.bp ∈ B (list_index b.size) ∧
      (16 ≤ b.size - a →
        heap_blocks { s with mem := place s.mem b.bp a } =
          pre ++ ⟨b.bp, a, true⟩ :: ⟨b.bp + a, b.size - a, false⟩ :: post ∧
        ∀ i, i < LIST_NUM → bucket fuel { s with mem := place s.mem b.bp a } i =
          some (Lins (Ldel B b) ⟨b.bp + a, b.size - a, false⟩ i)) ∧
      (b.size - a < 16 →
        heap_blocks { s with mem := place s.mem b.bp a } =
          pre ++ ⟨b.bp, b.size, true⟩ :: post ∧
        ∀ i, i < LIST_NUM → bucket fuel { s with mem := place s.mem b.bp a } i =
          some (Ldel B b i)) ∧
      WellFormed { s with mem := place s.mem b.bp a } ∧
      ∀ c ∈ heap_blocks { s with mem := place s.mem b.bp a },
        GET (place s.mem b.bp a) (HDRP c.bp) =
          GET (place s.mem b.bp a) (FTRP (place s.mem b.bp a) c.bp) ∧
        GET (place s.mem b.bp a) (HDRP c.bp) = PACK c.size (if c.alloc then ALLOC else FREE) := by
  obtain ⟨bs, L, hinv⟩ := hw
  rw [hinv.blocks] at hbs
  subst hbs
  have hi := list_index_lt b.size
  have hmem : b.bp ∈ L (list_index b.size) :=
    (hinv.memb _ hi b.bp).2 ⟨b, by simp, rfl, hbf, rfl⟩
  have hread : ∀ (bs' : List Blk) (L' : Nat → List Nat),
      Inv ⟨place s.mem b.bp a, s.brk⟩ bs' L' →
      ∀ c ∈ heap_blocks ⟨place s.mem b.bp a, s.brk⟩,
        GET (place s.mem b.bp a) (HDRP c.bp) =
          GET (place s.mem b.bp a) (FTRP (place s.mem b.bp a) c.bp) ∧
        GET (place s.mem b.bp a) (HDRP c.bp) =
          PACK c.size (if c.alloc then ALLOC else FREE) := by
    intro bs' L' hinv' c hc
    rw [hinv'.blocks] at hc
    have hrd := hinv'.read c hc
    have ht := (hinv'.heap.tags c hc).1
    simp only at hrd ht
    refine ⟨hrd.2.2.1.symm, ?_⟩
    have e : HDRP c.bp = c.bp - 4 := rfl
    rw [e, ht]
    cases hca : c.alloc with
    | true =>
      have := PACK_ALLOC c.size hrd.2.2.2.2.2.2.2
      simp only [if_true]
      rw [this]
    | false =>
      have := PACK_FREE c.size
      simp only [Bool.false_eq_true, if_false]
      rw [this]
  refine ⟨L, fun i hi => bucket_eq hinv fuel hf i hi, hmem, ?_, ?_, ?_, ?_⟩
  · intro hsm
    obtain ⟨h1, -⟩ := place_split s.mem s.brk pre post b a L hinv hbf ha h16 h8 hsm
    exact ⟨h1.blocks, fun i hi => bucket_eq h1 fuel hf i hi⟩
  · intro hsm
    obtain ⟨h1, -⟩ := place_whole s.mem s.brk pre post b a L hinv hbf ha hsm
    exact ⟨h1.blocks, fun i hi => bucket_eq h1 fuel hf i hi⟩
  · by_cases hsm : 16 ≤ b.size - a
    · exact ⟨_, _, (place_split s.mem s.brk pre post b a L hinv hbf ha h16 h8 hsm).1⟩
    · exact ⟨_, _, (place_whole s.mem s.brk pre post b a L hinv hbf ha (by omega)).1⟩
  · by_cases hsm : 16 ≤ b.size - a
    · exact hread _ _ (place_split s.mem s.brk pre post b a L hinv hbf ha h16 h8 hsm).1
    · exact hread _ _ (place_whole s.mem s.brk pre post b a L hinv hbf ha (by omega)).1

theorem place_splits_or_fills_witness :
    ∃ B : Nat → List Nat, (∀ i, i < LIST_NUM → bucket 5000 fresh_heap i = some (B i)) ∧
      96 ∈ B (list_index 4096) ∧
      (16 ≤ 4096 - 24 →
        heap_blocks { fresh_heap with mem := place fresh_heap.mem 96 24 } =
          [] ++ ⟨96, 24, true⟩ :: ⟨96 + 24, 4096 - 24, false⟩ :: [] ∧
        ∀ i, i < LIST_NUM → bucket 5000 { fresh_heap with mem := place fresh_heap.mem 96 24 } i =
          some (Lins (Ldel B ⟨96, 4096, false⟩) ⟨96 + 24, 4096 - 24, false⟩ i)) ∧
      (4096 - 24 < 16 →
        heap_blocks { fresh_heap with mem := place fresh_heap.mem 96 24 } =
          [] ++ ⟨96, 4096, true⟩ :: [] ∧
        ∀ i, i < LIST_NUM → bucket 5000 { fresh_heap with mem := place fresh_heap.mem 96 24 } i =
          some (Ldel B ⟨96, 4096, false⟩ i)) ∧
      WellFormed { fresh_heap with mem := place fresh_heap.mem 96 24 } ∧
      ∀ c ∈ heap_blocks { fresh_heap with mem := place fresh_heap.mem 96 24 },
        GET (place fresh_heap.mem 96 24) (HDRP c.bp) =
          GET (place fresh_heap.mem 96 24) (FTRP (place fresh_heap.mem 96 24) c.bp) ∧
        GET (place fresh_heap.mem 96 24) (HDRP c.bp) =
          PACK c.size (if c.alloc then ALLOC else FREE) :=
  place_splits_or_fills fresh_heap fresh_heap_reachable.wellFormed [] [] ⟨96, 4096, false⟩
    fresh_heap_blocks rfl 24 5000 (by decide) (by decide) (by decide) (by decide)

/-- C31: for a size `s < 2^32` that is a multiple of 8 and a flag `a` that is
`FREE` or `ALLOC`, the tag word `PACK(s, a)` fits 32 bits and decodes back:
masking gives `s` and `a`, and once the word is stored at `p`, `GET_SIZE(p)`
is `s` and `GET_ALLOC(p)` is `a`. -/
theorem tag_round_trip (m : Mem) (p s a : Nat) (hs : s < 2 ^ 32) (h8 : s % 8 = 0)
    (ha : a = FREE ∨ a = ALLOC) :
    PACK s a < 2 ^ 32 ∧ PACK s a &&& 0xFFFFFFF8 = s ∧ PACK s a &&& 0x1 = a ∧
    GET_SIZE (PUT m p (PACK s a)) p = s ∧ GET_ALLOC (PUT m p (PACK s a)) p = a := by
  have ha2 : a < 2 := by
    rcases ha with h | h <;> rw [h] <;> decide
  have hp : PACK s a = s + a := lor_flag s a h8 ha2
  have hlt : PACK s a < 2 ^ 32 := by rw [hp]; omega
  have hg : GET (PUT m p (PACK s a)) p = PACK s a := GET_PUT_eq m p _ hlt
  refine ⟨hlt, ?_, ?_, ?_, ?_⟩
  · rw [land_mask _ hlt, hp]; omega
  · rw [Nat.and_one_is_mod, hp]; omega
  · rw [GET_SIZE_eq, hg, hp]; omega
  · rw [GET_ALLOC_eq, hg, hp]; omega

theorem tag_round_trip_witness :
    PACK 4096 ALLOC < 2 ^ 32 ∧ PACK 4096 ALLOC &&& 0xFFFFFFF8 = 4096 ∧
    PACK 4096 ALLOC &&& 0x1 = ALLOC ∧
    GET_SIZE (PUT zero_mem 92 (PACK 4096 ALLOC)) 92 = 4096 ∧
    GET_ALLOC (PUT zero_mem 92 (PACK 4096 ALLOC)) 92 = ALLOC :=
  tag_round_trip zero_mem 92 4096 ALLOC (by decide) (by decide) (Or.inr rfl)

/-- C39: in a reachable state every block between the prologue and the
epilogue has a recorded size that is a multiple of 8 and at least 16 bytes;
in particular every free block has room for its header, its footer and the
two link words. -/
theorem block_sizes_legal (s : State) (hs : Reachable s) (b : Blk) (hb : b ∈ heap_blocks s) :
    GET_SIZE s.mem (HDRP b.bp) = b.size ∧ b.size % DSIZE = 0 ∧ 2 * DSIZE ≤ b.size ∧
    (b.alloc = false → 2 * WSIZE + 2 * WSIZE ≤ b.size) := by
  obtain ⟨bs, L, hinv⟩ := hs.inv
  rw [hinv.blocks] at hb
  have hrd := hinv.read b hb
  refine ⟨hrd.1, hrd.2.2.2.2.2.2.2, hrd.2.2.2.2.2.2.1, fun _ => ?_⟩
  simp only [WSIZE]
  omega

theorem block_sizes_legal_witness :
    GET_SIZE heap_b3.mem (HDRP 96) = 112 ∧ 112 % DSIZE = 0 ∧ 2 * DSIZE ≤ 112 ∧
    (false = false → 2 * WSIZE + 2 * WSIZE ≤ 112) :=
  block_sizes_legal heap_b3 heap_b3_reachable ⟨96, 112, false⟩ (by rw [heap_b3_blocks]; decide)

/-- C40: in a reachable state, with the arena size (or more) as fuel, the walk
of every bucket list along the next offsets comes back to the list head after
fewer steps than the arena has bytes, through nodes that are pairwise
different and different from the head; `find_fit` returns for every size, and
`check_free_list` and `check_each_block` return. -/
theorem walks_terminate (s : State) (hs : Reachable s) (fuel : Nat) (hf : s.brk ≤ fuel) :
    (∀ i, i < LIST_NUM → ∃ l, bucket fuel s i = some l ∧ l.Nodup ∧
      first_listp + i * DSIZE ∉ l ∧ l.length < s.brk) ∧
    (∀ a, ∃ r, find_fit fuel s.mem a = some r) ∧
    (∃ n, check_free_list fuel s = some n) ∧ (∃ n, check_each_block fuel s = some n) := by
  obtain ⟨bs, L, hinv⟩ := hs.inv
  refine ⟨?_, fun a => find_fit_total hinv fuel a hf, ⟨_, check_free_list_eq hinv fuel hf⟩,
    ⟨_, check_each_block_eq hinv fuel hf⟩⟩
  intro i hi
  simp only [LIST_NUM] at hi
  refine ⟨L i, bucket_eq hinv fuel hf i hi, hinv.lists.nodup i hi, ?_, hinv.fuel i hi⟩
  intro hmem
  simp only [first_listp, DSIZE, Nat.zero_add] at hmem
  exact hinv.lists.head_ne i hi _ hmem rfl

theorem walks_terminate_witness :
    (∀ i, i < LIST_NUM → ∃ l, bucket 5000 heap_b3 i = some l ∧ l.Nodup ∧
      first_listp + i * DSIZE ∉ l ∧ l.length < heap_b3.brk) ∧
    (∀ a, ∃ r, find_fit 5000 heap_b3.mem a = some r) ∧
    (∃ n, check_free_list 5000 heap_b3 = some n) ∧
    (∃ n, check_each_block 5000 heap_b3 = some n) :=
  walks_terminate heap_b3 heap_b3_reachable 5000 (by decide)

/-- A successful `mm_init` leaves the state it leaves with a growth limit of
4192 bytes. -/
theorem mm_init_limit (limit : Nat) (m0 : Mem) (h : (mm_init limit m0).1 = 0) :
    (mm_init limit m0).2 = (mm_init 4192 m0).2 ∧ (mm_init 4192 m0).1 = 0 ∧ 4192 ≤ limit := by
  rw [mm_init_eq] at h
  rw [mm_init_eq, mm_init_eq 4192]
  by_cases h1 : 96 ≤ limit
  · rw [if_pos h1] at h ⊢
    rw [if_pos (by decide)]
    by_cases h2 : 4192 ≤ limit
    · simp only [extend_heap, mem_sbrk, WSIZE] at h ⊢
      simp [h2]
    · exfalso
      simp only [extend_heap, mem_sbrk, WSIZE] at h
      rw [if_neg (by simp; omega)] at h
      simp at h
  · rw [if_neg h1] at h
    simp at h

/-- In a well-formed heap the bucket lists are the free blocks sorted by size
class: a bucket list with one free block of its class holds that block only,
and a bucket list without free blocks of its class is empty. -/
theorem single_block_lists {s L} {b : Blk} (hinv : Inv s [b] L) (hbf : b.alloc = false) :
    L (list_index b.size) = [b.bp] ∧ ∀ i, i < 10 → i ≠ list_index b.size → L i = [] := by
  constructor
  · have hi := list_index_lt b.size
    have hnd := hinv.lists.nodup _ hi
    have hm : ∀ y, y ∈ L (list_index b.size) ↔ y = b.bp := by
      intro y
      rw [hinv.memb _ hi y]
      constructor
      · rintro ⟨c, hc, e, -, -⟩
        rw [List.mem_singleton] at hc
        rw [← e, hc]
      · intro e
        exact ⟨b, by simp, e.symm, hbf, rfl⟩
    have hp : List.Perm (L (list_index b.size)) [b.bp] := by
      rw [List.perm_ext_iff_of_nodup hnd (by simp)]
      intro y
      rw [hm y, List.mem_singleton]
    exact List.perm_singleton.1 hp
  · intro i hi hne
    apply List.eq_nil_iff_forall_not_mem.2
    intro y hy
    obtain ⟨c, hc, -, -, e⟩ := (hinv.memb i hi y).1 hy
    rw [List.mem_singleton] at hc
    rw [hc] at e
    exact hne e.symm

/-- C38: after a successful `mm_init` on an empty arena the arena is 4192
bytes long; the words at offsets 84 and 88 are the prologue tag
`PACK(8, ALLOC)`, the last word is the epilogue tag `PACK(0, ALLOC)`; in the
bucket lists 0 to 8 the next and the previous offset of the head designate
the head itself, so that these lists are empty; bucket list 9 holds exactly
the block at offset 96, which is the only block of the arena, free and of
size 4096. -/
theorem mm_init_layout (limit : Nat) (m0 : Mem) (hi : (mm_init limit m0).1 = 0) :
    (mm_init limit m0).2.brk = 4192 ∧
    GET (mm_init limit m0).2.mem 84 = PACK DSIZE ALLOC ∧
    GET (mm_init limit m0).2.mem 88 = PACK DSIZE ALLOC ∧
    GET (mm_init limit m0).2.mem ((mm_init limit m0).2.brk - WSIZE) = PACK 0 ALLOC ∧
    (∀ i, i < 9 →
      NEXT_EMPT_BLKP (mm_init limit m0).2.mem (first_listp + i * DSIZE) =
        first_listp + i * DSIZE ∧
      PREV_EMPT_BLKP (mm_init limit m0).2.mem (first_listp + i * DSIZE) =
        first_listp + i * DSIZE ∧
      bucket 4192 (mm_init limit m0).2 i = some []) ∧
    bucket 4192 (mm_init limit m0).2 9 = some [96] ∧
    heap_blocks (mm_init limit m0).2 = [⟨96, 4096, false⟩] ∧
    GET_SIZE (mm_init limit m0).2.mem (HDRP 96) = 4096 ∧
    GET_ALLOC (mm_init limit m0).2.mem (HDRP 96) = FREE := by
  obtain ⟨e1, e2, -⟩ := mm_init_limit limit m0 hi
  rw [e1]
  obtain ⟨⟨L, hinv⟩, hbrk⟩ := mm_init_blocks 4192 m0 (by decide) e2
  generalize (mm_init 4192 m0).2 = s at hinv hbrk ⊢
  obtain ⟨hL9, hLi⟩ := single_block_lists hinv rfl
  have h9 : list_index 4096 = 9 := by decide
  simp only at hL9 hLi
  rw [h9] at hL9 hLi
  have hrd := hinv.read ⟨96, 4096, false⟩ (by simp)
  refine ⟨hbrk, hinv.heap.pro.1, hinv.heap.pro.2, hinv.heap.epi, ?_, ?_, hinv.blocks, hrd.1,
    hrd.2.1⟩
  · intro i hi9
    have hseg := hinv.lists.seg i (by omega)
    rw [hLi i (by omega) (by omega)] at hseg
    have hb := bucket_eq hinv 4192 (by omega) i (by omega)
    rw [hLi i (by omega) (by omega)] at hb
    have h1 : GET s.mem (i * 8) = i * 8 := hseg.1
    have h2 : GET s.mem (i * 8 + 4) = i * 8 := hseg.2
    simp only [NEXT_EMPT_BLKP, PREV_EMPT_BLKP, NEXT_SECT, PREV_SECT, first_listp, DSIZE, WSIZE,
      Nat.zero_add]
    exact ⟨h1, h2, hb⟩
  · have hb := bucket_eq hinv 4192 (by omega) 9 (by omega)
    rw [hL9] at hb
    exact hb

theorem mm_init_layout_witness :
    fresh_heap.brk = 4192 ∧
    GET fresh_heap.mem 84 = PACK DSIZE ALLOC ∧
    GET fresh_heap.mem 88 = PACK DSIZE ALLOC ∧
    GET fresh_heap.mem (fresh_heap.brk - WSIZE) = PACK 0 ALLOC ∧
    (∀ i, i < 9 →
      NEXT_EMPT_BLKP fresh_heap.mem (first_listp + i * DSIZE) = first_listp + i * DSIZE ∧
      PREV_EMPT_BLKP fresh_heap.mem (first_listp + i * DSIZE) = first_listp + i * DSIZE ∧
      bucket 4192 fresh_heap i = some []) ∧
    bucket 4192 fresh_heap 9 = some [96] ∧
    heap_blocks fresh_heap = [⟨96, 4096, false⟩] ∧
    GET_SIZE fresh_heap.mem (HDRP 96) = 4096 ∧
    GET_ALLOC fresh_heap.mem (HDRP 96) = FREE :=
  mm_init_layout 5000 zero_mem (by decide)

/-- The walk of a bucket list of a well-formed table reads the list. -/
theorem Lists.nodes {m L} (h : Lists m L) (fuel i : Nat) (hi : i < 10)
    (hf : (L i).length < fuel) :
    list_nodes m (first_listp + i * DSIZE) fuel (NEXT_EMPT_BLKP m (first_listp + i * DSIZE)) =
      some (L i) := by
  have := list_nodes_eq m (i * 8) (L i) (i * 8) fuel (h.seg i hi) (h.head_ne i hi) hf
  simp only [first_listp, DSIZE, NEXT_EMPT_BLKP, NEXT_SECT, Nat.zero_add]
  exact this

/-- C34: in a well-formed free-list table with lists `L`, for a bucket `k` and
a block pointer `b` that is in no list, after `ins_free_blk(b, k)` the table
is well formed with `b` followed by the old list in bucket `k` and the other
lists as they were: the walk of bucket `k` reads `b` and then the old nodes
in their old order, the walks of the other buckets read what they read
before, the next offset of the head of bucket `k` designates `b`, the
previous offset of `b` designates that head, the next offset of `b`
designates the old first node (or the head), and the previous offset of that
node designates `b`. -/
theorem ins_free_blk_pushes (m : Mem) (L : Nat → List Nat) (hl : Lists m L) (k b fuel : Nat)
    (hk : k < LIST_NUM) (hb0 : 96 ≤ b) (hb1 : b % 8 = 0) (hb2 : b < 2 ^ 32)
    (hnot : ∀ j, j < LIST_NUM → b ∉ L j) (hf : ∀ j, j < LIST_NUM → (L j).length + 1 < fuel) :
    Lists (ins_free_blk m b k) (Function.update L k (b :: L k)) ∧
    (∀ j, j < LIST_NUM → list_nodes m (first_listp + j * DSIZE) fuel
      (NEXT_EMPT_BLKP m (first_listp + j * DSIZE)) = some (L j)) ∧
    list_nodes (ins_free_blk m b k) (first_listp + k * DSIZE) fuel
      (NEXT_EMPT_BLKP (ins_free_blk m b k) (first_listp + k * DSIZE)) = some (b :: L k) ∧
    (∀ j, j < LIST_NUM → j ≠ k →
      list_nodes (ins_free_blk m b k) (first_listp + j * DSIZE) fuel
        (NEXT_EMPT_BLKP (ins_free_blk m b k) (first_listp + j * DSIZE)) = some (L j)) ∧
    NEXT_EMPT_BLKP (ins_free_blk m b k) (first_listp + k * DSIZE) = b ∧
    PREV_EMPT_BLKP (ins_free_blk m b k) b = first_listp + k * DSIZE ∧
    NEXT_EMPT_BLKP (ins_free_blk m b k) b = NEXT_EMPT_BLKP m (first_listp + k * DSIZE) ∧
    PREV_EMPT_BLKP (ins_free_blk m b k) (NEXT_EMPT_BLKP m (first_listp + k * DSIZE)) = b := by
  simp only [LIST_NUM] at hk hnot hf
  have hl' := ins_Lists m L hl k b hk hb0 hb1 hb2 hnot
  have hseg := hl'.seg k hk
  simp only [Function.update_same] at hseg
  have hold : GET m (k * 8) = ((L k) ++ [k * 8]).head (by simp) := Seg_next m (L k) _ _ (hl.seg k hk)
  have hnew : Seg (ins_free_blk m b k) b (L k) (k * 8) := hseg.2
  have hnext := Seg_next _ (L k) _ _ hnew
  have hback : GET (ins_free_blk m b k) (GET (ins_free_blk m b k) b + 4) = b := by
    cases hLk : L k with
    | nil =>
      rw [hLk] at hnew
      have h1 : GET (ins_free_blk m b k) b = k * 8 := hnew.1
      rw [h1]
      exact hnew.2
    | cons z l =>
      rw [hLk] at hnew
      have h1 : GET (ins_free_blk m b k) b = z := hnew.1.1
      rw [h1]
      exact hnew.1.2
  have e1 : NEXT_EMPT_BLKP (ins_free_blk m b k) b = NEXT_EMPT_BLKP m (first_listp + k * DSIZE) := by
    simp only [NEXT_EMPT_BLKP, NEXT_SECT, first_listp, DSIZE, Nat.zero_add]
    rw [hnext, hold]
  refine ⟨hl', fun j hj => hl.nodes fuel j hj (by have := hf j hj; omega), ?_, ?_, ?_, ?_, e1, ?_⟩
  · have := hl'.nodes fuel k hk (by simp only [Function.update_same, List.length_cons]; exact hf k hk)
    simpa only [Function.update_same] using this
  · intro j hj hjk
    have := hl'.nodes fuel j hj (by
      rw [Function.update_noteq hjk]; have := hf j hj; omega)
    rw [Function.update_noteq hjk] at this
    exact this
  · simp only [NEXT_EMPT_BLKP, NEXT_SECT, first_listp, DSIZE, Nat.zero_add]
    exact hseg.1.1
  · simp only [PREV_EMPT_BLKP, PREV_SECT, first_listp, DSIZE, WSIZE, Nat.zero_add]
    exact hseg.1.2
  · rw [← e1]
    simp only [PREV_EMPT_BLKP, NEXT_EMPT_BLKP, PREV_SECT, NEXT_SECT, first_listp, WSIZE,
      Nat.zero_add]
    exact hback

theorem fresh_lists_ok : Lists fresh_heap.mem fresh_lists := by
  obtain ⟨⟨L, hinv⟩, -⟩ := mm_init_blocks 5000 zero_mem (by decide) (by decide)
  obtain ⟨h9, hi⟩ := single_block_lists hinv rfl
  have e9 : list_index 4096 = 9 := by decide
  simp only at h9 hi
  rw [e9] at h9 hi
  have hl := hinv.lists
  refine ⟨?_, ?_, ?_, ?_⟩
  · intro i hi2
    have := hl.seg i hi2
    by_cases e : i = 9
    · subst e; rw [h9] at this; exact this
    · rw [hi i hi2 e] at this
      simp only [fresh_lists, if_neg e]
      exact this
  · intro i hi2
    simp only [fresh_lists]
    split <;> simp
  · intro i hi2 y hy
    simp only [fresh_lists] at hy
    split at hy
    · simp only [List.mem_singleton] at hy
      subst hy
      decide
    · simp at hy
  · intro i j hi2 hj2 y hy1 hy2
    simp only [fresh_lists] at hy1 hy2
    split at hy1
    · split at hy2
      · omega
      · simp at hy2
    · simp at hy1

theorem ins_free_blk_pushes_witness :
    Lists (ins_free_blk fresh_heap.mem 200 9) (Function.update fresh_lists 9 (200 :: fresh_lists 9)) ∧
    list_nodes (ins_free_blk fresh_heap.mem 200 9) (first_listp + 9 * DSIZE) 10
      (NEXT_EMPT_BLKP (ins_free_blk fresh_heap.mem 200 9) (first_listp + 9 * DSIZE)) =
        some (200 :: fresh_lists 9) :=
  have h := ins_free_blk_pushes fresh_heap.mem fresh_lists fresh_lists_ok 9 200 10 (by decide)
    (by decide) (by decide) (by decide)
    (by intro j hj; simp only [fresh_lists]; split <;> simp)
    (by intro j hj; simp only [fresh_lists]; split <;> simp)
  ⟨h.1, h.2.2.1⟩

/-- C35: in a well-formed free-list table with lists `L`, for a block `b` in
the list of bucket `k`, after `del_free_blk(b)` the table is well formed with
`b` erased from that list, the remaining nodes in their order, and the other
lists as they were; the walks of the buckets read these lists.  Consequently
`del_free_blk(b)` right after `ins_free_blk(b, k)`, for `b` in no list, leaves
a well-formed table with the lists `L` again. -/
theorem del_free_blk_splices (m : Mem) (L : Nat → List Nat) (hl : Lists m L) (k b fuel : Nat)
    (hk : k < LIST_NUM) (hb : b ∈ L k) (hf : ∀ j, j < LIST_NUM → (L j).length + 1 < fuel) :
    Lists (del_free_blk m b) (Function.update L k ((L k).erase b)) ∧
    (L k).erase b = (L k).filter (fun y => decide (y ≠ b)) ∧
    list_nodes (del_free_blk m b) (first_listp + k * DSIZE) fuel
      (NEXT_EMPT_BLKP (del_free_blk m b) (first_listp + k * DSIZE)) = some ((L k).erase b) ∧
    (∀ j, j < LIST_NUM → j ≠ k →
      list_nodes (del_free_blk m b) (first_listp + j * DSIZE) fuel
        (NEXT_EMPT_BLKP (del_free_blk m b) (first_listp + j * DSIZE)) = some (L j)) ∧
    ∀ k' b', k' < LIST_NUM → 96 ≤ b' → b' % 8 = 0 → b' < 2 ^ 32 →
      (∀ j, j < LIST_NUM → b' ∉ L j) →
      Lists (del_free_blk (ins_free_blk m b' k') b') L ∧
      ∀ j, j < LIST_NUM →
        list_nodes (del_free_blk (ins_free_blk m b' k') b') (first_listp + j * DSIZE) fuel
          (NEXT_EMPT_BLKP (del_free_blk (ins_free_blk m b' k') b') (first_listp + j * DSIZE)) =
          some (L j) := by
  simp only [LIST_NUM] at hk hf ⊢
  have hl' := del_Lists m L hl k b hk hb
  have hnd := hl.nodup k hk
  refine ⟨hl', ?_, ?_, ?_, ?_⟩
  · rw [hnd.erase_eq_filter]
    apply List.filter_congr
    intro y _
    by_cases e : y = b <;> simp [e]
  · have := hl'.nodes fuel k hk (by
      simp only [Function.update_same]
      have := List.length_erase_le b (L k)
      have := hf k hk
      omega)
    simpa only [Function.update_same] using this
  · intro j hj hjk
    have := hl'.nodes fuel j hj (by
      rw [Function.update_noteq hjk]; have := hf j hj; omega)
    rw [Function.update_noteq hjk] at this
    exact this
  · intro k' b' hk' hb0 hb1 hb2 hnot
    have h1 := ins_Lists m L hl k' b' hk' hb0 hb1 hb2 hnot
    have h2 := del_Lists _ _ h1 k' b' hk' (by simp)
    have e : Function.update (Function.update L k' (b' :: L k')) k'
        ((Function.update L k' (b' :: L k') k').erase b') = L := by
      funext j
      by_cases hj : j = k'
      · subst hj; simp
      · simp [Function.update_noteq hj]
    rw [e] at h2
    exact ⟨h2, fun j hj => h2.nodes fuel j hj (by have := hf j hj; omega)⟩

theorem del_free_blk_splices_witness :
    Lists (del_free_blk fresh_heap.mem 96)
      (Function.update fresh_lists 9 ((fresh_lists 9).erase 96)) ∧
    list_nodes (del_free_blk fresh_heap.mem 96) (first_listp + 9 * DSIZE) 10
      (NEXT_EMPT_BLKP (del_free_blk fresh_heap.mem 96) (first_listp + 9 * DSIZE)) =
        some ((fresh_lists 9).erase 96) :=
  have h := del_free_blk_splices fresh_heap.mem fresh_lists fresh_lists_ok 9 96 10 (by decide)
    (by decide) (by intro j hj; simp only [fresh_lists]; split <;> simp)
  ⟨h.1, h.2.2.1⟩

theorem malloc_full : malloc 10 5000 fresh_heap 4088 = some (some 96, heap_full) := rfl

theorem heap_full_blocks : heap_blocks heap_full = [⟨96, 4096, true⟩] := by decide

theorem heap_full_reachable : Reachable heap_full :=
  Reachable.malloc fresh_heap 10 5000 4088 (some 96, heap_full) fresh_heap_reachable (by decide)
    (by decide) malloc_full

theorem extend_request_eq (words : Nat) : extend_request words = 4 * (words + words % 2) := by
  simp only [extend_request, WSIZE]
  split_ifs <;> omega

theorem extend_heap_request (limit : Nat) (s : State) (words : Nat) :
    (extend_heap limit s words = none ↔ mem_sbrk limit s (extend_request words) = none) ∧
    ∀ bp s', extend_heap limit s words = some (bp, s') →
      mem_sbrk limit s (extend_request words) =
        some (s.brk, { s with brk := s.brk + extend_request words }) ∧
      s'.brk = s.brk + extend_request words := by
  constructor
  · unfold extend_heap extend_request mem_sbrk
    simp only
    split_ifs <;> simp
  · intro bp s' h
    have hsz : (if words % 2 ≠ 0 then WSIZE * (words + 1) else WSIZE * words) =
        extend_request words := rfl
    unfold extend_heap at h
    rw [hsz] at h
    unfold mem_sbrk at h ⊢
    simp only at h
    split_ifs at h ⊢ with hfit
    simp only [Option.some.injEq, Prod.mk.injEq] at h
    refine ⟨rfl, ?_⟩
    rw [← h.2]

/-- The blocks after a successful `extend_heap` of at least 3 words: the new
block is freed into the old arena as if it had been its last block. -/
theorem extend_blocks (limit : Nat) (s : State) (words : Nat) (bs : List Blk)
    (L : Nat → List Nat) (hinv : Inv s bs L) (hlim : limit ≤ 2 ^ 32) (hw : 3 ≤ words)
    (bp : Nat) (s' : State) (he : extend_heap limit s words = some (bp, s')) :
    (∃ L', Inv s' (blocks_after_free bs ⟨s.brk, 4 * (words + words % 2), true⟩ []) L') ∧
    bp = (merged bs ⟨s.brk, 4 * (words + words % 2), true⟩ []).bp ∧
    s'.brk = s.brk + 4 * (words + words % 2) := by
  have hheap := hinv.heap
  have hb96 := Layout_le _ _ _ hheap.lay
  have hb8 := Layout_mod _ _ _ hheap.lay (by decide)
  obtain ⟨S, hSdef⟩ : ∃ S, S = 4 * (words + words % 2) := ⟨_, rfl⟩
  have hsz : (if words % 2 ≠ 0 then WSIZE * (words + 1) else WSIZE * words) = S := by
    simp only [WSIZE]; split_ifs <;> omega
  have h16 : 16 ≤ S := by omega
  have h8 : S % 8 = 0 := by omega
  unfold extend_heap mem_sbrk at he
  rw [hsz] at he
  simp only at he
  split_ifs at he with hfit
  simp only [Option.some.injEq, Prod.mk.injEq] at he
  obtain ⟨he1, he2⟩ := he
  have hT : S + 1 < 2 ^ 32 := by omega
  have hm3 : PUT (PUT (PUT s.mem (HDRP s.brk) (PACK S FREE))
        (FTRP (PUT s.mem (HDRP s.brk) (PACK S FREE)) s.brk) (PACK S FREE))
      (HDRP (NEXT_BLKP (PUT (PUT s.mem (HDRP s.brk) (PACK S FREE))
        (FTRP (PUT s.mem (HDRP s.brk) (PACK S FREE)) s.brk) (PACK S FREE)) s.brk))
      (PACK 0 ALLOC) =
      PUT (PUT (PUT s.mem (s.brk - 4) (tag S false)) (s.brk + S - 8) (tag S false))
        (s.brk + S - 4) 1 := by
    simp only [HDRP, WSIZE, PACK_FREE, FTRP_PUT_hdr _ _ _ _ h8 hT]
    have hhd : GET (PUT (PUT s.mem (s.brk - 4) (tag S false)) (s.brk + S - 8) (tag S false))
        (s.brk - 4) = tag S false := by
      rw [GET_PUT_other _ _ _ _ (by omega), GET_PUT_eq _ _ _ (tag_lt _ _ hT)]
    simp only [NEXT_BLKP, WSIZE, GET_SIZE_tag _ _ S false h8 hhd]
    rfl
  rw [hm3] at he1 he2
  obtain ⟨m3, hm3d⟩ : ∃ m3, m3 = PUT (PUT (PUT s.mem (s.brk - 4) (tag S false)) (s.brk + S - 8)
      (tag S false)) (s.brk + S - 4) 1 := ⟨_, rfl⟩
  rw [← hm3d] at he1 he2
  have hf3 : ∀ a, a < s.brk - 4 → m3 a = s.mem a := by
    intro a ha
    rw [hm3d, PUT_other _ _ _ _ (by omega), PUT_other _ _ _ _ (by omega),
      PUT_other _ _ _ _ (by omega)]
  have hepi : GET m3 (s.brk + S - 4) = 1 := by
    rw [hm3d, GET_PUT_eq _ _ _ (by decide)]
  have hh3 : Hole m3 (s.brk + S) bs s.brk (s.brk + S) [] :=
    hheap.extend m3 (s.brk + S) hf3 hepi (by omega) (by omega)
  have ht3 : Tagged m3 ⟨s.brk, S, false⟩ := by
    constructor
    · show GET m3 (s.brk - 4) = tag S false
      rw [hm3d, GET_PUT_other _ _ _ _ (by omega), GET_PUT_other _ _ _ _ (by omega),
        GET_PUT_eq _ _ _ (tag_lt _ _ hT)]
    · show GET m3 (s.brk + S - 8) = tag S false
      rw [hm3d, GET_PUT_other _ _ _ _ (by omega), GET_PUT_eq _ _ _ (tag_lt _ _ hT)]
  have hsub := hinv.memb.subL
  have hlk : ∀ a, LinkArea L a → a < s.brk - 4 := by
    intro a ha
    rcases ha with ha | ⟨i, hi, y, hy, h1, h2⟩
    · omega
    · obtain ⟨c, hc, e⟩ := hsub i hi y hy
      have := Layout_mem _ _ _ hheap.lay c hc
      omega
  have hl3 : Lists m3 L := Lists_frame s.mem m3 L hinv.lists (fun a ha => hf3 a (hlk a ha))
  obtain ⟨⟨L', h1⟩, h2⟩ :=
    coalesce_blocks m3 (s.brk + S) bs [] s.brk S L hh3 ht3 h16 h8 hl3 (by simpa using hinv.memb)
      hinv.noadj (by simp [NoAdj])
  subst he2
  subst hSdef
  exact ⟨⟨L', h1⟩, by rw [← he1, h2], rfl⟩

/-- C32: in a reachable state, for a word count `w ≥ 3` for which `mem_sbrk`
succeeds, `extend_heap(w)` grows the arena by `4 * (w + w mod 2)` bytes, a
multiple of 8, leaves the epilogue tag in the last 4 bytes of the arena, and
returns a free block of the new arena that ends right before the epilogue;
its size is the growth plus the size of the former last block if that block
was free, and the growth alone otherwise; the block is in the bucket list of
its size. -/
theorem extend_heap_grows (s : State) (hs : Reachable s) (limit w bp : Nat) (s' : State)
    (hl : limit ≤ 2 ^ 32) (hw : 3 ≤ w) (he : extend_heap limit s w = some (bp, s')) :
    s'.brk = s.brk + 4 * (w + w % 2) ∧ 4 * (w + w % 2) % 8 = 0 ∧
    GET s'.mem (s'.brk - WSIZE) = PACK 0 ALLOC ∧
    heap_blocks s' = blocks_after_free (heap_blocks s) ⟨s.brk, 4 * (w + w % 2), true⟩ [] ∧
    ∃ f ∈ heap_blocks s', f.bp = bp ∧ f.alloc = false ∧
      FTRP s'.mem bp + WSIZE = s'.brk - WSIZE ∧
      f.size = 4 * (w + w % 2) +
        (match free_prev (heap_blocks s) with
          | some t => t.size
          | none => 0) ∧
      (free_prev (heap_blocks s) = none → bp = s.brk) ∧
      (∀ t, free_prev (heap_blocks s) = some t → bp = t.bp) ∧
      ∃ l, bucket s'.brk s' (list_index f.size) = some l ∧ bp ∈ l := by
  obtain ⟨bs, L, hinv⟩ := hs.inv
  obtain ⟨⟨L', hinv'⟩, hbp, hbrk⟩ := extend_blocks limit s w bs L hinv hl hw bp s' he
  rw [hinv.blocks, hinv'.blocks]
  have hmem : merged bs ⟨s.brk, 4 * (w + w % 2), true⟩ [] ∈
      blocks_after_free bs ⟨s.brk, 4 * (w + w % 2), true⟩ [] := by
    simp [blocks_after_free]
  have hrd := hinv'.read _ hmem
  have hlast : (merged bs ⟨s.brk, 4 * (w + w % 2), true⟩ []).bp +
      (merged bs ⟨s.brk, 4 * (w + w % 2), true⟩ []).size = s'.brk := by
    have hlay := hinv'.heap.lay
    simp only [blocks_after_free, free_next_nil, Option.isSome_none, Bool.false_eq_true,
      if_false] at hlay
    rw [Layout_split] at hlay
    exact hlay.2.2.2
  have hi := list_index_lt (merged bs ⟨s.brk, 4 * (w + w % 2), true⟩ []).size
  refine ⟨hbrk, by omega, hinv'.heap.epi, rfl, _, hmem, hbp.symm, rfl, ?_, ?_, ?_, ?_, ?_⟩
  · rw [hbp]
    simp only [FTRP, hrd.1, DSIZE, WSIZE]
    have := hrd.2.2.2.2.2.2.1
    omega
  · simp only [merged, free_next_nil, Nat.add_zero]
  · intro h
    rw [hbp]
    simp only [merged, h]
  · intro t h
    rw [hbp]
    simp only [merged, h]
  · refine ⟨_, bucket_eq hinv' s'.brk (le_refl _) _ hi, ?_⟩
    rw [hbp]
    exact (hinv'.memb _ hi _).2 ⟨_, hmem, rfl, rfl, rfl⟩

theorem extend_heap_grows_witness :
    heap_grown.brk = fresh_heap.brk + 4 * (1252 + 1252 % 2) ∧
    GET heap_grown.mem (heap_grown.brk - WSIZE) = PACK 0 ALLOC ∧
    heap_blocks heap_grown =
      blocks_after_free (heap_blocks fresh_heap) ⟨fresh_heap.brk, 4 * (1252 + 1252 % 2), true⟩
        [] :=
  have h := extend_heap_grows fresh_heap fresh_heap_reachable 10000 1252 96 heap_grown
    (by decide) (by decide) rfl
  ⟨h.1, h.2.2.1, h.2.2.2.1⟩

/-- C32, as stated for every word count: on the arena that is one allocated
block, `mem_sbrk` grants the 8 bytes that `extend_heap(1)` asks for, and after
`extend_heap(1)` the last 4 bytes of the arena do not hold the epilogue tag:
the links of the 8-byte free block overwrite its footer and the epilogue. -/
theorem extend_heap_one_word_loses_epilogue :
    Reachable heap_full ∧
    mem_sbrk 5000 heap_full 8 = some (4192, { heap_full with brk := 4200 }) ∧
    extend_heap 5000 heap_full 1 = some (4192, heap_short) ∧
    heap_short.brk = heap_full.brk + 4 * (1 + 1 % 2) ∧
    GET heap_short.mem (heap_short.brk - WSIZE) = 0 ∧
    GET heap_short.mem (heap_short.brk - WSIZE) ≠ PACK 0 ALLOC :=
  ⟨heap_full_reachable, rfl, rfl, rfl, rfl, by decide⟩

/-- The blocks and lists after `free` of an allocated block whose two physical
neighbours are allocated: the block becomes free in place and is pushed at the
head of the list of its size class. -/
theorem free_no_merge (s : State) (pre post : List Blk) (b : Blk) (L : Nat → List Nat)
    (hinv : Inv s (pre ++ b :: post) L) (hb : b.alloc = true)
    (hp : ∀ x ∈ pre.getLast?, x.alloc = true) (hq : ∀ y ∈ post.head?, y.alloc = true) :
    Inv (free s (some b.bp)) (pre ++ ⟨b.bp, b.size, false⟩ :: post)
      (Lins L ⟨b.bp, b.size, false⟩) ∧
    (free s (some b.bp)).brk = s.brk := by
  have hheap := hinv.heap
  have hbm := Layout_mem _ _ _ hheap.lay b (by simp)
  have htb := hheap.tags b (by simp)
  have hbd := hheap.bound
  have hS : GET_SIZE s.mem (b.bp - 4) = b.size := GET_SIZE_tag _ _ _ _ hbm.2.2.2.1 htb.1
  have hm0 : ListsOf L (pre ++ post) := (ListsOf_alloc L pre post b hb).1 hinv.memb
  obtain ⟨hh2, hl2, ht2, -⟩ := put_tags_step s.mem s.brk pre post b.bp (b.bp + b.size) L
    ⟨b.bp, b.size, false⟩ hheap.hole hinv.lists hm0.subL rfl (le_refl _) hbm.2.2.1 hbm.2.2.2.1
  simp only at hh2 hl2 ht2
  have hns := NoAdj_split pre post b hinv.noadj
  obtain ⟨-, h1, -⟩ :=
    coalesce_none _ s.brk pre post b.bp b.size L hh2 ht2 hbm.2.2.1 hbm.2.2.2.1 hl2 hm0
      hns.1 hns.2.1 hp hq
  have hc : free s (some b.bp) =
      ⟨(coalesce (PUT (PUT s.mem (b.bp - 4) (tag b.size false)) (b.bp + b.size - 8)
        (tag b.size false)) b.bp).2, s.brk⟩ := by
    simp only [free, HDRP, WSIZE, hS, PACK_FREE,
      FTRP_PUT_hdr _ _ _ _ hbm.2.2.2.1 (show b.size + 1 < 2 ^ 32 by omega)]
  rw [hc]
  exact ⟨h1, rfl⟩

/-- A free block has no free physical neighbour. -/
theorem free_block_neighbours (pre post : List Blk) (f : Blk) (h : NoAdj (pre ++ f :: post))
    (hf : f.alloc = false) : free_prev pre = none ∧ free_next post = none := by
  obtain ⟨hp, hq⟩ := (NoAdj_split pre post f h).2.2 hf
  constructor
  · unfold free_prev
    cases e : pre.getLast? with
    | none => rfl
    | some x =>
      have := hp x (by rw [e]; rfl)
      simp [this]
  · unfold free_next
    cases e : post.head? with
    | none => rfl
    | some y =>
      have := hq y (by rw [e]; rfl)
      simp [this]

/-- When `find_fit` misses, a successful `malloc` has grown the arena by at
least `CHUNKSIZE` bytes. -/
theorem malloc_miss_grows (s : State) (fuel limit n : Nat) (hn : 0 < n)
    (hmiss : find_fit fuel s.mem (adjust_size n) = some none) (p : Nat) (s' : State)
    (hm : malloc fuel limit s n = some (some p, s')) : s.brk + 512 ≤ s'.brk := by
  unfold malloc at hm
  rw [if_neg (by omega)] at hm
  simp only [hmiss] at hm
  cases hext : extend_heap limit s
      ((if adjust_size n > CHUNKSIZE then adjust_size n else CHUNKSIZE) / WSIZE) with
  | none => rw [hext] at hm; simp at hm
  | some x =>
    obtain ⟨bp, s1⟩ := x
    rw [hext] at hm
    simp only [Option.some.injEq, Prod.mk.injEq] at hm
    obtain ⟨-, g2⟩ := (extend_heap_request limit s _).2 bp s1 hext
    rw [extend_request_eq] at g2
    rw [← hm.2]
    simp only
    rw [g2]
    simp only [CHUNKSIZE, WSIZE]
    split_ifs with h <;> omega

/-- C36: in a reachable state, let `b` be an allocated block of size less
than 128 whose two physical neighbours (if any) are allocated.  After
`free(b)` the block is at the head of the bucket list of its size class, and
for every request `n > 0` whose adjusted size is at most the size of `b` and
falls into the same size class, `find_fit` returns `b` and `malloc(n)` returns
`b`, without growing the arena. -/
theorem malloc_takes_last_freed (s : State) (hs : Reachable s) (pre post : List Blk) (b : Blk)
    (hbs : heap_blocks s = pre ++ b :: post) (hba : b.alloc = true) (hsmall : b.size < 128)
    (hp : ∀ x ∈ pre.getLast?, x.alloc = true) (hq : ∀ y ∈ post.head?, y.alloc = true)
    (fuel limit n : Nat) (hf : s.brk ≤ fuel) (hn : 0 < n) (ha : adjust_size n ≤ b.size)
    (hidx : list_index (adjust_size n) = list_index b.size) :
    (∃ l, bucket fuel (free s (some b.bp)) (list_index b.size) = some (b.bp :: l)) ∧
    find_fit fuel (free s (some b.bp)).mem (adjust_size n) = some (some b.bp) ∧
    ∃ s', malloc fuel limit (free s (some b.bp)) n = some (some b.bp, s') ∧
      s'.brk = s.brk := by
  obtain ⟨bs, L, hinv⟩ := hs.inv
  rw [hinv.blocks] at hbs
  subst hbs
  obtain ⟨hinv', hbrk⟩ := free_no_merge s pre post b L hinv hba hp hq
  have hi := list_index_lt b.size
  have hhead : Lins L ⟨b.bp, b.size, false⟩ (list_index b.size) =
      b.bp :: L (list_index b.size) := by
    simp only [Lins, Function.update_same]
  have hfuel : (free s (some b.bp)).brk ≤ fuel := by rw [hbrk]; exact hf
  have hbk := bucket_eq hinv' fuel hfuel _ hi
  rw [hhead] at hbk
  have hrd := hinv'.read ⟨b.bp, b.size, false⟩ (by simp)
  simp only at hrd
  have hfits : fits (free s (some b.bp)).mem (adjust_size n) b.bp = true := by
    simp only [fits, decide_eq_true_eq, hrd.1, hrd.2.1]
    exact ⟨by simp, ha⟩
  have hff : find_fit fuel (free s (some b.bp)).mem (adjust_size n) = some (some b.bp) := by
    rw [find_fit_eq _ (adjust_size n) fuel _ hinv'.lists
      (fun j hj => lt_of_lt_of_le (hinv'.fuel j hj) hfuel)]
    rw [if_pos ((list_index_small _).2 (by omega)), hidx]
    obtain ⟨k, hk⟩ : ∃ k, 10 - list_index b.size = k + 1 :=
      ⟨10 - list_index b.size - 1, by omega⟩
    rw [hk]
    simp only [scan, hhead, List.cons_append]
    rw [List.find?_cons_of_pos _ hfits]
  refine ⟨⟨_, hbk⟩, hff,
    { free s (some b.bp) with mem := place (free s (some b.bp)).mem b.bp (adjust_size n) },
    ?_, hbrk⟩
  unfold malloc
  rw [if_neg (by omega)]
  simp only [hff]

theorem malloc_takes_last_freed_witness :
    (∃ l, bucket 5000 (free heap_b2 (some 96)) (list_index 112) = some (96 :: l)) ∧
    find_fit 5000 (free heap_b2 (some 96)).mem (adjust_size 90) = some (some 96) ∧
    ∃ s', malloc 5000 5000 (free heap_b2 (some 96)) 90 = some (some 96, s') ∧
      s'.brk = heap_b2.brk :=
  malloc_takes_last_freed heap_b2
    (Reachable.malloc heap_b1 10 5000 200 (some 208, heap_b2)
      (Reachable.malloc fresh_heap 10 5000 100 (some 96, heap_b1) fresh_heap_reachable
        (by decide) (by decide) malloc_b1)
      (by decide) (by decide) malloc_b2)
    [] [⟨208, 208, true⟩, ⟨416, 3776, false⟩] ⟨96, 112, true⟩ heap_b2_blocks rfl (by decide)
    (by simp) (by simp) 5000 5000 90 (by decide) (by decide) (by decide) (by decide)

/-- C37: in a reachable state, when the valid call `malloc(n)`, `n > 0`,
returns a block `p` and has not grown the arena, the walk of the arena after
`free(p)` yields the same sequence of blocks (address, size, allocated flag)
as before the call of `malloc`, and the arena size is the same. -/
theorem malloc_free_restores_blocks (s : State) (hs : Reachable s) (fuel limit n p : Nat)
    (s' : State) (hn : 0 < n) (hv : n + 15 < 2 ^ 64)
    (hm : malloc fuel limit s n = some (some p, s')) (hbrk : s'.brk = s.brk) :
    heap_blocks (free s' (some p)) = heap_blocks s ∧ (free s' (some p)).brk = s.brk := by
  obtain ⟨bs, L, hinv⟩ := hs.inv
  have hadj := adjust_size_bounds n hv
  have hm0 := hm
  unfold malloc at hm
  rw [if_neg (by omega)] at hm
  simp only at hm
  cases hff : find_fit fuel s.mem (adjust_size n) with
  | none => rw [hff] at hm; simp at hm
  | some r =>
    cases r with
    | none =>
      have := malloc_miss_grows s fuel limit n hn hff p s' hm0
      omega
    | some bp =>
      rw [hff] at hm
      simp only [Option.some.injEq, Prod.mk.injEq] at hm
      obtain ⟨e1, e2⟩ := hm
      subst e1
      have hff' := find_fit_mono s.mem (adjust_size n) fuel s.brk _ hff
      obtain ⟨j, hj, hmem, -, hsz⟩ := find_fit_sound s.mem (adjust_size n) (fuel + s.brk) L
        hinv.lists (fun j hj => lt_of_lt_of_le (hinv.fuel j hj) (by omega)) bp hff'
      obtain ⟨f, hfb, hfp, hfa, -⟩ := (hinv.memb j hj bp).1 hmem
      have hrd := hinv.read f hfb
      rw [hfp] at hrd
      rw [hrd.1] at hsz
      obtain ⟨pre, post, hsplit⟩ := List.append_of_mem hfb
      subst hsplit
      subst hfp
      rw [hinv.blocks]
      obtain ⟨hfp0, hfn0⟩ := free_block_neighbours pre post f hinv.noadj hfa
      have ef : (⟨f.bp, f.size, false⟩ : Blk) = f := by
        cases f
        simp only at hfa
        simp [hfa]
      by_cases hrem : 16 ≤ f.size - adjust_size n
      · obtain ⟨h1, -⟩ := place_split s.mem s.brk pre post f (adjust_size n) L hinv hfa hsz
          hadj.1 hadj.2.1 hrem
        have hfr := free_blocks ⟨place s.mem f.bp (adjust_size n), s.brk⟩ pre
          (⟨f.bp + adjust_size n, f.size - adjust_size n, false⟩ :: post)
          ⟨f.bp, adjust_size n, true⟩ _ h1 rfl
        simp only at hfr
        obtain ⟨⟨L', hinv'⟩, hb'⟩ := hfr
        rw [← e2]
        refine ⟨?_, hb'⟩
        rw [hinv'.blocks]
        simp only [blocks_after_free, merged, hfp0, free_next_cons, Option.isSome_none,
          Bool.false_eq_true, if_false, Option.isSome_some, if_true, List.tail_cons,
          Nat.add_zero]
        have e3 : adjust_size n + (f.size - adjust_size n) = f.size := by omega
        rw [e3, ef]
      · obtain ⟨h1, -⟩ := place_whole s.mem s.brk pre post f (adjust_size n) L hinv hfa hsz
          (by omega)
        have hfr := free_blocks ⟨place s.mem f.bp (adjust_size n), s.brk⟩ pre post
          ⟨f.bp, f.size, true⟩ _ h1 rfl
        simp only at hfr
        obtain ⟨⟨L', hinv'⟩, hb'⟩ := hfr
        rw [← e2]
        refine ⟨?_, hb'⟩
        rw [hinv'.blocks]
        simp only [blocks_after_free, merged, hfp0, hfn0, Option.isSome_none,
          Bool.false_eq_true, if_false, Nat.add_zero]
        rw [ef]

theorem malloc_free_restores_blocks_witness :
    heap_blocks (free heap_one (some 96)) = heap_blocks fresh_heap ∧
    (free heap_one (some 96)).brk = fresh_heap.brk :=
  malloc_free_restores_blocks fresh_heap fresh_heap_reachable 10 5000 1 96 heap_one
    (by decide) (by decide) malloc_fresh_one rfl

end MM
